import Mathlib

/-!
Dynamic instruction scheduling simulator (`sim_proc.cc`).

A shallow embedding of the out-of-order pipeline simulator in `sim_proc.cc`
and a verification of its specification.

Conventions of the embedding.

* The C++ globals are bundled in `State`; every stage is a function
  `State → State`.
* `std::queue`, `std::list` and `std::vector` are lists (front = head of the
  list, `push`/`push_back` = append at the end).
* `std::unordered_map<int, V>` is `UMap V`, an association list with unique
  keys; iteration order is never observed by the simulated stages.
  `operator[]` inserts a value-initialised entry when the key is absent, and
  that side effect is modelled (`UMap.touch`).
* Register numbers, tags stored in instructions and `op_type` are `Int`.
  Counters that start at `0` and are only incremented or reduced modulo
  `ROB_SIZE` (`total_cycles`, `total_instructions`, `retired_instructions`,
  `rob_head`, `rob_tail`, cycle stamps, `seq_no`, `execute_duration`) are
  `Nat`; 32-bit overflow of these counters is out of reach of any feasible
  run and is not modelled.
* Comparisons that the C++ performs in `size_t` after an implicit
  conversion from `int` are modelled with explicit reduction modulo `2^64`
  (`to_size_t`).
* The trace file is the list of its records still to be read.  A record is
  given as the local variable `instr` of `Fetch` right after `fscanf`: the
  five scanned fields, together with whatever the remaining (uninitialised)
  fields happen to hold.
-/

namespace SimProc

/-! ## Data model -/

/-- The `Instruction` record of `sim_proc.cc`. -/
structure Instruction where
  pc : Nat
  op_type : Int
  dest : Int
  src1 : Int
  src2 : Int
  original_dest : Int
  original_src1 : Int
  original_src2 : Int
  src1_ready : Bool
  src2_ready : Bool
  src1_awaken : Bool
  src2_awaken : Bool
  seq_no : Nat
  fetch_cycle : Nat
  decode_cycle : Nat
  rename_cycle : Nat
  regread_cycle : Nat
  dispatch_cycle : Nat
  issue_cycle : Nat
  execute_cycle : Nat
  writeback_cycle : Nat
  retire_cycle : Nat
  execute_duration : Nat
  RT_cycle : Nat
deriving DecidableEq

/-- Modelled from the spec: `sim_proc.h` is not part of the sources.  The ROB
entry type `rob_params` is used in `sim_proc.cc` through its fields `tag`,
`dst` and `ready` (spec: "ROB entry. { tag, arch_dest, ready }"). -/
structure rob_params where
  tag : Int
  dst : Int
  ready : Bool
deriving DecidableEq

/-- Modelled from the spec: `sim_proc.h` is not part of the sources.  The
configuration `proc_params` is used in `main` through its fields `rob_size`,
`iq_size` and `width` (spec: "ROB size, issue-queue size, machine width"). -/
structure proc_params where
  rob_size : Nat
  iq_size : Nat
  width : Nat
deriving DecidableEq

/-- A value-initialised `Instruction` (what `retire_map[k]` creates for an absent key). -/
def Instruction.zero : Instruction :=
  { pc := 0, op_type := 0, dest := 0, src1 := 0, src2 := 0,
    original_dest := 0, original_src1 := 0, original_src2 := 0,
    src1_ready := false, src2_ready := false, src1_awaken := false, src2_awaken := false,
    seq_no := 0, fetch_cycle := 0, decode_cycle := 0, rename_cycle := 0, regread_cycle := 0,
    dispatch_cycle := 0, issue_cycle := 0, execute_cycle := 0, writeback_cycle := 0,
    retire_cycle := 0, execute_duration := 0, RT_cycle := 0 }

/-- A value-initialised `rob_params` (what `reorder_buffer[k]` creates for an absent key). -/
def rob_params.zero : rob_params := { tag := 0, dst := 0, ready := false }

/-! ## Unordered maps with `int` keys -/

/-- An `std::unordered_map<int, V>`: association list, at most one pair per key. -/
def UMap (V : Type) : Type := List (Int × V)

namespace UMap

variable {V : Type}

/-- The empty map. -/
def empty : UMap V := ([] : List (Int × V))

/-- Lookup `m.find(k)`; `none` stands for `m.end()`. -/
def find : UMap V → Int → Option V
  | [], _ => none
  | (k', v) :: m, k => if k = k' then some v else find m k

/-- Removal `m.erase(k)`. -/
def erase : UMap V → Int → UMap V
  | [], _ => []
  | (k', v) :: m, k => if k = k' then erase m k else (k', v) :: erase m k

/-- Assignment `m[k] = v`. -/
def insert (m : UMap V) (k : Int) (v : V) : UMap V := (k, v) :: erase m k

/-- The map after evaluating `m[k]`: an absent key receives the value-initialised `d`. -/
def touch (m : UMap V) (k : Int) (d : V) : UMap V :=
  match find m k with
  | some _ => m
  | none => insert m k d

/-- The value of the expression `m[k]`, with `d` the value-initialised element. -/
def get (m : UMap V) (k : Int) (d : V) : V :=
  match find m k with
  | some v => v
  | none => d

/-- The test `m.empty()`. -/
def isEmpty (m : UMap V) : Bool := List.isEmpty m

/-- The number of entries `m.size()`. -/
def size (m : UMap V) : Nat := List.length m

/-- The values stored in the map. -/
def values (m : UMap V) : List V := List.map Prod.snd m

/-- The keys stored in the map. -/
def keys (m : UMap V) : List Int := List.map Prod.fst m

end UMap

/-! ## Simulator state -/

/-- The global variables of `sim_proc.cc`, and the unread part of the trace file. -/
structure State where
  trace : List Instruction
  DE : List Instruction
  RN : List Instruction
  WB : List Instruction
  execute_list : List Instruction
  completed_intstructions : List Instruction
  IQ : List Instruction
  RR : List Instruction
  DI : List Instruction
  retire_map : UMap Instruction
  reorder_buffer : UMap rob_params
  RMT : UMap Int
  total_instructions : Nat
  total_cycles : Nat
  retired_instructions : Nat
  rob_head : Nat
  rob_tail : Nat
  rob_full : Bool

/-- The state at the start of `main`: all containers empty, all counters `0`. -/
def State.init (trace : List Instruction) : State :=
  { trace := trace, DE := [], RN := [], WB := [], execute_list := [],
    completed_intstructions := [], IQ := [], RR := [], DI := [],
    retire_map := UMap.empty, reorder_buffer := UMap.empty, RMT := UMap.empty,
    total_instructions := 0, total_cycles := 0, retired_instructions := 0,
    rob_head := 0, rob_tail := 0, rob_full := false }

/-- Conversion of an `int` to `size_t` (64 bit). -/
def to_size_t (x : Int) : Nat := (x % 2 ^ 64).toNat

/-! ## Stages -/

/-- The function `free_entries`; the result is a C++ `int`. -/
def free_entries (ROB_SIZE : Nat) (s : State) : Int :=
  if s.rob_tail = s.rob_head then
    (if s.rob_full then 0 else (ROB_SIZE : Int))
  else if s.rob_tail > s.rob_head then
    (ROB_SIZE : Int) - ((s.rob_tail : Int) - (s.rob_head : Int))
  else
    (s.rob_head : Int) - (s.rob_tail : Int)

/-- The body of the `for` loop of `Fetch` when `fscanf` reads the record `instr`
and leaves `rest` unread. -/
def Fetch_step (instr : Instruction) (rest : List Instruction) (s : State) : State :=
  { s with
    trace := rest
    total_instructions := s.total_instructions + 1
    DE := s.DE ++ [{ instr with
                      seq_no := s.total_instructions
                      fetch_cycle := s.total_cycles
                      original_dest := instr.dest
                      original_src1 := instr.src1
                      original_src2 := instr.src2
                      decode_cycle := s.total_cycles + 1 }] }

/-- The `for` loop of `Fetch`; the first argument counts the iterations left.  The
tests `feof` and `fscanf(...) != EOF` succeed exactly when a record is left to read. -/
def Fetch_loop : Nat → State → State
  | 0, s => s
  | n + 1, s =>
    match s.trace with
    | [] => s
    | instr :: rest => Fetch_loop n (Fetch_step instr rest s)

/-- The stage `Fetch`. -/
def Fetch (WIDTH : Nat) (s : State) : State :=
  if s.DE.isEmpty then Fetch_loop WIDTH s else s

/-- The `while` loop of `Decode` over the contents of `DE`, accumulating `RN`. -/
def Decode_loop (T : Nat) : List Instruction → List Instruction → List Instruction
  | [], rn => rn
  | instr :: de, rn => Decode_loop T de (rn ++ [{ instr with rename_cycle := T + 1 }])

/-- The stage `Decode`. -/
def Decode (s : State) : State :=
  if s.RN.isEmpty then
    { s with RN := Decode_loop s.total_cycles s.DE s.RN, DE := [] }
  else s

/-- Renaming of one source register in `Rename`. -/
def rename_src (RMT : UMap Int) (src : Int) : Int :=
  if src ≠ -1 then
    match RMT.find src with
    | some t => t
    | none => -2
  else src

/-- The record that `Rename` appends to `RR` for the instruction `instr`. -/
def rename_instr (s : State) (instr : Instruction) : Instruction :=
  { instr with
    src1 := rename_src s.RMT instr.src1
    src2 := rename_src s.RMT instr.src2
    src1_awaken := false
    src2_awaken := false
    dest := (s.rob_tail : Int)
    regread_cycle := s.total_cycles + 1 }

/-- The body of the `while` loop of `Rename` for the front `instr` of `RN`, with
`rn` the rest of `RN`. -/
def Rename_step (ROB_SIZE : Nat) (instr : Instruction) (rn : List Instruction) (s : State) :
    State :=
  let ROB : rob_params := { ready := false, dst := instr.dest, tag := (s.rob_tail : Int) }
  let rob_tail := (s.rob_tail + 1) % ROB_SIZE
  { s with
    RN := rn
    rob_tail := rob_tail
    rob_full := if rob_tail = s.rob_head then true else s.rob_full
    reorder_buffer := s.reorder_buffer.insert ROB.tag ROB
    RMT := s.RMT.insert ROB.dst ROB.tag
    RR := s.RR ++ [rename_instr s instr] }

/-- The `while` loop of `Rename` over the contents of `RN`. -/
def Rename_loop (ROB_SIZE : Nat) : List Instruction → State → State
  | [], s => { s with RN := [] }
  | instr :: rn, s => Rename_loop ROB_SIZE rn (Rename_step ROB_SIZE instr rn s)

/-- The stage `Rename`. -/
def Rename (ROB_SIZE : Nat) (s : State) : State :=
  if s.RR.isEmpty ∧ to_size_t (free_entries ROB_SIZE s) ≥ s.RN.length then
    Rename_loop ROB_SIZE s.RN s
  else s

/-- Readiness of one source as computed by `RegRead`. -/
def regread_ready (rob : UMap rob_params) (awaken : Bool) (src : Int) (ready : Bool) : Bool :=
  if awaken = false then
    if src < 0 then true
    else
      match rob.find src with
      | some e => e.ready
      | none => true
  else ready

/-- The record that `RegRead` appends to `DI` for the instruction `instr`. -/
def regread_instr (T : Nat) (rob : UMap rob_params) (instr : Instruction) : Instruction :=
  { instr with
    src1_ready := regread_ready rob instr.src1_awaken instr.src1 instr.src1_ready
    src2_ready := regread_ready rob instr.src2_awaken instr.src2 instr.src2_ready
    dispatch_cycle := T + 1 }

/-- The `while` loop of `RegRead` over the contents of `RR`, accumulating `DI`. -/
def RegRead_loop (T : Nat) (rob : UMap rob_params) :
    List Instruction → List Instruction → List Instruction
  | [], di => di
  | instr :: rr, di => RegRead_loop T rob rr (di ++ [regread_instr T rob instr])

/-- The stage `RegRead`. -/
def RegRead (s : State) : State :=
  if s.DI.isEmpty then
    { s with DI := RegRead_loop s.total_cycles s.reorder_buffer s.RR s.DI, RR := [] }
  else s

/-- The `while` loop of `Dispatch`: the arguments are the rest of `DI` and `IQ`,
the result is the final `(DI, IQ)`. -/
def Dispatch_loop (IQ_SIZE T : Nat) :
    List Instruction → List Instruction → List Instruction × List Instruction
  | [], iq => ([], iq)
  | instr :: di, iq =>
    if (to_size_t (IQ_SIZE : Int) + 2 ^ 64 - iq.length % 2 ^ 64) % 2 ^ 64
        ≥ (instr :: di).length then
      Dispatch_loop IQ_SIZE T di (iq ++ [{ instr with issue_cycle := T + 1 }])
    else (instr :: di, iq)

/-- The stage `Dispatch`. -/
def Dispatch (IQ_SIZE : Nat) (s : State) : State :=
  let r := Dispatch_loop IQ_SIZE s.total_cycles s.DI s.IQ
  { s with DI := r.1, IQ := r.2 }

/-- The `while` loop of `Issue`: the first argument is `WIDTH - issued_insts`, the
second the part of `IQ` from the iterator on; the result is the pair of what
stays in `IQ` and what is appended to `execute_list`. -/
def Issue_loop : Nat → List Instruction → List Instruction × List Instruction
  | _, [] => ([], [])
  | 0, instr :: iq => (instr :: iq, [])
  | n + 1, instr :: iq =>
    if instr.src1_ready = true ∧ instr.src2_ready = true then
      let r := Issue_loop n iq
      (r.1, { instr with execute_duration := 0 } :: r.2)
    else
      let r := Issue_loop (n + 1) iq
      (instr :: r.1, r.2)

/-- The stage `Issue`. -/
def Issue (WIDTH : Nat) (s : State) : State :=
  let r := Issue_loop WIDTH s.IQ
  { s with IQ := r.1, execute_list := s.execute_list ++ r.2 }

/-- The wake-up of one instruction in `IQ` or `DI` by the completing tag `d`. -/
def wake (d : Int) (instr : Instruction) : Instruction :=
  { instr with
    src1_ready := if instr.src1 = d then true else instr.src1_ready
    src2_ready := if instr.src2 = d then true else instr.src2_ready }

/-- The wake-up of one instruction in `RR` by the completing tag `d`. -/
def wake_RR (d : Int) (instr : Instruction) : Instruction :=
  { instr with
    src1_ready := if instr.src1 = d then true else instr.src1_ready
    src1_awaken := if instr.src1 = d then true else instr.src1_awaken
    src2_ready := if instr.src2 = d then true else instr.src2_ready
    src2_awaken := if instr.src2 = d then true else instr.src2_awaken }

/-- The first part of the body of the loop of `Execute`: stamp `execute_cycle`
on the first visit and count the cycle. -/
def execute_tick (T : Nat) (it : Instruction) : Instruction :=
  { it with
    execute_cycle := if it.execute_duration = 0 then T else it.execute_cycle
    execute_duration := it.execute_duration + 1 }

/-- The flag `completed` of `Execute`, evaluated after the tick. -/
def execute_completed (it : Instruction) : Bool :=
  if it.op_type = 0 then true
  else if it.op_type = 1 ∧ it.execute_duration = 2 then true
  else if it.op_type = 2 ∧ it.execute_duration = 5 then true
  else false

/-- The `for` loop of `Execute`: the list argument is the part of `execute_list`
from the iterator on; the entries already visited and kept are collected in
`s.execute_list`. -/
def Execute_loop : List Instruction → State → State
  | [], s => s
  | it0 :: rest, s =>
    let it := execute_tick s.total_cycles it0
    if execute_completed it then
      Execute_loop rest
        { s with
          WB := s.WB ++ [it]
          IQ := s.IQ.map (wake it.dest)
          DI := s.DI.map (wake it.dest)
          RR := s.RR.map (wake_RR it.dest) }
    else
      Execute_loop rest { s with execute_list := s.execute_list ++ [it] }

/-- The stage `Execute`. -/
def Execute (s : State) : State :=
  Execute_loop s.execute_list { s with execute_list := [] }

/-- The body of the `while` loop of `Writeback` for the front `instr0` of `WB`,
with `wb` the rest of `WB`. -/
def Writeback_step (instr0 : Instruction) (wb : List Instruction) (s : State) : State :=
  let instr := { instr0 with
                 writeback_cycle := s.total_cycles
                 retire_cycle := s.total_cycles + 1 }
  { s with
    WB := wb
    reorder_buffer :=
      s.reorder_buffer.insert instr.dest
        { s.reorder_buffer.get instr.dest rob_params.zero with ready := true }
    retire_map := s.retire_map.insert instr.dest instr }

/-- The `while` loop of `Writeback` over the contents of `WB`. -/
def Writeback_loop : List Instruction → State → State
  | [], s => { s with WB := [] }
  | instr0 :: wb, s => Writeback_loop wb (Writeback_step instr0 wb s)

/-- The stage `Writeback`. -/
def Writeback (s : State) : State := Writeback_loop s.WB s

/-- One iteration of the loop of `Retire` whose test on the head's ready bit succeeds:
the state is the one after the evaluation of `reorder_buffer[rob_head]`. -/
def Retire_body (ROB_SIZE : Nat) (s : State) : State :=
  let head : Int := (s.rob_head : Int)
  let instr := { s.retire_map.get head Instruction.zero with RT_cycle := s.total_cycles + 1 }
  let dst := (s.reorder_buffer.get head rob_params.zero).dst
  let RMT1 := s.RMT.touch dst 0
  { s with
    completed_intstructions := s.completed_intstructions ++ [instr]
    retire_map := (s.retire_map.touch head Instruction.zero).erase head
    RMT := if RMT1.get dst 0 = head then RMT1.erase dst else RMT1
    reorder_buffer := s.reorder_buffer.erase head
    rob_head := (s.rob_head + 1) % ROB_SIZE
    rob_full := false
    retired_instructions := s.retired_instructions + 1 }

/-- The evaluation of `reorder_buffer[rob_head]` in the test of `Retire`: an absent
entry is created. -/
def Retire_touch (s : State) : State :=
  { s with reorder_buffer := s.reorder_buffer.touch (s.rob_head : Int) rob_params.zero }

/-- The `while` loop of `Retire`; the first argument is `WIDTH - i`. -/
def Retire_loop (ROB_SIZE : Nat) : Nat → State → State
  | 0, s => s
  | n + 1, s =>
    let s1 := Retire_touch s
    if (s1.reorder_buffer.get (s1.rob_head : Int) rob_params.zero).ready = true then
      Retire_loop ROB_SIZE n (Retire_body ROB_SIZE s1)
    else s1

/-- The stage `Retire`. -/
def Retire (WIDTH ROB_SIZE : Nat) (s : State) : State := Retire_loop ROB_SIZE WIDTH s

/-- The function `Advance_Cycle`. -/
def Advance_Cycle (s : State) : Bool :=
  !s.DE.isEmpty || !s.RN.isEmpty || !s.RR.isEmpty ||
  !s.DI.isEmpty || !s.IQ.isEmpty || !s.retire_map.isEmpty ||
  !s.execute_list.isEmpty || !s.WB.isEmpty

/-! ## Driver -/

/-- The statement `++total_cycles`. -/
def tick (s : State) : State := { s with total_cycles := s.total_cycles + 1 }

/-- The `k`-th statement (from `0`) of the body of the `do … while` loop of `main`. -/
def stage (p : proc_params) : Nat → State → State
  | 0 => Retire p.width p.rob_size
  | 1 => Writeback
  | 2 => Execute
  | 3 => Issue p.width
  | 4 => Dispatch p.iq_size
  | 5 => RegRead
  | 6 => Rename p.rob_size
  | 7 => Decode
  | 8 => Fetch p.width
  | 9 => tick
  | _ => id

/-- The first `k` statements of the loop body, run in order. -/
def stages (p : proc_params) : Nat → State → State
  | 0, s => s
  | k + 1, s => stage p k (stages p k s)

/-- One execution of the body of the `do … while` loop of `main`. -/
def cycle (p : proc_params) (s : State) : State :=
  tick (Fetch p.width (Decode (Rename p.rob_size (RegRead (Dispatch p.iq_size
    (Issue p.width (Execute (Writeback (Retire p.width p.rob_size s)))))))))

/-- The state after `n` executions of the loop body, started from `s`. -/
def cycles (p : proc_params) : Nat → State → State
  | 0, s => s
  | n + 1, s => cycle p (cycles p n s)

/-- The `do … while` loop of `main`, cut off after `fuel` executions of the body:
`some s` is the state with which the loop exits. -/
def main_loop (p : proc_params) : Nat → State → Option State
  | 0, _ => none
  | fuel + 1, s =>
    let s1 := cycle p s
    if Advance_Cycle s1 then main_loop p fuel s1 else some s1

/-- The state after `n` executions of the loop body on the given trace. -/
def run (p : proc_params) (trace : List Instruction) (n : Nat) : State :=
  cycles p n (State.init trace)

/-- A trace record with the scanned fields given and all other fields `0`/`false`. -/
def mk_instr (pc : Nat) (op_type dest src1 src2 : Int) : Instruction :=
  { Instruction.zero with pc := pc, op_type := op_type, dest := dest, src1 := src1, src2 := src2 }

end SimProc

namespace SimProc

/-! ## Invariants of the pipeline -/

/-- The fields of an instruction that no stage after `Rename` changes. -/
structure Ident where
  seq_no : Nat
  pc : Nat
  op_type : Int
  dest : Int
  src1 : Int
  src2 : Int
  original_dest : Int
  original_src1 : Int
  original_src2 : Int
deriving DecidableEq

/-- The identity of an instruction record. -/
def Instruction.ident (i : Instruction) : Ident :=
  { seq_no := i.seq_no, pc := i.pc, op_type := i.op_type, dest := i.dest, src1 := i.src1,
    src2 := i.src2, original_dest := i.original_dest, original_src1 := i.original_src1,
    original_src2 := i.original_src2 }

/-- The instructions that have been renamed and not yet retired. -/
def live (s : State) : List Instruction :=
  s.RR ++ s.DI ++ s.IQ ++ s.execute_list ++ s.WB ++ s.retire_map.values

/-- The identities of the renamed, not yet retired instructions. -/
def idents (s : State) : List Ident := (live s).map Instruction.ident

/-- The number of renamed, not yet retired instructions, counted buffer by buffer. -/
def inflight (s : State) : Nat :=
  s.RR.length + s.DI.length + s.IQ.length + s.execute_list.length + s.WB.length
    + s.retire_map.size

/-- The record `c` carries the scanned fields of the trace record with its sequence number. -/
def FromTrace (tr : List Instruction) (c : Ident) : Prop :=
  ∃ r, tr[c.seq_no]? = some r ∧ c.pc = r.pc ∧ c.op_type = r.op_type ∧
    c.original_dest = r.dest ∧ c.original_src1 = r.src1 ∧ c.original_src2 = r.src2

/-- The operand fields of a record that has not been renamed are the scanned ones. -/
def Unrenamed (i : Instruction) : Prop :=
  i.dest = i.original_dest ∧ i.src1 = i.original_src1 ∧ i.src2 = i.original_src2

/-- The wake-ups of one pass of `Execute`, for the completing tags `ds` in order,
applied to an instruction of `IQ` or `DI`. -/
def wake_all (ds : List Int) (i : Instruction) : Instruction :=
  ds.foldl (fun i d => wake d i) i

/-- The wake-ups of one pass of `Execute`, for the completing tags `ds` in order,
applied to an instruction of `RR`. -/
def wake_all_RR (ds : List Int) (i : Instruction) : Instruction :=
  ds.foldl (fun i d => wake_RR d i) i

/-- Structural invariant: program order, ROB occupancy and tags, and the maps. -/
structure SInv (p : proc_params) (tr : List Instruction) (s : State) : Prop where
  completed_seq :
    s.completed_intstructions.map (fun i => i.seq_no) = List.range s.retired_instructions
  live_seq :
    ((idents s).map (fun c => c.seq_no)).Perm
      (List.range' s.retired_instructions (idents s).length)
  front_seq :
    (s.RN ++ s.DE).map (fun i => i.seq_no)
      = List.range' (s.retired_instructions + (idents s).length) (s.RN.length + s.DE.length)
  total :
    s.total_instructions
      = s.retired_instructions + (idents s).length + s.RN.length + s.DE.length
  tag : ∀ c ∈ idents s, c.dest = ((c.seq_no % p.rob_size : Nat) : Int)
  rob_bound : (idents s).length ≤ p.rob_size
  head : s.rob_head = s.retired_instructions % p.rob_size
  tail : s.rob_tail = (s.retired_instructions + (idents s).length) % p.rob_size
  full : s.rob_full = true ↔ (0 < (idents s).length ∧ (idents s).length = p.rob_size)
  rm_keys : s.retire_map.keys.Nodup
  rm_dest : ∀ k v, s.retire_map.find k = some v → v.dest = k
  rob_ready : ∀ k e, s.reorder_buffer.find k = some e → e.ready = true →
    ∃ v, s.retire_map.find k = some v
  rm_ready : ∀ k v, s.retire_map.find k = some v →
    ∃ e, s.reorder_buffer.find k = some e ∧ e.ready = true
  rob_live : ∀ c ∈ idents s, ∃ e, s.reorder_buffer.find c.dest = some e ∧ e.dst = c.original_dest
  data_completed : ∀ i ∈ s.completed_intstructions, FromTrace tr i.ident
  data_live : ∀ c ∈ idents s, FromTrace tr c
  data_front : ∀ i ∈ s.RN ++ s.DE, FromTrace tr i.ident ∧ Unrenamed i
  trace_rest : s.trace = tr.drop s.total_instructions
  total_le : s.total_instructions ≤ tr.length

/-- Occupancy limits of the stage buffers. -/
structure Sizes (p : proc_params) (s : State) : Prop where
  iq : s.IQ.length ≤ to_size_t (p.iq_size : Int)
  de : s.DE.length ≤ p.width
  rn : s.RN.length ≤ p.width
  rr : s.RR.length ≤ p.width
  di : s.DI.length ≤ p.width

/-- The register mapping table maps exactly the destinations of the renamed, not yet
retired instructions, each to the tag of the youngest of its writers. -/
structure RMTInv (s : State) : Prop where
  points : ∀ r t, s.RMT.find r = some t →
    ∃ c ∈ idents s, c.original_dest = r ∧ c.dest = t ∧
      ∀ c' ∈ idents s, c'.original_dest = r → c'.seq_no ≤ c.seq_no
  mapped : ∀ c ∈ idents s, ∃ t, s.RMT.find c.original_dest = some t

/-- The invariant of the pipeline that does not involve time stamps. -/
def Inv (p : proc_params) (tr : List Instruction) (s : State) : Prop :=
  SInv p tr s ∧ RMTInv s ∧ Sizes p s

/-! ### Time stamps -/

/-- The execute latency selected by `op_type`. -/
def latency (op : Int) : Nat :=
  if op = 0 then 1 else if op = 1 then 2 else if op = 2 then 5 else 0

/-- Stamps of an instruction that has been fetched. -/
def chain_DE (i : Instruction) : Prop := i.decode_cycle = i.fetch_cycle + 1

/-- Stamps of an instruction that has been decoded. -/
def chain_RN (i : Instruction) : Prop := chain_DE i ∧ i.decode_cycle + 1 ≤ i.rename_cycle

/-- Stamps of an instruction that has been renamed. -/
def chain_RR (i : Instruction) : Prop := chain_RN i ∧ i.rename_cycle + 1 ≤ i.regread_cycle

/-- Stamps of an instruction that has read its registers. -/
def chain_DI (i : Instruction) : Prop := chain_RR i ∧ i.regread_cycle + 1 ≤ i.dispatch_cycle

/-- Stamps of an instruction that has been dispatched. -/
def chain_IQ (i : Instruction) : Prop := chain_DI i ∧ i.dispatch_cycle + 1 ≤ i.issue_cycle

/-- Stamps of an instruction that has completed execution. -/
def chain_EX (i : Instruction) : Prop :=
  chain_IQ i ∧ i.issue_cycle + 1 ≤ i.execute_cycle ∧
    (i.op_type = 0 ∨ i.op_type = 1 ∨ i.op_type = 2) ∧
    i.execute_duration = latency i.op_type

/-- Stamps of an instruction that has been written back. -/
def chain_WB (i : Instruction) : Prop :=
  chain_EX i ∧ i.writeback_cycle = i.execute_cycle + latency i.op_type ∧
    i.retire_cycle = i.writeback_cycle + 1

/-- Stamps of an instruction that has been retired. -/
def chain_RT (i : Instruction) : Prop := chain_WB i ∧ i.retire_cycle + 1 ≤ i.RT_cycle

/-- The slack of a stamp against `total_cycles`: `1` when statement number `j` of the
loop body, which writes the stamp as `total_cycles + 1`, is among the `k` statements
already executed in the current cycle, `0` otherwise. -/
def late (j k : Nat) : Nat := if j < k then 1 else 0

/-- The time stamps of the instructions in the buffers, after `k` statements of the
loop body in the current cycle. -/
structure TCore (k : Nat) (s : State) : Prop where
  de : ∀ i ∈ s.DE, chain_DE i ∧ i.decode_cycle ≤ s.total_cycles + late 8 k
  rn : ∀ i ∈ s.RN, chain_RN i ∧ i.rename_cycle ≤ s.total_cycles + late 7 k
  rr : ∀ i ∈ s.RR, chain_RR i ∧ i.regread_cycle ≤ s.total_cycles + late 6 k
  di : ∀ i ∈ s.DI, chain_DI i ∧ i.dispatch_cycle ≤ s.total_cycles + late 5 k
  iq : ∀ i ∈ s.IQ, chain_IQ i ∧ i.issue_cycle ≤ s.total_cycles + late 4 k
  ex : ∀ i ∈ s.execute_list, chain_IQ i ∧
    (i.execute_duration = 0 → i.issue_cycle + 1 ≤ s.total_cycles + late 2 k) ∧
    (0 < i.execute_duration → i.issue_cycle + 1 ≤ i.execute_cycle ∧
      i.execute_cycle + i.execute_duration = s.total_cycles + late 2 k) ∧
    (i.op_type = 0 → i.execute_duration = 0) ∧
    (i.op_type = 1 → i.execute_duration < 2) ∧
    (i.op_type = 2 → i.execute_duration < 5)
  wb : ∀ i ∈ s.WB, chain_EX i ∧
    i.execute_cycle + i.execute_duration = s.total_cycles + late 2 k
  rm : ∀ i ∈ s.retire_map.values, chain_WB i ∧ i.retire_cycle ≤ s.total_cycles + late 1 k
  completed : ∀ i ∈ s.completed_intstructions,
    chain_RT i ∧ i.RT_cycle ≤ s.total_cycles + late 0 k

/-- The invariant on time stamps after `k` statements of the loop body: `WB` is
empty between `Writeback` and `Execute`. -/
def TInv (k : Nat) (s : State) : Prop := TCore k s ∧ (k = 2 → s.WB = [])

/-! ### Data dependences -/

/-- The part of an instruction record that the dependence invariant is about: the
identity, the readiness flags and the progress of the execution. -/
structure DepView where
  id : Ident
  ready1 : Bool
  ready2 : Bool
  awaken1 : Bool
  awaken2 : Bool
  execute_cycle : Nat
  execute_duration : Nat

/-- The view of an instruction record. -/
def Instruction.dview (i : Instruction) : DepView :=
  { id := i.ident, ready1 := i.src1_ready, ready2 := i.src2_ready,
    awaken1 := i.src1_awaken, awaken2 := i.src2_awaken,
    execute_cycle := i.execute_cycle, execute_duration := i.execute_duration }

/-- The architectural source in slot `b` (`true` for `src1`, `false` for `src2`). -/
def DepView.osrc (v : DepView) (b : Bool) : Int :=
  if b then v.id.original_src1 else v.id.original_src2

/-- The renamed source in slot `b`. -/
def DepView.rsrc (v : DepView) (b : Bool) : Int := if b then v.id.src1 else v.id.src2

/-- The ready flag of slot `b`. -/
def DepView.ready (v : DepView) (b : Bool) : Bool := if b then v.ready1 else v.ready2

/-- The awaken flag of slot `b`. -/
def DepView.awaken (v : DepView) (b : Bool) : Bool := if b then v.awaken1 else v.awaken2

/-- The identities of the renamed instructions that have not completed execution. -/
def pendIds (s : State) : List Ident :=
  (s.RR ++ s.DI ++ s.IQ ++ s.execute_list).map Instruction.ident

/-- The instructions that have completed execution. -/
def finished (s : State) : List Instruction :=
  s.WB ++ s.retire_map.values ++ s.completed_intstructions

/-- The identities of all the instructions that have been renamed so far. -/
def history (s : State) : List Ident :=
  idents s ++ s.completed_intstructions.map Instruction.ident

/-- The instruction `q` is the producer of register `r` for the instruction with
sequence number `cseq`: the youngest renamed instruction before it in program order
whose architectural destination is `r`. -/
def IsProducer (s : State) (cseq : Nat) (r : Int) (q : Ident) : Prop :=
  q ∈ history s ∧ q.seq_no < cseq ∧ q.original_dest = r ∧
    ∀ q' ∈ history s, q'.seq_no < cseq → q'.original_dest = r → q'.seq_no ≤ q.seq_no

/-- The dependence invariant.  While the producer of a source has not completed
execution, the consumer waits for the tag of the producer: in `RR` with the awaken
flag clear, in `DI` and `IQ` with the ready flag clear, and it is not issued.  An
instruction that has started to execute started no earlier than the cycle after the
last execute cycle of each of its producers. -/
structure DInv (s : State) : Prop where
  rr : ∀ C ∈ s.RR.map Instruction.dview, ∀ q ∈ pendIds s, ∀ b, C.osrc b ≠ -1 →
    IsProducer s C.id.seq_no (C.osrc b) q → C.rsrc b = q.dest ∧ C.awaken b = false
  di : ∀ C ∈ (s.DI ++ s.IQ).map Instruction.dview, ∀ q ∈ pendIds s, ∀ b, C.osrc b ≠ -1 →
    IsProducer s C.id.seq_no (C.osrc b) q → C.rsrc b = q.dest ∧ C.ready b = false
  ex : ∀ C ∈ (s.execute_list ++ finished s).map Instruction.dview, ∀ q ∈ pendIds s, ∀ b,
    C.osrc b ≠ -1 → ¬ IsProducer s C.id.seq_no (C.osrc b) q
  time : ∀ C ∈ (s.execute_list ++ finished s).map Instruction.dview,
    0 < C.execute_duration → ∀ P ∈ (finished s).map Instruction.dview, ∀ b,
    C.osrc b ≠ -1 → IsProducer s C.id.seq_no (C.osrc b) P.id →
    P.execute_cycle + P.execute_duration ≤ C.execute_cycle

/-- The state of the driver on the trace `tr` after `n` executions of the loop body
followed by the first `k` statements of the next one.  The loop test is not taken
into account, so that every state the simulator really reaches, between any two
stage calls, is among these. -/
def driver_state (p : proc_params) (tr : List Instruction) (n k : Nat) : State :=
  stages p k (run p tr n)

end SimProc

namespace SimProc

/-! ## Stage behaviour in the words of the specification -/

/-- The tag of the `k`-th instruction (from `0`) of a batch renamed from the ROB
tail `tail` on. -/
def batch_tag (ROB_SIZE tail k : Nat) : Int := (((tail + k) % ROB_SIZE : Nat) : Int)

/-- The tag of the nearest instruction among the first `k` of the batch `rn` whose
destination register is `r`, if there is one. -/
def nearest_earlier (ROB_SIZE tail : Nat) (rn : List Instruction) (k : Nat) (r : Int) :
    Option Int :=
  ((List.range k).reverse.find? (fun j => decide ((rn.getD j Instruction.zero).dest = r))).map
    (batch_tag ROB_SIZE tail)

/-- The renamed value of the source register `arch_src` of the `k`-th instruction of
the batch `s.RN`: `-1` stays, then the nearest earlier writer of the batch, then the
mapping table before the call, then `-2`. -/
def renamed_source (ROB_SIZE : Nat) (s : State) (k : Nat) (arch_src : Int) : Int :=
  if arch_src = -1 then -1
  else
    match nearest_earlier ROB_SIZE s.rob_tail s.RN k arch_src with
    | some t => t
    | none =>
      match s.RMT.find arch_src with
      | some t => t
      | none => -2

/-- The record that the `k`-th instruction `instr` of the batch `s.RN` becomes in `RR`. -/
def renamed_record (ROB_SIZE : Nat) (s : State) (k : Nat) (instr : Instruction) : Instruction :=
  { instr with
    src1 := renamed_source ROB_SIZE s k instr.src1
    src2 := renamed_source ROB_SIZE s k instr.src2
    src1_awaken := false
    src2_awaken := false
    dest := batch_tag ROB_SIZE s.rob_tail k
    regread_cycle := s.total_cycles + 1 }

/-- Both sources of the instruction are ready. -/
def is_ready (i : Instruction) : Bool := i.src1_ready && i.src2_ready

/-- The number of ready entries of `iq` before position `j`. -/
def ready_before (iq : List Instruction) (j : Nat) : Nat :=
  ((iq.take j).filter is_ready).length

/-- The entry at position `j` of `iq` is among the first `WIDTH` ready entries. -/
def issued_at (WIDTH : Nat) (iq : List Instruction) (j : Nat) : Bool :=
  is_ready (iq.getD j Instruction.zero) && decide (ready_before iq j < WIDTH)

/-- The entries of `iq` among the first `WIDTH` ready ones, in the order of `iq`. -/
def issue_selected (WIDTH : Nat) (iq : List Instruction) : List Instruction :=
  ((List.range iq.length).filter (issued_at WIDTH iq)).map (fun j => iq.getD j Instruction.zero)

/-- The other entries of `iq`, in the order of `iq`. -/
def issue_kept (WIDTH : Nat) (iq : List Instruction) : List Instruction :=
  ((List.range iq.length).filter (fun j => !issued_at WIDTH iq j)).map
    (fun j => iq.getD j Instruction.zero)

/-- The number of consecutive ROB slots, among the `fuel` slots from `slot` on, that
are occupied with the ready bit set. -/
def ready_count (rob : UMap rob_params) (ROB_SIZE : Nat) : Nat → Nat → Nat
  | 0, _ => 0
  | fuel + 1, slot =>
    match rob.find (slot : Int) with
    | some e => if e.ready = true then 1 + ready_count rob ROB_SIZE fuel ((slot + 1) % ROB_SIZE)
                else 0
    | none => 0

/-- The number of consecutive occupied, ready ROB slots starting at `rob_head`. -/
def ready_run (ROB_SIZE : Nat) (s : State) : Nat :=
  ready_count s.reorder_buffer ROB_SIZE ROB_SIZE s.rob_head

/-- The `j`-th slot from `rob_head` on. -/
def head_slot (ROB_SIZE : Nat) (s : State) (j : Nat) : Int :=
  (((s.rob_head + j) % ROB_SIZE : Nat) : Int)

/-- The instructions in the first `k` slots from `rob_head` on, in head order, as
they are appended to `completed_intstructions`. -/
def retired_batch (ROB_SIZE : Nat) (s : State) (k : Nat) : List Instruction :=
  (List.range k).map (fun j =>
    { s.retire_map.get (head_slot ROB_SIZE s j) Instruction.zero with
      RT_cycle := s.total_cycles + 1 })

/-- The effect of one call of `Retire` that retires `k` instructions, from the state
`s` to the state `s1`. -/
structure Retired (ROB_SIZE : Nat) (s s1 : State) (k : Nat) : Prop where
  completed :
    s1.completed_intstructions = s.completed_intstructions ++ retired_batch ROB_SIZE s k
  retired : s1.retired_instructions = s.retired_instructions + k
  head : s1.rob_head = (s.rob_head + k) % ROB_SIZE
  full : s1.rob_full = if 0 < k then false else s.rob_full
  erased_rm : ∀ j < k, s1.retire_map.find (head_slot ROB_SIZE s j) = none
  erased_rob : ∀ j < k, ∀ e, s1.reorder_buffer.find (head_slot ROB_SIZE s j) = some e →
    e = rob_params.zero
  frame : s1.trace = s.trace ∧ s1.DE = s.DE ∧ s1.RN = s.RN ∧ s1.RR = s.RR ∧ s1.DI = s.DI ∧
    s1.IQ = s.IQ ∧ s1.execute_list = s.execute_list ∧ s1.WB = s.WB ∧
    s1.total_cycles = s.total_cycles ∧ s1.total_instructions = s.total_instructions ∧
    s1.rob_tail = s.rob_tail

/-- The readiness of a source after `RegRead`: a latched source keeps its flag, any
other source is ready exactly when its renamed value is negative, or no ROB entry
with that tag exists, or the ROB entry with that tag is ready. -/
def regread_flag (rob : UMap rob_params) (awaken : Bool) (src : Int) (ready : Bool) : Bool :=
  if awaken = true then ready
  else decide (src < 0 ∨ rob.find src = none ∨ ∃ e, rob.find src = some e ∧ e.ready = true)

/-- The record that an instruction of `RR` becomes in `DI`. -/
def regread_record (s : State) (instr : Instruction) : Instruction :=
  { instr with
    src1_ready := regread_flag s.reorder_buffer instr.src1_awaken instr.src1 instr.src1_ready
    src2_ready := regread_flag s.reorder_buffer instr.src2_awaken instr.src2 instr.src2_ready
    dispatch_cycle := s.total_cycles + 1 }

/-! ## Program order and readiness of the waiting instructions -/

/-- The sequence numbers of the instructions between `Rename` and `Issue`: those of
`IQ`, then `DI`, then `RR`. -/
def waiting_seq (s : State) : List Nat := (s.IQ ++ s.DI ++ s.RR).map (fun i => i.seq_no)

/-- The instructions between `Rename` and `Issue` are in program order: `IQ`, `DI`
and `RR` are each ascending in `seq_no`, `IQ` is older than `DI` and `DI` older than
`RR`. -/
def OrdInv (s : State) : Prop := (waiting_seq s).Pairwise (fun a b => a < b)

/-- No wake-up is missed, after `k` statements of the loop body in the current cycle.
A source of an instruction of `DI` or `IQ` that is not ready waits for the tag of an
older instruction that has not completed execution.  In `RR` a latched source is
ready; any instruction holding the tag of a source that is not latched is older, and
it is in `WB` only in the part of the cycle from `Rename` to `Writeback`, where
`RegRead` is not reached before `Writeback` has set the ready bit of its ROB entry.
Every ROB entry belongs to a renamed instruction that is not retired, except for
the entry that the test of `Retire` creates at the head of an empty ROB. -/
structure LInv (k : Nat) (s : State) : Prop where
  iq : ∀ C ∈ (s.DI ++ s.IQ).map Instruction.dview, ∀ b, C.ready b = false →
    ∃ q ∈ pendIds s, q.dest = C.rsrc b ∧ q.seq_no < C.id.seq_no
  aw : ∀ C ∈ s.RR.map Instruction.dview, ∀ b, C.awaken b = true → C.ready b = true
  rr : ∀ C ∈ s.RR.map Instruction.dview, ∀ b, C.awaken b = false →
    ∀ c ∈ idents s, c.dest = C.rsrc b →
      c.seq_no < C.id.seq_no ∧ (c ∈ s.WB.map Instruction.ident → k ≤ 1 ∨ 7 ≤ k)
  keys : ∀ key e, s.reorder_buffer.find key = some e →
    (∃ c ∈ idents s, c.dest = key) ∨ (idents s = [] ∧ key = (s.rob_head : Int))

/-- The work left: every instruction weighs the number of moves that it still has to
make, an executing one the more the less it has executed. -/
def work (s : State) : Nat :=
  14 * s.trace.length + 13 * s.DE.length + 12 * s.RN.length + 11 * s.RR.length
    + 10 * s.DI.length + 9 * s.IQ.length
    + (s.execute_list.map (fun x => 8 - x.execute_duration)).sum
    + 2 * s.WB.length + s.retire_map.size

/-- The trace is exhausted and the pipeline is empty. -/
def Drained (s : State) : Prop :=
  s.trace = [] ∧ s.DE = [] ∧ s.RN = [] ∧ s.RR = [] ∧ s.DI = [] ∧ s.IQ = [] ∧
    s.execute_list = [] ∧ s.WB = [] ∧ s.retire_map.values = []

/-- Nothing has been dispatched yet: `IQ`, `execute_list`, `WB`, `retire_map` and
`completed_intstructions` are empty and no instruction has been retired. -/
def BackEmpty (s : State) : Prop :=
  s.IQ = [] ∧ s.execute_list = [] ∧ s.WB = [] ∧ s.retire_map.values = [] ∧
    s.completed_intstructions = [] ∧ s.retired_instructions = 0

/-- Where the renamed sources come from.  A source that names no register is left
alone by `Rename`; a renamed source that is a tag was read from the register mapping
table, so that an older renamed instruction writes the register of that source. -/
structure SrcInv (s : State) : Prop where
  keep : ∀ c ∈ idents s,
    (c.original_src1 = -1 → c.src1 = -1) ∧ (c.original_src2 = -1 → c.src2 = -1)
  writer1 : ∀ c ∈ idents s, 0 ≤ c.src1 →
    ∃ q ∈ history s, q.seq_no < c.seq_no ∧ q.original_dest = c.original_src1
  writer2 : ∀ c ∈ idents s, 0 ≤ c.src2 →
    ∃ q ∈ history s, q.seq_no < c.seq_no ∧ q.original_dest = c.original_src2

/-- The front end is empty and the trace is exhausted. -/
def FrontEmpty (s : State) : Prop :=
  s.DI = [] ∧ s.RR = [] ∧ s.RN = [] ∧ s.DE = [] ∧ s.trace = []

/-! ## The hypotheses of two scenarios of the specification -/

/-- The hypotheses of the width test: as many records as the machine is wide, all of
`op_type` 0, no source register of a record being the destination of an earlier
record, and room for all of them in the ROB and in the issue queue, the two sizes
being values of a C++ `int`. -/
structure WidthTest (p : proc_params) (tr : List Instruction) : Prop where
  nonempty : 1 ≤ tr.length
  width : p.width = tr.length
  rob : tr.length ≤ p.rob_size
  iq : tr.length ≤ p.iq_size
  rob_int : p.rob_size < 2 ^ 64
  iq_int : p.iq_size < 2 ^ 64
  op : ∀ r ∈ tr, r.op_type = 0
  independent : ∀ i < tr.length, ∀ j < i,
    ((tr.getD i Instruction.zero).src1 = -1 ∨
      (tr.getD i Instruction.zero).src1 ≠ (tr.getD j Instruction.zero).dest) ∧
    ((tr.getD i Instruction.zero).src2 = -1 ∨
      (tr.getD i Instruction.zero).src2 ≠ (tr.getD j Instruction.zero).dest)

/-- The hypotheses of the dependent pair: the first record has `op_type` 0, 1 or 2 and
writes a register, the second reads that register in one source and nothing in the
other, and the configuration has `WIDTH ≥ 1`, `ROB_SIZE ≥ 2` and `IQ_SIZE ≥ 2`, the two
sizes being values of a C++ `int`. -/
structure DependentPair (p : proc_params) (first second : Instruction) : Prop where
  op : first.op_type = 0 ∨ first.op_type = 1 ∨ first.op_type = 2
  dest : 0 ≤ first.dest
  src : (second.src1 = first.dest ∧ second.src2 = -1) ∨
    (second.src1 = -1 ∧ second.src2 = first.dest)
  width : 1 ≤ p.width
  rob : 2 ≤ p.rob_size
  iq : 2 ≤ p.iq_size
  rob_int : p.rob_size < 2 ^ 64
  iq_int : p.iq_size < 2 ^ 64

/-! ## States used as examples -/

/-- A state in which `Rename` has a batch of three instructions to rename, the second
reading the destination of the first and its own destination, from the ROB tail `3`
of a ROB of four entries whose mapping table knows register `2`. -/
def rename_example : State :=
  { State.init [] with
    RN := [mk_instr 0 0 1 2 3, mk_instr 4 1 5 1 5, mk_instr 8 2 1 (-1) 1]
    RMT := [(2, 7)]
    rob_head := 3
    rob_tail := 3 }

/-- A state in which `Dispatch` finds one instruction in `IQ` and two in `DI`. -/
def dispatch_example : State :=
  { State.init [] with
    IQ := [mk_instr 0 0 1 2 3]
    DI := [mk_instr 4 1 5 1 5, mk_instr 8 2 1 (-1) 1]
    total_cycles := 6 }

/-- A state of the driver in which `RegRead` finds an instruction in `RR` whose first
source was latched by the wake-up of `Execute` in the same cycle: four instructions,
the second and the fourth read the destination of the first, which executes for
five cycles, with `ROB_SIZE = 4`, `IQ_SIZE = 1` and `WIDTH = 1`, in the eleventh cycle
just before `RegRead`. -/
def latch_example : State :=
  driver_state ⟨4, 1, 1⟩
    [mk_instr 0 2 1 (-1) (-1), mk_instr 4 0 2 1 (-1), mk_instr 8 0 3 (-1) (-1),
     mk_instr 12 0 4 1 (-1)] 10 5

end SimProc

namespace SimProc

/-! ## Facts about unordered maps -/

namespace UMap

variable {V : Type}

theorem find_nil (k : Int) : find ([] : UMap V) k = none := rfl

theorem find_cons (k' : Int) (v : V) (m : UMap V) (k : Int) :
    find ((k', v) :: m : UMap V) k = if k = k' then some v else find m k := rfl

theorem find_erase (m : UMap V) (k k' : Int) :
    find (erase m k) k' = if k' = k then none else find m k' := by
  induction m with
  | nil => simp [erase, find_nil]
  | cons a m ih =>
    obtain ⟨a1, a2⟩ := a
    by_cases h : k = a1
    · subst h
      simp only [erase, if_true, ih]
      by_cases h2 : k' = k
      · simp [h2]
      · simp [h2, find_cons]
    · simp only [erase, if_neg h, find_cons, ih]
      by_cases h2 : k' = k
      · subst h2
        simp [h]
      · simp [h2]

theorem find_insert (m : UMap V) (k : Int) (v : V) (k' : Int) :
    find (insert m k v) k' = if k' = k then some v else find m k' := by
  unfold insert
  rw [find_cons, find_erase]
  by_cases h : k' = k <;> simp [h]

theorem find_insert_self (m : UMap V) (k : Int) (v : V) :
    find (insert m k v) k = some v := by
  simp [find_insert]

theorem find_insert_ne (m : UMap V) (k : Int) (v : V) (k' : Int) (h : k' ≠ k) :
    find (insert m k v) k' = find m k' := by
  simp [find_insert, h]

theorem find_touch (m : UMap V) (k : Int) (d : V) (k' : Int) :
    find (touch m k d) k' = if k' = k then some (get m k d) else find m k' := by
  unfold touch get
  cases h : find m k with
  | none =>
    simp only [find_insert]
  | some v =>
    by_cases h2 : k' = k
    · subst h2
      simp [h]
    · simp [h2]

theorem get_touch (m : UMap V) (k : Int) (d : V) :
    get (touch m k d) k d = get m k d := by
  unfold get
  rw [find_touch]
  simp [get]

theorem get_of_find {m : UMap V} {k : Int} {v : V} (d : V) (h : find m k = some v) :
    get m k d = v := by
  simp [get, h]

theorem touch_of_find {m : UMap V} {k : Int} {v : V} (d : V) (h : find m k = some v) :
    touch m k d = m := by
  simp [touch, h]

theorem mem_values_of_find {m : UMap V} {k : Int} {v : V} (h : find m k = some v) :
    v ∈ values m := by
  induction m with
  | nil => simp [find_nil] at h
  | cons a m ih =>
    obtain ⟨a1, a2⟩ := a
    rw [find_cons] at h
    by_cases h2 : k = a1
    · simp only [if_pos h2, Option.some.injEq] at h
      subst h
      exact List.mem_cons_self _ _
    · simp only [if_neg h2] at h
      exact List.mem_cons_of_mem _ (ih h)

theorem find_eq_none_of_not_mem_keys {m : UMap V} {k : Int} (h : k ∉ keys m) :
    find m k = none := by
  induction m with
  | nil => rfl
  | cons a m ih =>
    obtain ⟨a1, a2⟩ := a
    simp only [keys, List.map_cons, List.mem_cons, not_or] at h
    rw [find_cons, if_neg h.1]
    exact ih h.2

theorem find_of_mem_keys {m : UMap V} {k : Int} (h : k ∈ keys m) : ∃ v, find m k = some v := by
  induction m with
  | nil => simp [keys] at h
  | cons a m ih =>
    obtain ⟨a1, a2⟩ := a
    rw [find_cons]
    by_cases h2 : k = a1
    · exact ⟨a2, by rw [if_pos h2]⟩
    · simp only [keys, List.map_cons, List.mem_cons] at h
      rcases h with h | h
      · exact absurd h h2
      · rw [if_neg h2]
        exact ih h

theorem mem_keys_of_find {m : UMap V} {k : Int} {v : V} (h : find m k = some v) :
    k ∈ keys m := by
  by_contra hc
  rw [find_eq_none_of_not_mem_keys hc] at h
  exact Option.noConfusion h

theorem find_of_mem_values {m : UMap V} (hn : (keys m).Nodup) {v : V}
    (h : v ∈ values m) : ∃ k, find m k = some v := by
  induction m with
  | nil => simp [values] at h
  | cons a m ih =>
    obtain ⟨a1, a2⟩ := a
    simp only [keys, List.map_cons, List.nodup_cons] at hn
    rcases List.mem_cons.mp h with h1 | h1
    · exact ⟨a1, by rw [find_cons, if_pos rfl, h1]⟩
    · obtain ⟨k, hk⟩ := ih hn.2 h1
      have hne : k ≠ a1 := fun e => hn.1 (e ▸ mem_keys_of_find hk)
      exact ⟨k, by rw [find_cons, if_neg hne]; exact hk⟩

theorem mem_values_iff {m : UMap V} (hn : (keys m).Nodup) (v : V) :
    v ∈ values m ↔ ∃ k, find m k = some v :=
  ⟨find_of_mem_values hn, fun ⟨_, h⟩ => mem_values_of_find h⟩

theorem erase_of_not_mem_keys {m : UMap V} {k : Int} (h : k ∉ keys m) : erase m k = m := by
  induction m with
  | nil => rfl
  | cons a m ih =>
    obtain ⟨a1, a2⟩ := a
    simp only [keys, List.map_cons, List.mem_cons, not_or] at h
    simp only [erase, if_neg h.1]
    exact congrArg _ (ih h.2)

theorem keys_erase_sublist (m : UMap V) (k : Int) : (keys (erase m k)).Sublist (keys m) := by
  induction m with
  | nil => exact List.Sublist.refl _
  | cons a m ih =>
    obtain ⟨a1, a2⟩ := a
    by_cases h : k = a1
    · simp only [erase, if_pos h, keys, List.map_cons]
      exact List.Sublist.cons _ ih
    · simp only [erase, if_neg h, keys, List.map_cons]
      exact List.Sublist.cons₂ _ ih

theorem not_mem_keys_erase (m : UMap V) (k : Int) : k ∉ keys (erase m k) := by
  intro h
  obtain ⟨⟨k', v⟩, hm, hk⟩ := List.mem_map.mp h
  simp only at hk
  subst hk
  induction m with
  | nil => simp [erase] at hm
  | cons a m ih =>
    obtain ⟨a1, a2⟩ := a
    by_cases h2 : k' = a1
    · simp only [erase, if_pos h2] at hm
      exact ih (List.mem_map.mpr ⟨(k', v), hm, rfl⟩) hm
    · simp only [erase, if_neg h2] at hm
      rcases List.mem_cons.mp hm with h3 | h3
      · simp only [Prod.mk.injEq] at h3
        exact h2 h3.1
      · exact ih (List.mem_map.mpr ⟨(k', v), h3, rfl⟩) h3

theorem keys_erase_nodup {m : UMap V} (hn : (keys m).Nodup) (k : Int) :
    (keys (erase m k)).Nodup :=
  List.Nodup.sublist (keys_erase_sublist m k) hn

theorem keys_insert_nodup {m : UMap V} (hn : (keys m).Nodup) (k : Int) (v : V) :
    (keys (insert m k v)).Nodup := by
  unfold insert
  simp only [keys, List.map_cons, List.nodup_cons]
  exact ⟨not_mem_keys_erase m k, keys_erase_nodup hn k⟩

theorem values_erase_sublist (m : UMap V) (k : Int) :
    (values (erase m k)).Sublist (values m) := by
  induction m with
  | nil => exact List.Sublist.refl _
  | cons a m ih =>
    obtain ⟨a1, a2⟩ := a
    by_cases h : k = a1
    · simp only [erase, if_pos h, values, List.map_cons]
      exact List.Sublist.cons _ ih
    · simp only [erase, if_neg h, values, List.map_cons]
      exact List.Sublist.cons₂ _ ih

theorem mem_values_erase {m : UMap V} {k : Int} {v : V} (h : v ∈ values (erase m k)) :
    v ∈ values m := (values_erase_sublist m k).subset h

theorem mem_values_insert {m : UMap V} {k : Int} {v v' : V}
    (h : v' ∈ values (insert m k v)) : v' = v ∨ v' ∈ values m := by
  rcases List.mem_cons.mp h with h1 | h1
  · exact Or.inl h1
  · exact Or.inr (mem_values_erase h1)

theorem values_insert (m : UMap V) (k : Int) (v : V) :
    values (insert m k v) = v :: values (erase m k) := rfl

theorem values_erase_perm {m : UMap V} (hn : (keys m).Nodup) {k : Int} {v : V}
    (h : find m k = some v) : (values m).Perm (v :: values (erase m k)) := by
  induction m with
  | nil => simp [find_nil] at h
  | cons a m ih =>
    obtain ⟨a1, a2⟩ := a
    simp only [keys, List.map_cons, List.nodup_cons] at hn
    rw [find_cons] at h
    by_cases h2 : k = a1
    · simp only [if_pos h2, Option.some.injEq] at h
      subst h
      subst h2
      simp only [erase, if_true]
      have : erase m k = m := erase_of_not_mem_keys hn.1
      rw [this]
      exact List.Perm.refl _
    · simp only [if_neg h2] at h
      simp only [erase, if_neg h2]
      have := ih hn.2 h
      exact (List.Perm.cons a2 this).trans (List.Perm.swap v a2 _)

theorem size_insert_of_not_mem {m : UMap V} {k : Int} (h : k ∉ keys m) (v : V) :
    size (insert m k v) = size m + 1 := by
  unfold insert size
  rw [erase_of_not_mem_keys h]
  rfl

theorem length_values (m : UMap V) : (values m).length = size m := by
  simp [values, size]

theorem isEmpty_iff (m : UMap V) : isEmpty m = true ↔ values m = [] := by
  cases m with
  | nil => simp [isEmpty, values]
  | cons a m => simp [isEmpty, values]

end UMap

end SimProc

namespace SimProc

/-! ## The loops of the stages -/

theorem to_size_t_lt (x : Int) : to_size_t x < 2 ^ 64 := by
  unfold to_size_t
  omega

theorem to_size_t_le (n : Nat) : to_size_t (n : Int) ≤ n := by
  unfold to_size_t
  omega

theorem to_size_t_of_lt {n : Nat} (h : n < 2 ^ 64) : to_size_t (n : Int) = n := by
  unfold to_size_t
  omega

theorem Decode_loop_eq (T : Nat) (de rn : List Instruction) :
    Decode_loop T de rn = rn ++ de.map (fun i => { i with rename_cycle := T + 1 }) := by
  induction de generalizing rn with
  | nil => simp [Decode_loop]
  | cons a de ih => simp [Decode_loop, ih]

theorem RegRead_loop_eq (T : Nat) (rob : UMap rob_params) (rr di : List Instruction) :
    RegRead_loop T rob rr di = di ++ rr.map (regread_instr T rob) := by
  induction rr generalizing di with
  | nil => simp [RegRead_loop]
  | cons a rr ih => simp [RegRead_loop, ih]

/-- The loop of `Dispatch` moves the whole of `DI` or nothing. -/
theorem Dispatch_loop_eq (Q T : Nat) (di iq : List Instruction) :
    Dispatch_loop Q T di iq =
      if di = [] ∨ (to_size_t (Q : Int) + 2 ^ 64 - iq.length % 2 ^ 64) % 2 ^ 64 ≥ di.length then
        ([], iq ++ di.map (fun i => { i with issue_cycle := T + 1 }))
      else (di, iq) := by
  induction di generalizing iq with
  | nil => simp [Dispatch_loop]
  | cons a di ih =>
    have hA := to_size_t_lt (Q : Int)
    unfold Dispatch_loop
    by_cases h : (to_size_t (Q : Int) + 2 ^ 64 - iq.length % 2 ^ 64) % 2 ^ 64
        ≥ (a :: di).length
    · rw [if_pos h, if_pos (Or.inr h), ih]
      have h2 : di = [] ∨ (to_size_t (Q : Int) + 2 ^ 64
          - (iq ++ [{ a with issue_cycle := T + 1 }]).length % 2 ^ 64) % 2 ^ 64 ≥ di.length := by
        right
        simp only [List.length_append, List.length_cons, List.length_nil] at h ⊢
        omega
      rw [if_pos h2]
      simp
    · rw [if_neg h, if_neg]
      simp only [not_or]
      exact ⟨by simp, h⟩

theorem Dispatch_loop_cases (Q T : Nat) (di iq : List Instruction)
    (hiq : iq.length ≤ to_size_t (Q : Int)) :
    Dispatch_loop Q T di iq = (di, iq) ∨
      (iq.length + di.length ≤ to_size_t (Q : Int) ∧
        Dispatch_loop Q T di iq
          = ([], iq ++ di.map (fun i => { i with issue_cycle := T + 1 }))) := by
  rw [Dispatch_loop_eq]
  have hA := to_size_t_lt (Q : Int)
  by_cases h : di = [] ∨ (to_size_t (Q : Int) + 2 ^ 64 - iq.length % 2 ^ 64) % 2 ^ 64 ≥ di.length
  · rw [if_pos h]
    right
    refine ⟨?_, rfl⟩
    rcases h with h | h
    · simp [h, hiq]
    · omega
  · rw [if_neg h]
    exact Or.inl rfl

theorem Issue_loop_length (n : Nat) (iq : List Instruction) :
    (Issue_loop n iq).1.length + (Issue_loop n iq).2.length = iq.length := by
  induction iq generalizing n with
  | nil => simp [Issue_loop]
  | cons a iq ih =>
    cases n with
    | zero => simp [Issue_loop]
    | succ n =>
      unfold Issue_loop
      split
      · have := ih n
        simp only [List.length_cons]
        omega
      · have := ih (n + 1)
        simp only [List.length_cons]
        omega

theorem Issue_loop_issued_le (n : Nat) (iq : List Instruction) :
    (Issue_loop n iq).2.length ≤ n := by
  induction iq generalizing n with
  | nil => simp [Issue_loop]
  | cons a iq ih =>
    cases n with
    | zero => simp [Issue_loop]
    | succ n =>
      unfold Issue_loop
      split
      · have := ih n
        simp only [List.length_cons]
        omega
      · exact ih (n + 1)

theorem Issue_loop_kept_sublist (n : Nat) (iq : List Instruction) :
    (Issue_loop n iq).1.Sublist iq := by
  induction iq generalizing n with
  | nil => simp [Issue_loop]
  | cons a iq ih =>
    cases n with
    | zero => simp [Issue_loop]
    | succ n =>
      unfold Issue_loop
      split
      · exact List.Sublist.cons _ (ih n)
      · exact List.Sublist.cons₂ _ (ih (n + 1))

theorem Issue_loop_issued (n : Nat) (iq : List Instruction) :
    ∀ x ∈ (Issue_loop n iq).2, ∃ y ∈ iq, x = { y with execute_duration := 0 } ∧
      y.src1_ready = true ∧ y.src2_ready = true := by
  induction iq generalizing n with
  | nil => simp [Issue_loop]
  | cons a iq ih =>
    cases n with
    | zero => simp [Issue_loop]
    | succ n =>
      unfold Issue_loop
      split
      · rename_i hr
        intro x hx
        rcases List.mem_cons.mp hx with h | h
        · exact ⟨a, List.mem_cons_self _ _, h, hr.1, hr.2⟩
        · obtain ⟨y, hy, hxy⟩ := ih n x h
          exact ⟨y, List.mem_cons_of_mem _ hy, hxy⟩
      · intro x hx
        obtain ⟨y, hy, hxy⟩ := ih (n + 1) x hx
        exact ⟨y, List.mem_cons_of_mem _ hy, hxy⟩

/-- What `Issue` removes from `IQ` and what it leaves are, together, the old `IQ`. -/
theorem Issue_loop_perm (n : Nat) (iq : List Instruction) (f : Instruction → Ident)
    (hf : ∀ y : Instruction, f { y with execute_duration := 0 } = f y) :
    ((Issue_loop n iq).1.map f ++ (Issue_loop n iq).2.map f).Perm (iq.map f) := by
  induction iq generalizing n with
  | nil => simp [Issue_loop]
  | cons a iq ih =>
    cases n with
    | zero => simp [Issue_loop]
    | succ n =>
      unfold Issue_loop
      split
      · simp only [List.map_cons]
        rw [hf]
        exact List.perm_middle.trans (List.Perm.cons _ (ih n))
      · simp only [List.map_cons, List.cons_append]
        exact List.Perm.cons _ (ih (n + 1))

/-! ### Execute -/

theorem wake_all_nil : wake_all [] = id := rfl

theorem wake_all_RR_nil : wake_all_RR [] = id := rfl

theorem wake_all_cons (d : Int) (ds : List Int) :
    wake_all (d :: ds) = wake_all ds ∘ wake d := rfl

theorem wake_all_RR_cons (d : Int) (ds : List Int) :
    wake_all_RR (d :: ds) = wake_all_RR ds ∘ wake_RR d := rfl

theorem Execute_loop_frame (rest : List Instruction) (s : State) :
    (Execute_loop rest s).trace = s.trace ∧
    (Execute_loop rest s).DE = s.DE ∧
    (Execute_loop rest s).RN = s.RN ∧
    (Execute_loop rest s).completed_intstructions = s.completed_intstructions ∧
    (Execute_loop rest s).retire_map = s.retire_map ∧
    (Execute_loop rest s).reorder_buffer = s.reorder_buffer ∧
    (Execute_loop rest s).RMT = s.RMT ∧
    (Execute_loop rest s).total_instructions = s.total_instructions ∧
    (Execute_loop rest s).total_cycles = s.total_cycles ∧
    (Execute_loop rest s).retired_instructions = s.retired_instructions ∧
    (Execute_loop rest s).rob_head = s.rob_head ∧
    (Execute_loop rest s).rob_tail = s.rob_tail ∧
    (Execute_loop rest s).rob_full = s.rob_full := by
  induction rest generalizing s with
  | nil => simp [Execute_loop]
  | cons a rest ih =>
    unfold Execute_loop
    simp only
    split
    · have := ih { s with
          WB := s.WB ++ [execute_tick s.total_cycles a]
          IQ := s.IQ.map (wake (execute_tick s.total_cycles a).dest)
          DI := s.DI.map (wake (execute_tick s.total_cycles a).dest)
          RR := s.RR.map (wake_RR (execute_tick s.total_cycles a).dest) }
      simpa using this
    · have := ih { s with execute_list := s.execute_list ++ [execute_tick s.total_cycles a] }
      simpa using this

theorem Execute_loop_lists (rest : List Instruction) (s : State) :
    (Execute_loop rest s).execute_list = s.execute_list ++
      (rest.map (execute_tick s.total_cycles)).filter (fun i => !execute_completed i) ∧
    (Execute_loop rest s).WB = s.WB ++
      (rest.map (execute_tick s.total_cycles)).filter execute_completed ∧
    (Execute_loop rest s).IQ = s.IQ.map (wake_all
      (((rest.map (execute_tick s.total_cycles)).filter execute_completed).map
        fun i => i.dest)) ∧
    (Execute_loop rest s).DI = s.DI.map (wake_all
      (((rest.map (execute_tick s.total_cycles)).filter execute_completed).map
        fun i => i.dest)) ∧
    (Execute_loop rest s).RR = s.RR.map (wake_all_RR
      (((rest.map (execute_tick s.total_cycles)).filter execute_completed).map
        fun i => i.dest)) := by
  induction rest generalizing s with
  | nil => simp [Execute_loop, wake_all_nil, wake_all_RR_nil]
  | cons a rest ih =>
    unfold Execute_loop
    simp only
    by_cases h : execute_completed (execute_tick s.total_cycles a) = true
    · rw [if_pos h]
      have := ih { s with
          WB := s.WB ++ [execute_tick s.total_cycles a]
          IQ := s.IQ.map (wake (execute_tick s.total_cycles a).dest)
          DI := s.DI.map (wake (execute_tick s.total_cycles a).dest)
          RR := s.RR.map (wake_RR (execute_tick s.total_cycles a).dest) }
      simp only at this
      obtain ⟨h1, h2, h3, h4, h5⟩ := this
      rw [h1, h2, h3, h4, h5]
      simp [h, List.filter_cons, wake_all_cons, wake_all_RR_cons]
    · rw [if_neg h]
      have := ih { s with execute_list := s.execute_list ++ [execute_tick s.total_cycles a] }
      simp only at this
      obtain ⟨h1, h2, h3, h4, h5⟩ := this
      rw [h1, h2, h3, h4, h5]
      simp [h, List.filter_cons]

end SimProc

namespace SimProc

/-! ## Preservation of the structural invariant -/

theorem ident_wake (d : Int) (i : Instruction) : (wake d i).ident = i.ident := rfl

theorem ident_wake_RR (d : Int) (i : Instruction) : (wake_RR d i).ident = i.ident := rfl

theorem ident_wake_all (ds : List Int) (i : Instruction) : (wake_all ds i).ident = i.ident := by
  induction ds generalizing i with
  | nil => rfl
  | cons d ds ih => rw [wake_all_cons, Function.comp_apply, ih, ident_wake]

theorem ident_wake_all_RR (ds : List Int) (i : Instruction) :
    (wake_all_RR ds i).ident = i.ident := by
  induction ds generalizing i with
  | nil => rfl
  | cons d ds ih => rw [wake_all_RR_cons, Function.comp_apply, ih, ident_wake_RR]

theorem ident_execute_tick (T : Nat) (i : Instruction) : (execute_tick T i).ident = i.ident := rfl

theorem ident_regread_instr (T : Nat) (rob : UMap rob_params) (i : Instruction) :
    (regread_instr T rob i).ident = i.ident := rfl

theorem idents_eq (s : State) :
    idents s = s.RR.map Instruction.ident ++ s.DI.map Instruction.ident
      ++ s.IQ.map Instruction.ident ++ s.execute_list.map Instruction.ident
      ++ s.WB.map Instruction.ident ++ s.retire_map.values.map Instruction.ident := by
  simp [idents, live]

theorem map_ident_congr {f : Instruction → Instruction} (hf : ∀ i, (f i).ident = i.ident)
    (l : List Instruction) : (l.map f).map Instruction.ident = l.map Instruction.ident := by
  rw [List.map_map]
  exact List.map_congr_left (fun i _ => hf i)

/-- A step that permutes the renamed instructions, keeps the program-order counters
and establishes the map part of the structural invariant preserves the invariant. -/
theorem SInv.of_perm_maps {p : proc_params} {tr : List Instruction} {s s' : State}
    (h : SInv p tr s) (hid : (idents s').Perm (idents s))
    (h1 : s'.completed_intstructions = s.completed_intstructions)
    (h2 : s'.RN = s.RN) (h3 : s'.DE = s.DE)
    (h6 : s'.total_instructions = s.total_instructions)
    (h7 : s'.retired_instructions = s.retired_instructions)
    (h8 : s'.rob_head = s.rob_head) (h9 : s'.rob_tail = s.rob_tail)
    (h10 : s'.rob_full = s.rob_full) (h11 : s'.trace = s.trace)
    (m1 : s'.retire_map.keys.Nodup)
    (m2 : ∀ k v, s'.retire_map.find k = some v → v.dest = k)
    (m3 : ∀ k e, s'.reorder_buffer.find k = some e → e.ready = true →
      ∃ v, s'.retire_map.find k = some v)
    (m4 : ∀ k v, s'.retire_map.find k = some v →
      ∃ e, s'.reorder_buffer.find k = some e ∧ e.ready = true)
    (m5 : ∀ c ∈ idents s, ∃ e, s'.reorder_buffer.find c.dest = some e ∧
      e.dst = c.original_dest) : SInv p tr s' := by
  have hlen : (idents s').length = (idents s).length := hid.length_eq
  have hmem : ∀ c, c ∈ idents s' ↔ c ∈ idents s := fun c => hid.mem_iff
  constructor
  · rw [h1, h7]; exact h.completed_seq
  · rw [h7, hlen]; exact (hid.map _).trans h.live_seq
  · rw [h2, h3, h7, hlen]; exact h.front_seq
  · rw [h2, h3, h6, h7, hlen]; exact h.total
  · intro c hc; exact h.tag c ((hmem c).mp hc)
  · rw [hlen]; exact h.rob_bound
  · rw [h8, h7]; exact h.head
  · rw [h9, h7, hlen]; exact h.tail
  · rw [h10, hlen]; exact h.full
  · exact m1
  · exact m2
  · exact m3
  · exact m4
  · intro c hc; exact m5 c ((hmem c).mp hc)
  · rw [h1]; exact h.data_completed
  · intro c hc; exact h.data_live c ((hmem c).mp hc)
  · rw [h2, h3]; exact h.data_front
  · rw [h11, h6]; exact h.trace_rest
  · rw [h6]; exact h.total_le

/-- A step that permutes the renamed instructions and leaves everything else of the
structural invariant alone preserves it. -/
theorem SInv.of_perm {p : proc_params} {tr : List Instruction} {s s' : State}
    (h : SInv p tr s) (hid : (idents s').Perm (idents s))
    (h1 : s'.completed_intstructions = s.completed_intstructions)
    (h2 : s'.RN = s.RN) (h3 : s'.DE = s.DE) (h4 : s'.retire_map = s.retire_map)
    (h5 : s'.reorder_buffer = s.reorder_buffer)
    (h6 : s'.total_instructions = s.total_instructions)
    (h7 : s'.retired_instructions = s.retired_instructions)
    (h8 : s'.rob_head = s.rob_head) (h9 : s'.rob_tail = s.rob_tail)
    (h10 : s'.rob_full = s.rob_full) (h11 : s'.trace = s.trace) : SInv p tr s' :=
  h.of_perm_maps hid h1 h2 h3 h6 h7 h8 h9 h10 h11 (h4 ▸ h.rm_keys) (h4 ▸ h.rm_dest)
    (h4 ▸ h5 ▸ h.rob_ready) (h4 ▸ h5 ▸ h.rm_ready) (h5 ▸ h.rob_live)

theorem RMTInv.of_perm_rmt {s s' : State} (h : RMTInv s) (hid : (idents s').Perm (idents s))
    (h1 : s'.RMT = s.RMT) : RMTInv s' := by
  have hmem : ∀ c, c ∈ idents s' ↔ c ∈ idents s := fun c => hid.mem_iff
  constructor
  · intro r t hr
    rw [h1] at hr
    obtain ⟨c, hc, h2, h3, h4⟩ := h.points r t hr
    exact ⟨c, (hmem c).mpr hc, h2, h3, fun c' hc' => h4 c' ((hmem c').mp hc')⟩
  · intro c hc
    rw [h1]
    exact h.mapped c ((hmem c).mp hc)

/-! ### Issue -/

theorem idents_Issue (W : Nat) (s : State) : (idents (Issue W s)).Perm (idents s) := by
  rw [idents_eq, idents_eq]
  have h := Issue_loop_perm W s.IQ Instruction.ident (fun _ => rfl)
  simp only [Issue, List.map_append]
  rw [← Multiset.coe_eq_coe] at h ⊢
  simp only [← Multiset.coe_add] at h ⊢
  rw [← h]
  abel

end SimProc

namespace SimProc

/-! ### Arithmetic of the circular buffer -/

theorem eq_of_mod_eq_of_window {a b N : Nat} (h : a % N = b % N) (h1 : b ≤ a)
    (h2 : a < b + N) : a = b := by
  have h3 := Nat.sub_mod_eq_zero_of_mod_eq h
  have h4 : a - b < N := by omega
  rw [Nat.mod_eq_of_lt h4] at h3
  omega

theorem mod_window_inj {a b r N : Nat} (h : a % N = b % N) (ha : r ≤ a) (ha2 : a < r + N)
    (hb : r ≤ b) (hb2 : b < r + N) : a = b := by
  rcases Nat.le_total a b with hab | hab
  · exact (eq_of_mod_eq_of_window h.symm hab (by omega)).symm
  · exact eq_of_mod_eq_of_window h hab (by omega)

theorem add_mod_cases (a n N : Nat) (hN : 0 < N) (hn : n ≤ N) :
    (a + n) % N = if a % N + n < N then a % N + n else a % N + n - N := by
  rw [← Nat.mod_add_mod]
  have hlt : a % N < N := Nat.mod_lt _ hN
  by_cases h : a % N + n < N
  · rw [if_pos h, Nat.mod_eq_of_lt h]
  · rw [if_neg h, Nat.mod_eq_sub_mod (by omega), Nat.mod_eq_of_lt (by omega)]

/-! ### Consequences of the structural invariant -/

theorem SInv.seq_window {p : proc_params} {tr : List Instruction} {s : State}
    (h : SInv p tr s) {c : Ident} (hc : c ∈ idents s) :
    s.retired_instructions ≤ c.seq_no ∧
      c.seq_no < s.retired_instructions + (idents s).length := by
  have : c.seq_no ∈ (idents s).map (fun c => c.seq_no) := List.mem_map_of_mem _ hc
  exact List.mem_range'_1.mp (h.live_seq.mem_iff.mp this)

theorem SInv.nodup_seq {p : proc_params} {tr : List Instruction} {s : State}
    (h : SInv p tr s) : ((idents s).map (fun c => c.seq_no)).Nodup :=
  h.live_seq.nodup_iff.mpr (List.nodup_range' _ _)

theorem SInv.nodup_idents {p : proc_params} {tr : List Instruction} {s : State}
    (h : SInv p tr s) : (idents s).Nodup :=
  List.Nodup.of_map _ h.nodup_seq

theorem SInv.seq_inj {p : proc_params} {tr : List Instruction} {s : State}
    (h : SInv p tr s) {c c' : Ident} (hc : c ∈ idents s) (hc' : c' ∈ idents s)
    (e : c.seq_no = c'.seq_no) : c = c' :=
  List.inj_on_of_nodup_map h.nodup_seq hc hc' e

theorem SInv.dest_inj {p : proc_params} {tr : List Instruction} {s : State}
    (h : SInv p tr s) {c c' : Ident} (hc : c ∈ idents s) (hc' : c' ∈ idents s)
    (e : c.dest = c'.dest) : c = c' := by
  apply h.seq_inj hc hc'
  have e1 := h.tag c hc
  have e2 := h.tag c' hc'
  rw [e1, e2] at e
  have e3 : c.seq_no % p.rob_size = c'.seq_no % p.rob_size := by exact_mod_cast e
  have w1 := h.seq_window hc
  have w2 := h.seq_window hc'
  have hb := h.rob_bound
  exact mod_window_inj e3 w1.1 (by omega) w2.1 (by omega)

theorem SInv.nodup_dest {p : proc_params} {tr : List Instruction} {s : State}
    (h : SInv p tr s) : ((idents s).map (fun c => c.dest)).Nodup :=
  List.Nodup.map_on (fun _ hx _ hy e => h.dest_inj hx hy e) h.nodup_idents

theorem SInv.rob_pos {p : proc_params} {tr : List Instruction} {s : State}
    (h : SInv p tr s) {c : Ident} (hc : c ∈ idents s) : 0 < p.rob_size := by
  have := h.rob_bound
  have : 0 < (idents s).length := List.length_pos_of_mem hc
  omega

theorem SInv.free_entries_eq {p : proc_params} {tr : List Instruction} {s : State}
    (h : SInv p tr s) :
    free_entries p.rob_size s = (p.rob_size : Int) - ((idents s).length : Int) := by
  have hb := h.rob_bound
  have hh := h.head
  have ht := h.tail
  have hf := h.full
  unfold free_entries
  rcases Nat.eq_zero_or_pos p.rob_size with hN | hN
  · have hn : (idents s).length = 0 := by omega
    rw [hn, Nat.add_zero] at ht
    rw [hn] at hf
    have hfull : s.rob_full = false := by
      cases hs : s.rob_full
      · rfl
      · exact absurd (hf.mp hs).1 (by omega)
    rw [if_pos (by rw [ht, hh]), hfull, hn]
    simp
  · rw [add_mod_cases _ _ _ hN hb] at ht
    have hlt : s.retired_instructions % p.rob_size < p.rob_size := Nat.mod_lt _ hN
    by_cases hfull : s.rob_full = true
    · have hn := (hf.mp hfull).2
      have : s.rob_tail = s.rob_head := by
        rw [ht, hh, hn]
        rw [if_neg (by omega)]
        omega
      rw [if_pos this, hfull, hn]
      simp
    · have hfull' : ¬ (0 < (idents s).length ∧ (idents s).length = p.rob_size) :=
        fun hc => hfull (hf.mpr hc)
      have hfalse : s.rob_full = false := by
        cases hs : s.rob_full
        · rfl
        · exact absurd hs hfull
      by_cases h0 : (idents s).length = 0
      · have : s.rob_tail = s.rob_head := by
          rw [ht, hh, h0]
          rw [if_pos (by omega)]
          omega
        rw [if_pos this, hfalse, h0]
        simp
      · have hn : (idents s).length < p.rob_size := by
          rcases Nat.lt_or_ge (idents s).length p.rob_size with h1 | h1
          · exact h1
          · exact absurd ⟨by omega, by omega⟩ hfull'
        by_cases hc : s.retired_instructions % p.rob_size + (idents s).length < p.rob_size
        · rw [if_pos hc] at ht
          rw [if_neg (by omega), if_pos (by omega)]
          omega
        · rw [if_neg hc] at ht
          rw [if_neg (by omega), if_neg (by omega)]
          omega

theorem length_idents (s : State) : (idents s).length = inflight s := by
  simp only [idents, live, inflight, List.length_map, List.length_append, UMap.length_values]

theorem mem_idents_of_mem_live {s : State} {i : Instruction} (h : i ∈ live s) :
    i.ident ∈ idents s := List.mem_map_of_mem _ h

/-! ### Stages that only move renamed instructions -/

theorem idents_tick (s : State) : idents (tick s) = idents s := rfl

theorem Execute_frame (s : State) :
    (Execute s).trace = s.trace ∧
    (Execute s).DE = s.DE ∧
    (Execute s).RN = s.RN ∧
    (Execute s).completed_intstructions = s.completed_intstructions ∧
    (Execute s).retire_map = s.retire_map ∧
    (Execute s).reorder_buffer = s.reorder_buffer ∧
    (Execute s).RMT = s.RMT ∧
    (Execute s).total_instructions = s.total_instructions ∧
    (Execute s).total_cycles = s.total_cycles ∧
    (Execute s).retired_instructions = s.retired_instructions ∧
    (Execute s).rob_head = s.rob_head ∧
    (Execute s).rob_tail = s.rob_tail ∧
    (Execute s).rob_full = s.rob_full :=
  Execute_loop_frame s.execute_list { s with execute_list := [] }

/-- The buffers after `Execute`: every entry of `execute_list` is ticked, the completed
ones move to `WB` and wake the instructions of `IQ`, `DI` and `RR`. -/
theorem Execute_lists (s : State) :
    (Execute s).execute_list =
      (s.execute_list.map (execute_tick s.total_cycles)).filter
        (fun i => !execute_completed i) ∧
    (Execute s).WB = s.WB ++
      (s.execute_list.map (execute_tick s.total_cycles)).filter execute_completed ∧
    (Execute s).IQ = s.IQ.map (wake_all
      (((s.execute_list.map (execute_tick s.total_cycles)).filter execute_completed).map
        fun i => i.dest)) ∧
    (Execute s).DI = s.DI.map (wake_all
      (((s.execute_list.map (execute_tick s.total_cycles)).filter execute_completed).map
        fun i => i.dest)) ∧
    (Execute s).RR = s.RR.map (wake_all_RR
      (((s.execute_list.map (execute_tick s.total_cycles)).filter execute_completed).map
        fun i => i.dest)) := by
  have := Execute_loop_lists s.execute_list { s with execute_list := [] }
  simpa [Execute] using this

theorem idents_Execute (s : State) : (idents (Execute s)).Perm (idents s) := by
  obtain ⟨h1, h2, h3, h4, h5⟩ := Execute_lists s
  have hrm := (Execute_frame s).2.2.2.2.1
  rw [idents_eq, idents_eq, h1, h2, h3, h4, h5, hrm]
  have hp := (List.filter_append_perm execute_completed
    (s.execute_list.map (execute_tick s.total_cycles))).map Instruction.ident
  rw [map_ident_congr (ident_execute_tick _), List.map_append] at hp
  rw [map_ident_congr (ident_wake_all _), map_ident_congr (ident_wake_all _),
    map_ident_congr (ident_wake_all_RR _), List.map_append]
  rw [← Multiset.coe_eq_coe] at hp ⊢
  simp only [← Multiset.coe_add] at hp ⊢
  rw [← hp]
  abel

theorem idents_Dispatch (Q : Nat) (s : State) : (idents (Dispatch Q s)).Perm (idents s) := by
  rw [idents_eq, idents_eq]
  simp only [Dispatch]
  rw [Dispatch_loop_eq]
  split
  · simp only [List.map_append, List.map_nil, List.append_nil]
    rw [map_ident_congr (f := fun i => { i with issue_cycle := s.total_cycles + 1 })
      (fun _ => rfl)]
    rw [← Multiset.coe_eq_coe]
    simp only [← Multiset.coe_add]
    abel
  · exact List.Perm.refl _

theorem idents_RegRead (s : State) : (idents (RegRead s)).Perm (idents s) := by
  rw [idents_eq, idents_eq]
  unfold RegRead
  split
  · rename_i h
    have hDI : s.DI = [] := List.isEmpty_iff.mp h
    simp only [RegRead_loop_eq, hDI, List.nil_append, List.map_nil, List.append_nil]
    rw [map_ident_congr (ident_regread_instr _ _)]
  · exact List.Perm.refl _

theorem SInv_tick {p : proc_params} {tr : List Instruction} {s : State} (h : SInv p tr s) :
    SInv p tr (tick s) :=
  h.of_perm (List.Perm.refl _) rfl rfl rfl rfl rfl rfl rfl rfl rfl rfl rfl

theorem SInv_Issue {p : proc_params} {tr : List Instruction} {s : State} (h : SInv p tr s)
    (W : Nat) : SInv p tr (Issue W s) :=
  h.of_perm (idents_Issue W s) rfl rfl rfl rfl rfl rfl rfl rfl rfl rfl rfl

theorem SInv_Execute {p : proc_params} {tr : List Instruction} {s : State} (h : SInv p tr s) :
    SInv p tr (Execute s) := by
  obtain ⟨h1, h2, h3, h4, h5, h6, _, h8, _, h10, h11, h12, h13⟩ := Execute_frame s
  exact h.of_perm (idents_Execute s) h4 h3 h2 h5 h6 h8 h10 h11 h12 h13 h1

theorem SInv_Dispatch {p : proc_params} {tr : List Instruction} {s : State} (h : SInv p tr s)
    (Q : Nat) : SInv p tr (Dispatch Q s) :=
  h.of_perm (idents_Dispatch Q s) rfl rfl rfl rfl rfl rfl rfl rfl rfl rfl rfl

theorem RegRead_frame (s : State) :
    (RegRead s).trace = s.trace ∧
    (RegRead s).DE = s.DE ∧
    (RegRead s).RN = s.RN ∧
    (RegRead s).completed_intstructions = s.completed_intstructions ∧
    (RegRead s).retire_map = s.retire_map ∧
    (RegRead s).reorder_buffer = s.reorder_buffer ∧
    (RegRead s).RMT = s.RMT ∧
    (RegRead s).total_instructions = s.total_instructions ∧
    (RegRead s).total_cycles = s.total_cycles ∧
    (RegRead s).retired_instructions = s.retired_instructions ∧
    (RegRead s).rob_head = s.rob_head ∧
    (RegRead s).rob_tail = s.rob_tail ∧
    (RegRead s).rob_full = s.rob_full ∧
    (RegRead s).IQ = s.IQ ∧ (RegRead s).execute_list = s.execute_list ∧
    (RegRead s).WB = s.WB := by
  unfold RegRead
  split <;> simp

theorem SInv_RegRead {p : proc_params} {tr : List Instruction} {s : State} (h : SInv p tr s) :
    SInv p tr (RegRead s) := by
  obtain ⟨h1, h2, h3, h4, h5, h6, _, h8, _, h10, h11, h12, h13, _⟩ := RegRead_frame s
  exact h.of_perm (idents_RegRead s) h4 h3 h2 h5 h6 h8 h10 h11 h12 h13 h1

theorem RMTInv_tick {s : State} (h : RMTInv s) : RMTInv (tick s) :=
  h.of_perm_rmt (List.Perm.refl _) rfl

theorem RMTInv_Issue {s : State} (h : RMTInv s) (W : Nat) : RMTInv (Issue W s) :=
  h.of_perm_rmt (idents_Issue W s) rfl

theorem RMTInv_Execute {s : State} (h : RMTInv s) : RMTInv (Execute s) :=
  h.of_perm_rmt (idents_Execute s) (Execute_frame s).2.2.2.2.2.2.1

theorem RMTInv_Dispatch {s : State} (h : RMTInv s) (Q : Nat) : RMTInv (Dispatch Q s) :=
  h.of_perm_rmt (idents_Dispatch Q s) rfl

theorem RMTInv_RegRead {s : State} (h : RMTInv s) : RMTInv (RegRead s) :=
  h.of_perm_rmt (idents_RegRead s) (RegRead_frame s).2.2.2.2.2.2.1

end SimProc

namespace SimProc

/-! ### Induction over the loops that thread the state -/

theorem Fetch_loop_induct (P : State → Prop)
    (hstep : ∀ s instr rest, s.trace = instr :: rest → P s → P (Fetch_step instr rest s)) :
    ∀ n s, P s → P (Fetch_loop n s) := by
  intro n
  induction n with
  | zero => intro s hs; exact hs
  | succ n ih =>
    intro s hs
    unfold Fetch_loop
    split
    · exact hs
    · rename_i instr rest htr
      exact ih _ (hstep s instr rest htr hs)

theorem Writeback_loop_induct (P : State → Prop)
    (hstep : ∀ s instr wb, s.WB = instr :: wb → P s → P (Writeback_step instr wb s)) :
    ∀ wb s, s.WB = wb → P s → P (Writeback_loop wb s) := by
  intro wb
  induction wb with
  | nil =>
    intro s hwb hs
    have : ({ s with WB := [] } : State) = s := by
      cases s
      simp_all
    unfold Writeback_loop
    rw [this]
    exact hs
  | cons a wb ih =>
    intro s hwb hs
    unfold Writeback_loop
    exact ih _ rfl (hstep s a wb hwb hs)

theorem Rename_loop_induct (N : Nat) (P : State → Prop)
    (hstep : ∀ s instr rn, s.RN = instr :: rn → P s → P (Rename_step N instr rn s)) :
    ∀ rn s, s.RN = rn → P s → P (Rename_loop N rn s) := by
  intro rn
  induction rn with
  | nil =>
    intro s hrn hs
    have : ({ s with RN := [] } : State) = s := by
      cases s
      simp_all
    unfold Rename_loop
    rw [this]
    exact hs
  | cons a rn ih =>
    intro s hrn hs
    unfold Rename_loop
    exact ih _ rfl (hstep s a rn hrn hs)

theorem Retire_loop_induct (N : Nat) (P : State → Prop)
    (htouch : ∀ s, P s → P (Retire_touch s))
    (hbody : ∀ s, P s →
      (s.reorder_buffer.get (s.rob_head : Int) rob_params.zero).ready = true →
      P (Retire_body N s)) :
    ∀ n s, P s → P (Retire_loop N n s) := by
  intro n
  induction n with
  | zero => intro s hs; exact hs
  | succ n ih =>
    intro s hs
    unfold Retire_loop
    simp only
    split
    · rename_i hr
      exact ih _ (hbody _ (htouch s hs) hr)
    · exact htouch s hs

/-! ### Decode and Fetch -/

theorem SInv_Decode {p : proc_params} {tr : List Instruction} {s : State} (h : SInv p tr s) :
    SInv p tr (Decode s) := by
  unfold Decode
  split
  · rename_i hRN
    have hRN : s.RN = [] := List.isEmpty_iff.mp hRN
    have hmap : (List.map (fun i => ({ i with rename_cycle := s.total_cycles + 1 } : Instruction))
        s.DE).map (fun i => i.seq_no) = s.DE.map (fun i => i.seq_no) := by
      rw [List.map_map]
      rfl
    have hfs := h.front_seq
    have htot := h.total
    have hdf := h.data_front
    rw [hRN] at hfs htot hdf
    simp only [List.nil_append, List.length_nil, Nat.zero_add, Nat.add_zero] at hfs htot hdf
    refine { h with front_seq := ?_, total := ?_, data_front := ?_ }
    · simp only [Decode_loop_eq, hRN, List.nil_append, List.append_nil, List.length_map,
        List.length_nil, Nat.add_zero, hmap]
      exact hfs
    · simp only [Decode_loop_eq, hRN, List.nil_append, List.length_map, List.length_nil,
        Nat.add_zero]
      exact htot
    · simp only [Decode_loop_eq, hRN, List.nil_append, List.append_nil]
      intro i hi
      obtain ⟨j, hj, rfl⟩ := List.mem_map.mp hi
      exact hdf j hj
  · exact h

theorem RMTInv_Decode {s : State} (h : RMTInv s) : RMTInv (Decode s) := by
  unfold Decode
  split
  · exact h.of_perm_rmt (List.Perm.refl _) rfl
  · exact h

theorem getElem?_of_drop_eq_cons {α : Type} {l : List α} {n : Nat} {a : α} {r : List α}
    (h : l.drop n = a :: r) : l[n]? = some a ∧ l.drop (n + 1) = r := by
  constructor
  · have := List.getElem?_drop l n 0
    rw [h] at this
    simpa using this.symm
  · rw [← List.tail_drop, h]
    rfl

/-- The record that `Fetch` pushes on `DE` for the scanned record `instr`. -/
theorem Fetch_step_DE (instr : Instruction) (rest : List Instruction) (s : State) :
    (Fetch_step instr rest s).DE = s.DE ++ [{ instr with
      seq_no := s.total_instructions
      fetch_cycle := s.total_cycles
      original_dest := instr.dest
      original_src1 := instr.src1
      original_src2 := instr.src2
      decode_cycle := s.total_cycles + 1 }] := rfl

theorem SInv_Fetch_step {p : proc_params} {tr : List Instruction} {s : State}
    (h : SInv p tr s) {instr : Instruction} {rest : List Instruction}
    (htr : s.trace = instr :: rest) : SInv p tr (Fetch_step instr rest s) := by
  have hdrop := h.trace_rest
  rw [htr] at hdrop
  obtain ⟨hget, hrest⟩ := getElem?_of_drop_eq_cons hdrop.symm
  have hfs := h.front_seq
  have htot := h.total
  have e1 : idents (Fetch_step instr rest s) = idents s := rfl
  have e2 : (Fetch_step instr rest s).RN = s.RN := rfl
  have e3 : (Fetch_step instr rest s).retired_instructions = s.retired_instructions := rfl
  have e4 : (Fetch_step instr rest s).total_instructions = s.total_instructions + 1 := rfl
  have hlt : s.total_instructions < tr.length := by
    by_contra hc
    rw [List.drop_eq_nil_of_le (by omega)] at hdrop
    exact List.noConfusion hdrop
  refine { h with front_seq := ?_, total := ?_, data_front := ?_, trace_rest := ?_,
                  total_le := hlt }
  · rw [e1, e2, e3, Fetch_step_DE, ← List.append_assoc, List.map_append, hfs]
    simp only [List.map_cons, List.map_nil, List.length_append, List.length_cons,
      List.length_nil]
    rw [← Nat.add_assoc, List.range'_concat]
    simp only [Nat.one_mul]
    rw [htot]
    simp only [Nat.add_assoc]
  · rw [e1, e2, e3, e4, Fetch_step_DE, htot]
    simp only [List.length_append, List.length_cons, List.length_nil]
    omega
  · rw [e2, Fetch_step_DE, ← List.append_assoc]
    intro i hi
    rcases List.mem_append.mp hi with h1 | h1
    · exact h.data_front i h1
    · rw [List.mem_singleton] at h1
      subst h1
      exact ⟨⟨instr, hget, rfl, rfl, rfl, rfl, rfl⟩, rfl, rfl, rfl⟩
  · exact hrest.symm

theorem RMTInv_Fetch_step {s : State} (h : RMTInv s) (instr : Instruction)
    (rest : List Instruction) : RMTInv (Fetch_step instr rest s) :=
  h.of_perm_rmt (List.Perm.refl _) rfl

theorem SInv_Fetch {p : proc_params} {tr : List Instruction} {s : State} (h : SInv p tr s)
    (W : Nat) : SInv p tr (Fetch W s) := by
  unfold Fetch
  split
  · exact Fetch_loop_induct (SInv p tr) (fun _ _ _ htr hs => SInv_Fetch_step hs htr) W s h
  · exact h

theorem RMTInv_Fetch {s : State} (h : RMTInv s) (W : Nat) : RMTInv (Fetch W s) := by
  unfold Fetch
  split
  · exact Fetch_loop_induct RMTInv (fun _ instr rest _ hs => RMTInv_Fetch_step hs instr rest)
      W s h
  · exact h

end SimProc

namespace SimProc

/-! ### Writeback -/

theorem Writeback_step_retire_map (instr0 : Instruction) (wb : List Instruction) (s : State) :
    (Writeback_step instr0 wb s).retire_map = s.retire_map.insert instr0.dest
      { instr0 with writeback_cycle := s.total_cycles, retire_cycle := s.total_cycles + 1 } :=
  rfl

theorem Writeback_step_reorder_buffer (instr0 : Instruction) (wb : List Instruction)
    (s : State) :
    (Writeback_step instr0 wb s).reorder_buffer = s.reorder_buffer.insert instr0.dest
      { s.reorder_buffer.get instr0.dest rob_params.zero with ready := true } := rfl

/-- The tag of an instruction in `WB` is not a key of `retire_map`. -/
theorem SInv.WB_not_in_retire_map {p : proc_params} {tr : List Instruction} {s : State}
    (h : SInv p tr s) {instr0 : Instruction} (hmem : instr0 ∈ s.WB) :
    instr0.dest ∉ s.retire_map.keys := by
  intro hk
  obtain ⟨v, hv⟩ := UMap.find_of_mem_keys hk
  have hvd := h.rm_dest _ _ hv
  have hvm : v ∈ s.retire_map.values := UMap.mem_values_of_find hv
  have hnd := h.nodup_dest
  rw [idents_eq, List.map_append] at hnd
  have hdis := List.disjoint_of_nodup_append hnd
  have h1 : instr0.dest ∈ (s.RR.map Instruction.ident ++ s.DI.map Instruction.ident
      ++ s.IQ.map Instruction.ident ++ s.execute_list.map Instruction.ident
      ++ s.WB.map Instruction.ident).map (fun c => c.dest) := by
    apply List.mem_map.mpr
    exact ⟨instr0.ident, List.mem_append_right _ (List.mem_map_of_mem _ hmem), rfl⟩
  have h2 : instr0.dest ∈ (s.retire_map.values.map Instruction.ident).map (fun c => c.dest) := by
    apply List.mem_map.mpr
    exact ⟨v.ident, List.mem_map_of_mem _ hvm, hvd⟩
  exact hdis h1 h2

theorem idents_Writeback_step {p : proc_params} {tr : List Instruction} {s : State}
    (h : SInv p tr s) {instr0 : Instruction} {wb : List Instruction}
    (hwb : s.WB = instr0 :: wb) : (idents (Writeback_step instr0 wb s)).Perm (idents s) := by
  have hnk := h.WB_not_in_retire_map (hwb ▸ List.mem_cons_self instr0 wb)
  rw [idents_eq, idents_eq, Writeback_step_retire_map, UMap.values_insert,
    UMap.erase_of_not_mem_keys hnk, hwb]
  show (s.RR.map Instruction.ident ++ s.DI.map Instruction.ident
      ++ s.IQ.map Instruction.ident ++ s.execute_list.map Instruction.ident
      ++ wb.map Instruction.ident
      ++ (instr0.ident :: s.retire_map.values.map Instruction.ident)).Perm _
  simp only [List.map_cons]
  rw [← List.singleton_append (l := s.retire_map.values.map Instruction.ident),
    ← List.singleton_append (l := wb.map Instruction.ident)]
  rw [← Multiset.coe_eq_coe]
  simp only [← Multiset.coe_add]
  abel

theorem SInv_Writeback_step {p : proc_params} {tr : List Instruction} {s : State}
    (h : SInv p tr s) {instr0 : Instruction} {wb : List Instruction}
    (hwb : s.WB = instr0 :: wb) : SInv p tr (Writeback_step instr0 wb s) := by
  refine h.of_perm_maps (idents_Writeback_step h hwb) rfl rfl rfl rfl rfl rfl rfl rfl rfl
    ?_ ?_ ?_ ?_ ?_
  · rw [Writeback_step_retire_map]
    exact UMap.keys_insert_nodup h.rm_keys _ _
  · intro k v hf
    rw [Writeback_step_retire_map, UMap.find_insert] at hf
    by_cases hk : k = instr0.dest
    · rw [if_pos hk, Option.some.injEq] at hf
      rw [← hf, hk]
    · rw [if_neg hk] at hf
      exact h.rm_dest k v hf
  · intro k e hf hr
    rw [Writeback_step_reorder_buffer, UMap.find_insert] at hf
    rw [Writeback_step_retire_map, UMap.find_insert]
    by_cases hk : k = instr0.dest
    · rw [if_pos hk]
      exact ⟨_, rfl⟩
    · rw [if_neg hk] at hf ⊢
      exact h.rob_ready k e hf hr
  · intro k v hf
    rw [Writeback_step_retire_map, UMap.find_insert] at hf
    rw [Writeback_step_reorder_buffer, UMap.find_insert]
    by_cases hk : k = instr0.dest
    · rw [if_pos hk]
      exact ⟨_, rfl, rfl⟩
    · rw [if_neg hk] at hf ⊢
      exact h.rm_ready k v hf
  · intro c hc
    rw [Writeback_step_reorder_buffer, UMap.find_insert]
    obtain ⟨e, he, hd⟩ := h.rob_live c hc
    by_cases hk : c.dest = instr0.dest
    · rw [if_pos hk]
      refine ⟨_, rfl, ?_⟩
      rw [← hk, UMap.get_of_find _ he]
      exact hd
    · rw [if_neg hk]
      exact ⟨e, he, hd⟩

theorem RMTInv_Writeback_step {p : proc_params} {tr : List Instruction} {s : State}
    (hs : SInv p tr s) (h : RMTInv s) {instr0 : Instruction} {wb : List Instruction}
    (hwb : s.WB = instr0 :: wb) : RMTInv (Writeback_step instr0 wb s) :=
  h.of_perm_rmt (idents_Writeback_step hs hwb) rfl

theorem SInv_RMTInv_Writeback {p : proc_params} {tr : List Instruction} {s : State}
    (h : SInv p tr s ∧ RMTInv s) : SInv p tr (Writeback s) ∧ RMTInv (Writeback s) :=
  Writeback_loop_induct (fun s => SInv p tr s ∧ RMTInv s)
    (fun _ _ _ hwb hs => ⟨SInv_Writeback_step hs.1 hwb, RMTInv_Writeback_step hs.1 hs.2 hwb⟩)
    s.WB s rfl h

end SimProc

namespace SimProc

/-! ### Retire -/

theorem SInv_Retire_touch {p : proc_params} {tr : List Instruction} {s : State}
    (h : SInv p tr s) : SInv p tr (Retire_touch s) := by
  have e : (Retire_touch s).reorder_buffer
      = s.reorder_buffer.touch (s.rob_head : Int) rob_params.zero := rfl
  refine h.of_perm_maps (List.Perm.refl _) rfl rfl rfl rfl rfl rfl rfl rfl rfl
    h.rm_keys h.rm_dest ?_ ?_ ?_
  · intro k e' hf hr
    rw [e, UMap.find_touch] at hf
    by_cases hk : k = (s.rob_head : Int)
    · rw [if_pos hk, Option.some.injEq] at hf
      cases hfind : s.reorder_buffer.find (s.rob_head : Int) with
      | none =>
        simp only [UMap.get, hfind] at hf
        rw [← hf] at hr
        exact absurd hr (by simp [rob_params.zero])
      | some e0 =>
        rw [UMap.get_of_find _ hfind] at hf
        rw [hk]
        exact h.rob_ready _ e0 hfind (hf ▸ hr)
    · rw [if_neg hk] at hf
      exact h.rob_ready k e' hf hr
  · intro k v hf
    obtain ⟨e0, he0, hr⟩ := h.rm_ready k v hf
    refine ⟨e0, ?_, hr⟩
    rw [e, UMap.find_touch]
    by_cases hk : k = (s.rob_head : Int)
    · rw [if_pos hk, UMap.get_of_find _ (hk ▸ he0)]
    · rw [if_neg hk]
      exact he0
  · intro c hc
    obtain ⟨e0, he0, hd⟩ := h.rob_live c hc
    refine ⟨e0, ?_, hd⟩
    rw [e, UMap.find_touch]
    by_cases hk : c.dest = (s.rob_head : Int)
    · rw [if_pos hk, UMap.get_of_find _ (hk ▸ he0)]
    · rw [if_neg hk]
      exact he0

theorem RMTInv_Retire_touch {s : State} (h : RMTInv s) : RMTInv (Retire_touch s) :=
  h.of_perm_rmt (List.Perm.refl _) rfl

/-- What the structural invariant yields when the head of the ROB is ready. -/
theorem SInv.head_ready {p : proc_params} {tr : List Instruction} {s : State}
    (h : SInv p tr s)
    (hr : (s.reorder_buffer.get (s.rob_head : Int) rob_params.zero).ready = true) :
    ∃ e v, s.reorder_buffer.find (s.rob_head : Int) = some e ∧
      s.retire_map.find (s.rob_head : Int) = some v ∧
      v.dest = (s.rob_head : Int) ∧ v.ident ∈ idents s ∧
      v.seq_no = s.retired_instructions ∧ e.dst = v.original_dest ∧ 0 < p.rob_size := by
  cases hfind : s.reorder_buffer.find (s.rob_head : Int) with
  | none =>
    simp only [UMap.get, hfind] at hr
    exact absurd hr (by simp [rob_params.zero])
  | some e =>
    rw [UMap.get_of_find _ hfind] at hr
    obtain ⟨v, hv⟩ := h.rob_ready _ e hfind hr
    have hvd := h.rm_dest _ _ hv
    have hvm : v ∈ live s := by
      unfold live
      exact List.mem_append_right _ (UMap.mem_values_of_find hv)
    have hvi := mem_idents_of_mem_live hvm
    have hN := h.rob_pos hvi
    have htag : v.dest = ((v.seq_no % p.rob_size : Nat) : Int) := h.tag _ hvi
    have hw : s.retired_instructions ≤ v.seq_no ∧
        v.seq_no < s.retired_instructions + (idents s).length := h.seq_window hvi
    have hb := h.rob_bound
    have hseq : v.seq_no = s.retired_instructions := by
      have e1 : ((v.seq_no % p.rob_size : Nat) : Int) = (s.rob_head : Int) := by
        rw [← htag]
        exact hvd
      have e2 : v.seq_no % p.rob_size = s.retired_instructions % p.rob_size := by
        rw [← h.head]
        exact_mod_cast e1
      exact eq_of_mod_eq_of_window e2 hw.1 (by omega)
    obtain ⟨e', he', hd'⟩ := h.rob_live _ hvi
    have : e' = e := by
      have hvd' : v.ident.dest = (s.rob_head : Int) := hvd
      rw [hvd', hfind] at he'
      exact (Option.some.inj he').symm
    subst this
    exact ⟨e', v, rfl, hv, hvd, hvi, hseq, hd', hN⟩

theorem Retire_body_retire_map {N : Nat} {s : State} {v : Instruction}
    (hv : s.retire_map.find (s.rob_head : Int) = some v) :
    (Retire_body N s).retire_map = s.retire_map.erase (s.rob_head : Int) := by
  show (s.retire_map.touch _ _).erase _ = _
  rw [UMap.touch_of_find _ hv]

theorem Retire_body_completed {N : Nat} {s : State} {v : Instruction}
    (hv : s.retire_map.find (s.rob_head : Int) = some v) :
    (Retire_body N s).completed_intstructions
      = s.completed_intstructions ++ [{ v with RT_cycle := s.total_cycles + 1 }] := by
  have e : (Retire_body N s).completed_intstructions = s.completed_intstructions ++
      [{ s.retire_map.get (s.rob_head : Int) Instruction.zero with
          RT_cycle := s.total_cycles + 1 }] := rfl
  rw [e, UMap.get_of_find _ hv]

theorem idents_Retire_body {p : proc_params} {tr : List Instruction} {s : State}
    (h : SInv p tr s) {N : Nat} {v : Instruction}
    (hv : s.retire_map.find (s.rob_head : Int) = some v) :
    (idents s).Perm (v.ident :: idents (Retire_body N s)) := by
  have hp := (UMap.values_erase_perm h.rm_keys hv).map Instruction.ident
  rw [idents_eq, idents_eq, Retire_body_retire_map hv]
  show (s.RR.map Instruction.ident ++ s.DI.map Instruction.ident
      ++ s.IQ.map Instruction.ident ++ s.execute_list.map Instruction.ident
      ++ s.WB.map Instruction.ident ++ s.retire_map.values.map Instruction.ident).Perm
    (v.ident :: (s.RR.map Instruction.ident ++ s.DI.map Instruction.ident
      ++ s.IQ.map Instruction.ident ++ s.execute_list.map Instruction.ident
      ++ s.WB.map Instruction.ident
      ++ (s.retire_map.erase (s.rob_head : Int)).values.map Instruction.ident))
  rw [List.map_cons] at hp
  rw [← List.singleton_append] at hp ⊢
  rw [← Multiset.coe_eq_coe] at hp ⊢
  simp only [← Multiset.coe_add] at hp ⊢
  rw [hp]
  abel

theorem SInv_Retire_body {p : proc_params} {tr : List Instruction} {s : State}
    (h : SInv p tr s)
    (hr : (s.reorder_buffer.get (s.rob_head : Int) rob_params.zero).ready = true) :
    SInv p tr (Retire_body p.rob_size s) := by
  obtain ⟨e, v, he, hv, hvd, hvi, hseq, hdst, hN⟩ := h.head_ready hr
  have hperm := idents_Retire_body h (N := p.rob_size) hv
  have hlen : (idents s).length = (idents (Retire_body p.rob_size s)).length + 1 := by
    rw [hperm.length_eq]
    rfl
  have hsub : ∀ c, c ∈ idents (Retire_body p.rob_size s) → c ∈ idents s :=
    fun c hc => hperm.mem_iff.mpr (List.mem_cons_of_mem _ hc)
  have hnd : (v.ident :: idents (Retire_body p.rob_size s)).Nodup :=
    hperm.nodup_iff.mp h.nodup_idents
  have hne : ∀ c, c ∈ idents (Retire_body p.rob_size s) → c.dest ≠ (s.rob_head : Int) := by
    intro c hc hcd
    have : c = v.ident := h.dest_inj (hsub c hc) hvi (hcd.trans hvd.symm)
    rw [this] at hc
    exact (List.nodup_cons.mp hnd).1 hc
  have e_ret : (Retire_body p.rob_size s).retired_instructions
      = s.retired_instructions + 1 := rfl
  have e_rob : (Retire_body p.rob_size s).reorder_buffer
      = s.reorder_buffer.erase (s.rob_head : Int) := rfl
  have hb := h.rob_bound
  constructor
  · rw [Retire_body_completed hv, e_ret, List.map_append, h.completed_seq, List.range_succ]
    simp only [List.map_cons, List.map_nil]
    rw [hseq]
  · rw [e_ret]
    have h1 := (hperm.map (fun c => c.seq_no)).symm.trans h.live_seq
    rw [hlen, List.range'_succ, List.map_cons] at h1
    have : v.ident.seq_no = s.retired_instructions := hseq
    rw [this] at h1
    exact h1.cons_inv
  · rw [e_ret]
    have := h.front_seq
    rw [hlen] at this
    have e2 : s.retired_instructions + 1 + (idents (Retire_body p.rob_size s)).length
        = s.retired_instructions + ((idents (Retire_body p.rob_size s)).length + 1) := by omega
    rw [e2]
    exact this
  · rw [e_ret]
    have := h.total
    rw [hlen] at this
    show s.total_instructions = _
    rw [this]
    show _ = s.retired_instructions + 1 + (idents (Retire_body p.rob_size s)).length
      + s.RN.length + s.DE.length
    omega
  · intro c hc
    exact h.tag c (hsub c hc)
  · omega
  · show (s.rob_head + 1) % p.rob_size = (s.retired_instructions + 1) % p.rob_size
    rw [h.head, Nat.mod_add_mod]
  · rw [e_ret]
    have := h.tail
    rw [hlen] at this
    show s.rob_tail = _
    rw [this]
    congr 1
    omega
  · show false = true ↔ _
    constructor
    · intro hc
      exact absurd hc (by simp)
    · intro hc
      omega
  · rw [Retire_body_retire_map hv]
    exact UMap.keys_erase_nodup h.rm_keys _
  · intro k v' hf
    rw [Retire_body_retire_map hv, UMap.find_erase] at hf
    by_cases hk : k = (s.rob_head : Int)
    · rw [if_pos hk] at hf
      exact Option.noConfusion hf
    · rw [if_neg hk] at hf
      exact h.rm_dest k v' hf
  · intro k e' hf hre
    rw [e_rob, UMap.find_erase] at hf
    rw [Retire_body_retire_map hv, UMap.find_erase]
    by_cases hk : k = (s.rob_head : Int)
    · rw [if_pos hk] at hf
      exact Option.noConfusion hf
    · rw [if_neg hk] at hf ⊢
      exact h.rob_ready k e' hf hre
  · intro k v' hf
    rw [Retire_body_retire_map hv, UMap.find_erase] at hf
    rw [e_rob, UMap.find_erase]
    by_cases hk : k = (s.rob_head : Int)
    · rw [if_pos hk] at hf
      exact Option.noConfusion hf
    · rw [if_neg hk] at hf ⊢
      exact h.rm_ready k v' hf
  · intro c hc
    rw [e_rob, UMap.find_erase, if_neg (hne c hc)]
    exact h.rob_live c (hsub c hc)
  · rw [Retire_body_completed hv]
    intro i hi
    rcases List.mem_append.mp hi with h1 | h1
    · exact h.data_completed i h1
    · rw [List.mem_singleton] at h1
      subst h1
      exact h.data_live _ hvi
  · intro c hc
    exact h.data_live c (hsub c hc)
  · exact h.data_front
  · exact h.trace_rest
  · exact h.total_le

theorem RMTInv_Retire_body {p : proc_params} {tr : List Instruction} {s : State}
    (h : SInv p tr s) (hm : RMTInv s)
    (hr : (s.reorder_buffer.get (s.rob_head : Int) rob_params.zero).ready = true) :
    RMTInv (Retire_body p.rob_size s) := by
  obtain ⟨e, v, he, hv, hvd, hvi, hseq, hdst, hN⟩ := h.head_ready hr
  have hperm := idents_Retire_body h (N := p.rob_size) hv
  have hsub : ∀ c, c ∈ idents (Retire_body p.rob_size s) → c ∈ idents s :=
    fun c hc => hperm.mem_iff.mpr (List.mem_cons_of_mem _ hc)
  have hnd : (v.ident :: idents (Retire_body p.rob_size s)).Nodup :=
    hperm.nodup_iff.mp h.nodup_idents
  have hcases : ∀ c, c ∈ idents s → c = v.ident ∨ c ∈ idents (Retire_body p.rob_size s) :=
    fun c hc => List.mem_cons.mp (hperm.mem_iff.mp hc)
  have hnew := SInv_Retire_body h hr
  have hyoung : ∀ c, c ∈ idents (Retire_body p.rob_size s) →
      s.retired_instructions + 1 ≤ c.seq_no := fun c hc => (hnew.seq_window hc).1
  have hget : s.reorder_buffer.get (s.rob_head : Int) rob_params.zero = e :=
    UMap.get_of_find _ he
  obtain ⟨t, ht⟩ := hm.mapped _ hvi
  have hvo : v.ident.original_dest = e.dst := hdst.symm
  rw [hvo] at ht
  have e_rmt : (Retire_body p.rob_size s).RMT
      = if t = (s.rob_head : Int) then s.RMT.erase e.dst else s.RMT := by
    show (if (s.RMT.touch (s.reorder_buffer.get _ _).dst 0).get
        (s.reorder_buffer.get _ _).dst 0 = _ then _ else _) = _
    rw [hget, UMap.touch_of_find _ ht, UMap.get_of_find _ ht]
  obtain ⟨c0, hc0, hc0d, hc0t, hc0y⟩ := hm.points _ _ ht
  by_cases hth : t = (s.rob_head : Int)
  · rw [if_pos hth] at e_rmt
    have hc0v : c0 = v.ident := h.dest_inj hc0 hvi (by rw [hc0t, hth]; exact hvd.symm)
    constructor
    · intro r t' hf
      rw [e_rmt, UMap.find_erase] at hf
      by_cases hk : r = e.dst
      · rw [if_pos hk] at hf
        exact Option.noConfusion hf
      · rw [if_neg hk] at hf
        obtain ⟨c, hc, hcd, hct, hcy⟩ := hm.points r t' hf
        rcases hcases c hc with hcv | hcn
        · rw [hcv, hvo] at hcd
          exact absurd hcd.symm hk
        · exact ⟨c, hcn, hcd, hct, fun c' hc' => hcy c' (hsub c' hc')⟩
    · intro c hc
      rw [e_rmt, UMap.find_erase]
      by_cases hk : c.original_dest = e.dst
      · have h1 := hc0y c (hsub c hc) hk
        rw [hc0v] at h1
        have h2 := hyoung c hc
        have h3 : v.ident.seq_no = s.retired_instructions := hseq
        omega
      · rw [if_neg hk]
        exact hm.mapped c (hsub c hc)
  · rw [if_neg hth] at e_rmt
    constructor
    · intro r t' hf
      rw [e_rmt] at hf
      obtain ⟨c, hc, hcd, hct, hcy⟩ := hm.points r t' hf
      rcases hcases c hc with hcv | hcn
      · exfalso
        rw [hcv, hvo] at hcd
        rw [← hcd, ht, Option.some.injEq] at hf
        rw [hcv] at hct
        have : v.ident.dest = (s.rob_head : Int) := hvd
        rw [this] at hct
        exact hth (hf.trans hct.symm)
      · exact ⟨c, hcn, hcd, hct, fun c' hc' => hcy c' (hsub c' hc')⟩
    · intro c hc
      rw [e_rmt]
      exact hm.mapped c (hsub c hc)

theorem SInv_RMTInv_Retire {p : proc_params} {tr : List Instruction} {s : State}
    (h : SInv p tr s ∧ RMTInv s) (W : Nat) :
    SInv p tr (Retire W p.rob_size s) ∧ RMTInv (Retire W p.rob_size s) :=
  Retire_loop_induct p.rob_size (fun s => SInv p tr s ∧ RMTInv s)
    (fun _ hs => ⟨SInv_Retire_touch hs.1, RMTInv_Retire_touch hs.2⟩)
    (fun _ hs hr => ⟨SInv_Retire_body hs.1 hr, RMTInv_Retire_body hs.1 hs.2 hr⟩)
    W s h

end SimProc

namespace SimProc

/-! ### Rename -/

theorem idents_Rename_step (N : Nat) (instr : Instruction) (rn : List Instruction) (s : State) :
    (idents (Rename_step N instr rn s)).Perm ((rename_instr s instr).ident :: idents s) := by
  rw [idents_eq, idents_eq]
  show (List.map Instruction.ident (s.RR ++ [rename_instr s instr])
      ++ s.DI.map Instruction.ident
      ++ s.IQ.map Instruction.ident ++ s.execute_list.map Instruction.ident
      ++ s.WB.map Instruction.ident ++ s.retire_map.values.map Instruction.ident).Perm _
  rw [List.map_append, List.map_cons, List.map_nil]
  show List.Perm _ ([(rename_instr s instr).ident] ++ (s.RR.map Instruction.ident
      ++ s.DI.map Instruction.ident
      ++ s.IQ.map Instruction.ident ++ s.execute_list.map Instruction.ident
      ++ s.WB.map Instruction.ident ++ s.retire_map.values.map Instruction.ident))
  rw [← Multiset.coe_eq_coe]
  simp only [← Multiset.coe_add]
  abel

/-- The front of `RN` is the oldest instruction that has not been renamed. -/
theorem SInv.front_RN {p : proc_params} {tr : List Instruction} {s : State}
    (h : SInv p tr s) {instr : Instruction} {rn : List Instruction}
    (hRN : s.RN = instr :: rn) :
    instr.seq_no = s.retired_instructions + (idents s).length ∧
    (rn ++ s.DE).map (fun i => i.seq_no)
      = List.range' (s.retired_instructions + (idents s).length + 1)
          (rn.length + s.DE.length) := by
  have hfs := h.front_seq
  rw [hRN] at hfs
  simp only [List.cons_append, List.map_cons, List.length_cons] at hfs
  have e : rn.length + 1 + s.DE.length = (rn.length + s.DE.length) + 1 := by omega
  rw [e, List.range'_succ] at hfs
  exact List.cons.inj hfs

theorem SInv.fresh_tail {p : proc_params} {tr : List Instruction} {s : State}
    (h : SInv p tr s) (hroom : (idents s).length + 1 ≤ p.rob_size) :
    ∀ c ∈ idents s, c.dest ≠ (s.rob_tail : Int) := by
  intro c hc hcd
  rw [h.tag c hc, h.tail] at hcd
  have e : c.seq_no % p.rob_size
      = (s.retired_instructions + (idents s).length) % p.rob_size := by exact_mod_cast hcd
  have hw := h.seq_window hc
  have := mod_window_inj e hw.1 (by omega) (Nat.le_add_right _ _) (by omega)
  omega

theorem SInv_Rename_step {p : proc_params} {tr : List Instruction} {s : State}
    (h : SInv p tr s) {instr : Instruction} {rn : List Instruction}
    (hRN : s.RN = instr :: rn) (hroom : (idents s).length + 1 ≤ p.rob_size) :
    SInv p tr (Rename_step p.rob_size instr rn s) := by
  obtain ⟨hseq, hrest⟩ := h.front_RN hRN
  have hperm := idents_Rename_step p.rob_size instr rn s
  have hlen : (idents (Rename_step p.rob_size instr rn s)).length = (idents s).length + 1 := by
    rw [hperm.length_eq]
    rfl
  have hcases : ∀ c, c ∈ idents (Rename_step p.rob_size instr rn s) →
      c = (rename_instr s instr).ident ∨ c ∈ idents s :=
    fun c hc => List.mem_cons.mp (hperm.mem_iff.mp hc)
  have hfresh := h.fresh_tail hroom
  have hmem : instr ∈ s.RN ++ s.DE := by
    rw [hRN]
    exact List.mem_append_left _ (List.mem_cons_self _ _)
  have hinstr := h.data_front instr hmem
  have e_rob : (Rename_step p.rob_size instr rn s).reorder_buffer
      = s.reorder_buffer.insert (s.rob_tail : Int)
          { ready := false, dst := instr.dest, tag := (s.rob_tail : Int) } := rfl
  have e_ret : (Rename_step p.rob_size instr rn s).retired_instructions
      = s.retired_instructions := rfl
  have e_RN : (Rename_step p.rob_size instr rn s).RN = rn := rfl
  have e_DE : (Rename_step p.rob_size instr rn s).DE = s.DE := rfl
  have hN : 0 < p.rob_size := by omega
  constructor
  · exact h.completed_seq
  · rw [e_ret, hlen, List.range'_concat]
    have h0 : (List.map (fun c : Ident => c.seq_no)
        ((rename_instr s instr).ident :: idents s)).Perm
        ((rename_instr s instr).ident.seq_no
          :: List.range' s.retired_instructions (idents s).length) := by
      rw [List.map_cons]
      exact List.Perm.cons _ h.live_seq
    have h1 := (hperm.map (fun c : Ident => c.seq_no)).trans h0
    have h2 : (rename_instr s instr).ident.seq_no
        = s.retired_instructions + 1 * (idents s).length := by
      rw [Nat.one_mul]
      exact hseq
    rw [h2] at h1
    exact h1.trans (List.perm_append_singleton _ _).symm
  · rw [e_ret, e_RN, e_DE, hlen, ← Nat.add_assoc]
    exact hrest
  · rw [e_ret, e_RN, e_DE, hlen]
    show s.total_instructions = _
    rw [h.total, hRN]
    simp only [List.length_cons]
    omega
  · intro c hc
    rcases hcases c hc with hc | hc
    · rw [hc]
      show (s.rob_tail : Int) = ((instr.seq_no % p.rob_size : Nat) : Int)
      rw [h.tail, hseq]
    · exact h.tag c hc
  · omega
  · exact h.head
  · rw [e_ret, hlen]
    show (s.rob_tail + 1) % p.rob_size = _
    rw [h.tail, Nat.mod_add_mod, Nat.add_assoc]
  · rw [hlen]
    show (if (s.rob_tail + 1) % p.rob_size = s.rob_head then true else s.rob_full) = true ↔ _
    have ht : (s.rob_tail + 1) % p.rob_size
        = (s.retired_instructions + ((idents s).length + 1)) % p.rob_size := by
      rw [h.tail, Nat.mod_add_mod, Nat.add_assoc]
    rw [ht, h.head]
    constructor
    · intro hc
      refine ⟨by omega, ?_⟩
      by_cases hcond : (s.retired_instructions + ((idents s).length + 1)) % p.rob_size
          = s.retired_instructions % p.rob_size
      · have h3 := Nat.sub_mod_eq_zero_of_mod_eq hcond
        have e : s.retired_instructions + ((idents s).length + 1) - s.retired_instructions
            = (idents s).length + 1 := by omega
        rw [e] at h3
        by_contra hne
        rw [Nat.mod_eq_of_lt (by omega)] at h3
        omega
      · rw [if_neg hcond] at hc
        have := (h.full.mp hc).2
        omega
    · intro hc
      have e : s.retired_instructions + ((idents s).length + 1)
          = s.retired_instructions + p.rob_size := by omega
      rw [e, Nat.add_mod_right, if_pos rfl]
  · exact h.rm_keys
  · exact h.rm_dest
  · intro k e hf hr
    rw [e_rob, UMap.find_insert] at hf
    by_cases hk : k = (s.rob_tail : Int)
    · rw [if_pos hk, Option.some.injEq] at hf
      rw [← hf] at hr
      exact absurd hr (by simp)
    · rw [if_neg hk] at hf
      exact h.rob_ready k e hf hr
  · intro k v hf
    have hvi : v.ident ∈ idents s := by
      apply mem_idents_of_mem_live
      unfold live
      exact List.mem_append_right _ (UMap.mem_values_of_find hf)
    have hk : k ≠ (s.rob_tail : Int) := by
      have := hfresh _ hvi
      rw [← h.rm_dest k v hf]
      exact this
    rw [e_rob, UMap.find_insert, if_neg hk]
    exact h.rm_ready k v hf
  · intro c hc
    rw [e_rob, UMap.find_insert]
    rcases hcases c hc with hc | hc
    · rw [hc]
      have : (rename_instr s instr).ident.dest = (s.rob_tail : Int) := rfl
      rw [if_pos this]
      exact ⟨_, rfl, hinstr.2.1⟩
    · rw [if_neg (hfresh c hc)]
      exact h.rob_live c hc
  · exact h.data_completed
  · intro c hc
    rcases hcases c hc with hc | hc
    · rw [hc]
      exact hinstr.1
    · exact h.data_live c hc
  · intro i hi
    apply h.data_front
    rw [hRN]
    rw [e_RN, e_DE] at hi
    rcases List.mem_append.mp hi with h1 | h1
    · exact List.mem_append_left _ (List.mem_cons_of_mem _ h1)
    · exact List.mem_append_right _ h1
  · exact h.trace_rest
  · exact h.total_le

theorem RMTInv_Rename_step {p : proc_params} {tr : List Instruction} {s : State}
    (h : SInv p tr s) (hm : RMTInv s) {instr : Instruction} {rn : List Instruction}
    (hRN : s.RN = instr :: rn) :
    RMTInv (Rename_step p.rob_size instr rn s) := by
  obtain ⟨hseq, -⟩ := h.front_RN hRN
  have hperm := idents_Rename_step p.rob_size instr rn s
  have hcases : ∀ c, c ∈ idents (Rename_step p.rob_size instr rn s) →
      c = (rename_instr s instr).ident ∨ c ∈ idents s :=
    fun c hc => List.mem_cons.mp (hperm.mem_iff.mp hc)
  have hnew : (rename_instr s instr).ident ∈ idents (Rename_step p.rob_size instr rn s) :=
    hperm.mem_iff.mpr (List.mem_cons_self _ _)
  have hold : ∀ c, c ∈ idents s → c ∈ idents (Rename_step p.rob_size instr rn s) :=
    fun c hc => hperm.mem_iff.mpr (List.mem_cons_of_mem _ hc)
  have hmem : instr ∈ s.RN ++ s.DE := by
    rw [hRN]
    exact List.mem_append_left _ (List.mem_cons_self _ _)
  have hinstr := h.data_front instr hmem
  have hod : (rename_instr s instr).ident.original_dest = instr.dest := hinstr.2.1.symm
  have hsq : (rename_instr s instr).ident.seq_no
      = s.retired_instructions + (idents s).length := hseq
  have e_rmt : (Rename_step p.rob_size instr rn s).RMT
      = s.RMT.insert instr.dest (s.rob_tail : Int) := rfl
  constructor
  · intro r t hf
    rw [e_rmt, UMap.find_insert] at hf
    by_cases hk : r = instr.dest
    · rw [if_pos hk, Option.some.injEq] at hf
      refine ⟨_, hnew, by rw [hod, hk], hf, ?_⟩
      intro c' hc' _
      rcases hcases c' hc' with hc | hc
      · rw [hc]
      · have := (h.seq_window hc).2
        omega
    · rw [if_neg hk] at hf
      obtain ⟨c, hc, hcd, hct, hcy⟩ := hm.points r t hf
      refine ⟨c, hold c hc, hcd, hct, ?_⟩
      intro c' hc' hc'd
      rcases hcases c' hc' with hc2 | hc2
      · rw [hc2, hod] at hc'd
        exact absurd hc'd.symm hk
      · exact hcy c' hc2 hc'd
  · intro c hc
    rw [e_rmt, UMap.find_insert]
    by_cases hk : c.original_dest = instr.dest
    · rw [if_pos hk]
      exact ⟨_, rfl⟩
    · rw [if_neg hk]
      rcases hcases c hc with hc2 | hc2
      · rw [hc2, hod] at hk
        exact absurd rfl hk
      · exact hm.mapped c hc2

theorem SInv_RMTInv_Rename {p : proc_params} {tr : List Instruction} {s : State}
    (h : SInv p tr s ∧ RMTInv s) :
    SInv p tr (Rename p.rob_size s) ∧ RMTInv (Rename p.rob_size s) := by
  unfold Rename
  split
  · rename_i hg
    have hfree := h.1.free_entries_eq
    have hb := h.1.rob_bound
    have hroom : (idents s).length + s.RN.length ≤ p.rob_size := by
      have h2 := hg.2
      rw [hfree] at h2
      unfold to_size_t at h2
      omega
    have := Rename_loop_induct p.rob_size
      (fun s => (SInv p tr s ∧ RMTInv s) ∧ (idents s).length + s.RN.length ≤ p.rob_size)
      (fun s instr rn hRN hs => by
        have hr : (idents s).length + 1 ≤ p.rob_size := by
          have := hs.2
          rw [hRN, List.length_cons] at this
          omega
        refine ⟨⟨SInv_Rename_step hs.1.1 hRN hr, RMTInv_Rename_step hs.1.1 hs.1.2 hRN⟩, ?_⟩
        have hl := (idents_Rename_step p.rob_size instr rn s).length_eq
        rw [hl]
        have := hs.2
        rw [hRN, List.length_cons] at this
        show (idents s).length + 1 + rn.length ≤ p.rob_size
        omega)
      s.RN s rfl ⟨h, hroom⟩
    exact this.1
  · exact h

end SimProc

namespace SimProc

/-! ### Occupancy limits -/

theorem Sizes.of_frame {p : proc_params} {s s' : State} (h : Sizes p s)
    (h1 : s'.IQ.length ≤ s.IQ.length) (h2 : s'.DE = s.DE) (h3 : s'.RN = s.RN)
    (h4 : s'.RR.length = s.RR.length) (h5 : s'.DI.length = s.DI.length) : Sizes p s' :=
  ⟨Nat.le_trans h1 h.iq, h2 ▸ h.de, h3 ▸ h.rn, h4 ▸ h.rr, h5 ▸ h.di⟩

theorem Sizes_Retire {p : proc_params} {s : State} (h : Sizes p s) (W N : Nat) :
    Sizes p (Retire W N s) :=
  Retire_loop_induct N (Sizes p)
    (fun _ hs => hs.of_frame (Nat.le_refl _) rfl rfl rfl rfl)
    (fun _ hs _ => hs.of_frame (Nat.le_refl _) rfl rfl rfl rfl) W s h

theorem Sizes_Writeback {p : proc_params} {s : State} (h : Sizes p s) :
    Sizes p (Writeback s) :=
  Writeback_loop_induct (Sizes p)
    (fun _ _ _ _ hs => hs.of_frame (Nat.le_refl _) rfl rfl rfl rfl) s.WB s rfl h

theorem Sizes_Execute {p : proc_params} {s : State} (h : Sizes p s) : Sizes p (Execute s) := by
  obtain ⟨_, _, h3, h4, h5⟩ := Execute_lists s
  obtain ⟨_, f2, f3, _⟩ := Execute_frame s
  refine h.of_frame ?_ f2 f3 ?_ ?_
  · rw [h3, List.length_map]
  · rw [h5, List.length_map]
  · rw [h4, List.length_map]

theorem Sizes_Issue {p : proc_params} {s : State} (h : Sizes p s) (W : Nat) :
    Sizes p (Issue W s) :=
  h.of_frame (Issue_loop_kept_sublist W s.IQ).length_le rfl rfl rfl rfl

theorem Sizes_Dispatch {p : proc_params} {s : State} (h : Sizes p s) :
    Sizes p (Dispatch p.iq_size s) := by
  rcases Dispatch_loop_cases p.iq_size s.total_cycles s.DI s.IQ h.iq with hc | ⟨hfit, hc⟩
  · exact ⟨by show (Dispatch_loop _ _ _ _).2.length ≤ _; rw [hc]; exact h.iq, h.de, h.rn, h.rr,
      by show (Dispatch_loop _ _ _ _).1.length ≤ _; rw [hc]; exact h.di⟩
  · refine ⟨?_, h.de, h.rn, h.rr, ?_⟩
    · show (Dispatch_loop _ _ _ _).2.length ≤ _
      rw [hc]
      simpa using hfit
    · show (Dispatch_loop _ _ _ _).1.length ≤ _
      rw [hc]
      exact Nat.zero_le _

theorem Sizes_RegRead {p : proc_params} {s : State} (h : Sizes p s) : Sizes p (RegRead s) := by
  unfold RegRead
  split
  · rename_i hDI
    have hDI : s.DI = [] := List.isEmpty_iff.mp hDI
    refine ⟨h.iq, h.de, h.rn, Nat.zero_le _, ?_⟩
    show (RegRead_loop _ _ _ _).length ≤ _
    rw [RegRead_loop_eq, hDI, List.nil_append, List.length_map]
    exact h.rr
  · exact h

theorem Sizes_Rename {p : proc_params} {s : State} (h : Sizes p s) (N : Nat) :
    Sizes p (Rename N s) := by
  unfold Rename
  split
  · rename_i hg
    have hRR : s.RR = [] := List.isEmpty_iff.mp hg.1
    have := Rename_loop_induct N
      (fun s' => s'.IQ.length ≤ to_size_t (p.iq_size : Int) ∧ s'.DE.length ≤ p.width ∧
        s'.DI.length ≤ p.width ∧ s'.RR.length + s'.RN.length ≤ p.width)
      (fun s' instr rn hRN hs => by
        refine ⟨hs.1, hs.2.1, hs.2.2.1, ?_⟩
        have := hs.2.2.2
        rw [hRN, List.length_cons] at this
        show (s'.RR ++ [_]).length + rn.length ≤ _
        rw [List.length_append, List.length_singleton]
        omega)
      s.RN s rfl ⟨h.iq, h.de, h.di, by rw [hRR]; simpa using h.rn⟩
    exact ⟨this.1, this.2.1, by omega, by omega, this.2.2.1⟩
  · exact h

theorem Sizes_Decode {p : proc_params} {s : State} (h : Sizes p s) : Sizes p (Decode s) := by
  unfold Decode
  split
  · rename_i hRN
    have hRN : s.RN = [] := List.isEmpty_iff.mp hRN
    refine ⟨h.iq, Nat.zero_le _, ?_, h.rr, h.di⟩
    show (Decode_loop _ _ _).length ≤ _
    rw [Decode_loop_eq, hRN, List.nil_append, List.length_map]
    exact h.de
  · exact h

theorem Fetch_loop_sizes (n : Nat) (s : State) :
    (Fetch_loop n s).DE.length ≤ s.DE.length + n ∧ (Fetch_loop n s).IQ = s.IQ ∧
      (Fetch_loop n s).RN = s.RN ∧ (Fetch_loop n s).RR = s.RR ∧
      (Fetch_loop n s).DI = s.DI := by
  induction n generalizing s with
  | zero => exact ⟨Nat.le_refl _, rfl, rfl, rfl, rfl⟩
  | succ n ih =>
    unfold Fetch_loop
    split
    · exact ⟨by omega, rfl, rfl, rfl, rfl⟩
    · rename_i instr rest _
      obtain ⟨h1, h2, h3, h4, h5⟩ := ih (Fetch_step instr rest s)
      refine ⟨?_, h2, h3, h4, h5⟩
      rw [Fetch_step_DE, List.length_append, List.length_singleton] at h1
      omega

theorem Sizes_Fetch {p : proc_params} {s : State} (h : Sizes p s) :
    Sizes p (Fetch p.width s) := by
  unfold Fetch
  split
  · rename_i hDE
    have hDE : s.DE = [] := List.isEmpty_iff.mp hDE
    obtain ⟨h1, h2, h3, h4, h5⟩ := Fetch_loop_sizes p.width s
    rw [hDE, List.length_nil, Nat.zero_add] at h1
    exact ⟨h2 ▸ h.iq, h1, h3 ▸ h.rn, h4 ▸ h.rr, h5 ▸ h.di⟩
  · exact h

theorem Sizes_tick {p : proc_params} {s : State} (h : Sizes p s) : Sizes p (tick s) :=
  h.of_frame (Nat.le_refl _) rfl rfl rfl rfl

/-! ### The invariant along the run of the driver -/

theorem Inv_init (p : proc_params) (tr : List Instruction) : Inv p tr (State.init tr) := by
  refine ⟨?_, ?_, ?_⟩
  · constructor
    · rfl
    · exact List.Perm.refl _
    · rfl
    · rfl
    · intro c hc
      exact absurd hc (List.not_mem_nil _)
    · exact Nat.zero_le _
    · show 0 = 0 % p.rob_size
      rw [Nat.zero_mod]
    · show 0 = 0 % p.rob_size
      rw [Nat.zero_mod]
    · show false = true ↔ (0 < 0 ∧ 0 = p.rob_size)
      constructor
      · intro hc
        exact absurd hc (by simp)
      · intro hc
        exact absurd hc.1 (Nat.lt_irrefl 0)
    · exact List.nodup_nil
    · intro k v hf
      exact Option.noConfusion hf
    · intro k e hf
      exact Option.noConfusion hf
    · intro k v hf
      exact Option.noConfusion hf
    · intro c hc
      exact absurd hc (List.not_mem_nil _)
    · intro i hi
      exact absurd hi (List.not_mem_nil _)
    · intro c hc
      exact absurd hc (List.not_mem_nil _)
    · intro i hi
      exact absurd hi (List.not_mem_nil _)
    · rfl
    · exact Nat.zero_le _
  · constructor
    · intro r t hf
      exact Option.noConfusion hf
    · intro c hc
      exact absurd hc (List.not_mem_nil _)
  · exact ⟨Nat.zero_le _, Nat.zero_le _, Nat.zero_le _, Nat.zero_le _, Nat.zero_le _⟩

theorem Inv_stage {p : proc_params} {tr : List Instruction} {s : State} (h : Inv p tr s)
    (k : Nat) : Inv p tr (stage p k s) := by
  obtain ⟨h1, h2, h3⟩ := h
  match k with
  | 0 => exact ⟨(SInv_RMTInv_Retire ⟨h1, h2⟩ _).1, (SInv_RMTInv_Retire ⟨h1, h2⟩ _).2,
      Sizes_Retire h3 _ _⟩
  | 1 => exact ⟨(SInv_RMTInv_Writeback ⟨h1, h2⟩).1, (SInv_RMTInv_Writeback ⟨h1, h2⟩).2,
      Sizes_Writeback h3⟩
  | 2 => exact ⟨SInv_Execute h1, RMTInv_Execute h2, Sizes_Execute h3⟩
  | 3 => exact ⟨SInv_Issue h1 _, RMTInv_Issue h2 _, Sizes_Issue h3 _⟩
  | 4 => exact ⟨SInv_Dispatch h1 _, RMTInv_Dispatch h2 _, Sizes_Dispatch h3⟩
  | 5 => exact ⟨SInv_RegRead h1, RMTInv_RegRead h2, Sizes_RegRead h3⟩
  | 6 => exact ⟨(SInv_RMTInv_Rename ⟨h1, h2⟩).1, (SInv_RMTInv_Rename ⟨h1, h2⟩).2,
      Sizes_Rename h3 _⟩
  | 7 => exact ⟨SInv_Decode h1, RMTInv_Decode h2, Sizes_Decode h3⟩
  | 8 => exact ⟨SInv_Fetch h1 _, RMTInv_Fetch h2 _, Sizes_Fetch h3⟩
  | 9 => exact ⟨SInv_tick h1, RMTInv_tick h2, Sizes_tick h3⟩
  | _ + 10 => exact ⟨h1, h2, h3⟩

theorem Inv_stages {p : proc_params} {tr : List Instruction} {s : State} (h : Inv p tr s)
    (k : Nat) : Inv p tr (stages p k s) := by
  induction k with
  | zero => exact h
  | succ k ih => exact Inv_stage ih k

theorem cycle_eq_stages (p : proc_params) (s : State) : cycle p s = stages p 10 s := rfl

theorem Inv_run (p : proc_params) (tr : List Instruction) (n : Nat) :
    Inv p tr (run p tr n) := by
  induction n with
  | zero => exact Inv_init p tr
  | succ n ih =>
    show Inv p tr (cycle p (run p tr n))
    rw [cycle_eq_stages]
    exact Inv_stages ih 10

theorem Inv_driver_state (p : proc_params) (tr : List Instruction) (n k : Nat) :
    Inv p tr (driver_state p tr n k) :=
  Inv_stages (Inv_run p tr n) k

end SimProc

namespace SimProc

/-! ## Claims on program order, occupancy, the RMT and the tags -/

theorem mem_live_ident {s : State} {c : Ident} (h : c ∈ idents s) :
    ∃ i ∈ live s, i.ident = c := List.mem_map.mp h

theorem map_dest_live (s : State) :
    (live s).map (fun i => i.dest) = (idents s).map (fun c => c.dest) := by
  unfold idents
  rw [List.map_map]
  rfl

theorem SInv.dest_range {p : proc_params} {tr : List Instruction} {s : State}
    (h : SInv p tr s) {i : Instruction} (hi : i ∈ live s) :
    0 ≤ i.dest ∧ i.dest < (p.rob_size : Int) := by
  have hc := mem_idents_of_mem_live hi
  have ht : i.dest = ((i.seq_no % p.rob_size : Nat) : Int) := h.tag _ hc
  have hN := h.rob_pos hc
  have := Nat.mod_lt i.seq_no hN
  omega

theorem completed_get_seq {s : State}
    (h : s.completed_intstructions.map (fun i => i.seq_no)
      = List.range s.retired_instructions)
    (i : Nat) (hi : i < s.completed_intstructions.length) :
    (s.completed_intstructions.get ⟨i, hi⟩).seq_no = i := by
  have h1 : (s.completed_intstructions.map (fun i => i.seq_no))[i]? = some i := by
    rw [h, List.getElem?_range]
    have := congrArg List.length h
    rw [List.length_map, List.length_range] at this
    omega
  rw [List.getElem?_map, List.getElem?_eq_getElem hi] at h1
  simpa using h1

/-- C1 (in-order commit).  In every state of the driver, after any number of cycles
and between any two stage calls, `completed_intstructions` is in program order: its
`i`-th element has `seq_no = i`, so the list is strictly ascending in `seq_no`.  The
property holds for every configuration, the bounds `ROB_SIZE, IQ_SIZE, WIDTH ≥ 1`
of the claim are not needed. -/
theorem C1_in_order_commit (p : proc_params) (tr : List Instruction) (n k : Nat) :
    (∀ i (hi : i < (driver_state p tr n k).completed_intstructions.length),
      ((driver_state p tr n k).completed_intstructions.get ⟨i, hi⟩).seq_no = i) ∧
    (driver_state p tr n k).completed_intstructions.Pairwise
      (fun a b => a.seq_no < b.seq_no) := by
  have h := (Inv_driver_state p tr n k).1.completed_seq
  refine ⟨completed_get_seq h, ?_⟩
  have h2 : ((driver_state p tr n k).completed_intstructions.map
      (fun i => i.seq_no)).Pairwise (fun a b => a < b) := by
    rw [h]
    exact List.pairwise_lt_range _
  exact (List.pairwise_map.mp h2)

/-- C8 (structural limits).  In every state of the driver, between any two stage
calls: `IQ` holds at most `IQ_SIZE` instructions; the renamed and not yet retired
instructions are at most `ROB_SIZE` and exactly `ROB_SIZE - free_entries(ROB_SIZE)`;
`rob_head` and `rob_tail` are below `ROB_SIZE`; and `DE`, `RN`, `RR`, `DI` hold at
most `WIDTH` instructions each.  Only `ROB_SIZE ≥ 1` is needed. -/
theorem C8_structural_limits (p : proc_params) (tr : List Instruction) (n k : Nat)
    (hrob : 1 ≤ p.rob_size) :
    (driver_state p tr n k).IQ.length ≤ p.iq_size ∧
    inflight (driver_state p tr n k) ≤ p.rob_size ∧
    (inflight (driver_state p tr n k) : Int)
      = (p.rob_size : Int) - free_entries p.rob_size (driver_state p tr n k) ∧
    (driver_state p tr n k).rob_head < p.rob_size ∧
    (driver_state p tr n k).rob_tail < p.rob_size ∧
    (driver_state p tr n k).DE.length ≤ p.width ∧
    (driver_state p tr n k).RN.length ≤ p.width ∧
    (driver_state p tr n k).RR.length ≤ p.width ∧
    (driver_state p tr n k).DI.length ≤ p.width := by
  obtain ⟨h1, _, h3⟩ := Inv_driver_state p tr n k
  have hfree := h1.free_entries_eq
  have hb := h1.rob_bound
  rw [length_idents] at hfree hb
  refine ⟨Nat.le_trans h3.iq (to_size_t_le _), hb, ?_, ?_, ?_, h3.de, h3.rn, h3.rr, h3.di⟩
  · rw [hfree]
    omega
  · rw [h1.head]
    exact Nat.mod_lt _ hrob
  · rw [h1.tail]
    exact Nat.mod_lt _ hrob

/-- The statement of C8 on a trace of two instructions with `ROB_SIZE = IQ_SIZE = 2`
and `WIDTH = 1`, in the fifth cycle after `Rename`. -/
theorem C8_structural_limits_witness :
    1 ≤ (⟨2, 2, 1⟩ : proc_params).rob_size ∧
    (driver_state ⟨2, 2, 1⟩ [mk_instr 0 0 1 2 3, mk_instr 4 1 2 1 (-1)] 4 7).IQ.length ≤ 2 ∧
    inflight (driver_state ⟨2, 2, 1⟩ [mk_instr 0 0 1 2 3, mk_instr 4 1 2 1 (-1)] 4 7) ≤ 2 :=
  ⟨by decide,
   (C8_structural_limits ⟨2, 2, 1⟩ [mk_instr 0 0 1 2 3, mk_instr 4 1 2 1 (-1)] 4 7
      (by decide)).1,
   (C8_structural_limits ⟨2, 2, 1⟩ [mk_instr 0 0 1 2 3, mk_instr 4 1 2 1 (-1)] 4 7
      (by decide)).2.1⟩

theorem Inv_Retire_iter {p : proc_params} {tr : List Instruction} {s : State}
    (h : SInv p tr s ∧ RMTInv s) (j : Nat) :
    SInv p tr (Retire_touch (Retire_loop p.rob_size j s)) ∧
      RMTInv (Retire_touch (Retire_loop p.rob_size j s)) := by
  have := SInv_RMTInv_Retire h j
  exact ⟨SInv_Retire_touch this.1, RMTInv_Retire_touch this.2⟩

theorem RMTInv.live_points {s : State} (h : RMTInv s) (r t : Int)
    (hf : s.RMT.find r = some t) :
    ∃ i ∈ live s, i.original_dest = r ∧ i.dest = t ∧
      ∀ j ∈ live s, j.original_dest = r → j.seq_no ≤ i.seq_no := by
  obtain ⟨c, hc, h1, h2, h3⟩ := h.points r t hf
  obtain ⟨i, hi, rfl⟩ := mem_live_ident hc
  exact ⟨i, hi, h1, h2, fun j hj hjr => h3 j.ident (mem_idents_of_mem_live hj) hjr⟩

/-- C9 (the RMT points at the youngest in-flight producer).  In every state of the
driver, between any two stage calls, and for every register value `r`: `RMT` has a
mapping for `r` exactly when some renamed, not yet retired instruction has the
architectural destination `r`, and the mapping is the ROB tag of the youngest such
instruction.  Moreover, at every iteration of the loop of `Retire` whose head is
ready, the lookup `RMT[reorder_buffer[rob_head].dst]` finds an existing entry, and
after the iteration every remaining writer of a register is still covered by a
mapping to the tag of the youngest remaining writer (so retiring the first of two
writers of `r` leaves `RMT[r]` at the tag of the second). -/
theorem C9_rmt_youngest_producer (p : proc_params) (tr : List Instruction) (n k : Nat) :
    (∀ r, (∃ t, (driver_state p tr n k).RMT.find r = some t) ↔
      ∃ i ∈ live (driver_state p tr n k), i.original_dest = r) ∧
    (∀ r t, (driver_state p tr n k).RMT.find r = some t →
      ∃ i ∈ live (driver_state p tr n k), i.original_dest = r ∧ i.dest = t ∧
        ∀ j ∈ live (driver_state p tr n k), j.original_dest = r → j.seq_no ≤ i.seq_no) ∧
    (∀ j, ((Retire_touch (Retire_loop p.rob_size j (driver_state p tr n k))).reorder_buffer.get
        ((Retire_touch (Retire_loop p.rob_size j (driver_state p tr n k))).rob_head : Int)
        rob_params.zero).ready = true →
      (∃ t, (Retire_touch (Retire_loop p.rob_size j (driver_state p tr n k))).RMT.find
        ((Retire_touch (Retire_loop p.rob_size j
          (driver_state p tr n k))).reorder_buffer.get
          ((Retire_touch (Retire_loop p.rob_size j (driver_state p tr n k))).rob_head : Int)
          rob_params.zero).dst = some t) ∧
      ∀ w ∈ live (Retire_body p.rob_size
          (Retire_touch (Retire_loop p.rob_size j (driver_state p tr n k)))),
        ∃ t y, (Retire_body p.rob_size
            (Retire_touch (Retire_loop p.rob_size j (driver_state p tr n k)))).RMT.find
              w.original_dest = some t ∧
          y ∈ live (Retire_body p.rob_size
            (Retire_touch (Retire_loop p.rob_size j (driver_state p tr n k)))) ∧
          y.original_dest = w.original_dest ∧ y.dest = t ∧ w.seq_no ≤ y.seq_no) := by
  obtain ⟨h1, h2, _⟩ := Inv_driver_state p tr n k
  refine ⟨?_, h2.live_points, ?_⟩
  · intro r
    constructor
    · rintro ⟨t, ht⟩
      obtain ⟨i, hi, h3, _⟩ := h2.live_points r t ht
      exact ⟨i, hi, h3⟩
    · rintro ⟨i, hi, hr⟩
      rw [← hr]
      exact h2.mapped _ (mem_idents_of_mem_live hi)
  · intro j hr
    obtain ⟨g1, g2⟩ := Inv_Retire_iter ⟨h1, h2⟩ j
    constructor
    · obtain ⟨e, v, he, hv, hvd, hvi, hseq, hdst, hN⟩ := g1.head_ready hr
      rw [UMap.get_of_find _ he, hdst]
      exact g2.mapped _ hvi
    · intro w hw
      have g3 := RMTInv_Retire_body g1 g2 hr
      obtain ⟨t, ht⟩ := g3.mapped _ (mem_idents_of_mem_live hw)
      obtain ⟨y, hy, hy1, hy2, hy3⟩ := g3.live_points _ t ht
      exact ⟨t, y, ht, hy, hy1, hy2, hy3 w hw rfl⟩

theorem Rename_loop_frame (N : Nat) (rn : List Instruction) (s : State) :
    (Rename_loop N rn s).DI = s.DI ∧ (Rename_loop N rn s).IQ = s.IQ ∧
    (Rename_loop N rn s).execute_list = s.execute_list ∧ (Rename_loop N rn s).WB = s.WB ∧
    (Rename_loop N rn s).retire_map = s.retire_map := by
  induction rn generalizing s with
  | nil => exact ⟨rfl, rfl, rfl, rfl, rfl⟩
  | cons a rn ih =>
    unfold Rename_loop
    exact ih (Rename_step N a rn s)

/-- C10 (no tag is reused while live).  In every state of the driver, between any
two stage calls, the renamed and not yet retired instructions (those of `RR`, `DI`,
`IQ`, `execute_list`, `WB` and `retire_map`) have pairwise distinct ROB tags, each in
`[0, ROB_SIZE)`; and no instruction that `Rename` puts into `RR` receives the tag of
an instruction that was renamed and not yet retired before the call. -/
theorem C10_tags_distinct (p : proc_params) (tr : List Instruction) (n k : Nat) :
    ((live (driver_state p tr n k)).map (fun i => i.dest)).Nodup ∧
    (∀ i ∈ live (driver_state p tr n k), 0 ≤ i.dest ∧ i.dest < (p.rob_size : Int)) ∧
    (∀ x ∈ (Rename p.rob_size (driver_state p tr n k)).RR,
      x ∉ (driver_state p tr n k).RR →
      ∀ i ∈ live (driver_state p tr n k), x.dest ≠ i.dest) := by
  obtain ⟨h1, h2, _⟩ := Inv_driver_state p tr n k
  refine ⟨?_, fun i hi => h1.dest_range hi, ?_⟩
  · rw [map_dest_live]
    exact h1.nodup_dest
  · intro x hx hnx i hi
    have g := (SInv_RMTInv_Rename ⟨h1, h2⟩).1.nodup_dest
    rw [← map_dest_live] at g
    revert hx g
    unfold Rename
    split
    · rename_i hg
      intro hx g
      have hRR : (driver_state p tr n k).RR = [] := List.isEmpty_iff.mp hg.1
      obtain ⟨f1, f2, f3, f4, f5⟩ := Rename_loop_frame p.rob_size
        (driver_state p tr n k).RN (driver_state p tr n k)
      have hi' : i ∈ (Rename_loop p.rob_size (driver_state p tr n k).RN
          (driver_state p tr n k)).DI ++ (Rename_loop p.rob_size (driver_state p tr n k).RN
          (driver_state p tr n k)).IQ ++ (Rename_loop p.rob_size (driver_state p tr n k).RN
          (driver_state p tr n k)).execute_list ++ (Rename_loop p.rob_size
          (driver_state p tr n k).RN (driver_state p tr n k)).WB
          ++ (Rename_loop p.rob_size (driver_state p tr n k).RN
          (driver_state p tr n k)).retire_map.values := by
        rw [f1, f2, f3, f4, f5]
        unfold live at hi
        rw [hRR, List.nil_append] at hi
        exact hi
      unfold live at g
      simp only [List.append_assoc] at g hi'
      rw [List.map_append] at g
      have hdis := List.disjoint_of_nodup_append g
      intro heq
      exact hdis (List.mem_map_of_mem _ hx) (heq ▸ List.mem_map_of_mem (fun i => i.dest) hi')
    · intro hx _
      exact absurd hx hnx

end SimProc

namespace SimProc

/-! ## Leaving the loop of the driver -/

theorem cycles_cycle (p : proc_params) (n : Nat) (s : State) :
    cycles p n (cycle p s) = cycles p (n + 1) s := by
  induction n with
  | zero => rfl
  | succ n ih =>
    show cycle p (cycles p n (cycle p s)) = cycle p (cycles p (n + 1) s)
    rw [ih]

theorem main_loop_some {p : proc_params} {fuel : Nat} {s0 s : State}
    (h : main_loop p fuel s0 = some s) :
    ∃ n, s = cycles p (n + 1) s0 ∧ Advance_Cycle s = false := by
  induction fuel generalizing s0 with
  | zero => exact Option.noConfusion h
  | succ fuel ih =>
    unfold main_loop at h
    simp only at h
    by_cases ha : Advance_Cycle (cycle p s0) = true
    · rw [if_pos ha] at h
      obtain ⟨n, hn, hadv⟩ := ih h
      exact ⟨n + 1, by rw [hn, cycles_cycle], hadv⟩
    · rw [if_neg ha, Option.some.injEq] at h
      refine ⟨0, h.symm, ?_⟩
      rw [← h]
      simpa using ha

theorem Fetch_loop_DE_ne_nil (n : Nat) (s : State) (h : s.DE ≠ []) :
    (Fetch_loop n s).DE ≠ [] := by
  induction n generalizing s with
  | zero => exact h
  | succ n ih =>
    unfold Fetch_loop
    split
    · exact h
    · rename_i instr rest _
      apply ih
      rw [Fetch_step_DE]
      exact List.append_ne_nil_of_right_ne_nil _ (List.cons_ne_nil _ _)

/-- After `Fetch` with `WIDTH ≥ 1`, an empty `DE` means that the trace is exhausted. -/
theorem Fetch_trace_nil {W : Nat} (hW : 1 ≤ W) {s : State} (h : (Fetch W s).DE = []) :
    (Fetch W s).trace = [] := by
  revert h
  unfold Fetch
  split
  · obtain ⟨n, rfl⟩ : ∃ n, W = n + 1 := ⟨W - 1, by omega⟩
    unfold Fetch_loop
    split
    · rename_i htr
      intro _
      exact htr
    · rename_i instr rest _
      intro h
      exfalso
      refine Fetch_loop_DE_ne_nil n (Fetch_step instr rest s) ?_ h
      rw [Fetch_step_DE]
      exact List.append_ne_nil_of_right_ne_nil _ (List.cons_ne_nil _ _)
  · rename_i hne
    intro h
    rw [h] at hne
    exact absurd rfl hne

theorem Advance_Cycle_false {s : State} (h : Advance_Cycle s = false) :
    s.DE = [] ∧ s.RN = [] ∧ s.RR = [] ∧ s.DI = [] ∧ s.IQ = [] ∧ s.retire_map.values = [] ∧
      s.execute_list = [] ∧ s.WB = [] := by
  unfold Advance_Cycle at h
  simp only [Bool.or_eq_false_iff, Bool.not_eq_false', List.isEmpty_iff,
    UMap.isEmpty_iff] at h
  obtain ⟨⟨⟨⟨⟨⟨⟨h1, h2⟩, h3⟩, h4⟩, h5⟩, h6⟩, h7⟩, h8⟩ := h
  exact ⟨h1, h2, h3, h4, h5, h6, h7, h8⟩

theorem completed_get_data {p : proc_params} {tr : List Instruction} {s : State}
    (h : SInv p tr s) (i : Nat) (h1 : i < s.completed_intstructions.length)
    (h2 : i < tr.length) :
    (s.completed_intstructions.get ⟨i, h1⟩).pc = (tr.get ⟨i, h2⟩).pc ∧
    (s.completed_intstructions.get ⟨i, h1⟩).op_type = (tr.get ⟨i, h2⟩).op_type ∧
    (s.completed_intstructions.get ⟨i, h1⟩).original_dest = (tr.get ⟨i, h2⟩).dest ∧
    (s.completed_intstructions.get ⟨i, h1⟩).original_src1 = (tr.get ⟨i, h2⟩).src1 ∧
    (s.completed_intstructions.get ⟨i, h1⟩).original_src2 = (tr.get ⟨i, h2⟩).src2 := by
  have hseq := completed_get_seq h.completed_seq i h1
  obtain ⟨r, hr, g1, g2, g3, g4, g5⟩ :=
    h.data_completed _ (List.get_mem s.completed_intstructions i h1)
  have e : (s.completed_intstructions.get ⟨i, h1⟩).ident.seq_no = i := hseq
  rw [e, List.getElem?_eq_getElem h2, Option.some.injEq] at hr
  have e2 : tr.get ⟨i, h2⟩ = r := hr
  rw [e2]
  exact ⟨g1, g2, g3, g4, g5⟩

/-- C7 (halting means the whole trace was retired).  When the `do … while` loop of
`main` exits, that is when `Advance_Cycle` returns false after an execution of the
loop body, and `WIDTH ≥ 1`, then the trace is exhausted, every record of the trace
was fetched, `retired_instructions` is the number of records of the trace, and
`completed_intstructions` holds the records of the trace, each once and in order: its
`i`-th element has `seq_no = i` and carries the scanned fields of the `i`-th record. -/
theorem C7_halt_retires_all (p : proc_params) (tr : List Instruction) (fuel : Nat)
    (s : State) (hw : 1 ≤ p.width) (hexit : main_loop p fuel (State.init tr) = some s) :
    s.trace = [] ∧
    s.total_instructions = tr.length ∧
    s.retired_instructions = tr.length ∧
    s.completed_intstructions.length = tr.length ∧
    ∀ i (h1 : i < s.completed_intstructions.length) (h2 : i < tr.length),
      (s.completed_intstructions.get ⟨i, h1⟩).seq_no = i ∧
      (s.completed_intstructions.get ⟨i, h1⟩).pc = (tr.get ⟨i, h2⟩).pc ∧
      (s.completed_intstructions.get ⟨i, h1⟩).op_type = (tr.get ⟨i, h2⟩).op_type ∧
      (s.completed_intstructions.get ⟨i, h1⟩).original_dest = (tr.get ⟨i, h2⟩).dest ∧
      (s.completed_intstructions.get ⟨i, h1⟩).original_src1 = (tr.get ⟨i, h2⟩).src1 ∧
      (s.completed_intstructions.get ⟨i, h1⟩).original_src2 = (tr.get ⟨i, h2⟩).src2 := by
  obtain ⟨n, hs, hadv⟩ := main_loop_some hexit
  have hinv : SInv p tr s := by
    rw [hs]
    exact (Inv_run p tr (n + 1)).1
  obtain ⟨e1, e2, e3, e4, e5, e6, e7, e8⟩ := Advance_Cycle_false hadv
  have htrace : s.trace = [] := by
    rw [hs] at e1 ⊢
    exact Fetch_trace_nil hw e1
  have hid : idents s = [] := by
    rw [idents_eq, e3, e4, e5, e6, e7, e8]
    rfl
  have htot := hinv.total
  rw [hid, e1, e2] at htot
  simp only [List.length_nil, Nat.add_zero] at htot
  have hlen : tr.length ≤ s.total_instructions := by
    have := hinv.trace_rest
    rw [htrace] at this
    exact List.drop_eq_nil_iff.mp this.symm
  have htl := hinv.total_le
  have hcl : s.completed_intstructions.length = s.retired_instructions := by
    have := congrArg List.length hinv.completed_seq
    rw [List.length_map, List.length_range] at this
    exact this
  refine ⟨htrace, by omega, by omega, by omega, ?_⟩
  intro i h1 h2
  exact ⟨completed_get_seq hinv.completed_seq i h1, completed_get_data hinv i h1 h2⟩

/-- The loop exits after nine cycles on a trace of one record, and C7 applies to it. -/
theorem C7_halt_retires_all_witness :
    1 ≤ (⟨8, 8, 1⟩ : proc_params).width ∧
    main_loop ⟨8, 8, 1⟩ 20 (State.init [mk_instr 0 0 1 2 3])
      = some (run ⟨8, 8, 1⟩ [mk_instr 0 0 1 2 3] 9) ∧
    (run ⟨8, 8, 1⟩ [mk_instr 0 0 1 2 3] 9).retired_instructions
      = [mk_instr 0 0 1 2 3].length :=
  ⟨by decide, rfl,
    (C7_halt_retires_all ⟨8, 8, 1⟩ [mk_instr 0 0 1 2 3] 20
      (run ⟨8, 8, 1⟩ [mk_instr 0 0 1 2 3] 9) (by decide) rfl).2.2.1⟩

end SimProc

namespace SimProc

/-! ## Preservation of the invariant on time stamps -/

theorem TCore.mono {k k' : Nat} {s : State} (h : TCore k s)
    (hl : ∀ j, late j k ≤ late j k') (h2 : late 2 k = late 2 k') : TCore k' s := by
  constructor
  · intro i hi
    have h1 := h.de i hi
    have := hl 8
    exact ⟨h1.1, by omega⟩
  · intro i hi
    have h1 := h.rn i hi
    have := hl 7
    exact ⟨h1.1, by omega⟩
  · intro i hi
    have h1 := h.rr i hi
    have := hl 6
    exact ⟨h1.1, by omega⟩
  · intro i hi
    have h1 := h.di i hi
    have := hl 5
    exact ⟨h1.1, by omega⟩
  · intro i hi
    have h1 := h.iq i hi
    have := hl 4
    exact ⟨h1.1, by omega⟩
  · intro i hi
    have := h.ex i hi
    rw [← h2]
    exact this
  · intro i hi
    have := h.wb i hi
    rw [← h2]
    exact this
  · intro i hi
    have h1 := h.rm i hi
    have := hl 1
    exact ⟨h1.1, by omega⟩
  · intro i hi
    have h1 := h.completed i hi
    have := hl 0
    exact ⟨h1.1, by omega⟩

theorem late_succ_le (j k : Nat) : late j k ≤ late j (k + 1) := by
  unfold late
  split <;> split <;> omega

theorem TCore.succ {k : Nat} {s : State} (h : TCore k s) (hk : k ≠ 2) : TCore (k + 1) s := by
  apply h.mono (fun j => late_succ_le j k)
  unfold late
  split <;> split <;> omega

theorem late_mono (j : Nat) {k k' : Nat} (hk : k ≤ k') : late j k ≤ late j k' := by
  unfold late
  split <;> split <;> omega

theorem bound_mono {a T j k k' : Nat} (hk : k ≤ k') (h : a ≤ T + late j k) :
    a ≤ T + late j k' :=
  Nat.le_trans h (Nat.add_le_add_left (late_mono j hk) T)

theorem TCore_init (tr : List Instruction) : TCore 0 (State.init tr) := by
  constructor <;> intro i hi <;> exact absurd hi (List.not_mem_nil _)

end SimProc

namespace SimProc

/-! ### Stamps are not touched by the wake-up -/

theorem wake_all_eq (ds : List Int) (i : Instruction) :
    wake_all ds i = { i with src1_ready := (wake_all ds i).src1_ready,
                             src2_ready := (wake_all ds i).src2_ready } := by
  induction ds generalizing i with
  | nil => rfl
  | cons d ds ih =>
    rw [wake_all_cons, Function.comp_apply, ih (wake d i)]
    rfl

theorem wake_all_RR_eq (ds : List Int) (i : Instruction) :
    wake_all_RR ds i = { i with src1_ready := (wake_all_RR ds i).src1_ready,
                                src2_ready := (wake_all_RR ds i).src2_ready,
                                src1_awaken := (wake_all_RR ds i).src1_awaken,
                                src2_awaken := (wake_all_RR ds i).src2_awaken } := by
  induction ds generalizing i with
  | nil => rfl
  | cons d ds ih =>
    rw [wake_all_RR_cons, Function.comp_apply, ih (wake_RR d i)]
    rfl

theorem chain_DI_wake_all {ds : List Int} {i : Instruction} (h : chain_DI i) :
    chain_DI (wake_all ds i) := by
  rw [wake_all_eq]
  exact h

theorem chain_IQ_wake_all {ds : List Int} {i : Instruction} (h : chain_IQ i) :
    chain_IQ (wake_all ds i) := by
  rw [wake_all_eq]
  exact h

theorem chain_RR_wake_all_RR {ds : List Int} {i : Instruction} (h : chain_RR i) :
    chain_RR (wake_all_RR ds i) := by
  rw [wake_all_RR_eq]
  exact h

theorem dispatch_cycle_wake_all (ds : List Int) (i : Instruction) :
    (wake_all ds i).dispatch_cycle = i.dispatch_cycle := by
  rw [wake_all_eq]

theorem issue_cycle_wake_all (ds : List Int) (i : Instruction) :
    (wake_all ds i).issue_cycle = i.issue_cycle := by
  rw [wake_all_eq]

theorem regread_cycle_wake_all_RR (ds : List Int) (i : Instruction) :
    (wake_all_RR ds i).regread_cycle = i.regread_cycle := by
  rw [wake_all_RR_eq]

/-! ### Retire -/

theorem TCore_Retire_touch {s : State} (h : TCore 1 s) : TCore 1 (Retire_touch s) :=
  ⟨h.de, h.rn, h.rr, h.di, h.iq, h.ex, h.wb, h.rm, h.completed⟩

theorem TCore_Retire_body {p : proc_params} {tr : List Instruction} {s : State}
    (hs : SInv p tr s) (h : TCore 1 s)
    (hr : (s.reorder_buffer.get (s.rob_head : Int) rob_params.zero).ready = true) :
    TCore 1 (Retire_body p.rob_size s) := by
  obtain ⟨e, v, he, hv, hvd, hvi, hseq, hdst, hN⟩ := hs.head_ready hr
  have hvm : v ∈ s.retire_map.values := UMap.mem_values_of_find hv
  refine ⟨h.de, h.rn, h.rr, h.di, h.iq, h.ex, h.wb, ?_, ?_⟩
  · intro i hi
    rw [Retire_body_retire_map hv] at hi
    exact h.rm i (UMap.mem_values_erase hi)
  · intro i hi
    rw [Retire_body_completed hv] at hi
    rcases List.mem_append.mp hi with h1 | h1
    · exact h.completed i h1
    · rw [List.mem_singleton] at h1
      subst h1
      have hv2 := h.rm v hvm
      have hl : late 1 1 = 0 := rfl
      have hl0 : late 0 1 = 1 := rfl
      rw [hl] at hv2
      rw [hl0]
      exact ⟨⟨hv2.1, by show v.retire_cycle + 1 ≤ s.total_cycles + 1; omega⟩, Nat.le_refl _⟩

theorem TInv_Retire {p : proc_params} {tr : List Instruction} {s : State}
    (hs : SInv p tr s) (h : TInv 0 s) (W : Nat) : TInv 1 (Retire W p.rob_size s) := by
  have := Retire_loop_induct p.rob_size (fun s => SInv p tr s ∧ TCore 1 s)
    (fun _ hs => ⟨SInv_Retire_touch hs.1, TCore_Retire_touch hs.2⟩)
    (fun _ hs hr => ⟨SInv_Retire_body hs.1 hr, TCore_Retire_body hs.1 hs.2 hr⟩)
    W s ⟨hs, h.1.succ (by decide)⟩
  exact ⟨this.2, fun hk => absurd hk (by decide)⟩

/-! ### Writeback -/

theorem TCore_Writeback_step {s : State} (h : TCore 2 s) {instr0 : Instruction}
    {wb : List Instruction} (hwb : s.WB = instr0 :: wb) :
    TCore 2 (Writeback_step instr0 wb s) := by
  refine ⟨h.de, h.rn, h.rr, h.di, h.iq, h.ex, ?_, ?_, h.completed⟩
  · intro i hi
    exact h.wb i (hwb ▸ List.mem_cons_of_mem _ hi)
  · intro i hi
    rw [Writeback_step_retire_map] at hi
    rcases UMap.mem_values_insert hi with h1 | h1
    · subst h1
      have h0 := h.wb instr0 (hwb ▸ List.mem_cons_self _ _)
      have hl : late 2 2 = 0 := rfl
      have hl1 : late 1 2 = 1 := rfl
      rw [hl] at h0
      rw [hl1]
      obtain ⟨hc, ht⟩ := h0
      refine ⟨⟨hc, ?_, rfl⟩, Nat.le_refl _⟩
      show s.total_cycles = instr0.execute_cycle + latency instr0.op_type
      rw [← hc.2.2.2]
      omega
    · have h1' := h.rm i h1
      have hl1 : late 1 2 = 1 := rfl
      show _ ∧ i.retire_cycle ≤ s.total_cycles + late 1 2
      exact h1'

theorem Writeback_loop_WB (wb : List Instruction) (s : State) :
    (Writeback_loop wb s).WB = [] := by
  induction wb generalizing s with
  | nil => rfl
  | cons a wb ih =>
    unfold Writeback_loop
    exact ih _

theorem TInv_Writeback {s : State} (h : TInv 1 s) : TInv 2 (Writeback s) :=
  ⟨Writeback_loop_induct (TCore 2) (fun _ _ _ hwb hs => TCore_Writeback_step hs hwb)
      s.WB s rfl (h.1.succ (by decide)),
    fun _ => Writeback_loop_WB s.WB s⟩

/-! ### Execute -/

theorem execute_completed_iff (i : Instruction) :
    execute_completed i = true ↔
      i.op_type = 0 ∨ (i.op_type = 1 ∧ i.execute_duration = 2) ∨
        (i.op_type = 2 ∧ i.execute_duration = 5) := by
  unfold execute_completed
  by_cases h0 : i.op_type = 0
  · simp [h0]
  · by_cases h1 : i.op_type = 1 ∧ i.execute_duration = 2
    · simp [h0, h1]
    · by_cases h2 : i.op_type = 2 ∧ i.execute_duration = 5
      · rw [if_neg h0, if_neg h1, if_pos h2]
        simp [h2]
      · rw [if_neg h0, if_neg h1, if_neg h2]
        simp [h0, h1, h2]

theorem TInv_Execute {s : State} (h : TInv 2 s) : TInv 3 (Execute s) := by
  obtain ⟨h, hwbe⟩ := h
  have hWB : s.WB = [] := hwbe rfl
  obtain ⟨l1, l2, l3, l4, l5⟩ := Execute_lists s
  obtain ⟨_, f2, f3, f4, f5, _, _, _, f9, _⟩ := Execute_frame s
  have hl2 : late 2 2 = 0 := rfl
  have hl3 : late 2 3 = 1 := rfl
  have htick : ∀ x ∈ s.execute_list,
      chain_IQ x ∧ x.issue_cycle + 1 ≤ (execute_tick s.total_cycles x).execute_cycle ∧
      (execute_tick s.total_cycles x).execute_cycle
        + (execute_tick s.total_cycles x).execute_duration = s.total_cycles + 1 ∧
      (execute_tick s.total_cycles x).execute_duration = x.execute_duration + 1 ∧
      (x.op_type = 0 → x.execute_duration = 0) ∧
      (x.op_type = 1 → x.execute_duration < 2) ∧
      (x.op_type = 2 → x.execute_duration < 5) := by
    intro x hx
    obtain ⟨g1, g2, g3, g4, g5, g6⟩ := h.ex x hx
    rw [hl2] at g2 g3
    refine ⟨g1, ?_, ?_, rfl, g4, g5, g6⟩
    · show x.issue_cycle + 1 ≤ if x.execute_duration = 0 then s.total_cycles
        else x.execute_cycle
      split
      · rename_i h0
        have := g2 h0
        omega
      · rename_i h0
        exact (g3 (Nat.pos_of_ne_zero h0)).1
    · show (if x.execute_duration = 0 then s.total_cycles else x.execute_cycle)
        + (x.execute_duration + 1) = s.total_cycles + 1
      split
      · rename_i h0
        rw [h0]
      · rename_i h0
        have := (g3 (Nat.pos_of_ne_zero h0)).2
        omega
  constructor
  · constructor
    · rw [f2, f9]
      intro i hi
      exact ⟨(h.de i hi).1, bound_mono (by decide) (h.de i hi).2⟩
    · rw [f3, f9]
      intro i hi
      exact ⟨(h.rn i hi).1, bound_mono (by decide) (h.rn i hi).2⟩
    · rw [l5, f9]
      intro i hi
      obtain ⟨x, hx, rfl⟩ := List.mem_map.mp hi
      refine ⟨chain_RR_wake_all_RR (h.rr x hx).1, ?_⟩
      rw [regread_cycle_wake_all_RR]
      exact bound_mono (by decide) (h.rr x hx).2
    · rw [l4, f9]
      intro i hi
      obtain ⟨x, hx, rfl⟩ := List.mem_map.mp hi
      refine ⟨chain_DI_wake_all (h.di x hx).1, ?_⟩
      rw [dispatch_cycle_wake_all]
      exact bound_mono (by decide) (h.di x hx).2
    · rw [l3, f9]
      intro i hi
      obtain ⟨x, hx, rfl⟩ := List.mem_map.mp hi
      refine ⟨chain_IQ_wake_all (h.iq x hx).1, ?_⟩
      rw [issue_cycle_wake_all]
      exact bound_mono (by decide) (h.iq x hx).2
    · rw [l1, f9]
      intro i hi
      obtain ⟨hi1, hi2⟩ := List.mem_filter.mp hi
      obtain ⟨x, hx, rfl⟩ := List.mem_map.mp hi1
      obtain ⟨g1, g2, g3, g4, g5, g6, g7⟩ := htick x hx
      have hnc : ¬ (execute_completed (execute_tick s.total_cycles x) = true) := by
        simpa using hi2
      rw [execute_completed_iff] at hnc
      have e1 : (execute_tick s.total_cycles x).op_type = x.op_type := rfl
      have e2 : (execute_tick s.total_cycles x).issue_cycle = x.issue_cycle := rfl
      rw [e1, g4] at hnc
      rw [hl3, e1, e2, g4]
      refine ⟨g1, fun h0 => absurd h0 (Nat.succ_ne_zero _), fun _ => ⟨g2, ?_⟩, ?_, ?_, ?_⟩
      · rw [g4] at g3
        exact g3
      · intro h0
        exact absurd (Or.inl h0) hnc
      · intro h1
        have := g6 h1
        by_contra hc
        exact hnc (Or.inr (Or.inl ⟨h1, by omega⟩))
      · intro h2
        have := g7 h2
        by_contra hc
        exact hnc (Or.inr (Or.inr ⟨h2, by omega⟩))
    · rw [l2, f9, hWB, List.nil_append]
      intro i hi
      obtain ⟨hi1, hi2⟩ := List.mem_filter.mp hi
      obtain ⟨x, hx, rfl⟩ := List.mem_map.mp hi1
      obtain ⟨g1, g2, g3, g4, g5, g6, g7⟩ := htick x hx
      rw [execute_completed_iff] at hi2
      have e1 : (execute_tick s.total_cycles x).op_type = x.op_type := rfl
      rw [e1, g4] at hi2
      rw [hl3]
      refine ⟨⟨g1, g2, ?_, ?_⟩, g3⟩
      · rw [e1]
        rcases hi2 with h0 | h1 | h2
        · exact Or.inl h0
        · exact Or.inr (Or.inl h1.1)
        · exact Or.inr (Or.inr h2.1)
      · rw [e1, g4]
        rcases hi2 with h0 | h1 | h2
        · rw [g5 h0, h0]
          rfl
        · rw [h1.2, h1.1]
          rfl
        · rw [h2.2, h2.1]
          rfl
    · rw [f5, f9]
      intro i hi
      exact ⟨(h.rm i hi).1, bound_mono (by decide) (h.rm i hi).2⟩
    · rw [f4, f9]
      intro i hi
      exact ⟨(h.completed i hi).1, bound_mono (by decide) (h.completed i hi).2⟩
  · intro hk
    exact absurd hk (by decide)

end SimProc

namespace SimProc

/-! ### Issue, Dispatch, RegRead, Rename, Decode, Fetch and the end of the cycle -/

theorem TInv_Issue {s : State} (h : TInv 3 s) (W : Nat) : TInv 4 (Issue W s) := by
  have h4 := h.1.succ (by decide)
  have hl : late 4 4 = 0 := rfl
  have hl2 : late 2 4 = 1 := rfl
  refine ⟨⟨h4.de, h4.rn, h4.rr, h4.di, ?_, ?_, h4.wb, h4.rm, h4.completed⟩,
    fun hk => absurd hk (by decide)⟩
  · intro i hi
    exact h4.iq i ((Issue_loop_kept_sublist W s.IQ).subset hi)
  · intro i hi
    rcases List.mem_append.mp hi with h1 | h1
    · exact h4.ex i h1
    · obtain ⟨y, hy, rfl, _⟩ := Issue_loop_issued W s.IQ i h1
      have hq := h4.iq y hy
      rw [hl] at hq
      rw [hl2]
      refine ⟨hq.1, fun _ => ?_, fun h0 => absurd h0 (Nat.lt_irrefl 0), fun _ => rfl,
        fun _ => Nat.zero_lt_succ _, fun _ => Nat.zero_lt_succ _⟩
      show y.issue_cycle + 1 ≤ s.total_cycles + 1
      omega

theorem TInv_Dispatch {p : proc_params} {s : State} (hz : Sizes p s) (h : TInv 4 s) :
    TInv 5 (Dispatch p.iq_size s) := by
  have h5 := h.1.succ (by decide)
  refine ⟨?_, fun hk => absurd hk (by decide)⟩
  have e1 : (Dispatch p.iq_size s).DI
      = (Dispatch_loop p.iq_size s.total_cycles s.DI s.IQ).1 := rfl
  have e2 : (Dispatch p.iq_size s).IQ
      = (Dispatch_loop p.iq_size s.total_cycles s.DI s.IQ).2 := rfl
  refine ⟨h5.de, h5.rn, h5.rr, ?_, ?_, h5.ex, h5.wb, h5.rm, h5.completed⟩
  · rw [e1]
    show ∀ i ∈ (Dispatch_loop p.iq_size s.total_cycles s.DI s.IQ).1,
      chain_DI i ∧ i.dispatch_cycle ≤ s.total_cycles + late 5 5
    rcases Dispatch_loop_cases p.iq_size s.total_cycles s.DI s.IQ hz.iq with hc | ⟨_, hc⟩
    · rw [hc]
      exact h5.di
    · rw [hc]
      intro i hi
      exact absurd hi (List.not_mem_nil _)
  · rw [e2]
    show ∀ i ∈ (Dispatch_loop p.iq_size s.total_cycles s.DI s.IQ).2,
      chain_IQ i ∧ i.issue_cycle ≤ s.total_cycles + late 4 5
    rcases Dispatch_loop_cases p.iq_size s.total_cycles s.DI s.IQ hz.iq with hc | ⟨_, hc⟩
    · rw [hc]
      exact h5.iq
    · rw [hc]
      intro i hi
      rcases List.mem_append.mp hi with h1 | h1
      · exact h5.iq i h1
      · obtain ⟨y, hy, rfl⟩ := List.mem_map.mp h1
        have hd := h5.di y hy
        have hl : late 5 5 = 0 := rfl
        have hl4 : late 4 5 = 1 := rfl
        rw [hl] at hd
        rw [hl4]
        exact ⟨⟨hd.1, by show y.dispatch_cycle + 1 ≤ s.total_cycles + 1; omega⟩,
          Nat.le_refl _⟩

theorem TInv_RegRead {s : State} (h : TInv 5 s) : TInv 6 (RegRead s) := by
  have h6 := h.1.succ (by decide)
  refine ⟨?_, fun hk => absurd hk (by decide)⟩
  unfold RegRead
  split
  · rename_i hDI
    have hDI : s.DI = [] := List.isEmpty_iff.mp hDI
    refine ⟨h6.de, h6.rn, ?_, ?_, h6.iq, h6.ex, h6.wb, h6.rm, h6.completed⟩
    · intro i hi
      exact absurd hi (List.not_mem_nil _)
    · intro i hi
      have hi' : i ∈ RegRead_loop s.total_cycles s.reorder_buffer s.RR s.DI := hi
      rw [RegRead_loop_eq, hDI, List.nil_append] at hi'
      obtain ⟨y, hy, rfl⟩ := List.mem_map.mp hi'
      have hr := h6.rr y hy
      have hl : late 6 6 = 0 := rfl
      have hl5 : late 5 6 = 1 := rfl
      rw [hl] at hr
      rw [hl5]
      exact ⟨⟨hr.1, by show y.regread_cycle + 1 ≤ s.total_cycles + 1; omega⟩, Nat.le_refl _⟩
  · exact h6

theorem TCore_Rename_step {s : State} (h : TCore 7 s) (N : Nat) {instr : Instruction}
    {rn : List Instruction} (hRN : s.RN = instr :: rn) :
    TCore 7 (Rename_step N instr rn s) := by
  refine ⟨h.de, ?_, ?_, h.di, h.iq, h.ex, h.wb, h.rm, h.completed⟩
  · intro i hi
    exact h.rn i (hRN ▸ List.mem_cons_of_mem _ hi)
  · intro i hi
    have hi' : i ∈ s.RR ++ [rename_instr s instr] := hi
    rcases List.mem_append.mp hi' with h1 | h1
    · exact h.rr i h1
    · rw [List.mem_singleton] at h1
      subst h1
      have hn := h.rn instr (hRN ▸ List.mem_cons_self _ _)
      have hl : late 7 7 = 0 := rfl
      have hl6 : late 6 7 = 1 := rfl
      rw [hl] at hn
      rw [hl6]
      exact ⟨⟨hn.1, by show instr.rename_cycle + 1 ≤ s.total_cycles + 1; omega⟩,
        Nat.le_refl _⟩

theorem TInv_Rename {s : State} (h : TInv 6 s) (N : Nat) : TInv 7 (Rename N s) := by
  have h7 := h.1.succ (by decide)
  refine ⟨?_, fun hk => absurd hk (by decide)⟩
  unfold Rename
  split
  · exact Rename_loop_induct N (TCore 7) (fun _ _ _ hRN hs => TCore_Rename_step hs N hRN)
      s.RN s rfl h7
  · exact h7

theorem TInv_Decode {s : State} (h : TInv 7 s) : TInv 8 (Decode s) := by
  have h8 := h.1.succ (by decide)
  refine ⟨?_, fun hk => absurd hk (by decide)⟩
  unfold Decode
  split
  · rename_i hRN
    have hRN : s.RN = [] := List.isEmpty_iff.mp hRN
    refine ⟨?_, ?_, h8.rr, h8.di, h8.iq, h8.ex, h8.wb, h8.rm, h8.completed⟩
    · intro i hi
      exact absurd hi (List.not_mem_nil _)
    · intro i hi
      have hi' : i ∈ Decode_loop s.total_cycles s.DE s.RN := hi
      rw [Decode_loop_eq, hRN, List.nil_append] at hi'
      obtain ⟨y, hy, rfl⟩ := List.mem_map.mp hi'
      have hd := h8.de y hy
      have hl : late 8 8 = 0 := rfl
      have hl7 : late 7 8 = 1 := rfl
      rw [hl] at hd
      rw [hl7]
      exact ⟨⟨hd.1, by show y.decode_cycle + 1 ≤ s.total_cycles + 1; omega⟩, Nat.le_refl _⟩
  · exact h8

theorem TCore_Fetch_step {s : State} (h : TCore 9 s) (instr : Instruction)
    (rest : List Instruction) : TCore 9 (Fetch_step instr rest s) := by
  refine ⟨?_, h.rn, h.rr, h.di, h.iq, h.ex, h.wb, h.rm, h.completed⟩
  intro i hi
  rw [Fetch_step_DE] at hi
  rcases List.mem_append.mp hi with h1 | h1
  · exact h.de i h1
  · rw [List.mem_singleton] at h1
    subst h1
    exact ⟨rfl, Nat.le_refl _⟩

theorem TInv_Fetch {s : State} (h : TInv 8 s) (W : Nat) : TInv 9 (Fetch W s) := by
  have h9 := h.1.succ (by decide)
  refine ⟨?_, fun hk => absurd hk (by decide)⟩
  unfold Fetch
  split
  · exact Fetch_loop_induct (TCore 9) (fun _ instr rest _ hs => TCore_Fetch_step hs instr rest)
      W s h9
  · exact h9

theorem TInv_tick {s : State} (h : TInv 9 s) : TInv 0 (tick s) := by
  obtain ⟨h, -⟩ := h
  refine ⟨?_, fun hk => absurd hk (by decide)⟩
  have e : (tick s).total_cycles = s.total_cycles + 1 := rfl
  constructor
  · intro i hi
    exact ⟨(h.de i hi).1, by rw [e]; exact (h.de i hi).2⟩
  · intro i hi
    exact ⟨(h.rn i hi).1, by rw [e]; exact (h.rn i hi).2⟩
  · intro i hi
    exact ⟨(h.rr i hi).1, by rw [e]; exact (h.rr i hi).2⟩
  · intro i hi
    exact ⟨(h.di i hi).1, by rw [e]; exact (h.di i hi).2⟩
  · intro i hi
    exact ⟨(h.iq i hi).1, by rw [e]; exact (h.iq i hi).2⟩
  · intro i hi
    rw [e]
    exact h.ex i hi
  · intro i hi
    rw [e]
    exact h.wb i hi
  · intro i hi
    exact ⟨(h.rm i hi).1, by rw [e]; exact (h.rm i hi).2⟩
  · intro i hi
    exact ⟨(h.completed i hi).1, by rw [e]; exact (h.completed i hi).2⟩

/-! ### The invariant on time stamps along the run -/

theorem stages_succ (p : proc_params) (k : Nat) (s : State) :
    stages p (k + 1) s = stage p k (stages p k s) := rfl

theorem TInv_stage {p : proc_params} {tr : List Instruction} {s : State}
    (hi : Inv p tr s) : ∀ k, k ≤ 8 → TInv k s → TInv (k + 1) (stage p k s)
  | 0, _, h => TInv_Retire hi.1 h _
  | 1, _, h => TInv_Writeback h
  | 2, _, h => TInv_Execute h
  | 3, _, h => TInv_Issue h _
  | 4, _, h => TInv_Dispatch hi.2.2 h
  | 5, _, h => TInv_RegRead h
  | 6, _, h => TInv_Rename h _
  | 7, _, h => TInv_Decode h
  | 8, _, h => TInv_Fetch h _
  | _ + 9, hk, _ => absurd hk (by omega)

theorem TInv_stages {p : proc_params} {tr : List Instruction} {s : State}
    (hi : Inv p tr s) (ht : TInv 0 s) :
    ∀ k, k ≤ 9 → TInv k (stages p k s) := by
  intro k
  induction k with
  | zero => intro _; exact ht
  | succ k ih =>
    intro hk
    rw [stages_succ]
    exact TInv_stage (Inv_stages hi k) k (by omega) (ih (by omega))

theorem TInv_cycle {p : proc_params} {tr : List Instruction} {s : State}
    (hi : Inv p tr s) (ht : TInv 0 s) : TInv 0 (cycle p s) :=
  TInv_tick (TInv_stages hi ht 9 (Nat.le_refl _))

theorem TInv_run (p : proc_params) (tr : List Instruction) (n : Nat) :
    TInv 0 (run p tr n) := by
  induction n with
  | zero => exact ⟨TCore_init tr, fun hk => absurd hk (by decide)⟩
  | succ n ih => exact TInv_cycle (Inv_run p tr n) ih

theorem stage_ge_ten (p : proc_params) (k : Nat) (s : State) : stage p (k + 10) s = s := rfl

theorem stages_ge_ten (p : proc_params) (s : State) (k : Nat) (hk : 10 ≤ k) :
    stages p k s = stages p 10 s := by
  induction k with
  | zero => exact absurd hk (by decide)
  | succ k ih =>
    by_cases h9 : k = 9
    · rw [h9]
    · obtain ⟨j, rfl⟩ : ∃ j, k = j + 10 := ⟨k - 10, by omega⟩
      rw [stages_succ, ih (by omega)]
      exact stage_ge_ten p j _

/-- Every state of the driver is the state after at most nine statements of the loop
body of some cycle. -/
theorem driver_state_normal (p : proc_params) (tr : List Instruction) (n k : Nat) :
    ∃ n' k', k' ≤ 9 ∧ driver_state p tr n k = driver_state p tr n' k' := by
  by_cases hk : k ≤ 9
  · exact ⟨n, k, hk, rfl⟩
  · refine ⟨n + 1, 0, Nat.zero_le _, ?_⟩
    show stages p k (run p tr n) = cycle p (run p tr n)
    rw [stages_ge_ten p _ k (by omega), cycle_eq_stages]

theorem TInv_driver_state (p : proc_params) (tr : List Instruction) (n k : Nat)
    (hk : k ≤ 9) : TInv k (driver_state p tr n k) :=
  TInv_stages (Inv_run p tr n) (TInv_run p tr n) k hk

/-- The stamps of the retired instructions, in every state of the driver. -/
theorem chain_RT_completed (p : proc_params) (tr : List Instruction) (n k : Nat) :
    ∀ i ∈ (driver_state p tr n k).completed_intstructions, chain_RT i := by
  obtain ⟨n', k', hk', e⟩ := driver_state_normal p tr n k
  rw [e]
  intro i hi
  exact ((TInv_driver_state p tr n' k' hk').1.completed i hi).1

end SimProc

namespace SimProc

/-! ## Claims on the time stamps of retired instructions -/

/-- C3 (execute latency).  In every state of the driver, every instruction of
`completed_intstructions` has `writeback_cycle - execute_cycle` equal to `1` when
`op_type = 0`, to `2` when `op_type = 1` and to `5` when `op_type = 2`; and its
`op_type` is one of these three values. -/
theorem C3_execute_latency (p : proc_params) (tr : List Instruction) (n k : Nat) :
    ∀ i ∈ (driver_state p tr n k).completed_intstructions,
      (i.op_type = 0 → (i.writeback_cycle : Int) - (i.execute_cycle : Int) = 1) ∧
      (i.op_type = 1 → (i.writeback_cycle : Int) - (i.execute_cycle : Int) = 2) ∧
      (i.op_type = 2 → (i.writeback_cycle : Int) - (i.execute_cycle : Int) = 5) ∧
      (i.op_type = 0 ∨ i.op_type = 1 ∨ i.op_type = 2) := by
  intro i hi
  obtain ⟨⟨⟨_, _, hop, _⟩, hwb, _⟩, _⟩ := chain_RT_completed p tr n k i hi
  refine ⟨?_, ?_, ?_, hop⟩
  · intro h
    rw [h] at hwb
    have : latency 0 = 1 := rfl
    omega
  · intro h
    rw [h] at hwb
    have : latency 1 = 2 := rfl
    omega
  · intro h
    rw [h] at hwb
    have : latency 2 = 5 := rfl
    omega

set_option maxRecDepth 100000 in
/-- The instruction retired on the trace of scenario S1 has `op_type = 0` and spends
one cycle in execution. -/
theorem C3_execute_latency_witness :
    (driver_state ⟨8, 8, 1⟩ [mk_instr 0 0 1 2 3] 9 0).completed_intstructions.getD 0
        Instruction.zero
      ∈ (driver_state ⟨8, 8, 1⟩ [mk_instr 0 0 1 2 3] 9 0).completed_intstructions ∧
    (((driver_state ⟨8, 8, 1⟩ [mk_instr 0 0 1 2 3] 9 0).completed_intstructions.getD 0
        Instruction.zero).writeback_cycle : Int)
      - (((driver_state ⟨8, 8, 1⟩ [mk_instr 0 0 1 2 3] 9 0).completed_intstructions.getD 0
        Instruction.zero).execute_cycle : Int) = 1 :=
  ⟨by decide,
    (C3_execute_latency ⟨8, 8, 1⟩ [mk_instr 0 0 1 2 3] 9 0 _ (by decide)).1 rfl⟩

/-- C4 (monotonic timing chain).  In every state of the driver, every instruction of
`completed_intstructions` satisfies `fetch_cycle ≤ decode_cycle ≤ rename_cycle ≤
regread_cycle ≤ dispatch_cycle ≤ issue_cycle ≤ execute_cycle ≤ writeback_cycle ≤
retire_cycle ≤ RT_cycle`. -/
theorem C4_monotonic_chain (p : proc_params) (tr : List Instruction) (n k : Nat) :
    ∀ i ∈ (driver_state p tr n k).completed_intstructions,
      i.fetch_cycle ≤ i.decode_cycle ∧ i.decode_cycle ≤ i.rename_cycle ∧
      i.rename_cycle ≤ i.regread_cycle ∧ i.regread_cycle ≤ i.dispatch_cycle ∧
      i.dispatch_cycle ≤ i.issue_cycle ∧ i.issue_cycle ≤ i.execute_cycle ∧
      i.execute_cycle ≤ i.writeback_cycle ∧ i.writeback_cycle ≤ i.retire_cycle ∧
      i.retire_cycle ≤ i.RT_cycle := by
  intro i hi
  obtain ⟨⟨⟨⟨⟨⟨⟨h1, h2⟩, h3⟩, h4⟩, h5⟩, h6, _, _⟩, h7, h8⟩, h9⟩ :=
    chain_RT_completed p tr n k i hi
  unfold chain_DE at h1
  refine ⟨?_, ?_, ?_, ?_, ?_, ?_, ?_, ?_, ?_⟩ <;> omega

set_option maxRecDepth 100000 in
/-- The stamps of the second instruction retired on the trace of scenario S2 are in
order. -/
theorem C4_monotonic_chain_witness :
    (driver_state ⟨8, 8, 1⟩ [mk_instr 0 1 1 (-1) (-1), mk_instr 4 0 2 1 (-1)] 11
        0).completed_intstructions.getD 1 Instruction.zero
      ∈ (driver_state ⟨8, 8, 1⟩ [mk_instr 0 1 1 (-1) (-1), mk_instr 4 0 2 1 (-1)] 11
        0).completed_intstructions ∧
    ((driver_state ⟨8, 8, 1⟩ [mk_instr 0 1 1 (-1) (-1), mk_instr 4 0 2 1 (-1)] 11
        0).completed_intstructions.getD 1 Instruction.zero).issue_cycle
      ≤ ((driver_state ⟨8, 8, 1⟩ [mk_instr 0 1 1 (-1) (-1), mk_instr 4 0 2 1 (-1)] 11
        0).completed_intstructions.getD 1 Instruction.zero).execute_cycle :=
  ⟨by decide,
    (C4_monotonic_chain ⟨8, 8, 1⟩ [mk_instr 0 1 1 (-1) (-1), mk_instr 4 0 2 1 (-1)] 11 0 _
      (by decide)).2.2.2.2.2.1⟩

set_option maxRecDepth 100000 in
/-- C5 fails as stated: with `ROB_SIZE = IQ_SIZE = WIDTH = 2` and a trace of three
independent instructions, the first of `op_type 2`, the third instruction waits in
`RN` for a free ROB entry, and its `regread_cycle` is not `rename_cycle + 1`. -/
theorem C5_counterexample :
    ¬ (∀ i ∈ (run ⟨2, 2, 2⟩ [mk_instr 0 2 1 (-1) (-1), mk_instr 4 0 2 (-1) (-1),
          mk_instr 8 0 3 (-1) (-1)] 19).completed_intstructions,
        i.decode_cycle = i.fetch_cycle + 1 ∧ i.rename_cycle = i.decode_cycle + 1 ∧
        i.regread_cycle = i.rename_cycle + 1 ∧ i.dispatch_cycle = i.regread_cycle + 1) := by
  decide

/-- C5, amended (front-end offsets).  In every state of the driver, every retired
instruction has `decode_cycle = fetch_cycle + 1`, and `rename_cycle ≥ decode_cycle + 1`,
`regread_cycle ≥ rename_cycle + 1`, `dispatch_cycle ≥ regread_cycle + 1`,
`issue_cycle ≥ dispatch_cycle + 1`, `execute_cycle ≥ issue_cycle + 1`,
`retire_cycle = writeback_cycle + 1` and `RT_cycle ≥ retire_cycle + 1`: a stall may show
up at every stage but Fetch, Execute and Writeback. -/
theorem C5_front_end_offsets (p : proc_params) (tr : List Instruction) (n k : Nat) :
    ∀ i ∈ (driver_state p tr n k).completed_intstructions,
      i.decode_cycle = i.fetch_cycle + 1 ∧ i.rename_cycle ≥ i.decode_cycle + 1 ∧
      i.regread_cycle ≥ i.rename_cycle + 1 ∧ i.dispatch_cycle ≥ i.regread_cycle + 1 ∧
      i.issue_cycle ≥ i.dispatch_cycle + 1 ∧ i.execute_cycle ≥ i.issue_cycle + 1 ∧
      i.retire_cycle = i.writeback_cycle + 1 ∧ i.RT_cycle ≥ i.retire_cycle + 1 := by
  intro i hi
  obtain ⟨⟨⟨⟨⟨⟨⟨h1, h2⟩, h3⟩, h4⟩, h5⟩, h6, _, _⟩, _, h8⟩, h9⟩ :=
    chain_RT_completed p tr n k i hi
  exact ⟨h1, h2, h3, h4, h5, h6, h8, h9⟩

set_option maxRecDepth 100000 in
/-- The third instruction of the counterexample to C5 waits in `RN`: the amended
statement holds for it with `regread_cycle` strictly larger than `rename_cycle + 1`. -/
theorem C5_front_end_offsets_witness :
    (driver_state ⟨2, 2, 2⟩ [mk_instr 0 2 1 (-1) (-1), mk_instr 4 0 2 (-1) (-1),
        mk_instr 8 0 3 (-1) (-1)] 19 0).completed_intstructions.getD 2 Instruction.zero
      ∈ (driver_state ⟨2, 2, 2⟩ [mk_instr 0 2 1 (-1) (-1), mk_instr 4 0 2 (-1) (-1),
        mk_instr 8 0 3 (-1) (-1)] 19 0).completed_intstructions ∧
    ((driver_state ⟨2, 2, 2⟩ [mk_instr 0 2 1 (-1) (-1), mk_instr 4 0 2 (-1) (-1),
        mk_instr 8 0 3 (-1) (-1)] 19 0).completed_intstructions.getD 2
        Instruction.zero).regread_cycle
      ≥ ((driver_state ⟨2, 2, 2⟩ [mk_instr 0 2 1 (-1) (-1), mk_instr 4 0 2 (-1) (-1),
        mk_instr 8 0 3 (-1) (-1)] 19 0).completed_intstructions.getD 2
        Instruction.zero).rename_cycle + 1 :=
  ⟨by decide,
    (C5_front_end_offsets ⟨2, 2, 2⟩ [mk_instr 0 2 1 (-1) (-1), mk_instr 4 0 2 (-1) (-1),
      mk_instr 8 0 3 (-1) (-1)] 19 0 _ (by decide)).2.2.1⟩

set_option maxRecDepth 100000 in
/-- C6 fails as stated: on the trace of scenario S1 the simulator retires one
instruction, but its `execute_cycle` is `6`, not `5`. -/
theorem C6_counterexample :
    ¬ (∃ s, main_loop ⟨8, 8, 1⟩ 9 (State.init [mk_instr 0 0 1 2 3]) = some s ∧
        ∃ c, s.completed_intstructions = [c] ∧ c.execute_cycle = 5 ∧
          (c.writeback_cycle : Int) - (c.execute_cycle : Int) = 1 ∧ c.RT_cycle = 9) := by
  rintro ⟨s, hs, c, hc, h5, -, -⟩
  have e : main_loop ⟨8, 8, 1⟩ 9 (State.init [mk_instr 0 0 1 2 3])
      = some (run ⟨8, 8, 1⟩ [mk_instr 0 0 1 2 3] 9) := rfl
  rw [e, Option.some.injEq] at hs
  rw [← hs] at hc
  have e2 : (run ⟨8, 8, 1⟩ [mk_instr 0 0 1 2 3] 9).completed_intstructions.map
      (fun c => c.execute_cycle) = [6] := rfl
  rw [hc] at e2
  simp only [List.map_cons, List.map_nil, List.cons.injEq, and_true] at e2
  omega

set_option maxRecDepth 100000 in
/-- C6, amended (scenario S1).  On the one-record trace (pc `0x0`, op_type `0`,
dest `1`, src1 `2`, src2 `3`) with `ROB_SIZE = 8`, `IQ_SIZE = 8`, `WIDTH = 1`, the loop
of the driver exits after nine cycles, whatever fuel beyond nine is granted, having
retired exactly one instruction, whose EX block is `{6,1}` (`execute_cycle = 6`,
`writeback_cycle - execute_cycle = 1`), whose `retire_cycle` is `8` and whose
`RT_cycle` is `9`. -/
theorem C6_scenario_S1 (extra : Nat) :
    ∃ s, main_loop ⟨8, 8, 1⟩ (extra + 9) (State.init [mk_instr 0 0 1 2 3]) = some s ∧
      s.total_cycles = 9 ∧ s.retired_instructions = 1 ∧
      ∃ c, s.completed_intstructions = [c] ∧ c.fetch_cycle = 0 ∧ c.execute_cycle = 6 ∧
        (c.writeback_cycle : Int) - (c.execute_cycle : Int) = 1 ∧
        c.retire_cycle = 8 ∧ c.RT_cycle = 9 :=
  ⟨run ⟨8, 8, 1⟩ [mk_instr 0 0 1 2 3] 9, rfl, rfl, rfl, _, rfl, rfl, rfl, rfl, rfl, rfl⟩

end SimProc

namespace SimProc

/-! ## Preservation of the dependence invariant -/

theorem IsProducer.congr {s s' : State} (hH : ∀ q, q ∈ history s' ↔ q ∈ history s)
    {cseq : Nat} {r : Int} {q : Ident} (h : IsProducer s' cseq r q) : IsProducer s cseq r q :=
  ⟨(hH q).mp h.1, h.2.1, h.2.2.1, fun q' hq' => h.2.2.2 q' ((hH q').mpr hq')⟩

theorem history_congr {s s' : State} (hid : (idents s').Perm (idents s))
    (hc : s'.completed_intstructions = s.completed_intstructions) :
    ∀ q, q ∈ history s' ↔ q ∈ history s := by
  intro q
  unfold history
  rw [hc, List.mem_append, List.mem_append, hid.mem_iff]

/-- A step after which every view is a view from before, and the history is the
same, preserves the dependence invariant. -/
theorem DInv.of_subset {s s' : State} (h : DInv s)
    (hRR : ∀ C ∈ s'.RR.map Instruction.dview, C ∈ s.RR.map Instruction.dview)
    (hDQ : ∀ C ∈ (s'.DI ++ s'.IQ).map Instruction.dview,
      C ∈ (s.DI ++ s.IQ).map Instruction.dview)
    (hEF : ∀ C ∈ (s'.execute_list ++ finished s').map Instruction.dview,
      C ∈ (s.execute_list ++ finished s).map Instruction.dview)
    (hF : ∀ C ∈ (finished s').map Instruction.dview, C ∈ (finished s).map Instruction.dview)
    (hP : ∀ q ∈ pendIds s', q ∈ pendIds s)
    (hH : ∀ q, q ∈ history s' ↔ q ∈ history s) : DInv s' := by
  constructor
  · intro C hC q hq b hb hp
    exact h.rr C (hRR C hC) q (hP q hq) b hb (hp.congr hH)
  · intro C hC q hq b hb hp
    exact h.di C (hDQ C hC) q (hP q hq) b hb (hp.congr hH)
  · intro C hC q hq b hb hp
    exact h.ex C (hEF C hC) q (hP q hq) b hb (hp.congr hH)
  · intro C hC hd P hP' b hb hp
    exact h.time C (hEF C hC) hd P (hF P hP') b hb (hp.congr hH)

theorem DInv_init (tr : List Instruction) : DInv (State.init tr) := by
  constructor
  · intro C hC
    exact absurd hC (List.not_mem_nil _)
  · intro C hC
    exact absurd hC (List.not_mem_nil _)
  · intro C hC
    exact absurd hC (List.not_mem_nil _)
  · intro C hC
    exact absurd hC (List.not_mem_nil _)

theorem DInv_tick {s : State} (h : DInv s) : DInv (tick s) :=
  ⟨h.rr, h.di, h.ex, h.time⟩

theorem DInv_Decode {s : State} (h : DInv s) : DInv (Decode s) := by
  unfold Decode
  split
  · exact ⟨h.rr, h.di, h.ex, h.time⟩
  · exact h

theorem DInv_Fetch_step {s : State} (h : DInv s) (instr : Instruction)
    (rest : List Instruction) : DInv (Fetch_step instr rest s) :=
  ⟨h.rr, h.di, h.ex, h.time⟩

theorem DInv_Fetch {s : State} (h : DInv s) (W : Nat) : DInv (Fetch W s) := by
  unfold Fetch
  split
  · exact Fetch_loop_induct DInv (fun _ instr rest _ hs => DInv_Fetch_step hs instr rest) W s h
  · exact h

theorem DInv_Retire_touch {s : State} (h : DInv s) : DInv (Retire_touch s) :=
  ⟨h.rr, h.di, h.ex, h.time⟩

theorem mem_map_dview_append {l1 l2 : List Instruction} {C : DepView} :
    C ∈ (l1 ++ l2).map Instruction.dview ↔
      C ∈ l1.map Instruction.dview ∨ C ∈ l2.map Instruction.dview := by
  rw [List.map_append, List.mem_append]

theorem finished_Retire_body {p : proc_params} {s : State} {v : Instruction}
    (hv : s.retire_map.find (s.rob_head : Int) = some v) :
    ∀ C ∈ (finished (Retire_body p.rob_size s)).map Instruction.dview,
      C ∈ (finished s).map Instruction.dview := by
  intro C hC
  unfold finished at hC ⊢
  rw [Retire_body_retire_map hv, Retire_body_completed hv] at hC
  have e : (Retire_body p.rob_size s).WB = s.WB := rfl
  rw [e] at hC
  simp only [List.map_append, List.mem_append, List.map_cons, List.map_nil,
    List.mem_singleton] at hC ⊢
  rcases hC with (h1 | h1) | h1 | h1
  · exact Or.inl (Or.inl h1)
  · obtain ⟨x, hx, rfl⟩ := List.mem_map.mp h1
    exact Or.inl (Or.inr (List.mem_map_of_mem _ (UMap.mem_values_erase hx)))
  · exact Or.inr h1
  · rw [h1]
    exact Or.inl (Or.inr (List.mem_map.mpr ⟨v, UMap.mem_values_of_find hv, rfl⟩))

theorem history_Retire_body {p : proc_params} {tr : List Instruction} {s : State}
    (hs : SInv p tr s) {v : Instruction}
    (hv : s.retire_map.find (s.rob_head : Int) = some v) :
    ∀ q, q ∈ history (Retire_body p.rob_size s) ↔ q ∈ history s := by
  intro q
  have hperm := idents_Retire_body hs (N := p.rob_size) hv
  unfold history
  rw [Retire_body_completed hv]
  simp only [List.map_append, List.mem_append, List.map_cons, List.map_nil,
    List.mem_singleton, hperm.mem_iff, List.mem_cons]
  have e : ({ v with RT_cycle := s.total_cycles + 1 } : Instruction).ident = v.ident := rfl
  rw [e]
  tauto

theorem DInv_Retire_body {p : proc_params} {tr : List Instruction} {s : State}
    (hs : SInv p tr s) (h : DInv s)
    (hr : (s.reorder_buffer.get (s.rob_head : Int) rob_params.zero).ready = true) :
    DInv (Retire_body p.rob_size s) := by
  obtain ⟨e, v, he, hv, hvd, hvi, hseq, hdst, hN⟩ := hs.head_ready hr
  have hF := finished_Retire_body (p := p) hv
  refine h.of_subset (fun C hC => hC) (fun C hC => hC) ?_ hF (fun q hq => hq)
    (history_Retire_body hs hv)
  intro C hC
  rw [mem_map_dview_append] at hC ⊢
  rcases hC with h1 | h1
  · exact Or.inl h1
  · exact Or.inr (hF C h1)

theorem DInv_Retire {p : proc_params} {tr : List Instruction} {s : State}
    (hs : SInv p tr s) (h : DInv s) (W : Nat) : DInv (Retire W p.rob_size s) :=
  (Retire_loop_induct p.rob_size (fun s => SInv p tr s ∧ DInv s)
    (fun _ hs => ⟨SInv_Retire_touch hs.1, DInv_Retire_touch hs.2⟩)
    (fun _ hs hr => ⟨SInv_Retire_body hs.1 hr, DInv_Retire_body hs.1 hs.2 hr⟩)
    W s ⟨hs, h⟩).2

theorem finished_Writeback_step {s : State} {instr0 : Instruction} {wb : List Instruction}
    (hwb : s.WB = instr0 :: wb) :
    ∀ C ∈ (finished (Writeback_step instr0 wb s)).map Instruction.dview,
      C ∈ (finished s).map Instruction.dview := by
  intro C hC
  unfold finished at hC ⊢
  rw [Writeback_step_retire_map] at hC
  have e : (Writeback_step instr0 wb s).WB = wb := rfl
  have e2 : (Writeback_step instr0 wb s).completed_intstructions
      = s.completed_intstructions := rfl
  rw [e, e2] at hC
  rw [hwb]
  simp only [List.map_append, List.mem_append, List.map_cons, List.mem_cons] at hC ⊢
  rcases hC with (h1 | h1) | h1
  · exact Or.inl (Or.inl (Or.inr h1))
  · obtain ⟨x, hx, rfl⟩ := List.mem_map.mp h1
    rcases UMap.mem_values_insert hx with h2 | h2
    · rw [h2]
      exact Or.inl (Or.inl (Or.inl rfl))
    · exact Or.inl (Or.inr (List.mem_map_of_mem _ h2))
  · exact Or.inr h1

theorem DInv_Writeback_step {p : proc_params} {tr : List Instruction} {s : State}
    (hs : SInv p tr s) (h : DInv s) {instr0 : Instruction} {wb : List Instruction}
    (hwb : s.WB = instr0 :: wb) : DInv (Writeback_step instr0 wb s) := by
  have hF := finished_Writeback_step (s := s) hwb
  refine h.of_subset (fun C hC => hC) (fun C hC => hC) ?_ hF (fun q hq => hq)
    (history_congr (idents_Writeback_step hs hwb) rfl)
  intro C hC
  rw [mem_map_dview_append] at hC ⊢
  rcases hC with h1 | h1
  · exact Or.inl h1
  · exact Or.inr (hF C h1)

theorem DInv_Writeback {p : proc_params} {tr : List Instruction} {s : State}
    (hs : SInv p tr s) (h : DInv s) : DInv (Writeback s) :=
  (Writeback_loop_induct (fun s => SInv p tr s ∧ DInv s)
    (fun _ _ _ hwb hs => ⟨SInv_Writeback_step hs.1 hwb, DInv_Writeback_step hs.1 hs.2 hwb⟩)
    s.WB s rfl ⟨hs, h⟩).2

theorem DInv_Dispatch {p : proc_params} {s : State} (hz : Sizes p s) (h : DInv s) :
    DInv (Dispatch p.iq_size s) := by
  have e1 : (Dispatch p.iq_size s).DI
      = (Dispatch_loop p.iq_size s.total_cycles s.DI s.IQ).1 := rfl
  have e2 : (Dispatch p.iq_size s).IQ
      = (Dispatch_loop p.iq_size s.total_cycles s.DI s.IQ).2 := rfl
  have hmap : ∀ l : List Instruction, (l.map
      (fun i => ({ i with issue_cycle := s.total_cycles + 1 } : Instruction))).map
        Instruction.dview = l.map Instruction.dview := by
    intro l
    rw [List.map_map]
    rfl
  have hmapi : ∀ l : List Instruction, (l.map
      (fun i => ({ i with issue_cycle := s.total_cycles + 1 } : Instruction))).map
        Instruction.ident = l.map Instruction.ident := by
    intro l
    rw [List.map_map]
    rfl
  refine h.of_subset (fun C hC => hC) ?_ (fun C hC => hC) (fun C hC => hC) ?_
    (history_congr (idents_Dispatch p.iq_size s) rfl)
  · intro C hC
    rw [e1, e2] at hC
    rcases Dispatch_loop_cases p.iq_size s.total_cycles s.DI s.IQ hz.iq with hc | ⟨_, hc⟩
    · rw [hc] at hC
      exact hC
    · rw [hc] at hC
      simp only [List.nil_append, List.map_append, List.mem_append, hmap] at hC ⊢
      tauto
  · intro q hq
    unfold pendIds at hq ⊢
    rw [e1, e2] at hq
    have e3 : (Dispatch p.iq_size s).RR = s.RR := rfl
    have e4 : (Dispatch p.iq_size s).execute_list = s.execute_list := rfl
    rw [e3, e4] at hq
    rcases Dispatch_loop_cases p.iq_size s.total_cycles s.DI s.IQ hz.iq with hc | ⟨_, hc⟩
    · rw [hc] at hq
      exact hq
    · rw [hc] at hq
      simp only [List.append_nil, List.map_append, List.mem_append, hmapi] at hq ⊢
      tauto

end SimProc

namespace SimProc

/-! ### Where the renamed instructions are -/

theorem idents_eq_pend (s : State) :
    idents s = pendIds s ++ (s.WB ++ s.retire_map.values).map Instruction.ident := by
  unfold idents live pendIds
  simp only [List.map_append, List.append_assoc]

theorem pendIds_subset_idents {s : State} {q : Ident} (h : q ∈ pendIds s) : q ∈ idents s := by
  rw [idents_eq_pend]
  exact List.mem_append_left _ h

/-- An instruction that has not completed execution and one that has carry different
tags. -/
theorem SInv.pend_ne_done {p : proc_params} {tr : List Instruction} {s : State}
    (h : SInv p tr s) {q : Ident} (hq : q ∈ pendIds s) {x : Instruction}
    (hx : x ∈ s.WB ++ s.retire_map.values) : q.dest ≠ x.dest := by
  have hnd := h.nodup_dest
  rw [idents_eq_pend, List.map_append] at hnd
  have hdis := List.disjoint_of_nodup_append hnd
  intro e
  refine hdis (List.mem_map_of_mem (fun c => c.dest) hq) ?_
  rw [e]
  exact List.mem_map.mpr ⟨x.ident, List.mem_map_of_mem _ hx, rfl⟩

theorem pendIds_mem {s : State} {q : Ident} :
    q ∈ pendIds s ↔ q ∈ s.RR.map Instruction.ident ∨ q ∈ s.DI.map Instruction.ident ∨
      q ∈ s.IQ.map Instruction.ident ∨ q ∈ s.execute_list.map Instruction.ident := by
  unfold pendIds
  simp only [List.map_append, List.mem_append]
  tauto

/-! ### Issue -/

theorem DInv_Issue {s : State} (h : DInv s) (W : Nat) : DInv (Issue W s) := by
  have hH := history_congr (idents_Issue W s) rfl
  have eIQ : (Issue W s).IQ = (Issue_loop W s.IQ).1 := rfl
  have eEX : (Issue W s).execute_list = s.execute_list ++ (Issue_loop W s.IQ).2 := rfl
  have hkept : ∀ x ∈ (Issue_loop W s.IQ).1, x ∈ s.IQ :=
    fun x hx => (Issue_loop_kept_sublist W s.IQ).subset hx
  have hP : ∀ q ∈ pendIds (Issue W s), q ∈ pendIds s := by
    intro q hq
    rw [pendIds_mem] at hq ⊢
    rw [eIQ, eEX] at hq
    rcases hq with h1 | h1 | h1 | h1
    · exact Or.inl h1
    · exact Or.inr (Or.inl h1)
    · obtain ⟨x, hx, rfl⟩ := List.mem_map.mp h1
      exact Or.inr (Or.inr (Or.inl (List.mem_map_of_mem _ (hkept x hx))))
    · obtain ⟨x, hx, rfl⟩ := List.mem_map.mp h1
      rcases List.mem_append.mp hx with h2 | h2
      · exact Or.inr (Or.inr (Or.inr (List.mem_map_of_mem _ h2)))
      · obtain ⟨y, hy, rfl, _⟩ := Issue_loop_issued W s.IQ x h2
        exact Or.inr (Or.inr (Or.inl (List.mem_map.mpr ⟨y, hy, rfl⟩)))
  have hEF : ∀ C ∈ ((Issue W s).execute_list ++ finished (Issue W s)).map Instruction.dview,
      C ∈ (s.execute_list ++ finished s).map Instruction.dview ∨
      ∃ y ∈ s.IQ, C = Instruction.dview { y with execute_duration := 0 } ∧
        y.src1_ready = true ∧ y.src2_ready = true := by
    intro C hC
    rw [eEX] at hC
    have eF : finished (Issue W s) = finished s := rfl
    rw [eF] at hC
    obtain ⟨x, hx, rfl⟩ := List.mem_map.mp hC
    rcases List.mem_append.mp hx with h1 | h1
    · rcases List.mem_append.mp h1 with h2 | h2
      · exact Or.inl (List.mem_map_of_mem _ (List.mem_append_left _ h2))
      · obtain ⟨y, hy, rfl, hr⟩ := Issue_loop_issued W s.IQ x h2
        exact Or.inr ⟨y, hy, rfl, hr⟩
    · exact Or.inl (List.mem_map_of_mem _ (List.mem_append_right _ h1))
  constructor
  · intro C hC q hq b hb hp
    exact h.rr C hC q (hP q hq) b hb (hp.congr hH)
  · intro C hC q hq b hb hp
    refine h.di C ?_ q (hP q hq) b hb (hp.congr hH)
    rw [eIQ] at hC
    obtain ⟨x, hx, rfl⟩ := List.mem_map.mp hC
    rcases List.mem_append.mp hx with h1 | h1
    · exact List.mem_map_of_mem _ (List.mem_append_left _ h1)
    · exact List.mem_map_of_mem _ (List.mem_append_right _ (hkept x h1))
  · intro C hC q hq b hb hp
    rcases hEF C hC with h1 | ⟨y, hy, rfl, hr1, hr2⟩
    · exact h.ex C h1 q (hP q hq) b hb (hp.congr hH)
    · have := (h.di y.dview (List.mem_map_of_mem _ (List.mem_append_right _ hy)) q (hP q hq)
        b hb (hp.congr hH)).2
      cases b
      · have e : y.dview.ready false = y.src2_ready := rfl
        rw [e, hr2] at this
        exact Bool.noConfusion this
      · have e : y.dview.ready true = y.src1_ready := rfl
        rw [e, hr1] at this
        exact Bool.noConfusion this
  · intro C hC hd P hP' b hb hp
    rcases hEF C hC with h1 | ⟨y, hy, rfl, _⟩
    · exact h.time C h1 hd P hP' b hb (hp.congr hH)
    · exact absurd hd (Nat.lt_irrefl 0)

/-! ### RegRead -/

theorem DInv_RegRead {p : proc_params} {tr : List Instruction} {s : State}
    (hs : SInv p tr s) (h : DInv s) : DInv (RegRead s) := by
  have hH := history_congr (idents_RegRead s)
    (RegRead_frame s).2.2.2.1
  revert hH
  unfold RegRead
  split
  · rename_i hDI
    intro hH
    have hDI : s.DI = [] := List.isEmpty_iff.mp hDI
    have hP : ∀ q ∈ pendIds { s with
        DI := RegRead_loop s.total_cycles s.reorder_buffer s.RR s.DI, RR := [] },
        q ∈ pendIds s := by
      intro q hq
      rw [pendIds_mem] at hq ⊢
      simp only [RegRead_loop_eq, hDI, List.nil_append, List.map_nil, List.not_mem_nil,
        false_or] at hq
      rw [map_ident_congr (ident_regread_instr _ _)] at hq
      rcases hq with h1 | h1 | h1
      · exact Or.inl h1
      · exact Or.inr (Or.inr (Or.inl h1))
      · exact Or.inr (Or.inr (Or.inr h1))
    constructor
    · intro C hC
      exact absurd hC (List.not_mem_nil _)
    · intro C hC q hq b hb hp
      simp only [RegRead_loop_eq, hDI, List.nil_append, List.map_append,
        List.mem_append] at hC
      rcases hC with h1 | h1
      · obtain ⟨x, hx, rfl⟩ := List.mem_map.mp h1
        obtain ⟨y, hy, rfl⟩ := List.mem_map.mp hx
        have hq' := hP q hq
        obtain ⟨g1, g2⟩ := h.rr y.dview (List.mem_map_of_mem _ hy) q hq' b hb (hp.congr hH)
        refine ⟨g1, ?_⟩
        have hqi := pendIds_subset_idents hq'
        have hq0 : 0 ≤ q.dest := by
          rw [hs.tag q hqi]
          omega
        obtain ⟨e, he, _⟩ := hs.rob_live q hqi
        have her : e.ready = false := by
          cases her : e.ready
          · rfl
          · exfalso
            obtain ⟨v, hv⟩ := hs.rob_ready _ e he her
            have hvd := hs.rm_dest _ _ hv
            exact hs.pend_ne_done hq'
              (List.mem_append_right _ (UMap.mem_values_of_find hv)) hvd.symm
        cases b
        · have e1 : y.dview.rsrc false = y.src2 := rfl
          have e2 : y.dview.awaken false = y.src2_awaken := rfl
          rw [e1] at g1
          rw [e2] at g2
          show regread_ready s.reorder_buffer y.src2_awaken y.src2 y.src2_ready = false
          unfold regread_ready
          rw [g2, g1, if_pos rfl, if_neg (by omega), he]
          exact her
        · have e1 : y.dview.rsrc true = y.src1 := rfl
          have e2 : y.dview.awaken true = y.src1_awaken := rfl
          rw [e1] at g1
          rw [e2] at g2
          show regread_ready s.reorder_buffer y.src1_awaken y.src1 y.src1_ready = false
          unfold regread_ready
          rw [g2, g1, if_pos rfl, if_neg (by omega), he]
          exact her
      · refine h.di C ?_ q (hP q hq) b hb (hp.congr hH)
        rw [mem_map_dview_append]
        exact Or.inr h1
    · intro C hC q hq b hb hp
      exact h.ex C hC q (hP q hq) b hb (hp.congr hH)
    · intro C hC hd P hP' b hb hp
      exact h.time C hC hd P hP' b hb (hp.congr hH)
  · intro _
    exact h

end SimProc

namespace SimProc

/-! ### Views under the wake-up -/

theorem DepView.osrc_congr {C C' : DepView} (h : C.id = C'.id) (b : Bool) :
    C.osrc b = C'.osrc b := by
  unfold DepView.osrc
  rw [h]

theorem DepView.rsrc_congr {C C' : DepView} (h : C.id = C'.id) (b : Bool) :
    C.rsrc b = C'.rsrc b := by
  unfold DepView.rsrc
  rw [h]

theorem dview_id (i : Instruction) : i.dview.id = i.ident := rfl

theorem dview_id_wake_all (ds : List Int) (i : Instruction) :
    (wake_all ds i).dview.id = i.dview.id := ident_wake_all ds i

theorem dview_id_wake_all_RR (ds : List Int) (i : Instruction) :
    (wake_all_RR ds i).dview.id = i.dview.id := ident_wake_all_RR ds i

theorem ready_wake_all (ds : List Int) (i : Instruction) (b : Bool)
    (hn : i.dview.rsrc b ∉ ds) : (wake_all ds i).dview.ready b = i.dview.ready b := by
  induction ds generalizing i with
  | nil => rfl
  | cons d ds ih =>
    rw [wake_all_cons, Function.comp_apply]
    have hd : i.dview.rsrc b ≠ d := fun e => hn (e ▸ List.mem_cons_self _ _)
    have hr : (wake d i).dview.rsrc b = i.dview.rsrc b := rfl
    rw [ih (wake d i) (by rw [hr]; exact fun hm => hn (List.mem_cons_of_mem _ hm))]
    cases b
    · have hd' : i.src2 ≠ d := hd
      show (if i.src2 = d then true else i.src2_ready) = i.src2_ready
      rw [if_neg hd']
    · have hd' : i.src1 ≠ d := hd
      show (if i.src1 = d then true else i.src1_ready) = i.src1_ready
      rw [if_neg hd']

theorem awaken_wake_all_RR (ds : List Int) (i : Instruction) (b : Bool)
    (hn : i.dview.rsrc b ∉ ds) : (wake_all_RR ds i).dview.awaken b = i.dview.awaken b := by
  induction ds generalizing i with
  | nil => rfl
  | cons d ds ih =>
    rw [wake_all_RR_cons, Function.comp_apply]
    have hd : i.dview.rsrc b ≠ d := fun e => hn (e ▸ List.mem_cons_self _ _)
    have hr : (wake_RR d i).dview.rsrc b = i.dview.rsrc b := rfl
    rw [ih (wake_RR d i) (by rw [hr]; exact fun hm => hn (List.mem_cons_of_mem _ hm))]
    cases b
    · have hd' : i.src2 ≠ d := hd
      show (if i.src2 = d then true else i.src2_awaken) = i.src2_awaken
      rw [if_neg hd']
    · have hd' : i.src1 ≠ d := hd
      show (if i.src1 = d then true else i.src1_awaken) = i.src1_awaken
      rw [if_neg hd']

/-! ### Execute -/

theorem DInv_Execute {p : proc_params} {tr : List Instruction} {s : State}
    (hs : SInv p tr s) (ht : TInv 2 s) (h : DInv s) : DInv (Execute s) := by
  obtain ⟨l1, l2, l3, l4, l5⟩ := Execute_lists s
  obtain ⟨_, _, _, f4, f5, _⟩ := Execute_frame s
  have hs' := SInv_Execute hs
  have hH := history_congr (idents_Execute s) f4
  have hWB : s.WB = [] := ht.2 rfl
  have hP : ∀ q ∈ pendIds (Execute s), q ∈ pendIds s := by
    intro q hq
    rw [pendIds_mem] at hq ⊢
    rw [l1, l3, l4, l5, map_ident_congr (ident_wake_all _), map_ident_congr (ident_wake_all _),
      map_ident_congr (ident_wake_all_RR _)] at hq
    rcases hq with h1 | h1 | h1 | h1
    · exact Or.inl h1
    · exact Or.inr (Or.inl h1)
    · exact Or.inr (Or.inr (Or.inl h1))
    · obtain ⟨x, hx, rfl⟩ := List.mem_map.mp h1
      obtain ⟨y, hy, rfl⟩ := List.mem_map.mp (List.mem_filter.mp hx).1
      exact Or.inr (Or.inr (Or.inr (List.mem_map.mpr ⟨y, hy, rfl⟩)))
  have hds : ∀ q ∈ pendIds (Execute s), q.dest ∉
      ((s.execute_list.map (execute_tick s.total_cycles)).filter execute_completed).map
        (fun i => i.dest) := by
    intro q hq hm
    obtain ⟨x, hx, hxd⟩ := List.mem_map.mp hm
    refine hs'.pend_ne_done hq (x := x) ?_ hxd.symm
    rw [l2]
    exact List.mem_append_left _ (List.mem_append_right _ hx)
  have hFin : ∀ P ∈ (finished (Execute s)).map Instruction.dview,
      P ∈ (finished s).map Instruction.dview ∨
      ∃ x ∈ s.execute_list, P = (execute_tick s.total_cycles x).dview := by
    intro P hP'
    unfold finished at hP' ⊢
    rw [l2, f4, f5, hWB, List.nil_append] at hP'
    obtain ⟨y, hy, rfl⟩ := List.mem_map.mp hP'
    rcases List.mem_append.mp hy with h1 | h1
    · rcases List.mem_append.mp h1 with h2 | h2
      · obtain ⟨x, hx, rfl⟩ := List.mem_map.mp (List.mem_filter.mp h2).1
        exact Or.inr ⟨x, hx, rfl⟩
      · exact Or.inl (List.mem_map_of_mem _
          (List.mem_append_left _ (List.mem_append_right _ h2)))
    · exact Or.inl (List.mem_map_of_mem _ (List.mem_append_right _ h1))
  have hEF : ∀ C ∈ ((Execute s).execute_list ++ finished (Execute s)).map Instruction.dview,
      C ∈ (finished s).map Instruction.dview ∨
      ∃ x ∈ s.execute_list, C = (execute_tick s.total_cycles x).dview := by
    intro C hC
    rw [mem_map_dview_append] at hC
    rcases hC with h1 | h1
    · rw [l1] at h1
      obtain ⟨y, hy, rfl⟩ := List.mem_map.mp h1
      obtain ⟨x, hx, rfl⟩ := List.mem_map.mp (List.mem_filter.mp hy).1
      exact Or.inr ⟨x, hx, rfl⟩
    · exact hFin C h1
  have hfin_old : ∀ C ∈ (finished s).map Instruction.dview,
      C ∈ (s.execute_list ++ finished s).map Instruction.dview := by
    intro C hC
    rw [mem_map_dview_append]
    exact Or.inr hC
  have hex_old : ∀ x ∈ s.execute_list,
      x.dview ∈ (s.execute_list ++ finished s).map Instruction.dview :=
    fun x hx => List.mem_map_of_mem _ (List.mem_append_left _ hx)
  have htime : ∀ P ∈ (finished s).map Instruction.dview,
      P.execute_cycle + P.execute_duration ≤ s.total_cycles := by
    intro P hP'
    obtain ⟨y, hy, rfl⟩ := List.mem_map.mp hP'
    unfold finished at hy
    rw [hWB, List.nil_append] at hy
    show y.execute_cycle + y.execute_duration ≤ s.total_cycles
    rcases List.mem_append.mp hy with h1 | h1
    · obtain ⟨⟨⟨_, _, _, hd⟩, hw, hr⟩, hb⟩ := ht.1.rm y h1
      have hl : late 1 2 = 1 := rfl
      rw [hl] at hb
      omega
    · obtain ⟨⟨⟨⟨_, _, _, hd⟩, hw, hr⟩, hrt⟩, hb⟩ := ht.1.completed y h1
      have hl : late 0 2 = 1 := rfl
      rw [hl] at hb
      omega
  constructor
  · intro C hC q hq b hb hp
    rw [l5] at hC
    obtain ⟨y, hy, rfl⟩ := List.mem_map.mp hC
    obtain ⟨x, hx, rfl⟩ := List.mem_map.mp hy
    have hid := dview_id_wake_all_RR
      (((s.execute_list.map (execute_tick s.total_cycles)).filter execute_completed).map
        fun i => i.dest) x
    rw [DepView.osrc_congr hid] at hb hp
    rw [hid] at hp
    obtain ⟨g1, g2⟩ := h.rr x.dview (List.mem_map_of_mem _ hx) q (hP q hq) b hb (hp.congr hH)
    rw [DepView.rsrc_congr hid, awaken_wake_all_RR _ _ _ (by rw [g1]; exact hds q hq)]
    exact ⟨g1, g2⟩
  · intro C hC q hq b hb hp
    rw [l3, l4, ← List.map_append] at hC
    obtain ⟨y, hy, rfl⟩ := List.mem_map.mp hC
    obtain ⟨x, hx, rfl⟩ := List.mem_map.mp hy
    have hid := dview_id_wake_all
      (((s.execute_list.map (execute_tick s.total_cycles)).filter execute_completed).map
        fun i => i.dest) x
    rw [DepView.osrc_congr hid] at hb hp
    rw [hid] at hp
    obtain ⟨g1, g2⟩ := h.di x.dview (List.mem_map_of_mem _ hx) q (hP q hq) b hb (hp.congr hH)
    rw [DepView.rsrc_congr hid, ready_wake_all _ _ _ (by rw [g1]; exact hds q hq)]
    exact ⟨g1, g2⟩
  · intro C hC q hq b hb hp
    rcases hEF C hC with h1 | ⟨x, hx, rfl⟩
    · exact h.ex C (hfin_old C h1) q (hP q hq) b hb (hp.congr hH)
    · exact h.ex x.dview (hex_old x hx) q (hP q hq) b hb (hp.congr hH)
  · intro C hC hd P hP' b hb hp
    have hp' := hp.congr hH
    rcases hFin P hP' with hPold | ⟨y, hy, rfl⟩
    · rcases hEF C hC with h1 | ⟨x, hx, rfl⟩
      · exact h.time C (hfin_old C h1) hd P hPold b hb hp'
      · by_cases h0 : x.execute_duration = 0
        · have e : (execute_tick s.total_cycles x).dview.execute_cycle = s.total_cycles := by
            show (if x.execute_duration = 0 then s.total_cycles else x.execute_cycle) = _
            rw [if_pos h0]
          rw [e]
          exact htime P hPold
        · have e : (execute_tick s.total_cycles x).dview.execute_cycle = x.execute_cycle := by
            show (if x.execute_duration = 0 then s.total_cycles else x.execute_cycle) = _
            rw [if_neg h0]
          rw [e]
          exact h.time x.dview (hex_old x hx) (Nat.pos_of_ne_zero h0) P hPold b hb hp'
    · exfalso
      have hyq : (execute_tick s.total_cycles y).dview.id ∈ pendIds s := by
        rw [pendIds_mem]
        exact Or.inr (Or.inr (Or.inr (List.mem_map.mpr ⟨y, hy, rfl⟩)))
      rcases hEF C hC with h1 | ⟨x, hx, rfl⟩
      · exact h.ex C (hfin_old C h1) _ hyq b hb hp'
      · exact h.ex x.dview (hex_old x hx) _ hyq b hb hp'

end SimProc

namespace SimProc

/-! ### Rename -/

theorem history_seq_lt {p : proc_params} {tr : List Instruction} {s : State}
    (hs : SInv p tr s) {q : Ident} (hq : q ∈ history s) :
    q.seq_no < s.retired_instructions + (idents s).length := by
  unfold history at hq
  rcases List.mem_append.mp hq with h1 | h1
  · exact (hs.seq_window h1).2
  · obtain ⟨i, hi, rfl⟩ := List.mem_map.mp h1
    have : i.seq_no ∈ s.completed_intstructions.map (fun i => i.seq_no) :=
      List.mem_map_of_mem _ hi
    rw [hs.completed_seq, List.mem_range] at this
    show i.seq_no < _
    omega

theorem view_id_mem_history {s : State} {C : DepView}
    (h : C ∈ (s.RR ++ s.DI ++ s.IQ ++ s.execute_list ++ finished s).map Instruction.dview) :
    C.id ∈ history s := by
  obtain ⟨x, hx, rfl⟩ := List.mem_map.mp h
  unfold history idents live
  unfold finished at hx
  rw [dview_id]
  simp only [List.mem_append, List.map_append] at hx ⊢
  rcases hx with (((h1 | h1) | h1) | h1) | (h1 | h1) | h1
  · exact Or.inl (Or.inl (Or.inl (Or.inl (Or.inl (Or.inl (List.mem_map_of_mem _ h1))))))
  · exact Or.inl (Or.inl (Or.inl (Or.inl (Or.inl (Or.inr (List.mem_map_of_mem _ h1))))))
  · exact Or.inl (Or.inl (Or.inl (Or.inl (Or.inr (List.mem_map_of_mem _ h1)))))
  · exact Or.inl (Or.inl (Or.inl (Or.inr (List.mem_map_of_mem _ h1))))
  · exact Or.inl (Or.inl (Or.inr (List.mem_map_of_mem _ h1)))
  · exact Or.inl (Or.inr (List.mem_map_of_mem _ h1))
  · exact Or.inr (List.mem_map_of_mem _ h1)

theorem DInv_Rename_step {p : proc_params} {tr : List Instruction} {s : State}
    (hs : SInv p tr s) (hm : RMTInv s) (h : DInv s) {instr : Instruction}
    {rn : List Instruction} (hRN : s.RN = instr :: rn) :
    DInv (Rename_step p.rob_size instr rn s) := by
  obtain ⟨hseq, -⟩ := hs.front_RN hRN
  have hperm := idents_Rename_step p.rob_size instr rn s
  have hmemRN : instr ∈ s.RN ++ s.DE := by
    rw [hRN]
    exact List.mem_append_left _ (List.mem_cons_self _ _)
  obtain ⟨-, -, hu1, hu2⟩ := hs.data_front instr hmemRN
  have hxseq : (rename_instr s instr).ident.seq_no
      = s.retired_instructions + (idents s).length := hseq
  -- the history grows by the renamed instruction
  have hHold : ∀ q, q ∈ history s → q ∈ history (Rename_step p.rob_size instr rn s) := by
    intro q hq
    unfold history at hq ⊢
    rcases List.mem_append.mp hq with h1 | h1
    · exact List.mem_append_left _ (hperm.mem_iff.mpr (List.mem_cons_of_mem _ h1))
    · exact List.mem_append_right _ h1
  have hHnew : ∀ q, q ∈ history (Rename_step p.rob_size instr rn s) →
      q = (rename_instr s instr).ident ∨ q ∈ history s := by
    intro q hq
    unfold history at hq ⊢
    rcases List.mem_append.mp hq with h1 | h1
    · rcases List.mem_cons.mp (hperm.mem_iff.mp h1) with h2 | h2
      · exact Or.inl h2
      · exact Or.inr (List.mem_append_left _ h2)
    · exact Or.inr (List.mem_append_right _ h1)
  have htrans : ∀ {cseq : Nat} {r : Int} {q : Ident},
      cseq ≤ s.retired_instructions + (idents s).length →
      IsProducer (Rename_step p.rob_size instr rn s) cseq r q → IsProducer s cseq r q := by
    intro cseq r q hc hp
    obtain ⟨g1, g2, g3, g4⟩ := hp
    refine ⟨?_, g2, g3, fun q' hq' => g4 q' (hHold q' hq')⟩
    rcases hHnew q g1 with h1 | h1
    · rw [h1, hxseq] at g2
      omega
    · exact h1
  have hPnew : ∀ q ∈ pendIds (Rename_step p.rob_size instr rn s),
      q = (rename_instr s instr).ident ∨ q ∈ pendIds s := by
    intro q hq
    rw [pendIds_mem] at hq ⊢
    have e : (Rename_step p.rob_size instr rn s).RR = s.RR ++ [rename_instr s instr] := rfl
    rw [e, List.map_append, List.mem_append] at hq
    rcases hq with (h1 | h1) | h1
    · exact Or.inr (Or.inl h1)
    · rw [List.map_cons, List.map_nil, List.mem_singleton] at h1
      exact Or.inl h1
    · exact Or.inr (Or.inr h1)
  -- an instruction renamed before is older than the new one
  have hold : ∀ C ∈ (s.RR ++ s.DI ++ s.IQ ++ s.execute_list ++ finished s).map
      Instruction.dview, C.id.seq_no < s.retired_instructions + (idents s).length :=
    fun C hC => history_seq_lt hs (view_id_mem_history hC)
  have hpend : ∀ {C : DepView} {q : Ident} {r : Int},
      C.id.seq_no < s.retired_instructions + (idents s).length →
      q ∈ pendIds (Rename_step p.rob_size instr rn s) →
      IsProducer (Rename_step p.rob_size instr rn s) C.id.seq_no r q → q ∈ pendIds s := by
    intro C q r hC hq hp
    rcases hPnew q hq with h1 | h1
    · have := hp.2.1
      rw [h1, hxseq] at this
      omega
    · exact h1
  have hRRold : ∀ C ∈ s.RR.map Instruction.dview,
      C ∈ (s.RR ++ s.DI ++ s.IQ ++ s.execute_list ++ finished s).map Instruction.dview := by
    intro C hC
    obtain ⟨x, hx, rfl⟩ := List.mem_map.mp hC
    apply List.mem_map_of_mem
    simp only [List.mem_append]
    tauto
  have hDQold : ∀ C ∈ (s.DI ++ s.IQ).map Instruction.dview,
      C ∈ (s.RR ++ s.DI ++ s.IQ ++ s.execute_list ++ finished s).map Instruction.dview := by
    intro C hC
    obtain ⟨x, hx, rfl⟩ := List.mem_map.mp hC
    apply List.mem_map_of_mem
    simp only [List.mem_append] at hx ⊢
    tauto
  have hEFold : ∀ C ∈ (s.execute_list ++ finished s).map Instruction.dview,
      C ∈ (s.RR ++ s.DI ++ s.IQ ++ s.execute_list ++ finished s).map Instruction.dview := by
    intro C hC
    obtain ⟨x, hx, rfl⟩ := List.mem_map.mp hC
    apply List.mem_map_of_mem
    simp only [List.mem_append] at hx ⊢
    tauto
  constructor
  · intro C hC q hq b hb hp
    have e : (Rename_step p.rob_size instr rn s).RR = s.RR ++ [rename_instr s instr] := rfl
    rw [e, List.map_append, List.mem_append] at hC
    rcases hC with h1 | h1
    · have hlt := hold C (hRRold C h1)
      exact h.rr C h1 q (hpend hlt hq hp) b hb (htrans (Nat.le_of_lt hlt) hp)
    · rw [List.map_cons, List.map_nil, List.mem_singleton] at h1
      subst h1
      have hID : (rename_instr s instr).dview.id.seq_no
          = s.retired_instructions + (idents s).length := hseq
      rw [hID] at hp
      have hq' : q ∈ pendIds s := by
        rcases hPnew q hq with h1 | h1
        · have := hp.2.1
          rw [h1, hxseq] at this
          omega
        · exact h1
      have hqi := pendIds_subset_idents hq'
      obtain ⟨g1, g2, g3, g4⟩ := hp
      obtain ⟨t, ht⟩ := hm.mapped q hqi
      rw [g3] at ht
      obtain ⟨c, hc, hcd, hct, hcy⟩ := hm.points _ t ht
      have hcq : c = q := by
        apply hs.seq_inj hc hqi
        have h1 := hcy q hqi g3
        have h2 := g4 c (hHold c (List.mem_append_left _ hc)) (hs.seq_window hc).2 hcd
        omega
      refine ⟨?_, by cases b <;> rfl⟩
      rw [← hcq, hct]
      cases b
      · have e1 : (rename_instr s instr).dview.osrc false = instr.original_src2 := rfl
        rw [e1, ← hu2] at hb ht
        show rename_src s.RMT instr.src2 = t
        unfold rename_src
        rw [if_pos hb, ht]
      · have e1 : (rename_instr s instr).dview.osrc true = instr.original_src1 := rfl
        rw [e1, ← hu1] at hb ht
        show rename_src s.RMT instr.src1 = t
        unfold rename_src
        rw [if_pos hb, ht]
  · intro C hC q hq b hb hp
    have hlt := hold C (hDQold C hC)
    exact h.di C hC q (hpend hlt hq hp) b hb (htrans (Nat.le_of_lt hlt) hp)
  · intro C hC q hq b hb hp
    have hlt := hold C (hEFold C hC)
    exact h.ex C hC q (hpend hlt hq hp) b hb (htrans (Nat.le_of_lt hlt) hp)
  · intro C hC hd P hP' b hb hp
    have hlt := hold C (hEFold C hC)
    exact h.time C hC hd P hP' b hb (htrans (Nat.le_of_lt hlt) hp)

theorem DInv_Rename {p : proc_params} {tr : List Instruction} {s : State}
    (hs : SInv p tr s) (hm : RMTInv s) (h : DInv s) : DInv (Rename p.rob_size s) := by
  unfold Rename
  split
  · rename_i hg
    have hfree := hs.free_entries_eq
    have hb := hs.rob_bound
    have hroom : (idents s).length + s.RN.length ≤ p.rob_size := by
      have h2 := hg.2
      rw [hfree] at h2
      unfold to_size_t at h2
      omega
    have := Rename_loop_induct p.rob_size
      (fun s => ((SInv p tr s ∧ RMTInv s) ∧ (idents s).length + s.RN.length ≤ p.rob_size)
        ∧ DInv s)
      (fun s instr rn hRN hs => by
        have hr : (idents s).length + 1 ≤ p.rob_size := by
          have := hs.1.2
          rw [hRN, List.length_cons] at this
          omega
        refine ⟨⟨⟨SInv_Rename_step hs.1.1.1 hRN hr,
          RMTInv_Rename_step hs.1.1.1 hs.1.1.2 hRN⟩, ?_⟩,
          DInv_Rename_step hs.1.1.1 hs.1.1.2 hs.2 hRN⟩
        have hl := (idents_Rename_step p.rob_size instr rn s).length_eq
        rw [hl]
        have := hs.1.2
        rw [hRN, List.length_cons] at this
        show (idents s).length + 1 + rn.length ≤ p.rob_size
        omega)
      s.RN s rfl ⟨⟨⟨hs, hm⟩, hroom⟩, h⟩
    exact this.2
  · exact h

/-! ### The dependence invariant along the run -/

theorem DInv_stage {p : proc_params} {tr : List Instruction} {s : State}
    (hi : Inv p tr s) : ∀ k, TInv k s → DInv s → DInv (stage p k s)
  | 0, _, h => DInv_Retire hi.1 h _
  | 1, _, h => DInv_Writeback hi.1 h
  | 2, ht, h => DInv_Execute hi.1 ht h
  | 3, _, h => DInv_Issue h _
  | 4, _, h => DInv_Dispatch hi.2.2 h
  | 5, _, h => DInv_RegRead hi.1 h
  | 6, _, h => DInv_Rename hi.1 hi.2.1 h
  | 7, _, h => DInv_Decode h
  | 8, _, h => DInv_Fetch h _
  | 9, _, h => DInv_tick h
  | _ + 10, _, h => h

theorem DInv_stages {p : proc_params} {tr : List Instruction} {s : State}
    (hi : Inv p tr s) (ht : TInv 0 s) (h : DInv s) :
    ∀ k, k ≤ 10 → DInv (stages p k s) := by
  intro k
  induction k with
  | zero => intro _; exact h
  | succ k ih =>
    intro hk
    rw [stages_succ]
    exact DInv_stage (Inv_stages hi k) k (TInv_stages hi ht k (by omega)) (ih (by omega))

theorem DInv_run (p : proc_params) (tr : List Instruction) (n : Nat) :
    DInv (run p tr n) := by
  induction n with
  | zero => exact DInv_init tr
  | succ n ih =>
    show DInv (cycle p (run p tr n))
    rw [cycle_eq_stages]
    exact DInv_stages (Inv_run p tr n) (TInv_run p tr n) ih 10 (Nat.le_refl _)

theorem DInv_driver_state (p : proc_params) (tr : List Instruction) (n k : Nat) :
    DInv (driver_state p tr n k) := by
  obtain ⟨n', k', hk', e⟩ := driver_state_normal p tr n k
  rw [e]
  exact DInv_stages (Inv_run p tr n') (TInv_run p tr n') (DInv_run p tr n') k' (by omega)

end SimProc

namespace SimProc

/-! ## The claim on data dependences -/

theorem completed_getElem?_seq {p : proc_params} {tr : List Instruction} {s : State}
    (hs : SInv p tr s) {j : Nat} {C : Instruction}
    (hC : s.completed_intstructions[j]? = some C) :
    C ∈ s.completed_intstructions ∧ C.seq_no = j ∧ j < s.retired_instructions := by
  have hmem : C ∈ s.completed_intstructions := List.getElem?_mem hC
  have h1 : (s.completed_intstructions.map (fun i => i.seq_no))[j]? = some C.seq_no := by
    rw [List.getElem?_map, hC]
    rfl
  rw [hs.completed_seq] at h1
  have hlt : j < s.retired_instructions := by
    by_contra hc
    rw [List.getElem?_eq_none (by rw [List.length_range]; omega)] at h1
    exact Option.noConfusion h1
  rw [List.getElem?_range hlt, Option.some.injEq] at h1
  exact ⟨hmem, h1.symm, hlt⟩

theorem completed_from_trace {p : proc_params} {tr : List Instruction} {s : State}
    (hs : SInv p tr s) {j : Nat} {C rC : Instruction}
    (hC : s.completed_intstructions[j]? = some C) (hr : tr[j]? = some rC) :
    C.original_dest = rC.dest ∧ C.original_src1 = rC.src1 ∧ C.original_src2 = rC.src2 := by
  obtain ⟨hmem, hseq, _⟩ := completed_getElem?_seq hs hC
  obtain ⟨r, hr', _, _, g3, g4, g5⟩ := hs.data_completed C hmem
  have e : C.ident.seq_no = j := hseq
  rw [e, hr, Option.some.injEq] at hr'
  rw [hr']
  exact ⟨g3, g4, g5⟩

/-- C2 (data-dependence safety).  In every state of the driver: let `C` be the
retired instruction of the trace record number `j` and `r ≠ -1` one of the
architectural sources of that record; let the record number `i < j` be the latest
record before `j` whose architectural destination is `r`, and `P` its retired
instruction.  Then `C.execute_cycle ≥ P.writeback_cycle`: `C` starts to execute no
earlier than the cycle after the last execute cycle of `P`. -/
theorem C2_data_dependence (p : proc_params) (tr : List Instruction) (n k : Nat)
    (i j : Nat) (C P rC rP : Instruction) (r : Int) (hij : i < j)
    (hC : (driver_state p tr n k).completed_intstructions[j]? = some C)
    (hP : (driver_state p tr n k).completed_intstructions[i]? = some P)
    (hrC : tr[j]? = some rC) (hrP : tr[i]? = some rP)
    (hr : r ≠ -1) (hsrc : rC.src1 = r ∨ rC.src2 = r) (hdst : rP.dest = r)
    (hlatest : ∀ m rQ, i < m → m < j → tr[m]? = some rQ → rQ.dest ≠ r) :
    P.writeback_cycle ≤ C.execute_cycle := by
  have hs := (Inv_driver_state p tr n k).1
  have hd := DInv_driver_state p tr n k
  obtain ⟨hCm, hCs, hCr⟩ := completed_getElem?_seq hs hC
  obtain ⟨hPm, hPs, _⟩ := completed_getElem?_seq hs hP
  obtain ⟨_, hC1, hC2⟩ := completed_from_trace hs hC hrC
  obtain ⟨hP1, _, _⟩ := completed_from_trace hs hP hrP
  have hCt := chain_RT_completed p tr n k C hCm
  have hPt := chain_RT_completed p tr n k P hPm
  have hCfin : C.dview ∈ ((driver_state p tr n k).execute_list
      ++ finished (driver_state p tr n k)).map Instruction.dview := by
    apply List.mem_map_of_mem
    unfold finished
    exact List.mem_append_right _ (List.mem_append_right _ hCm)
  have hPfin : P.dview ∈ (finished (driver_state p tr n k)).map Instruction.dview := by
    apply List.mem_map_of_mem
    unfold finished
    exact List.mem_append_right _ hPm
  have hCdur : 0 < C.dview.execute_duration := by
    obtain ⟨⟨⟨_, _, hop, hdur⟩, _⟩, _⟩ := hCt
    show 0 < C.execute_duration
    rw [hdur]
    unfold latency
    rcases hop with h0 | h0 | h0 <;> rw [h0] <;> decide
  have hprod : IsProducer (driver_state p tr n k) C.dview.id.seq_no r P.dview.id := by
    refine ⟨?_, ?_, ?_, ?_⟩
    · unfold history
      exact List.mem_append_right _ (List.mem_map_of_mem _ hPm)
    · show P.seq_no < C.seq_no
      omega
    · show P.original_dest = r
      rw [hP1, hdst]
    · intro q' hq' hlt hod
      have hlt' : q'.seq_no < j := by
        have : C.dview.id.seq_no = j := hCs
        omega
      show q'.seq_no ≤ P.seq_no
      rw [hPs]
      unfold history at hq'
      rcases List.mem_append.mp hq' with h1 | h1
      · have := (hs.seq_window h1).1
        omega
      · obtain ⟨Q, hQ, rfl⟩ := List.mem_map.mp h1
        by_contra hc
        obtain ⟨rQ, hrQ, _, _, g3, _, _⟩ := hs.data_completed Q hQ
        refine hlatest Q.ident.seq_no rQ (by omega) hlt' hrQ ?_
        rw [← g3]
        exact hod
  have hmain : ∀ b, C.dview.osrc b = r →
      P.dview.execute_cycle + P.dview.execute_duration ≤ C.dview.execute_cycle := by
    intro b hb
    exact hd.time C.dview hCfin hCdur P.dview hPfin b (by rw [hb]; exact hr) (by rw [hb]; exact hprod)
  have hfinal : P.execute_cycle + P.execute_duration ≤ C.execute_cycle := by
    rcases hsrc with h1 | h1
    · exact hmain true (by show C.original_src1 = r; rw [hC1, h1])
    · exact hmain false (by show C.original_src2 = r; rw [hC2, h1])
  obtain ⟨⟨⟨_, _, _, hdur⟩, hwb, _⟩, _⟩ := hPt
  omega

set_option maxRecDepth 100000 in
/-- The trace of scenario S2: the second instruction reads the register that the
first one, of latency two, writes; it starts to execute in the cycle in which the
first one is written back. -/
theorem C2_data_dependence_witness :
    ((driver_state ⟨8, 8, 1⟩ [mk_instr 0 1 1 (-1) (-1), mk_instr 4 0 2 1 (-1)] 11
        0).completed_intstructions.getD 0 Instruction.zero).writeback_cycle
      ≤ ((driver_state ⟨8, 8, 1⟩ [mk_instr 0 1 1 (-1) (-1), mk_instr 4 0 2 1 (-1)] 11
        0).completed_intstructions.getD 1 Instruction.zero).execute_cycle :=
  C2_data_dependence ⟨8, 8, 1⟩ [mk_instr 0 1 1 (-1) (-1), mk_instr 4 0 2 1 (-1)] 11 0 0 1
    _ _ (mk_instr 4 0 2 1 (-1)) (mk_instr 0 1 1 (-1) (-1)) 1 (by decide) rfl rfl rfl rfl
    (by decide) (Or.inl rfl) rfl (fun m rQ h1 h2 => by omega)

end SimProc

namespace SimProc

/-! ## The stage `Rename` as a function of the batch -/

theorem batch_tag_zero {N t : Nat} (ht : t < N) : batch_tag N t 0 = (t : Int) := by
  unfold batch_tag
  rw [Nat.add_zero, Nat.mod_eq_of_lt ht]

theorem batch_tag_succ (N t k : Nat) : batch_tag N ((t + 1) % N) k = batch_tag N t (k + 1) := by
  unfold batch_tag
  rw [Nat.mod_add_mod]
  congr 2
  omega

theorem batch_tag_ne {N t m : Nat} (ht : t < N) (h0 : 0 < m) (hm : m < N) :
    batch_tag N t m ≠ (t : Int) := by
  unfold batch_tag
  intro h
  have h1 : (t + m) % N = t := by exact_mod_cast h
  have h2 : (t + m) % N = t % N := by rw [h1, Nat.mod_eq_of_lt ht]
  have := eq_of_mod_eq_of_window h2 (by omega) (by omega)
  omega

theorem nearest_earlier_zero (N t : Nat) (rn : List Instruction) (r : Int) :
    nearest_earlier N t rn 0 r = none := rfl

theorem find_range_shift (f g : Nat → Bool) (hfg : ∀ j, g (j + 1) = f j) (k : Nat) :
    (List.range (k + 1)).reverse.find? g =
      match (List.range k).reverse.find? f with
      | some j => some (j + 1)
      | none => if g 0 = true then some 0 else none := by
  induction k with
  | zero =>
    cases h : g 0 <;> simp [List.range_succ, h]
  | succ k ih =>
    rw [show List.range (k + 1 + 1) = List.range (k + 1) ++ [k + 1] from List.range_succ _,
      List.reverse_append, List.reverse_singleton, List.singleton_append, List.find?_cons, ih,
      show List.range (k + 1) = List.range k ++ [k] from List.range_succ _,
      List.reverse_append, List.reverse_singleton, List.singleton_append, List.find?_cons, hfg]
    cases f k <;> rfl

theorem nearest_earlier_cons {N t : Nat} (ht : t < N) (i : Instruction)
    (rn : List Instruction) (k : Nat) (r : Int) :
    nearest_earlier N t (i :: rn) (k + 1) r =
      match nearest_earlier N ((t + 1) % N) rn k r with
      | some x => some x
      | none => if i.dest = r then some (t : Int) else none := by
  unfold nearest_earlier
  rw [find_range_shift (fun j => decide ((rn.getD j Instruction.zero).dest = r))
    (fun j => decide (((i :: rn).getD j Instruction.zero).dest = r)) (fun j => by simp)]
  cases (List.range k).reverse.find?
      (fun j => decide ((rn.getD j Instruction.zero).dest = r)) with
  | some j =>
    simp only [Option.map_some', batch_tag_succ]
  | none =>
    by_cases h : i.dest = r
    · simp [h, batch_tag_zero ht]
    · simp [h]

theorem renamed_source_zero (N : Nat) (s : State) (r : Int) :
    renamed_source N s 0 r = rename_src s.RMT r := by
  unfold renamed_source rename_src
  rw [nearest_earlier_zero]
  by_cases h : r = -1
  · simp [h]
  · rewrite [if_neg h, if_pos h]
    rfl

theorem renamed_source_step {N : Nat} (s : State) (i : Instruction) (rn : List Instruction)
    (hrn : s.RN = i :: rn) (ht : s.rob_tail < N) (k : Nat) (r : Int) :
    renamed_source N (Rename_step N i rn s) k r = renamed_source N s (k + 1) r := by
  unfold renamed_source
  have e1 : (Rename_step N i rn s).RN = rn := rfl
  have e2 : (Rename_step N i rn s).rob_tail = (s.rob_tail + 1) % N := rfl
  have e3 : (Rename_step N i rn s).RMT = s.RMT.insert i.dest (s.rob_tail : Int) := rfl
  rw [e1, e2, e3, hrn, nearest_earlier_cons ht, UMap.find_insert]
  by_cases h : r = -1
  · simp [h]
  · rw [if_neg h, if_neg h]
    cases nearest_earlier N ((s.rob_tail + 1) % N) rn k r with
    | some x => rfl
    | none =>
      by_cases h2 : i.dest = r
      · simp [h2]
      · have h3 : ¬ r = i.dest := fun h => h2 h.symm
        simp [h2, h3]

theorem renamed_record_zero {N : Nat} (s : State) (ht : s.rob_tail < N) (i : Instruction) :
    renamed_record N s 0 i = rename_instr s i := by
  unfold renamed_record rename_instr
  rw [renamed_source_zero, renamed_source_zero, batch_tag_zero ht]

theorem renamed_record_step {N : Nat} (s : State) (i : Instruction) (rn : List Instruction)
    (hrn : s.RN = i :: rn) (ht : s.rob_tail < N) (k : Nat) (x : Instruction) :
    renamed_record N (Rename_step N i rn s) k x = renamed_record N s (k + 1) x := by
  unfold renamed_record
  rw [renamed_source_step s i rn hrn ht, renamed_source_step s i rn hrn ht]
  have e2 : (Rename_step N i rn s).rob_tail = (s.rob_tail + 1) % N := rfl
  have e3 : (Rename_step N i rn s).total_cycles = s.total_cycles := rfl
  rw [e2, e3, batch_tag_succ]

/-- The loop of `Rename` appends the renamed batch to `RR`. -/
theorem Rename_loop_RR (N : Nat) (hN : 0 < N) :
    ∀ (rn : List Instruction) (s : State), s.RN = rn → s.rob_tail < N →
      (Rename_loop N rn s).RR = s.RR ++ (List.range rn.length).map
        (fun k => renamed_record N s k (rn.getD k Instruction.zero)) := by
  intro rn
  induction rn with
  | nil =>
    intro s _ _
    simp [Rename_loop]
  | cons i rn ih =>
    intro s hrn ht
    unfold Rename_loop
    have ht2 : (Rename_step N i rn s).rob_tail < N := Nat.mod_lt _ hN
    rw [ih (Rename_step N i rn s) rfl ht2]
    have e : (Rename_step N i rn s).RR = s.RR ++ [rename_instr s i] := rfl
    rw [e, List.length_cons, List.range_succ_eq_map, List.map_cons, List.map_map,
      List.append_assoc, List.singleton_append]
    congr 2
    · simp [renamed_record_zero s ht]
    · apply List.map_congr_left
      intro k _
      simp only [Function.comp, List.getD_cons_succ]
      exact renamed_record_step s i rn hrn ht k _

theorem Rename_loop_RN (N : Nat) (rn : List Instruction) (s : State) :
    (Rename_loop N rn s).RN = [] := by
  induction rn generalizing s with
  | nil => rfl
  | cons a rn ih =>
    unfold Rename_loop
    exact ih _

/-- The loop of `Rename` leaves the ROB entries of the slots that it does not
allocate. -/
theorem Rename_loop_rob_frame (N : Nat) (hN : 0 < N) (key : Int) :
    ∀ (rn : List Instruction) (s : State), s.rob_tail < N →
      (∀ j < rn.length, batch_tag N s.rob_tail j ≠ key) →
      (Rename_loop N rn s).reorder_buffer.find key = s.reorder_buffer.find key := by
  intro rn
  induction rn with
  | nil =>
    intro s _ _
    rfl
  | cons i rn ih =>
    intro s ht h
    unfold Rename_loop
    have ht2 : (Rename_step N i rn s).rob_tail < N := Nat.mod_lt _ hN
    rw [ih (Rename_step N i rn s) ht2]
    · have e : (Rename_step N i rn s).reorder_buffer
          = s.reorder_buffer.insert (s.rob_tail : Int)
              { ready := false, dst := i.dest, tag := (s.rob_tail : Int) } := rfl
      rw [e, UMap.find_insert_ne]
      have := h 0 (by simp)
      rw [batch_tag_zero ht] at this
      exact fun h' => this h'.symm
    · intro j hj
      have e2 : (Rename_step N i rn s).rob_tail = (s.rob_tail + 1) % N := rfl
      rw [e2, batch_tag_succ]
      exact h (j + 1) (by simpa using hj)

/-- The loop of `Rename` allocates a not-ready ROB entry for every instruction of
the batch. -/
theorem Rename_loop_rob (N : Nat) (hN : 0 < N) :
    ∀ (rn : List Instruction) (s : State), s.rob_tail < N → rn.length ≤ N →
      ∀ k < rn.length,
      (Rename_loop N rn s).reorder_buffer.find (batch_tag N s.rob_tail k)
        = some { tag := batch_tag N s.rob_tail k, dst := (rn.getD k Instruction.zero).dest,
                 ready := false } := by
  intro rn
  induction rn with
  | nil =>
    intro s _ _ k hk
    simp at hk
  | cons i rn ih =>
    intro s ht hlen k hk
    unfold Rename_loop
    have ht2 : (Rename_step N i rn s).rob_tail < N := Nat.mod_lt _ hN
    have e2 : (Rename_step N i rn s).rob_tail = (s.rob_tail + 1) % N := rfl
    have hlen2 : rn.length + 1 ≤ N := by simpa using hlen
    cases k with
    | zero =>
      rw [Rename_loop_rob_frame N hN _ rn _ ht2]
      · have e : (Rename_step N i rn s).reorder_buffer
            = s.reorder_buffer.insert (s.rob_tail : Int)
                { ready := false, dst := i.dest, tag := (s.rob_tail : Int) } := rfl
        rw [e, batch_tag_zero ht, UMap.find_insert_self]
        rfl
      · intro j hj
        rw [e2, batch_tag_succ, batch_tag_zero ht]
        exact batch_tag_ne ht (by omega) (by omega)
    | succ k =>
      have hk2 : k < rn.length := by simpa using hk
      have := ih (Rename_step N i rn s) ht2 (by omega) k hk2
      rw [e2, batch_tag_succ] at this
      rw [this]
      simp

theorem free_entries_le {N : Nat} (s : State) (hh : s.rob_head < N) (ht : s.rob_tail < N) :
    0 ≤ free_entries N s ∧ free_entries N s ≤ (N : Int) := by
  unfold free_entries
  split_ifs <;> omega

/-- The guard of `Rename` in terms of the integers compared. -/
theorem Rename_guard {N : Nat} (s : State) (hN : N < 2 ^ 64) (hh : s.rob_head < N)
    (ht : s.rob_tail < N) :
    (s.RR.isEmpty ∧ to_size_t (free_entries N s) ≥ s.RN.length) ↔
      ¬ (s.RR ≠ [] ∨ free_entries N s < (s.RN.length : Int)) := by
  have h := free_entries_le s hh ht
  have e : ((to_size_t (free_entries N s) : Nat) : Int) = free_entries N s := by
    unfold to_size_t
    omega
  rw [List.isEmpty_iff]
  constructor
  · rintro ⟨h1, h2⟩
    simp only [not_or, not_not, not_lt]
    refine ⟨h1, ?_⟩
    rw [← e]
    exact_mod_cast h2
  · intro h3
    simp only [not_or, not_not, not_lt] at h3
    refine ⟨h3.1, ?_⟩
    have := h3.2
    rw [← e] at this
    exact_mod_cast this

end SimProc

namespace SimProc

/-! ## The stage `Issue` as a selection by position -/

theorem map_getD_range (l : List Instruction) :
    (List.range l.length).map (fun j => l.getD j Instruction.zero) = l := by
  apply List.ext_getElem
  · simp
  · intro n h1 h2
    simp [List.getD, List.getElem?_eq_getElem h2]

/-- Selection by position on a list with a first element. -/
theorem pick_cons (p : Nat → Bool) (x : Instruction) (rest : List Instruction) :
    ((List.range (x :: rest).length).filter p).map
        (fun j => (x :: rest).getD j Instruction.zero)
      = (if p 0 = true then [x] else []) ++
        ((List.range rest.length).filter (fun j => p (j + 1))).map
          (fun j => rest.getD j Instruction.zero) := by
  have e : ∀ l : List Nat,
      List.map ((fun j => (x :: rest).getD j Instruction.zero) ∘ Nat.succ) l
        = List.map (fun j => rest.getD j Instruction.zero) l := by
    intro l
    apply List.map_congr_left
    intro j _
    simp [List.getD]
  have e2 : (p ∘ Nat.succ) = fun j => p (j + 1) := rfl
  rw [List.length_cons, List.range_succ_eq_map, List.filter_cons, List.filter_map, e2]
  cases h : p 0
  · simp only [Bool.false_eq_true, if_false, List.map_map, List.nil_append]
    exact e _
  · simp only [if_true, List.map_cons, List.map_map, List.singleton_append]
    rw [e]
    simp

theorem ready_before_zero (iq : List Instruction) : ready_before iq 0 = 0 := by
  simp [ready_before]

theorem ready_before_succ (x : Instruction) (rest : List Instruction) (j : Nat) :
    ready_before (x :: rest) (j + 1)
      = (if is_ready x = true then 1 else 0) + ready_before rest j := by
  unfold ready_before
  rw [List.take_succ_cons, List.filter_cons]
  cases h : is_ready x
  · simp
  · simp
    omega

theorem issued_at_width_zero (iq : List Instruction) (j : Nat) : issued_at 0 iq j = false := by
  simp [issued_at]

theorem issued_at_head (W : Nat) (x : Instruction) (rest : List Instruction) :
    issued_at W (x :: rest) 0 = (is_ready x && decide (0 < W)) := by
  simp [issued_at, ready_before_zero]

theorem issued_at_succ_ready (n : Nat) (x : Instruction) (rest : List Instruction) (j : Nat)
    (hx : is_ready x = true) :
    issued_at (n + 1) (x :: rest) (j + 1) = issued_at n rest j := by
  unfold issued_at
  rw [ready_before_succ, if_pos hx, List.getD_cons_succ]
  congr 1
  simp only [decide_eq_decide]
  omega

theorem issued_at_succ_not_ready (W : Nat) (x : Instruction) (rest : List Instruction)
    (j : Nat) (hx : is_ready x = false) :
    issued_at W (x :: rest) (j + 1) = issued_at W rest j := by
  unfold issued_at
  rw [ready_before_succ, List.getD_cons_succ]
  simp [hx]

theorem issue_selected_width_zero (iq : List Instruction) : issue_selected 0 iq = [] := by
  unfold issue_selected
  simp [issued_at_width_zero]

theorem issue_kept_width_zero (iq : List Instruction) : issue_kept 0 iq = iq := by
  unfold issue_kept
  have := map_getD_range iq
  simpa [issued_at_width_zero] using this

theorem issue_selected_cons_ready (n : Nat) (x : Instruction) (rest : List Instruction)
    (hx : is_ready x = true) :
    issue_selected (n + 1) (x :: rest) = x :: issue_selected n rest := by
  unfold issue_selected
  rw [pick_cons, issued_at_head]
  simp [hx, issued_at_succ_ready n x rest _ hx]

theorem issue_selected_cons_not_ready (W : Nat) (x : Instruction) (rest : List Instruction)
    (hx : is_ready x = false) :
    issue_selected W (x :: rest) = issue_selected W rest := by
  unfold issue_selected
  rw [pick_cons, issued_at_head]
  simp [hx, issued_at_succ_not_ready W x rest _ hx]

theorem issue_kept_cons_ready (n : Nat) (x : Instruction) (rest : List Instruction)
    (hx : is_ready x = true) :
    issue_kept (n + 1) (x :: rest) = issue_kept n rest := by
  unfold issue_kept
  rw [pick_cons, issued_at_head]
  simp [hx, issued_at_succ_ready n x rest _ hx]

theorem issue_kept_cons_not_ready (W : Nat) (x : Instruction) (rest : List Instruction)
    (hx : is_ready x = false) :
    issue_kept W (x :: rest) = x :: issue_kept W rest := by
  unfold issue_kept
  rw [pick_cons, issued_at_head]
  simp [hx, issued_at_succ_not_ready W x rest _ hx]

theorem is_ready_iff (x : Instruction) :
    is_ready x = true ↔ (x.src1_ready = true ∧ x.src2_ready = true) := by
  simp [is_ready]

/-- The loop of `Issue` keeps `issue_kept` and issues `issue_selected`. -/
theorem Issue_loop_eq (W : Nat) (iq : List Instruction) :
    Issue_loop W iq = (issue_kept W iq,
      (issue_selected W iq).map (fun i => { i with execute_duration := 0 })) := by
  induction iq generalizing W with
  | nil => cases W <;> rfl
  | cons x rest ih =>
    cases W with
    | zero =>
      rw [issue_kept_width_zero, issue_selected_width_zero]
      rfl
    | succ n =>
      unfold Issue_loop
      by_cases hx : is_ready x = true
      · rw [if_pos ((is_ready_iff x).mp hx), ih n, issue_kept_cons_ready n x rest hx,
          issue_selected_cons_ready n x rest hx]
        rfl
      · have hx2 : is_ready x = false := by simpa using hx
        rw [if_neg (fun h => hx ((is_ready_iff x).mpr h)), ih (n + 1),
          issue_kept_cons_not_ready (n + 1) x rest hx2,
          issue_selected_cons_not_ready (n + 1) x rest hx2]

/-- The issued entries are the first `WIDTH` ready entries. -/
theorem issue_selected_eq (W : Nat) (iq : List Instruction) :
    issue_selected W iq = (iq.filter is_ready).take W := by
  induction iq generalizing W with
  | nil => simp [issue_selected]
  | cons x rest ih =>
    cases W with
    | zero => rw [issue_selected_width_zero, List.take_zero]
    | succ n =>
      by_cases hx : is_ready x = true
      · rw [issue_selected_cons_ready n x rest hx, List.filter_cons_of_pos hx,
          List.take_succ_cons, ih n]
      · have hx2 : is_ready x = false := by simpa using hx
        rw [issue_selected_cons_not_ready (n + 1) x rest hx2, List.filter_cons_of_neg hx,
          ih (n + 1)]

theorem issue_kept_sublist (W : Nat) (iq : List Instruction) : (issue_kept W iq).Sublist iq := by
  have := Issue_loop_kept_sublist W iq
  rw [Issue_loop_eq] at this
  exact this

/-- The fields of the state after `Issue`. -/
theorem Issue_eq (W : Nat) (s : State) :
    Issue W s = { s with
      IQ := issue_kept W s.IQ
      execute_list := s.execute_list ++
        (issue_selected W s.IQ).map (fun i => { i with execute_duration := 0 }) } := by
  unfold Issue
  rw [Issue_loop_eq]

/-! ## The stage `RegRead` -/

theorem regread_flag_eq (rob : UMap rob_params) (aw : Bool) (src : Int) (rd : Bool) :
    regread_ready rob aw src rd = regread_flag rob aw src rd := by
  unfold regread_ready regread_flag
  cases aw
  · simp only [if_true, Bool.false_eq_true, if_false]
    by_cases h : src < 0
    · simp [h]
    · cases hf : rob.find src with
      | none => simp [h]
      | some e => simp [h]
  · simp

theorem regread_record_eq (s : State) (i : Instruction) :
    regread_instr s.total_cycles s.reorder_buffer i = regread_record s i := by
  unfold regread_instr regread_record
  rw [regread_flag_eq, regread_flag_eq]

/-- The fields of the state after `RegRead`. -/
theorem RegRead_eq (s : State) :
    RegRead s = if s.DI = [] then { s with DI := s.RR.map (regread_record s), RR := [] }
      else s := by
  unfold RegRead
  by_cases h : s.DI = []
  · rw [if_pos h, if_pos (by simp [h]), RegRead_loop_eq, h, List.nil_append]
    congr 1
    apply List.map_congr_left
    intro i _
    exact regread_record_eq s i
  · rw [if_neg h, if_neg (by simpa using h)]

end SimProc

namespace SimProc

/-! ## The stage `Retire` as a function of the ready slots at the head -/

theorem head_slot_zero {N : Nat} (s : State) (hh : s.rob_head < N) :
    head_slot N s 0 = (s.rob_head : Int) := batch_tag_zero hh

theorem head_slot_ne {N : Nat} (s : State) (hh : s.rob_head < N) {m : Nat} (h0 : 0 < m)
    (hm : m < N) : head_slot N s m ≠ (s.rob_head : Int) := batch_tag_ne hh h0 hm

theorem ready_count_le (rob : UMap rob_params) (N : Nat) :
    ∀ f slot, ready_count rob N f slot ≤ f := by
  intro f
  induction f with
  | zero => intro _; simp [ready_count]
  | succ f ih =>
    intro slot
    unfold ready_count
    cases rob.find (slot : Int) with
    | none => simp
    | some e =>
      by_cases h : e.ready = true
      · simp only [h, if_true]
        have := ih ((slot + 1) % N)
        omega
      · simp [h]

theorem ready_count_congr (rob1 rob2 : UMap rob_params) (N : Nat) :
    ∀ f slot, slot < N →
      (∀ i < f, rob1.find (batch_tag N slot i) = rob2.find (batch_tag N slot i)) →
      ready_count rob1 N f slot = ready_count rob2 N f slot := by
  intro f
  induction f with
  | zero => intro _ _ _; rfl
  | succ f ih =>
    intro slot hs h
    unfold ready_count
    have h0 := h 0 (by omega)
    rw [batch_tag_zero hs] at h0
    rw [h0]
    have hN : 0 < N := by omega
    rw [ih ((slot + 1) % N) (Nat.mod_lt _ hN)]
    intro i hi
    rw [batch_tag_succ]
    exact h (i + 1) (by omega)

theorem Retire_loop_rm_none (N : Nat) (key : Int) :
    ∀ W s, s.retire_map.find key = none →
      (Retire_loop N W s).retire_map.find key = none := by
  intro W
  induction W with
  | zero => intro s h; exact h
  | succ n ih =>
    intro s h
    unfold Retire_loop
    simp only
    split_ifs
    · apply ih
      show ((s.retire_map.touch _ Instruction.zero).erase _).find key = none
      rw [UMap.find_erase, UMap.find_touch]
      split_ifs <;> first | rfl | exact h
    · exact h

theorem Retire_loop_rob_zero (N : Nat) (key : Int) :
    ∀ W s, (∀ e, s.reorder_buffer.find key = some e → e = rob_params.zero) →
      ∀ e, (Retire_loop N W s).reorder_buffer.find key = some e → e = rob_params.zero := by
  intro W
  induction W with
  | zero => intro s h; exact h
  | succ n ih =>
    intro s h
    have ht : ∀ e, (Retire_touch s).reorder_buffer.find key = some e → e = rob_params.zero := by
      intro e he
      have e1 : (Retire_touch s).reorder_buffer
          = s.reorder_buffer.touch (s.rob_head : Int) rob_params.zero := rfl
      rw [e1, UMap.find_touch] at he
      by_cases hk : key = (s.rob_head : Int)
      · rw [if_pos hk] at he
        injection he with he
        rw [← he]
        unfold UMap.get
        cases hf : s.reorder_buffer.find (s.rob_head : Int) with
        | none => rfl
        | some v => exact h v (hk ▸ hf)
      · rw [if_neg hk] at he
        exact h e he
    unfold Retire_loop
    simp only
    split_ifs
    · apply ih
      intro e he
      have e2 : (Retire_body N (Retire_touch s)).reorder_buffer
          = (Retire_touch s).reorder_buffer.erase ((Retire_touch s).rob_head : Int) := rfl
      rw [e2, UMap.find_erase] at he
      split_ifs at he
      exact ht e he
    · exact ht

theorem Retire_loop_succ (N n : Nat) (s : State) :
    Retire_loop N (n + 1) s =
      if (s.reorder_buffer.get (s.rob_head : Int) rob_params.zero).ready = true then
        Retire_loop N n (Retire_body N (Retire_touch s))
      else Retire_touch s := by
  have e : (Retire_touch s).reorder_buffer.get ((Retire_touch s).rob_head : Int)
      rob_params.zero = s.reorder_buffer.get (s.rob_head : Int) rob_params.zero :=
    UMap.get_touch _ _ _
  conv_lhs => unfold Retire_loop
  simp only [e]

theorem Retired_touch (N : Nat) (s : State) (hh : s.rob_head < N) :
    Retired N s (Retire_touch s) 0 where
  completed := by simp [retired_batch, Retire_touch]
  retired := rfl
  head := by simp [Retire_touch, Nat.mod_eq_of_lt hh]
  full := by simp [Retire_touch]
  erased_rm := by intro j hj; omega
  erased_rob := by intro j hj; omega
  frame := ⟨rfl, rfl, rfl, rfl, rfl, rfl, rfl, rfl, rfl, rfl, rfl⟩

theorem head_slot_body {N : Nat} (s : State) (j : Nat) :
    head_slot N (Retire_body N (Retire_touch s)) j = head_slot N s (j + 1) :=
  batch_tag_succ N s.rob_head j

theorem Retire_body_rm_find {N : Nat} (s : State) (key : Int)
    (hk : key ≠ (s.rob_head : Int)) :
    (Retire_body N (Retire_touch s)).retire_map.find key = s.retire_map.find key := by
  show ((s.retire_map.touch (s.rob_head : Int) Instruction.zero).erase
    (s.rob_head : Int)).find key = _
  rw [UMap.find_erase, if_neg hk, UMap.find_touch, if_neg hk]

theorem Retire_body_rob_find {N : Nat} (s : State) (key : Int)
    (hk : key ≠ (s.rob_head : Int)) :
    (Retire_body N (Retire_touch s)).reorder_buffer.find key = s.reorder_buffer.find key := by
  show ((s.reorder_buffer.touch (s.rob_head : Int) rob_params.zero).erase
    (s.rob_head : Int)).find key = _
  rw [UMap.find_erase, if_neg hk, UMap.find_touch, if_neg hk]

theorem Retire_body_rm_head {N : Nat} (s : State) :
    (Retire_body N (Retire_touch s)).retire_map.find (s.rob_head : Int) = none := by
  show ((s.retire_map.touch (s.rob_head : Int) Instruction.zero).erase
    (s.rob_head : Int)).find _ = _
  rw [UMap.find_erase, if_pos rfl]

theorem Retire_body_rob_head {N : Nat} (s : State) :
    (Retire_body N (Retire_touch s)).reorder_buffer.find (s.rob_head : Int) = none := by
  show ((s.reorder_buffer.touch (s.rob_head : Int) rob_params.zero).erase
    (s.rob_head : Int)).find _ = _
  rw [UMap.find_erase, if_pos rfl]

theorem head_slot_full {N : Nat} (s : State) (hh : s.rob_head < N) :
    head_slot N s N = (s.rob_head : Int) := by
  unfold head_slot
  rw [Nat.add_mod_right, Nat.mod_eq_of_lt hh]

/-- One more retirement in front of a call that retires `k` instructions. -/
theorem Retired_step {N : Nat} (s s1 : State) (k : Nat) (hh : s.rob_head < N) (hk : k + 1 ≤ N)
    (h : Retired N (Retire_body N (Retire_touch s)) s1 k)
    (hrm : s1.retire_map.find (s.rob_head : Int) = none)
    (hrob : ∀ e, s1.reorder_buffer.find (s.rob_head : Int) = some e → e = rob_params.zero) :
    Retired N s s1 (k + 1) where
  completed := by
    rw [h.completed]
    have e1 : (Retire_body N (Retire_touch s)).completed_intstructions
        = s.completed_intstructions ++
          [{ s.retire_map.get (s.rob_head : Int) Instruction.zero with
             RT_cycle := s.total_cycles + 1 }] := rfl
    rw [e1, List.append_assoc]
    congr 1
    unfold retired_batch
    rw [List.range_succ_eq_map, List.map_cons, List.map_map, head_slot_zero s hh,
      List.singleton_append]
    congr 1
    apply List.map_congr_left
    intro j hj
    have hj2 : j < k := by simpa using hj
    have hne : head_slot N s (j + 1) ≠ (s.rob_head : Int) :=
      head_slot_ne s hh (by omega) (by omega)
    simp only [Function.comp, head_slot_body]
    have e2 : (Retire_body N (Retire_touch s)).total_cycles = s.total_cycles := rfl
    rw [e2]
    unfold UMap.get
    rw [Retire_body_rm_find s _ hne]
  retired := by
    rw [h.retired]
    show s.retired_instructions + 1 + k = _
    omega
  head := by
    rw [h.head]
    show ((s.rob_head + 1) % N + k) % N = _
    rw [Nat.mod_add_mod]
    congr 1
    omega
  full := by
    rw [h.full, if_pos (Nat.succ_pos k)]
    split_ifs <;> rfl
  erased_rm := by
    intro j hj
    cases j with
    | zero =>
      rw [head_slot_zero s hh]
      exact hrm
    | succ j =>
      have := h.erased_rm j (by omega)
      rwa [head_slot_body] at this
  erased_rob := by
    intro j hj
    cases j with
    | zero =>
      rw [head_slot_zero s hh]
      exact hrob
    | succ j =>
      have := h.erased_rob j (by omega)
      rwa [head_slot_body] at this
  frame := h.frame

/-- The loop of `Retire` retires the instructions of the ready slots at the head,
at most `WIDTH` of them. -/
theorem Retire_loop_spec (N : Nat) (hN : 0 < N) :
    ∀ W f s, s.rob_head < N → f ≤ N →
      (∀ i, f ≤ i → i < N → s.reorder_buffer.find (head_slot N s i) = none) →
      Retired N s (Retire_loop N W s)
        (min W (ready_count s.reorder_buffer N f s.rob_head)) := by
  intro W
  induction W with
  | zero =>
    intro f s hh _ _
    rw [Nat.zero_min]
    exact
      { completed := by simp [retired_batch, Retire_loop]
        retired := rfl
        head := by simp [Retire_loop, Nat.mod_eq_of_lt hh]
        full := by simp [Retire_loop]
        erased_rm := by intro j hj; omega
        erased_rob := by intro j hj; omega
        frame := ⟨rfl, rfl, rfl, rfl, rfl, rfl, rfl, rfl, rfl, rfl, rfl⟩ }
  | succ n ih =>
    intro f s hh hf hnone
    rw [Retire_loop_succ]
    cases f with
    | zero =>
      have h0 := hnone 0 (le_refl _) hN
      rw [head_slot_zero s hh] at h0
      have : (s.reorder_buffer.get (s.rob_head : Int) rob_params.zero).ready = false := by
        unfold UMap.get
        rw [h0]
        rfl
      rw [if_neg (by simp [this])]
      simp only [ready_count, Nat.min_zero]
      exact Retired_touch N s hh
    | succ f =>
      cases hfind : s.reorder_buffer.find (s.rob_head : Int) with
      | none =>
        have : (s.reorder_buffer.get (s.rob_head : Int) rob_params.zero).ready = false := by
          unfold UMap.get
          rw [hfind]
          rfl
        rw [if_neg (by simp [this])]
        simp only [ready_count, hfind, Nat.min_zero]
        exact Retired_touch N s hh
      | some e =>
        have hget : s.reorder_buffer.get (s.rob_head : Int) rob_params.zero = e := by
          unfold UMap.get
          rw [hfind]
        rw [hget]
        by_cases hr : e.ready = true
        · rw [if_pos hr]
          have hh2 : (Retire_body N (Retire_touch s)).rob_head < N := Nat.mod_lt _ hN
          have hnone2 : ∀ i, f ≤ i → i < N →
              (Retire_body N (Retire_touch s)).reorder_buffer.find
                (head_slot N (Retire_body N (Retire_touch s)) i) = none := by
            intro i hi hiN
            rw [head_slot_body]
            by_cases hk : head_slot N s (i + 1) = (s.rob_head : Int)
            · rw [hk]
              exact Retire_body_rob_head s
            · rw [Retire_body_rob_find s _ hk]
              apply hnone (i + 1) (by omega)
              by_contra hcon
              have : i + 1 = N := by omega
              rw [this] at hk
              exact hk (head_slot_full s hh)
          have hrp : ready_count (Retire_body N (Retire_touch s)).reorder_buffer N f
                (Retire_body N (Retire_touch s)).rob_head
              = ready_count s.reorder_buffer N f ((s.rob_head + 1) % N) := by
            apply ready_count_congr _ _ N f _ (Nat.mod_lt _ hN)
            intro i hi
            show (Retire_body N (Retire_touch s)).reorder_buffer.find
                (batch_tag N ((s.rob_head + 1) % N) i)
              = s.reorder_buffer.find (batch_tag N ((s.rob_head + 1) % N) i)
            rw [batch_tag_succ]
            exact Retire_body_rob_find s _ (batch_tag_ne hh (by omega) (by omega))
          have IH := ih f (Retire_body N (Retire_touch s)) hh2 (by omega) hnone2
          rw [hrp] at IH
          have hk : min (n + 1) (ready_count s.reorder_buffer N (f + 1) s.rob_head)
              = min n (ready_count s.reorder_buffer N f ((s.rob_head + 1) % N)) + 1 := by
            conv_lhs => unfold ready_count
            simp only [hfind, hr, if_true]
            omega
          rw [hk]
          have hle := ready_count_le s.reorder_buffer N f ((s.rob_head + 1) % N)
          apply Retired_step s _ _ hh (by omega) IH
          · exact Retire_loop_rm_none N _ n _ (Retire_body_rm_head s)
          · apply Retire_loop_rob_zero N _ n _
            intro e he
            rw [Retire_body_rob_head s] at he
            exact absurd he (by simp)
        · rw [if_neg hr]
          simp only [ready_count, hfind, hr, if_false, Nat.min_zero]
          exact Retired_touch N s hh

/-- One call of `Retire` in a state with `rob_head < ROB_SIZE`. -/
theorem Retire_spec {N : Nat} (W : Nat) (s : State) (hh : s.rob_head < N) :
    Retired N s (Retire W N s) (min W (ready_run N s)) :=
  Retire_loop_spec N (by omega) W N s hh (le_refl _) (fun i h1 h2 => absurd h1 (by omega))

end SimProc

namespace SimProc

/-! ## Claims on single stages: `Rename` and `Dispatch` -/

/-- C13 (`Rename` is all-or-nothing and renames in program order).  For every state
with `rob_head, rob_tail < ROB_SIZE` (and `ROB_SIZE` a C++ `int`, here only
`ROB_SIZE < 2^64` is used): if `RR` is non-empty or `free_entries(ROB_SIZE) < |RN|`
then `Rename` changes nothing.  Otherwise `RN` is emptied into `RR` in order; the
`k`-th instruction of the batch becomes `renamed_record`: its destination is the tag
`(rob_tail + k) mod ROB_SIZE`, each source is renamed by `renamed_source` (`-1` stays;
otherwise the tag of the nearest earlier instruction of the batch that writes the
register; otherwise the mapping of the table before the call; otherwise `-2`), the
awaken flags are cleared and `regread_cycle = total_cycles + 1`; and after the call
the ROB holds a not-ready entry with that tag and the architectural destination of
the instruction.  The own destination of an instruction is not visible to its
sources: a source with no earlier writer in the batch and no mapping before the call
is renamed to `-2` whatever the destination of the instruction itself is. -/
theorem C13_rename_all_or_nothing (N : Nat) (s : State) (hN : N < 2 ^ 64)
    (hh : s.rob_head < N) (ht : s.rob_tail < N) :
    ((s.RR ≠ [] ∨ free_entries N s < (s.RN.length : Int)) → Rename N s = s) ∧
    (¬ (s.RR ≠ [] ∨ free_entries N s < (s.RN.length : Int)) →
      (Rename N s).RN = [] ∧
      (Rename N s).RR = (List.range s.RN.length).map
        (fun k => renamed_record N s k (s.RN.getD k Instruction.zero)) ∧
      (∀ k < s.RN.length,
        (Rename N s).reorder_buffer.find (batch_tag N s.rob_tail k)
          = some { tag := batch_tag N s.rob_tail k
                   dst := (s.RN.getD k Instruction.zero).dest
                   ready := false }) ∧
      (∀ k < s.RN.length, ∀ r : Int, r ≠ -1 →
        (∀ j < k, (s.RN.getD j Instruction.zero).dest ≠ r) → s.RMT.find r = none →
        renamed_source N s k r = -2)) := by
  have hg := Rename_guard s hN hh ht
  have hpos : 0 < N := by omega
  constructor
  · intro h
    unfold Rename
    rw [if_neg]
    rw [hg]
    exact fun h' => h' h
  · intro h
    have hg2 := hg.mpr h
    have e : Rename N s = Rename_loop N s.RN s := by
      unfold Rename
      rw [if_pos hg2]
    have hRR : s.RR = [] := List.isEmpty_iff.mp hg2.1
    have hlen : s.RN.length ≤ N := by
      have h1 := (free_entries_le s hh ht).2
      have h2 : (s.RN.length : Int) ≤ free_entries N s := by
        simp only [not_or, not_lt] at h
        exact h.2
      omega
    rw [e]
    refine ⟨Rename_loop_RN N _ _, ?_, ?_, ?_⟩
    · rw [Rename_loop_RR N hpos s.RN s rfl ht, hRR, List.nil_append]
    · exact Rename_loop_rob N hpos s.RN s ht hlen
    · intro k _ r hr hj hf
      unfold renamed_source nearest_earlier
      rw [if_neg hr]
      have : (List.range k).reverse.find?
          (fun j => decide ((s.RN.getD j Instruction.zero).dest = r)) = none := by
        rw [List.find?_eq_none]
        intro j hj2
        have : j < k := by simpa using hj2
        simpa using hj j this
      rw [this, hf]
      rfl

/-- The statement of C13 on `rename_example` with `ROB_SIZE = 4`: the three
instructions receive the tags `3, 0, 1`; the second reads tag `3` for the register
written by the first and `-2` for its own destination. -/
theorem C13_rename_all_or_nothing_witness :
    ((4 : Nat) < 2 ^ 64 ∧ rename_example.rob_head < 4 ∧ rename_example.rob_tail < 4 ∧
      ¬ (rename_example.RR ≠ [] ∨
          free_entries 4 rename_example < (rename_example.RN.length : Int))) ∧
    (Rename 4 rename_example).RN = [] ∧
    (Rename 4 rename_example).RR = (List.range rename_example.RN.length).map
      (fun k => renamed_record 4 rename_example k
        (rename_example.RN.getD k Instruction.zero)) :=
  ⟨⟨by decide, by decide, by decide, by decide⟩,
   ((C13_rename_all_or_nothing 4 rename_example (by decide) (by decide) (by decide)).2
      (by decide)).1,
   ((C13_rename_all_or_nothing 4 rename_example (by decide) (by decide) (by decide)).2
      (by decide)).2.1⟩

/-- C14 (`Dispatch` is all-or-nothing).  For every state with `|IQ| ≤ IQ_SIZE` (and
`IQ_SIZE` a C++ `int`, here only `IQ_SIZE < 2^64` is used): if
`|IQ| + |DI| ≤ IQ_SIZE` then after `Dispatch` `DI` is empty and `IQ` is the old `IQ`
followed by the old `DI` in order, each moved entry stamped
`issue_cycle = total_cycles + 1` and otherwise unchanged, and nothing else in the
state changes; if `|IQ| + |DI| > IQ_SIZE` then the state is unchanged, no prefix of
`DI` is moved. -/
theorem C14_dispatch_all_or_nothing (IQ_SIZE : Nat) (s : State) (hQ : IQ_SIZE < 2 ^ 64)
    (hiq : s.IQ.length ≤ IQ_SIZE) :
    (s.IQ.length + s.DI.length ≤ IQ_SIZE →
      Dispatch IQ_SIZE s =
        { s with
          DI := []
          IQ := s.IQ ++ s.DI.map (fun i => { i with issue_cycle := s.total_cycles + 1 }) }) ∧
    (IQ_SIZE < s.IQ.length + s.DI.length → Dispatch IQ_SIZE s = s) := by
  have hA := to_size_t_of_lt hQ
  constructor
  · intro h
    unfold Dispatch
    rw [Dispatch_loop_eq, if_pos]
    right
    rw [hA]
    omega
  · intro h
    unfold Dispatch
    rw [Dispatch_loop_eq, if_neg]
    rw [hA, not_or]
    constructor
    · intro hd
      rw [hd] at h
      simp at h
      omega
    · omega

/-- The statement of C14 on `dispatch_example`: with `IQ_SIZE = 3` both instructions
of `DI` are moved, with `IQ_SIZE = 2` none is. -/
theorem C14_dispatch_all_or_nothing_witness :
    ((3 : Nat) < 2 ^ 64 ∧ dispatch_example.IQ.length ≤ 3 ∧
      dispatch_example.IQ.length + dispatch_example.DI.length ≤ 3) ∧
    Dispatch 3 dispatch_example =
      { dispatch_example with
        DI := []
        IQ := dispatch_example.IQ ++ dispatch_example.DI.map
          (fun i => { i with issue_cycle := dispatch_example.total_cycles + 1 }) } :=
  ⟨⟨by decide, by decide, by decide⟩,
   (C14_dispatch_all_or_nothing 3 dispatch_example (by decide) (by decide)).1 (by decide)⟩

end SimProc

namespace SimProc

/-! ## Program order of the waiting instructions -/

theorem OrdInv.of_sublist {s s' : State} (h : OrdInv s)
    (hsub : (waiting_seq s').Sublist (waiting_seq s)) : OrdInv s' :=
  List.Pairwise.sublist hsub h

theorem OrdInv.of_eq {s s' : State} (h : OrdInv s)
    (h1 : s'.IQ = s.IQ) (h2 : s'.DI = s.DI) (h3 : s'.RR = s.RR) : OrdInv s' := by
  unfold OrdInv waiting_seq at *
  rw [h1, h2, h3]
  exact h

theorem OrdInv_init (tr : List Instruction) : OrdInv (State.init tr) := by
  unfold OrdInv waiting_seq
  exact List.Pairwise.nil

theorem OrdInv_Retire {s : State} (h : OrdInv s) (W N : Nat) : OrdInv (Retire W N s) :=
  Retire_loop_induct N OrdInv (fun _ hs => hs.of_eq rfl rfl rfl)
    (fun _ hs _ => hs.of_eq rfl rfl rfl) W s h

theorem OrdInv_Writeback {s : State} (h : OrdInv s) : OrdInv (Writeback s) :=
  Writeback_loop_induct OrdInv (fun _ _ _ _ hs => hs.of_eq rfl rfl rfl) s.WB s rfl h

theorem seq_wake_all (ds : List Int) (i : Instruction) : (wake_all ds i).seq_no = i.seq_no :=
  congrArg Ident.seq_no (ident_wake_all ds i)

theorem seq_wake_all_RR (ds : List Int) (i : Instruction) :
    (wake_all_RR ds i).seq_no = i.seq_no :=
  congrArg Ident.seq_no (ident_wake_all_RR ds i)

theorem OrdInv_Execute {s : State} (h : OrdInv s) : OrdInv (Execute s) := by
  obtain ⟨_, _, h3, h4, h5⟩ := Execute_lists s
  unfold OrdInv waiting_seq at *
  rw [h3, h4, h5]
  simp only [List.map_append, List.map_map] at h ⊢
  have e1 : ∀ ds, ((fun i : Instruction => i.seq_no) ∘ wake_all ds) = fun i => i.seq_no :=
    fun ds => funext (fun i => seq_wake_all ds i)
  have e2 : ∀ ds, ((fun i : Instruction => i.seq_no) ∘ wake_all_RR ds) = fun i => i.seq_no :=
    fun ds => funext (fun i => seq_wake_all_RR ds i)
  rw [e1, e2]
  exact h

theorem OrdInv_Issue {s : State} (h : OrdInv s) (W : Nat) : OrdInv (Issue W s) := by
  apply h.of_sublist
  unfold waiting_seq
  show (List.map _ ((Issue_loop W s.IQ).1 ++ s.DI ++ s.RR)).Sublist _
  exact ((((Issue_loop_kept_sublist W s.IQ).append_right s.DI)).append_right s.RR).map _

theorem OrdInv_Dispatch {s : State} (h : OrdInv s) (Q : Nat) : OrdInv (Dispatch Q s) := by
  unfold Dispatch
  rw [Dispatch_loop_eq]
  split_ifs
  · unfold OrdInv waiting_seq at *
    simp only [List.map_append, List.map_map, List.append_nil] at h ⊢
    exact h
  · exact h

theorem OrdInv_RegRead {s : State} (h : OrdInv s) : OrdInv (RegRead s) := by
  rw [RegRead_eq]
  split_ifs with hd
  · unfold OrdInv waiting_seq at *
    rw [hd] at h
    simp only [List.map_append, List.map_map, List.append_nil, List.map_nil] at h ⊢
    exact h
  · exact h

theorem OrdInv_Decode {s : State} (h : OrdInv s) : OrdInv (Decode s) := by
  unfold Decode
  split_ifs
  · exact h.of_eq rfl rfl rfl
  · exact h

theorem OrdInv_Fetch {s : State} (h : OrdInv s) (W : Nat) : OrdInv (Fetch W s) := by
  unfold Fetch
  split_ifs
  · exact Fetch_loop_induct OrdInv (fun _ _ _ _ hs => hs.of_eq rfl rfl rfl) W s h
  · exact h

theorem OrdInv_tick {s : State} (h : OrdInv s) : OrdInv (tick s) := h.of_eq rfl rfl rfl

/-- The room in the ROB that the guard of `Rename` checks. -/
theorem SInv.rename_room {p : proc_params} {tr : List Instruction} {s : State}
    (h : SInv p tr s)
    (hg : s.RR.isEmpty ∧ to_size_t (free_entries p.rob_size s) ≥ s.RN.length) :
    (idents s).length + s.RN.length ≤ p.rob_size := by
  have hfree := h.free_entries_eq
  have hb := h.rob_bound
  have h2 := hg.2
  rw [hfree] at h2
  unfold to_size_t at h2
  omega

/-- Induction over the loop of `Rename` with the structural invariant at hand. -/
theorem Rename_loop_inv {p : proc_params} {tr : List Instruction} {s : State}
    (h : SInv p tr s ∧ RMTInv s) (hroom : (idents s).length + s.RN.length ≤ p.rob_size)
    (Q : State → Prop)
    (hstep : ∀ s instr rn, s.RN = instr :: rn → SInv p tr s → RMTInv s →
      (idents s).length + 1 ≤ p.rob_size → Q s → Q (Rename_step p.rob_size instr rn s))
    (hQ : Q s) : Q (Rename_loop p.rob_size s.RN s) := by
  have := Rename_loop_induct p.rob_size
    (fun s => ((SInv p tr s ∧ RMTInv s) ∧ (idents s).length + s.RN.length ≤ p.rob_size) ∧ Q s)
    (fun s instr rn hRN hs => by
      have hr : (idents s).length + 1 ≤ p.rob_size := by
        have := hs.1.2
        rw [hRN, List.length_cons] at this
        omega
      refine ⟨⟨⟨SInv_Rename_step hs.1.1.1 hRN hr, RMTInv_Rename_step hs.1.1.1 hs.1.1.2 hRN⟩, ?_⟩,
        hstep s instr rn hRN hs.1.1.1 hs.1.1.2 hr hs.2⟩
      have hl := (idents_Rename_step p.rob_size instr rn s).length_eq
      rw [hl]
      have := hs.1.2
      rw [hRN, List.length_cons] at this
      show (idents s).length + 1 + rn.length ≤ p.rob_size
      omega)
    s.RN s rfl ⟨⟨h, hroom⟩, hQ⟩
  exact this.2

theorem waiting_seq_mem_idents {s : State} {n : Nat} (h : n ∈ waiting_seq s) :
    ∃ c ∈ idents s, c.seq_no = n := by
  unfold waiting_seq at h
  obtain ⟨i, hi, rfl⟩ := List.mem_map.mp h
  refine ⟨i.ident, mem_idents_of_mem_live ?_, rfl⟩
  unfold live
  simp only [List.mem_append] at hi ⊢
  tauto

theorem OrdInv_Rename_step {p : proc_params} {tr : List Instruction} {s : State}
    (hs : SInv p tr s) {instr : Instruction} {rn : List Instruction}
    (hRN : s.RN = instr :: rn) (h : OrdInv s) :
    OrdInv (Rename_step p.rob_size instr rn s) := by
  unfold OrdInv waiting_seq at *
  show (List.map _ (s.IQ ++ s.DI ++ (s.RR ++ [rename_instr s instr]))).Pairwise _
  rw [← List.append_assoc, List.map_append, List.pairwise_append]
  refine ⟨h, by simp, ?_⟩
  intro a ha b hb
  obtain ⟨c, hc, rfl⟩ := waiting_seq_mem_idents ha
  have hw := hs.seq_window hc
  have hb2 : b = instr.seq_no := by simpa [rename_instr] using hb
  rw [hb2, (hs.front_RN hRN).1]
  exact hw.2

theorem OrdInv_Rename {p : proc_params} {tr : List Instruction} {s : State}
    (hs : SInv p tr s ∧ RMTInv s) (h : OrdInv s) : OrdInv (Rename p.rob_size s) := by
  unfold Rename
  split_ifs with hg
  · exact Rename_loop_inv hs (hs.1.rename_room hg) OrdInv
      (fun s instr rn hRN h1 _ _ hQ => OrdInv_Rename_step h1 hRN hQ) h
  · exact h

theorem OrdInv_stage {p : proc_params} {tr : List Instruction} {s : State}
    (hi : Inv p tr s) (h : OrdInv s) : ∀ k, OrdInv (stage p k s)
  | 0 => OrdInv_Retire h _ _
  | 1 => OrdInv_Writeback h
  | 2 => OrdInv_Execute h
  | 3 => OrdInv_Issue h _
  | 4 => OrdInv_Dispatch h _
  | 5 => OrdInv_RegRead h
  | 6 => OrdInv_Rename ⟨hi.1, hi.2.1⟩ h
  | 7 => OrdInv_Decode h
  | 8 => OrdInv_Fetch h _
  | 9 => OrdInv_tick h
  | _ + 10 => h

theorem OrdInv_stages {p : proc_params} {tr : List Instruction} {s : State}
    (hi : Inv p tr s) (h : OrdInv s) : ∀ k, OrdInv (stages p k s) := by
  intro k
  induction k with
  | zero => exact h
  | succ k ih => exact OrdInv_stage (Inv_stages hi k) ih k

theorem OrdInv_run (p : proc_params) (tr : List Instruction) (n : Nat) :
    OrdInv (run p tr n) := by
  induction n with
  | zero => exact OrdInv_init tr
  | succ n ih => exact OrdInv_stages (Inv_run p tr n) ih 10

theorem OrdInv_driver_state (p : proc_params) (tr : List Instruction) (n k : Nat) :
    OrdInv (driver_state p tr n k) :=
  OrdInv_stages (Inv_run p tr n) (OrdInv_run p tr n) k

end SimProc

namespace SimProc

/-! ## No wake-up is missed: the invariant `LInv` -/

/-! ### Flags under the wake-up -/

theorem ready_wake_all_eq (ds : List Int) (i : Instruction) (b : Bool) :
    (wake_all ds i).dview.ready b = (i.dview.ready b || decide (i.dview.rsrc b ∈ ds)) := by
  induction ds generalizing i with
  | nil => simp [wake_all]
  | cons d ds ih =>
    rw [wake_all_cons, Function.comp_apply, ih (wake d i)]
    have hr : (wake d i).dview.rsrc b = i.dview.rsrc b := rfl
    rw [hr]
    cases b
    · show ((if i.src2 = d then true else i.src2_ready) || _) = (i.src2_ready || _)
      have hs : i.dview.rsrc false = i.src2 := rfl
      rw [hs]
      by_cases h : i.src2 = d
      · simp [h]
      · simp [h]
    · show ((if i.src1 = d then true else i.src1_ready) || _) = (i.src1_ready || _)
      have hs : i.dview.rsrc true = i.src1 := rfl
      rw [hs]
      by_cases h : i.src1 = d
      · simp [h]
      · simp [h]

theorem ready_wake_all_RR_eq (ds : List Int) (i : Instruction) (b : Bool) :
    (wake_all_RR ds i).dview.ready b = (i.dview.ready b || decide (i.dview.rsrc b ∈ ds)) := by
  induction ds generalizing i with
  | nil => simp [wake_all_RR]
  | cons d ds ih =>
    rw [wake_all_RR_cons, Function.comp_apply, ih (wake_RR d i)]
    have hr : (wake_RR d i).dview.rsrc b = i.dview.rsrc b := rfl
    rw [hr]
    cases b
    · show ((if i.src2 = d then true else i.src2_ready) || _) = (i.src2_ready || _)
      have hs : i.dview.rsrc false = i.src2 := rfl
      rw [hs]
      by_cases h : i.src2 = d
      · simp [h]
      · simp [h]
    · show ((if i.src1 = d then true else i.src1_ready) || _) = (i.src1_ready || _)
      have hs : i.dview.rsrc true = i.src1 := rfl
      rw [hs]
      by_cases h : i.src1 = d
      · simp [h]
      · simp [h]

theorem awaken_wake_all_RR_eq (ds : List Int) (i : Instruction) (b : Bool) :
    (wake_all_RR ds i).dview.awaken b = (i.dview.awaken b || decide (i.dview.rsrc b ∈ ds)) := by
  induction ds generalizing i with
  | nil => simp [wake_all_RR]
  | cons d ds ih =>
    rw [wake_all_RR_cons, Function.comp_apply, ih (wake_RR d i)]
    have hr : (wake_RR d i).dview.rsrc b = i.dview.rsrc b := rfl
    rw [hr]
    cases b
    · show ((if i.src2 = d then true else i.src2_awaken) || _) = (i.src2_awaken || _)
      have hs : i.dview.rsrc false = i.src2 := rfl
      rw [hs]
      by_cases h : i.src2 = d
      · simp [h]
      · simp [h]
    · show ((if i.src1 = d then true else i.src1_awaken) || _) = (i.src1_awaken || _)
      have hs : i.dview.rsrc true = i.src1 := rfl
      rw [hs]
      by_cases h : i.src1 = d
      · simp [h]
      · simp [h]

/-! ### Transport -/

theorem LInv.of_views {k k' : Nat} {s s' : State} (h : LInv k s)
    (hiq : ∀ C ∈ (s'.DI ++ s'.IQ).map Instruction.dview,
      C ∈ (s.DI ++ s.IQ).map Instruction.dview)
    (hrr : ∀ C ∈ s'.RR.map Instruction.dview, C ∈ s.RR.map Instruction.dview)
    (hp : ∀ q ∈ pendIds s, q ∈ pendIds s')
    (hid : ∀ c, c ∈ idents s' ↔ c ∈ idents s)
    (hwb : ∀ c ∈ s'.WB.map Instruction.ident, c ∈ s.WB.map Instruction.ident)
    (hrob : s'.reorder_buffer = s.reorder_buffer) (hhead : s'.rob_head = s.rob_head)
    (hk : (k ≤ 1 ∨ 7 ≤ k) → (k' ≤ 1 ∨ 7 ≤ k')) : LInv k' s' where
  iq := by
    intro C hC b hb
    obtain ⟨q, hq, h1, h2⟩ := h.iq C (hiq C hC) b hb
    exact ⟨q, hp q hq, h1, h2⟩
  aw := fun C hC b hb => h.aw C (hrr C hC) b hb
  rr := by
    intro C hC b hb c hc hcd
    obtain ⟨h1, h2⟩ := h.rr C (hrr C hC) b hb c ((hid c).mp hc) hcd
    exact ⟨h1, fun hw => hk (h2 (hwb c hw))⟩
  keys := by
    intro key e hf
    rw [hrob] at hf
    rcases h.keys key e hf with ⟨c, hc, hcd⟩ | ⟨h1, h2⟩
    · exact Or.inl ⟨c, (hid c).mpr hc, hcd⟩
    · right
      refine ⟨?_, by rw [hhead]; exact h2⟩
      apply List.eq_nil_iff_forall_not_mem.mpr
      intro c hc
      have := (hid c).mp hc
      rw [h1] at this
      exact absurd this (List.not_mem_nil _)

theorem LInv.of_fields {k k' : Nat} {s s' : State} (h : LInv k s)
    (h1 : s'.RR = s.RR) (h2 : s'.DI = s.DI) (h3 : s'.IQ = s.IQ)
    (h4 : s'.execute_list = s.execute_list) (h5 : s'.WB = s.WB)
    (h6 : s'.retire_map = s.retire_map) (h7 : s'.reorder_buffer = s.reorder_buffer)
    (h8 : s'.rob_head = s.rob_head)
    (hk : (k ≤ 1 ∨ 7 ≤ k) → (k' ≤ 1 ∨ 7 ≤ k')) : LInv k' s' := by
  have hid : idents s' = idents s := by
    unfold idents live
    rw [h1, h2, h3, h4, h5, h6]
  have hpd : pendIds s' = pendIds s := by
    unfold pendIds
    rw [h1, h2, h3, h4]
  refine h.of_views ?_ ?_ ?_ ?_ ?_ h7 h8 hk
  · rw [h2, h3]; exact fun _ h => h
  · rw [h1]; exact fun _ h => h
  · rw [hpd]; exact fun _ h => h
  · rw [hid]; exact fun _ => Iff.rfl
  · rw [h5]; exact fun _ h => h

theorem LInv.phase {k k' : Nat} {s : State} (h : LInv k s)
    (hk : (k ≤ 1 ∨ 7 ≤ k) → (k' ≤ 1 ∨ 7 ≤ k')) : LInv k' s :=
  h.of_fields rfl rfl rfl rfl rfl rfl rfl rfl hk

theorem LInv.of_WB_nil {k k' : Nat} {s : State} (h : LInv k s) (hwb : s.WB = []) :
    LInv k' s where
  iq := h.iq
  aw := h.aw
  rr := by
    intro C hC b hb c hc hcd
    refine ⟨(h.rr C hC b hb c hc hcd).1, ?_⟩
    intro hw
    rw [hwb] at hw
    exact absurd hw (List.not_mem_nil _)
  keys := h.keys

theorem LInv_init (tr : List Instruction) : LInv 0 (State.init tr) where
  iq := by intro C hC; simp [State.init] at hC
  aw := by intro C hC; simp [State.init] at hC
  rr := by intro C hC; simp [State.init] at hC
  keys := by
    intro key e hf
    exact absurd hf (by simp [State.init, UMap.empty, UMap.find_nil])

theorem LInv_tick {s : State} (h : LInv 9 s) : LInv 0 (tick s) :=
  h.of_fields rfl rfl rfl rfl rfl rfl rfl rfl (fun _ => Or.inl (Nat.zero_le _))

theorem LInv_Decode {s : State} (h : LInv 7 s) : LInv 8 (Decode s) := by
  unfold Decode
  split_ifs
  · exact h.of_fields rfl rfl rfl rfl rfl rfl rfl rfl (fun _ => Or.inr (by omega))
  · exact h.phase (fun _ => Or.inr (by omega))

theorem LInv_Fetch {s : State} (h : LInv 8 s) (W : Nat) : LInv 9 (Fetch W s) := by
  have h9 : LInv 9 s := h.phase (fun _ => Or.inr (by omega))
  unfold Fetch
  split_ifs
  · exact Fetch_loop_induct (LInv 9)
      (fun _ _ _ _ hs => hs.of_fields rfl rfl rfl rfl rfl rfl rfl rfl (fun x => x)) W s h9
  · exact h9

theorem LInv_Issue {s : State} (h : LInv 3 s) (W : Nat) : LInv 4 (Issue W s) := by
  have hperm := Issue_loop_perm W s.IQ Instruction.ident (fun _ => rfl)
  have eIQ : (Issue W s).IQ = (Issue_loop W s.IQ).1 := rfl
  have eEX : (Issue W s).execute_list = s.execute_list ++ (Issue_loop W s.IQ).2 := rfl
  refine h.of_views ?_ (fun _ h => h) ?_ (fun c => (idents_Issue W s).mem_iff)
    (fun _ h => h) rfl rfl (fun hk => by omega)
  · intro C hC
    rw [mem_map_dview_append] at hC ⊢
    rcases hC with h1 | h1
    · exact Or.inl h1
    · rw [eIQ] at h1
      exact Or.inr ((Issue_loop_kept_sublist W s.IQ).map _ |>.subset h1)
  · intro q hq
    rw [pendIds_mem] at hq ⊢
    rw [eIQ, eEX, List.map_append, List.mem_append]
    rcases hq with h1 | h1 | h1 | h1
    · exact Or.inl h1
    · exact Or.inr (Or.inl h1)
    · have := hperm.mem_iff.mpr h1
      rcases List.mem_append.mp this with h2 | h2
      · exact Or.inr (Or.inr (Or.inl h2))
      · exact Or.inr (Or.inr (Or.inr (Or.inr h2)))
    · exact Or.inr (Or.inr (Or.inr (Or.inl h1)))

theorem LInv_Dispatch {s : State} (h : LInv 4 s) (Q : Nat) : LInv 5 (Dispatch Q s) := by
  have hid := idents_Dispatch Q s
  have e : ∀ l : List Instruction,
      (l.map (fun i => { i with issue_cycle := s.total_cycles + 1 })).map Instruction.dview
        = l.map Instruction.dview := by
    intro l
    rw [List.map_map]
    rfl
  have e2 : ∀ l : List Instruction,
      (l.map (fun i => { i with issue_cycle := s.total_cycles + 1 })).map Instruction.ident
        = l.map Instruction.ident := by
    intro l
    rw [List.map_map]
    rfl
  have eDI : (Dispatch Q s).DI = (Dispatch_loop Q s.total_cycles s.DI s.IQ).1 := rfl
  have eIQ : (Dispatch Q s).IQ = (Dispatch_loop Q s.total_cycles s.DI s.IQ).2 := rfl
  refine h.of_views ?_ (fun _ h => h) ?_ (fun c => hid.mem_iff) (fun _ h => h) rfl rfl
    (fun hk => by omega)
  · intro C hC
    rw [eDI, eIQ, Dispatch_loop_eq] at hC
    split_ifs at hC
    · simp only [List.nil_append, List.map_append, e, List.mem_append] at hC
      rw [mem_map_dview_append]
      tauto
    · exact hC
  · intro q hq
    rw [pendIds_mem] at hq ⊢
    rw [eDI, eIQ, Dispatch_loop_eq]
    split_ifs
    · simp only [List.map_append, e2, List.mem_append, List.map_nil, List.not_mem_nil]
      tauto
    · exact hq

end SimProc

namespace SimProc

/-! ### The oldest renamed instruction -/

/-- The oldest renamed, not yet retired instruction holds the head of the ROB. -/
theorem SInv.oldest {p : proc_params} {tr : List Instruction} {s : State}
    (h : SInv p tr s) (hne : idents s ≠ []) :
    ∃ c ∈ idents s, c.seq_no = s.retired_instructions ∧ c.dest = (s.rob_head : Int) := by
  have hlen : 0 < (idents s).length := List.length_pos.mpr hne
  have hmem : s.retired_instructions ∈ List.range' s.retired_instructions (idents s).length := by
    rw [List.mem_range'_1]
    omega
  obtain ⟨c, hc, hcs⟩ := List.mem_map.mp (h.live_seq.mem_iff.mpr hmem)
  refine ⟨c, hc, hcs, ?_⟩
  rw [h.tag c hc, hcs, h.head]

/-- Where a renamed, not yet retired instruction is. -/
theorem idents_cases {s : State} {c : Ident} (hc : c ∈ idents s) :
    c ∈ pendIds s ∨ c ∈ s.WB.map Instruction.ident ∨
      c ∈ s.retire_map.values.map Instruction.ident := by
  rw [idents_eq_pend, List.map_append] at hc
  simp only [List.mem_append] at hc
  tauto

/-- An instruction of `retire_map` has the ready bit of its ROB entry set. -/
theorem SInv.rm_rob_ready {p : proc_params} {tr : List Instruction} {s : State}
    (h : SInv p tr s) {c : Ident} (hc : c ∈ s.retire_map.values.map Instruction.ident) :
    ∃ e, s.reorder_buffer.find c.dest = some e ∧ e.ready = true := by
  obtain ⟨v, hv, rfl⟩ := List.mem_map.mp hc
  obtain ⟨key, hk⟩ := (UMap.mem_values_iff h.rm_keys v).mp hv
  have hd := h.rm_dest key v hk
  have := h.rm_ready key v hk
  rw [← hd] at this
  exact this

/-! ### RegRead -/

theorem regread_record_ready (s : State) (x : Instruction) (b : Bool) :
    (regread_record s x).dview.ready b
      = regread_flag s.reorder_buffer (x.dview.awaken b) (x.dview.rsrc b) (x.dview.ready b) := by
  cases b <;> rfl

theorem LInv_RegRead {p : proc_params} {tr : List Instruction} {s : State}
    (hs : SInv p tr s) (h : LInv 5 s) : LInv 6 (RegRead s) := by
  by_cases hd : s.DI = []
  · have e : RegRead s = { s with DI := s.RR.map (regread_record s), RR := [] } := by
      rw [RegRead_eq, if_pos hd]
    have hid : ∀ c, c ∈ idents (RegRead s) ↔ c ∈ idents s := fun c => (idents_RegRead s).mem_iff
    have hpd : ∀ q ∈ pendIds s, q ∈ pendIds (RegRead s) := by
      intro q hq
      rw [pendIds_mem] at hq ⊢
      rw [e]
      show q ∈ List.map Instruction.ident [] ∨
        q ∈ (s.RR.map (regread_record s)).map Instruction.ident ∨ _
      rw [List.map_map]
      rw [hd] at hq
      simp only [List.map_nil, List.not_mem_nil, false_or] at hq ⊢
      rcases hq with h1 | h1 | h1
      · exact Or.inl h1
      · exact Or.inr (Or.inl h1)
      · exact Or.inr (Or.inr h1)
    constructor
    · intro C hC b hb
      rw [e] at hC
      rw [mem_map_dview_append] at hC
      rcases hC with h1 | h1
      · obtain ⟨y, hy, rfl⟩ := List.mem_map.mp h1
        obtain ⟨x, hx, rfl⟩ := List.mem_map.mp hy
        rw [regread_record_ready] at hb
        have hxv : x.dview ∈ s.RR.map Instruction.dview := List.mem_map_of_mem _ hx
        unfold regread_flag at hb
        cases haw : x.dview.awaken b with
        | true =>
          rw [haw, if_pos rfl] at hb
          rw [h.aw x.dview hxv b haw] at hb
          exact absurd hb (by simp)
        | false =>
          rw [haw, if_neg (by simp)] at hb
          have hb2 := of_decide_eq_false hb
          simp only [not_or, not_lt, not_exists, not_and] at hb2
          obtain ⟨_, hfn, hnr⟩ := hb2
          cases hf : s.reorder_buffer.find (x.dview.rsrc b) with
          | none => exact absurd hf hfn
          | some e0 =>
            have hxi : x.ident ∈ idents s :=
              mem_idents_of_mem_live (by unfold live; simp [hx])
            rcases h.keys _ _ hf with ⟨c, hc, hcd⟩ | ⟨hnil, _⟩
            · obtain ⟨hlt, hwb⟩ := h.rr x.dview hxv b haw c hc hcd
              rcases idents_cases hc with g | g | g
              · exact ⟨c, hpd c g, hcd, hlt⟩
              · have := hwb g
                omega
              · obtain ⟨e1, he1, hr1⟩ := hs.rm_rob_ready g
                rw [hcd, hf] at he1
                injection he1 with he1
                rw [← he1] at hr1
                exact absurd hr1 (hnr e0 hf)
            · rw [hnil] at hxi
              exact absurd hxi (List.not_mem_nil _)
      · have hC2 : C ∈ (s.DI ++ s.IQ).map Instruction.dview := by
          rw [mem_map_dview_append]
          exact Or.inr h1
        obtain ⟨q, hq, g1, g2⟩ := h.iq C hC2 b hb
        exact ⟨q, hpd q hq, g1, g2⟩
    · intro C hC
      rw [e] at hC
      exact absurd hC (List.not_mem_nil _)
    · intro C hC
      rw [e] at hC
      exact absurd hC (List.not_mem_nil _)
    · intro key e0 hf
      have hrob : (RegRead s).reorder_buffer = s.reorder_buffer := by rw [e]
      have hhead : (RegRead s).rob_head = s.rob_head := by rw [e]
      rw [hrob] at hf
      rcases h.keys key e0 hf with ⟨c, hc, hcd⟩ | ⟨h1, h2⟩
      · exact Or.inl ⟨c, (hid c).mpr hc, hcd⟩
      · right
        refine ⟨?_, by rw [hhead]; exact h2⟩
        apply List.eq_nil_iff_forall_not_mem.mpr
        intro c hc
        have := (hid c).mp hc
        rw [h1] at this
        exact absurd this (List.not_mem_nil _)
  · have e : RegRead s = s := by rw [RegRead_eq, if_neg hd]
    rw [e]
    exact h.phase (fun hk => by omega)

/-! ### Execute -/

theorem LInv_Execute {s : State} (ht : TInv 2 s) (h : LInv 2 s) : LInv 3 (Execute s) := by
  obtain ⟨l1, l2, l3, l4, l5⟩ := Execute_lists s
  obtain ⟨_, _, _, _, f5, f6, _, _, _, _, f11, _⟩ := Execute_frame s
  have hWB : s.WB = [] := ht.2 rfl
  have hid : ∀ c, c ∈ idents (Execute s) ↔ c ∈ idents s := fun c => (idents_Execute s).mem_iff
  -- an instruction that has not completed stays pending unless its tag is broadcast
  have hpd : ∀ q ∈ pendIds s, q.dest ∉
      ((s.execute_list.map (execute_tick s.total_cycles)).filter execute_completed).map
        (fun i => i.dest) → q ∈ pendIds (Execute s) := by
    intro q hq hn
    rw [pendIds_mem] at hq ⊢
    rw [l1, l3, l4, l5, map_ident_congr (ident_wake_all _), map_ident_congr (ident_wake_all _),
      map_ident_congr (ident_wake_all_RR _)]
    rcases hq with h1 | h1 | h1 | h1
    · exact Or.inl h1
    · exact Or.inr (Or.inl h1)
    · exact Or.inr (Or.inr (Or.inl h1))
    · right; right; right
      obtain ⟨y, hy, rfl⟩ := List.mem_map.mp h1
      refine List.mem_map.mpr ⟨execute_tick s.total_cycles y, ?_, rfl⟩
      rw [List.mem_filter]
      refine ⟨List.mem_map_of_mem _ hy, ?_⟩
      cases hc : execute_completed (execute_tick s.total_cycles y) with
      | false => rfl
      | true =>
        exfalso
        apply hn
        refine List.mem_map.mpr ⟨execute_tick s.total_cycles y, ?_, rfl⟩
        rw [List.mem_filter]
        exact ⟨List.mem_map_of_mem _ hy, hc⟩
  constructor
  · intro C hC b hb
    rw [l3, l4, ← List.map_append] at hC
    obtain ⟨y, hy, rfl⟩ := List.mem_map.mp hC
    obtain ⟨x, hx, rfl⟩ := List.mem_map.mp hy
    rw [ready_wake_all_eq, Bool.or_eq_false_iff] at hb
    obtain ⟨hb1, hb2⟩ := hb
    have hb3 := of_decide_eq_false hb2
    obtain ⟨q, hq, g1, g2⟩ := h.iq x.dview (List.mem_map_of_mem _ hx) b hb1
    have hidv := dview_id_wake_all
      (((s.execute_list.map (execute_tick s.total_cycles)).filter execute_completed).map
        fun i => i.dest) x
    refine ⟨q, hpd q hq (by rw [g1]; exact hb3), ?_, ?_⟩
    · rw [DepView.rsrc_congr hidv]
      exact g1
    · rw [hidv]
      exact g2
  · intro C hC b hb
    rw [l5] at hC
    obtain ⟨y, hy, rfl⟩ := List.mem_map.mp hC
    obtain ⟨x, hx, rfl⟩ := List.mem_map.mp hy
    rw [awaken_wake_all_RR_eq] at hb
    rw [ready_wake_all_RR_eq]
    rcases Bool.or_eq_true_iff.mp hb with g | g
    · rw [h.aw x.dview (List.mem_map_of_mem _ hx) b g]
      rfl
    · rw [g]
      simp
  · intro C hC b hb c hc hcd
    rw [l5] at hC
    obtain ⟨y, hy, rfl⟩ := List.mem_map.mp hC
    obtain ⟨x, hx, rfl⟩ := List.mem_map.mp hy
    rw [awaken_wake_all_RR_eq, Bool.or_eq_false_iff] at hb
    obtain ⟨hb1, hb2⟩ := hb
    have hb3 := of_decide_eq_false hb2
    have hidv := dview_id_wake_all_RR
      (((s.execute_list.map (execute_tick s.total_cycles)).filter execute_completed).map
        fun i => i.dest) x
    rw [DepView.rsrc_congr hidv] at hcd
    rw [hidv]
    refine ⟨(h.rr x.dview (List.mem_map_of_mem _ hx) b hb1 c ((hid c).mp hc) hcd).1, ?_⟩
    intro hw
    exfalso
    rw [l2, hWB, List.nil_append] at hw
    obtain ⟨z, hz, rfl⟩ := List.mem_map.mp hw
    apply hb3
    rw [← hcd]
    exact List.mem_map.mpr ⟨z, hz, rfl⟩
  · intro key e0 hf
    rw [f6] at hf
    rcases h.keys key e0 hf with ⟨c, hc, hcd⟩ | ⟨h1, h2⟩
    · exact Or.inl ⟨c, (hid c).mpr hc, hcd⟩
    · right
      refine ⟨?_, by rw [f11]; exact h2⟩
      apply List.eq_nil_iff_forall_not_mem.mpr
      intro c hc
      have := (hid c).mp hc
      rw [h1] at this
      exact absurd this (List.not_mem_nil _)

end SimProc

namespace SimProc

/-! ### Writeback -/

theorem LInv_Writeback_step {p : proc_params} {tr : List Instruction} {s : State}
    (hs : SInv p tr s) (h : LInv 1 s) {instr0 : Instruction} {wb : List Instruction}
    (hwb : s.WB = instr0 :: wb) : LInv 1 (Writeback_step instr0 wb s) := by
  have hperm := idents_Writeback_step hs hwb
  have hi0 : instr0.ident ∈ idents s := by
    apply mem_idents_of_mem_live
    unfold live
    rw [hwb]
    simp
  constructor
  · exact h.iq
  · exact h.aw
  · intro C hC b hb c hc hcd
    exact ⟨(h.rr C hC b hb c (hperm.mem_iff.mp hc) hcd).1, fun _ => Or.inl (Nat.le_refl _)⟩
  · intro key e hf
    rw [Writeback_step_reorder_buffer, UMap.find_insert] at hf
    by_cases hk : key = instr0.dest
    · exact Or.inl ⟨instr0.ident, hperm.mem_iff.mpr hi0, hk.symm⟩
    · rw [if_neg hk] at hf
      rcases h.keys key e hf with ⟨c, hc, hcd⟩ | ⟨h1, _⟩
      · exact Or.inl ⟨c, hperm.mem_iff.mpr hc, hcd⟩
      · rw [h1] at hi0
        exact absurd hi0 (List.not_mem_nil _)

theorem LInv_Writeback {p : proc_params} {tr : List Instruction} {s : State}
    (hs : SInv p tr s ∧ RMTInv s) (h : LInv 1 s) : LInv 2 (Writeback s) := by
  have := Writeback_loop_induct (fun s => (SInv p tr s ∧ RMTInv s) ∧ LInv 1 s)
    (fun s instr wb hwb hP =>
      ⟨⟨SInv_Writeback_step hP.1.1 hwb, RMTInv_Writeback_step hP.1.1 hP.1.2 hwb⟩,
        LInv_Writeback_step hP.1.1 hP.2 hwb⟩) s.WB s rfl ⟨hs, h⟩
  exact this.2.of_WB_nil (Writeback_loop_WB s.WB s)

/-! ### Retire -/

theorem LInv_Retire_touch {p : proc_params} {tr : List Instruction} {s : State}
    (hs : SInv p tr s) (h : LInv 0 s) : LInv 0 (Retire_touch s) where
  iq := h.iq
  aw := h.aw
  rr := h.rr
  keys := by
    intro key e hf
    have e1 : (Retire_touch s).reorder_buffer
        = s.reorder_buffer.touch (s.rob_head : Int) rob_params.zero := rfl
    rw [e1, UMap.find_touch] at hf
    by_cases hk : key = (s.rob_head : Int)
    · by_cases hne : idents s = []
      · exact Or.inr ⟨hne, hk⟩
      · obtain ⟨c, hc, _, hcd⟩ := hs.oldest hne
        exact Or.inl ⟨c, hc, by rw [hk]; exact hcd⟩
    · rw [if_neg hk] at hf
      exact h.keys key e hf

theorem LInv_Retire_body {p : proc_params} {tr : List Instruction} {s : State}
    (hs : SInv p tr s) (h : LInv 0 s)
    (hr : (s.reorder_buffer.get (s.rob_head : Int) rob_params.zero).ready = true) :
    LInv 0 (Retire_body p.rob_size s) := by
  obtain ⟨e, v, he, hv, hvd, hvi, hseq, hdst, hN⟩ := hs.head_ready hr
  have hperm := idents_Retire_body hs (N := p.rob_size) hv
  have hsub : ∀ c, c ∈ idents (Retire_body p.rob_size s) → c ∈ idents s :=
    fun c hc => hperm.mem_iff.mpr (List.mem_cons_of_mem _ hc)
  constructor
  · exact h.iq
  · exact h.aw
  · intro C hC b hb c hc hcd
    exact h.rr C hC b hb c (hsub c hc) hcd
  · intro key e0 hf
    have e1 : (Retire_body p.rob_size s).reorder_buffer
        = s.reorder_buffer.erase (s.rob_head : Int) := rfl
    rw [e1, UMap.find_erase] at hf
    by_cases hk : key = (s.rob_head : Int)
    · rw [if_pos hk] at hf
      exact absurd hf (by simp)
    · rw [if_neg hk] at hf
      rcases h.keys key e0 hf with ⟨c, hc, hcd⟩ | ⟨_, h2⟩
      · left
        refine ⟨c, ?_, hcd⟩
        rcases List.mem_cons.mp (hperm.mem_iff.mp hc) with g | g
        · exfalso
          apply hk
          rw [← hcd, g]
          exact hvd
        · exact g
      · exact absurd h2 hk

theorem LInv_Retire {p : proc_params} {tr : List Instruction} {s : State}
    (hs : SInv p tr s ∧ RMTInv s) (h : LInv 0 s) :
    LInv 1 (Retire p.width p.rob_size s) := by
  have := Retire_loop_induct p.rob_size (fun s => (SInv p tr s ∧ RMTInv s) ∧ LInv 0 s)
    (fun s hP => ⟨⟨SInv_Retire_touch hP.1.1, RMTInv_Retire_touch hP.1.2⟩,
      LInv_Retire_touch hP.1.1 hP.2⟩)
    (fun s hP hr => ⟨⟨SInv_Retire_body hP.1.1 hr, RMTInv_Retire_body hP.1.1 hP.1.2 hr⟩,
      LInv_Retire_body hP.1.1 hP.2 hr⟩) p.width s ⟨hs, h⟩
  exact this.2.phase (fun _ => Or.inl (Nat.le_refl _))

/-! ### Rename -/

theorem rename_src_cases (RMT : UMap Int) (r : Int) :
    rename_src RMT r < 0 ∨ ∃ t, RMT.find r = some t ∧ rename_src RMT r = t := by
  unfold rename_src
  by_cases h : r = -1
  · left
    rw [if_neg (by simpa using h), h]
    decide
  · rw [if_pos h]
    cases hf : RMT.find r with
    | none => left; decide
    | some t => right; exact ⟨t, rfl, rfl⟩

theorem SInv.tag_nonneg {p : proc_params} {tr : List Instruction} {s : State}
    (h : SInv p tr s) {c : Ident} (hc : c ∈ idents s) : 0 ≤ c.dest := by
  rw [h.tag c hc]
  exact Int.ofNat_nonneg _

theorem rename_instr_rsrc (s : State) (instr : Instruction) (b : Bool) :
    (rename_instr s instr).dview.rsrc b
      = rename_src s.RMT (if b then instr.src1 else instr.src2) := by
  cases b <;> rfl

/-- One iteration of the loop of `Rename`: the invariant, and every source that has been
renamed to a tag finds the holder of the tag among the instructions in flight. -/
theorem LInv_Rename_step {p : proc_params} {tr : List Instruction} {s : State}
    (hs : SInv p tr s) (hm : RMTInv s) {instr : Instruction} {rn : List Instruction}
    (hRN : s.RN = instr :: rn) (hroom : (idents s).length + 1 ≤ p.rob_size)
    (h : LInv 7 s)
    (h2 : ∀ C ∈ s.RR.map Instruction.dview, ∀ b,
      C.rsrc b < 0 ∨ ∃ c ∈ idents s, c.dest = C.rsrc b) :
    LInv 7 (Rename_step p.rob_size instr rn s) ∧
    ∀ C ∈ (Rename_step p.rob_size instr rn s).RR.map Instruction.dview, ∀ b,
      C.rsrc b < 0 ∨ ∃ c ∈ idents (Rename_step p.rob_size instr rn s), c.dest = C.rsrc b := by
  have hperm := idents_Rename_step p.rob_size instr rn s
  have hfresh := hs.fresh_tail hroom
  have hseq := (hs.front_RN hRN).1
  have hsub : ∀ c, c ∈ idents s → c ∈ idents (Rename_step p.rob_size instr rn s) :=
    fun c hc => hperm.mem_iff.mpr (List.mem_cons_of_mem _ hc)
  have hcases : ∀ c, c ∈ idents (Rename_step p.rob_size instr rn s) →
      c = (rename_instr s instr).ident ∨ c ∈ idents s :=
    fun c hc => List.mem_cons.mp (hperm.mem_iff.mp hc)
  have hxd : (rename_instr s instr).ident.dest = (s.rob_tail : Int) := rfl
  have hRR : ∀ C, C ∈ (Rename_step p.rob_size instr rn s).RR.map Instruction.dview ↔
      (C ∈ s.RR.map Instruction.dview ∨ C = (rename_instr s instr).dview) := by
    intro C
    show C ∈ (s.RR ++ [rename_instr s instr]).map Instruction.dview ↔ _
    rw [List.map_append, List.mem_append]
    simp
  -- the sources of the new record
  have hnew : ∀ b, (rename_instr s instr).dview.rsrc b < 0 ∨
      ∃ c ∈ idents s, c.dest = (rename_instr s instr).dview.rsrc b := by
    intro b
    rw [rename_instr_rsrc]
    rcases rename_src_cases s.RMT (if b then instr.src1 else instr.src2) with g | ⟨t, hf, ht⟩
    · exact Or.inl g
    · obtain ⟨c, hc, _, hcd, _⟩ := hm.points _ t hf
      exact Or.inr ⟨c, hc, by rw [ht]; exact hcd⟩
  -- no source is the tag that is being allocated
  have hne : ∀ C, (C ∈ s.RR.map Instruction.dview ∨ C = (rename_instr s instr).dview) →
      ∀ b, C.rsrc b ≠ (s.rob_tail : Int) := by
    intro C hC b heq
    have : C.rsrc b < 0 ∨ ∃ c ∈ idents s, c.dest = C.rsrc b := by
      rcases hC with g | g
      · exact h2 C g b
      · rw [g]; exact hnew b
    rcases this with g | ⟨c, hc, hcd⟩
    · rw [heq] at g
      have : (0 : Int) ≤ (s.rob_tail : Int) := Int.ofNat_nonneg _
      omega
    · exact hfresh c hc (hcd.trans heq)
  refine ⟨⟨?_, ?_, ?_, ?_⟩, ?_⟩
  · intro C hC b hb
    obtain ⟨q, hq, g1, g2⟩ := h.iq C hC b hb
    refine ⟨q, ?_, g1, g2⟩
    rw [pendIds_mem] at hq ⊢
    rcases hq with h1 | h1 | h1 | h1
    · left
      show q ∈ (s.RR ++ [rename_instr s instr]).map Instruction.ident
      rw [List.map_append]
      exact List.mem_append_left _ h1
    · exact Or.inr (Or.inl h1)
    · exact Or.inr (Or.inr (Or.inl h1))
    · exact Or.inr (Or.inr (Or.inr h1))
  · intro C hC b hb
    rcases (hRR C).mp hC with g | g
    · exact h.aw C g b hb
    · rw [g] at hb
      cases b <;> exact absurd hb (by simp [rename_instr, Instruction.dview, DepView.awaken])
  · intro C hC b hb c hc hcd
    have hC2 := (hRR C).mp hC
    refine ⟨?_, fun _ => Or.inr (Nat.le_refl _)⟩
    rcases hcases c hc with g | g
    · exfalso
      apply hne C hC2 b
      rw [← hcd, g]
      exact hxd
    · rcases hC2 with g2 | g2
      · exact (h.rr C g2 b hb c g hcd).1
      · rw [g2]
        show c.seq_no < instr.seq_no
        rw [hseq]
        exact (hs.seq_window g).2
  · intro key e hf
    have e1 : (Rename_step p.rob_size instr rn s).reorder_buffer
        = s.reorder_buffer.insert (s.rob_tail : Int)
            { ready := false, dst := instr.dest, tag := (s.rob_tail : Int) } := rfl
    rw [e1, UMap.find_insert] at hf
    by_cases hk : key = (s.rob_tail : Int)
    · left
      exact ⟨(rename_instr s instr).ident, hperm.mem_iff.mpr (List.mem_cons_self _ _),
        by rw [hk]; exact hxd⟩
    · rw [if_neg hk] at hf
      rcases h.keys key e hf with ⟨c, hc, hcd⟩ | ⟨h1, h3⟩
      · exact Or.inl ⟨c, hsub c hc, hcd⟩
      · exfalso
        apply hk
        rw [h3, hs.head, hs.tail, h1]
        simp
  · intro C hC b
    rcases (hRR C).mp hC with g | g
    · rcases h2 C g b with g2 | ⟨c, hc, hcd⟩
      · exact Or.inl g2
      · exact Or.inr ⟨c, hsub c hc, hcd⟩
    · rw [g]
      rcases hnew b with g2 | ⟨c, hc, hcd⟩
      · exact Or.inl g2
      · exact Or.inr ⟨c, hsub c hc, hcd⟩

theorem LInv_Rename {p : proc_params} {tr : List Instruction} {s : State}
    (hs : SInv p tr s ∧ RMTInv s) (h : LInv 6 s) : LInv 7 (Rename p.rob_size s) := by
  have h7 : LInv 7 s := h.phase (fun _ => Or.inr (Nat.le_refl _))
  unfold Rename
  split_ifs with hg
  · have hRR : s.RR = [] := List.isEmpty_iff.mp hg.1
    have := Rename_loop_inv hs (hs.1.rename_room hg)
      (fun s => LInv 7 s ∧ ∀ C ∈ s.RR.map Instruction.dview, ∀ b,
        C.rsrc b < 0 ∨ ∃ c ∈ idents s, c.dest = C.rsrc b)
      (fun s instr rn hRN h1 h2 hroom hQ => LInv_Rename_step h1 h2 hRN hroom hQ.1 hQ.2)
      ⟨h7, by
        intro C hC
        rw [hRR] at hC
        exact absurd hC (List.not_mem_nil _)⟩
    exact this.1
  · exact h7

/-! ### The invariant along the run -/

theorem LInv_stage {p : proc_params} {tr : List Instruction} {s : State}
    (hi : Inv p tr s) : ∀ k, k ≤ 8 → TInv k s → LInv k s → LInv (k + 1) (stage p k s)
  | 0, _, _, h => LInv_Retire ⟨hi.1, hi.2.1⟩ h
  | 1, _, _, h => LInv_Writeback ⟨hi.1, hi.2.1⟩ h
  | 2, _, ht, h => LInv_Execute ht h
  | 3, _, _, h => LInv_Issue h _
  | 4, _, _, h => LInv_Dispatch h _
  | 5, _, _, h => LInv_RegRead hi.1 h
  | 6, _, _, h => LInv_Rename ⟨hi.1, hi.2.1⟩ h
  | 7, _, _, h => LInv_Decode h
  | 8, _, _, h => LInv_Fetch h _
  | _ + 9, hk, _, _ => absurd hk (by omega)

theorem LInv_stages {p : proc_params} {tr : List Instruction} {s : State}
    (hi : Inv p tr s) (ht : TInv 0 s) (h : LInv 0 s) :
    ∀ k, k ≤ 9 → LInv k (stages p k s) := by
  intro k
  induction k with
  | zero => intro _; exact h
  | succ k ih =>
    intro hk
    rw [stages_succ]
    exact LInv_stage (Inv_stages hi k) k (by omega) (TInv_stages hi ht k (by omega))
      (ih (by omega))

theorem LInv_cycle {p : proc_params} {tr : List Instruction} {s : State}
    (hi : Inv p tr s) (ht : TInv 0 s) (h : LInv 0 s) : LInv 0 (cycle p s) :=
  LInv_tick (LInv_stages hi ht h 9 (Nat.le_refl _))

theorem LInv_run (p : proc_params) (tr : List Instruction) (n : Nat) :
    LInv 0 (run p tr n) := by
  induction n with
  | zero => exact LInv_init tr
  | succ n ih => exact LInv_cycle (Inv_run p tr n) (TInv_run p tr n) ih

theorem LInv_driver_state (p : proc_params) (tr : List Instruction) (n k : Nat)
    (hk : k ≤ 9) : LInv k (driver_state p tr n k) :=
  LInv_stages (Inv_run p tr n) (TInv_run p tr n) (LInv_run p tr n) k hk

end SimProc

namespace SimProc

/-! ## Every cycle makes progress: the work left per stage -/

theorem UMap.size_erase_le {V : Type} (m : UMap V) (k : Int) :
    (UMap.erase m k).size ≤ m.size := by
  have := (UMap.keys_erase_sublist m k).length_le
  simpa [UMap.keys, UMap.size] using this

theorem UMap.size_insert_le {V : Type} (m : UMap V) (k : Int) (v : V) :
    (UMap.insert m k v).size ≤ m.size + 1 := by
  have := UMap.size_erase_le m k
  unfold UMap.insert UMap.size at *
  simp only [List.length_cons]
  omega

theorem work_Retire_touch (s : State) : work (Retire_touch s) = work s := rfl

theorem work_tick (s : State) : work (tick s) = work s := rfl

/-! ### Writeback -/

theorem Writeback_idle {s : State} (h : s.WB = []) : Writeback s = s := by
  unfold Writeback
  rw [h]
  show ({ s with WB := [] } : State) = s
  cases s
  simp_all

theorem work_Writeback_step {s : State} {instr : Instruction} {wb : List Instruction}
    (hwb : s.WB = instr :: wb) : work (Writeback_step instr wb s) + 1 ≤ work s := by
  have h1 := UMap.size_insert_le s.retire_map instr.dest
    { instr with writeback_cycle := s.total_cycles, retire_cycle := s.total_cycles + 1 }
  unfold work
  rw [Writeback_step_retire_map, hwb]
  show _ + 2 * wb.length + _ + 1 ≤ _
  simp only [List.length_cons]
  have e1 : (Writeback_step instr wb s).trace = s.trace := rfl
  have e2 : (Writeback_step instr wb s).DE = s.DE := rfl
  have e3 : (Writeback_step instr wb s).RN = s.RN := rfl
  have e4 : (Writeback_step instr wb s).RR = s.RR := rfl
  have e5 : (Writeback_step instr wb s).DI = s.DI := rfl
  have e6 : (Writeback_step instr wb s).IQ = s.IQ := rfl
  have e7 : (Writeback_step instr wb s).execute_list = s.execute_list := rfl
  rw [e1, e2, e3, e4, e5, e6, e7]
  omega

theorem work_Writeback_loop (wb : List Instruction) (s : State) (hwb : s.WB = wb) :
    work (Writeback_loop wb s) + wb.length ≤ work s := by
  induction wb generalizing s with
  | nil =>
    have : Writeback_loop [] s = s := by
      have := Writeback_idle hwb
      unfold Writeback at this
      rw [hwb] at this
      exact this
    rw [this]
    simp
  | cons a wb ih =>
    unfold Writeback_loop
    have h1 := ih (Writeback_step a wb s) rfl
    have h2 := work_Writeback_step hwb
    simp only [List.length_cons]
    omega

theorem work_Writeback (s : State) : work (Writeback s) + s.WB.length ≤ work s :=
  work_Writeback_loop s.WB s rfl

/-! ### Execute -/

theorem Execute_idle {s : State} (h : s.execute_list = []) : Execute s = s := by
  unfold Execute
  rw [h]
  show ({ s with execute_list := [] } : State) = s
  cases s
  simp_all

theorem execute_sum (T : Nat) (l : List Instruction)
    (hd : ∀ x ∈ l, x.execute_duration ≤ 4) :
    ((((l.map (execute_tick T)).filter (fun i => !execute_completed i)).map
        (fun x => 8 - x.execute_duration)).sum
      + 2 * ((l.map (execute_tick T)).filter execute_completed).length + l.length
      ≤ (l.map (fun x => 8 - x.execute_duration)).sum) := by
  induction l with
  | nil => simp
  | cons x l ih =>
    have hx := hd x (List.mem_cons_self _ _)
    have ih2 := ih (fun y hy => hd y (List.mem_cons_of_mem _ hy))
    have e : (execute_tick T x).execute_duration = x.execute_duration + 1 := rfl
    simp only [List.map_cons, List.filter_cons, List.length_cons, List.sum_cons]
    cases hc : execute_completed (execute_tick T x)
    · simp only [Bool.not_false, if_true, Bool.false_eq_true, if_false, List.map_cons,
        List.sum_cons, e]
      omega
    · simp only [Bool.not_true, Bool.false_eq_true, if_false, if_true, List.length_cons]
      omega

theorem work_Execute {s : State} (hd : ∀ x ∈ s.execute_list, x.execute_duration ≤ 4) :
    work (Execute s) + s.execute_list.length ≤ work s := by
  obtain ⟨l1, l2, l3, l4, l5⟩ := Execute_lists s
  obtain ⟨f1, f2, f3, _, f5, _⟩ := Execute_frame s
  have := execute_sum s.total_cycles s.execute_list hd
  unfold work
  rw [l1, l2, l3, l4, l5, f1, f2, f3, f5]
  simp only [List.length_map, List.length_append]
  omega

/-! ### Issue -/

theorem issue_lengths (W : Nat) (iq : List Instruction) :
    (issue_kept W iq).length + (issue_selected W iq).length = iq.length := by
  have := Issue_loop_length W iq
  rw [Issue_loop_eq] at this
  simpa using this

theorem Issue_idle {W : Nat} {s : State} (h : issue_selected W s.IQ = []) : Issue W s = s := by
  have hl := issue_lengths W s.IQ
  rw [h] at hl
  have hk : issue_kept W s.IQ = s.IQ :=
    (issue_kept_sublist W s.IQ).eq_of_length (by simpa using hl)
  rw [Issue_eq, h, hk]
  simp

theorem work_Issue (W : Nat) (s : State) :
    work (Issue W s) + (issue_selected W s.IQ).length = work s := by
  have hl := issue_lengths W s.IQ
  have hs : ((List.map (fun i : Instruction => { i with execute_duration := 0 })
      (issue_selected W s.IQ)).map (fun x => 8 - x.execute_duration)).sum
      = 8 * (issue_selected W s.IQ).length := by
    rw [List.map_map]
    induction issue_selected W s.IQ with
    | nil => rfl
    | cons a l ih =>
      simp only [List.map_cons, List.sum_cons, List.length_cons, ih, Function.comp]
      omega
  rw [Issue_eq]
  unfold work
  simp only [List.map_append, List.sum_append, hs]
  omega

/-! ### Dispatch -/

theorem Dispatch_idle {Q : Nat} {s : State}
    (h : s.DI = [] ∨ ¬ (to_size_t (Q : Int) + 2 ^ 64 - s.IQ.length % 2 ^ 64) % 2 ^ 64
      ≥ s.DI.length) : Dispatch Q s = s := by
  unfold Dispatch
  rw [Dispatch_loop_eq]
  by_cases hd : s.DI = []
  · rw [if_pos (Or.inl hd), hd]
    simp only [List.map_nil, List.append_nil]
    cases s
    simp_all
  · rcases h with h | h
    · exact absurd h hd
    · rw [if_neg (by simp only [not_or]; exact ⟨hd, h⟩)]

theorem work_Dispatch {Q : Nat} {s : State}
    (h : (to_size_t (Q : Int) + 2 ^ 64 - s.IQ.length % 2 ^ 64) % 2 ^ 64 ≥ s.DI.length) :
    work (Dispatch Q s) + s.DI.length = work s := by
  unfold Dispatch
  rw [Dispatch_loop_eq, if_pos (Or.inr h)]
  unfold work
  simp only [List.length_append, List.length_map, List.length_nil]
  omega

/-! ### RegRead -/

theorem RegRead_idle {s : State} (h : ¬ (s.DI = [] ∧ s.RR ≠ [])) : RegRead s = s := by
  rw [RegRead_eq]
  by_cases hd : s.DI = []
  · have hr : s.RR = [] := by
      by_contra hr
      exact h ⟨hd, hr⟩
    rw [if_pos hd, hr]
    simp only [List.map_nil]
    cases s
    simp_all
  · rw [if_neg hd]

theorem work_RegRead {s : State} (h : s.DI = []) :
    work (RegRead s) + s.RR.length = work s := by
  rw [RegRead_eq, if_pos h]
  unfold work
  simp only [List.length_map, List.length_nil, h]
  omega

/-! ### Rename -/

theorem work_Rename_loop (N : Nat) (rn : List Instruction) (s : State) (hrn : s.RN = rn) :
    work (Rename_loop N rn s) + rn.length = work s := by
  induction rn generalizing s with
  | nil =>
    unfold Rename_loop work
    simp only [hrn, List.length_nil]
    omega
  | cons a rn ih =>
    unfold Rename_loop
    have h1 := ih (Rename_step N a rn s) rfl
    have h2 : work (Rename_step N a rn s) + 1 = work s := by
      have e1 : (Rename_step N a rn s).trace = s.trace := rfl
      have e2 : (Rename_step N a rn s).DE = s.DE := rfl
      have e3 : (Rename_step N a rn s).RN = rn := rfl
      have e4 : (Rename_step N a rn s).RR = s.RR ++ [rename_instr s a] := rfl
      have e5 : (Rename_step N a rn s).DI = s.DI := rfl
      have e6 : (Rename_step N a rn s).IQ = s.IQ := rfl
      have e7 : (Rename_step N a rn s).execute_list = s.execute_list := rfl
      have e8 : (Rename_step N a rn s).WB = s.WB := rfl
      have e9 : (Rename_step N a rn s).retire_map = s.retire_map := rfl
      unfold work
      rw [e1, e2, e3, e4, e5, e6, e7, e8, e9, hrn]
      simp only [List.length_append, List.length_cons, List.length_nil]
      omega
    simp only [List.length_cons]
    omega

theorem Rename_idle {N : Nat} {s : State}
    (h : ¬ ((s.RR.isEmpty ∧ to_size_t (free_entries N s) ≥ s.RN.length) ∧ s.RN ≠ [])) :
    Rename N s = s := by
  unfold Rename
  split_ifs with hg
  · have hr : s.RN = [] := by
      by_contra hr
      exact h ⟨hg, hr⟩
    rw [hr]
    show ({ s with RN := [] } : State) = s
    cases s
    simp_all
  · rfl

theorem work_Rename {N : Nat} {s : State}
    (hg : s.RR.isEmpty ∧ to_size_t (free_entries N s) ≥ s.RN.length) :
    work (Rename N s) + s.RN.length = work s := by
  unfold Rename
  rw [if_pos hg]
  exact work_Rename_loop N s.RN s rfl

/-! ### Decode -/

theorem Decode_idle {s : State} (h : ¬ (s.RN = [] ∧ s.DE ≠ [])) : Decode s = s := by
  unfold Decode
  split_ifs with hg
  · have hg2 : s.RN = [] := List.isEmpty_iff.mp hg
    have hr : s.DE = [] := by
      by_contra hr
      exact h ⟨hg2, hr⟩
    rw [hr, hg2]
    show ({ s with RN := [], DE := [] } : State) = s
    cases s
    simp_all
  · rfl

theorem work_Decode {s : State} (h : s.RN = []) : work (Decode s) + s.DE.length = work s := by
  unfold Decode
  rw [if_pos (by simp [h]), Decode_loop_eq, h]
  unfold work
  simp only [List.nil_append, List.length_map, List.length_nil, h]
  omega

/-! ### Fetch -/

theorem work_Fetch_step (instr : Instruction) (rest : List Instruction) (s : State)
    (h : s.trace = instr :: rest) : work (Fetch_step instr rest s) + 1 = work s := by
  unfold work
  rw [Fetch_step_DE, h]
  show 14 * rest.length + _ + _ + _ + _ + _ + _ + _ + _ + 1 = _
  simp only [List.length_append, List.length_cons, List.length_nil]
  have e3 : (Fetch_step instr rest s).RN = s.RN := rfl
  have e4 : (Fetch_step instr rest s).RR = s.RR := rfl
  have e5 : (Fetch_step instr rest s).DI = s.DI := rfl
  have e6 : (Fetch_step instr rest s).IQ = s.IQ := rfl
  have e7 : (Fetch_step instr rest s).execute_list = s.execute_list := rfl
  have e8 : (Fetch_step instr rest s).WB = s.WB := rfl
  have e9 : (Fetch_step instr rest s).retire_map = s.retire_map := rfl
  rw [e3, e4, e5, e6, e7, e8, e9]
  omega

theorem work_Fetch_loop (n : Nat) (s : State) : work (Fetch_loop n s) ≤ work s := by
  induction n generalizing s with
  | zero => exact Nat.le_refl _
  | succ n ih =>
    unfold Fetch_loop
    split
    · exact Nat.le_refl _
    · rename_i instr rest htr
      have h1 := ih (Fetch_step instr rest s)
      have h2 := work_Fetch_step instr rest s htr
      omega

theorem Fetch_idle {W : Nat} {s : State} (h : ¬ (s.DE = [] ∧ s.trace ≠ [])) :
    Fetch W s = s := by
  unfold Fetch
  split_ifs with hg
  · have hg2 : s.DE = [] := List.isEmpty_iff.mp hg
    have hr : s.trace = [] := by
      by_contra hr
      exact h ⟨hg2, hr⟩
    cases W with
    | zero => rfl
    | succ n =>
      unfold Fetch_loop
      rw [hr]
  · rfl

theorem work_Fetch {W : Nat} {s : State} (hW : 1 ≤ W) (h1 : s.DE = []) (h2 : s.trace ≠ []) :
    work (Fetch W s) < work s := by
  unfold Fetch
  rw [if_pos (by simp [h1])]
  obtain ⟨n, rfl⟩ : ∃ n, W = n + 1 := ⟨W - 1, by omega⟩
  unfold Fetch_loop
  split
  · rename_i htr
    exact absurd htr h2
  · rename_i instr rest htr
    have h3 := work_Fetch_loop n (Fetch_step instr rest s)
    have h4 := work_Fetch_step instr rest s htr
    omega

end SimProc

namespace SimProc

/-! ### Retire -/

theorem work_Retire_body {p : proc_params} {tr : List Instruction} {s : State}
    (hs : SInv p tr s)
    (hr : (s.reorder_buffer.get (s.rob_head : Int) rob_params.zero).ready = true) :
    work (Retire_body p.rob_size s) + 1 = work s := by
  obtain ⟨e, v, he, hv, _⟩ := hs.head_ready hr
  have hperm := (UMap.values_erase_perm hs.rm_keys hv).length_eq
  rw [UMap.length_values, List.length_cons, UMap.length_values] at hperm
  have e1 : (Retire_body p.rob_size s).trace = s.trace := rfl
  have e2 : (Retire_body p.rob_size s).DE = s.DE := rfl
  have e3 : (Retire_body p.rob_size s).RN = s.RN := rfl
  have e4 : (Retire_body p.rob_size s).RR = s.RR := rfl
  have e5 : (Retire_body p.rob_size s).DI = s.DI := rfl
  have e6 : (Retire_body p.rob_size s).IQ = s.IQ := rfl
  have e7 : (Retire_body p.rob_size s).execute_list = s.execute_list := rfl
  have e8 : (Retire_body p.rob_size s).WB = s.WB := rfl
  unfold work
  rw [e1, e2, e3, e4, e5, e6, e7, e8, Retire_body_retire_map hv]
  omega

theorem work_Retire_loop {p : proc_params} {tr : List Instruction} {s : State}
    (hs : SInv p tr s ∧ RMTInv s) (n : Nat) :
    work (Retire_loop p.rob_size n s) ≤ work s := by
  have := Retire_loop_induct p.rob_size
    (fun u => (SInv p tr u ∧ RMTInv u) ∧ work u ≤ work s)
    (fun u hP => ⟨⟨SInv_Retire_touch hP.1.1, RMTInv_Retire_touch hP.1.2⟩, hP.2⟩)
    (fun u hP hr => ⟨⟨SInv_Retire_body hP.1.1 hr, RMTInv_Retire_body hP.1.1 hP.1.2 hr⟩, by
      have := work_Retire_body hP.1.1 hr
      have := hP.2
      omega⟩) n s ⟨hs, Nat.le_refl _⟩
  exact this.2

theorem Retire_idle {W N : Nat} {s : State} (hW : 1 ≤ W)
    (h : ¬ (s.reorder_buffer.get (s.rob_head : Int) rob_params.zero).ready = true) :
    Retire W N s = Retire_touch s := by
  obtain ⟨n, rfl⟩ : ∃ n, W = n + 1 := ⟨W - 1, by omega⟩
  unfold Retire
  rw [Retire_loop_succ, if_neg h]

theorem work_Retire {p : proc_params} {tr : List Instruction} {s : State}
    (hs : SInv p tr s ∧ RMTInv s) (hW : 1 ≤ p.width)
    (h : (s.reorder_buffer.get (s.rob_head : Int) rob_params.zero).ready = true) :
    work (Retire p.width p.rob_size s) < work s := by
  obtain ⟨n, hn⟩ : ∃ n, p.width = n + 1 := ⟨p.width - 1, by omega⟩
  unfold Retire
  rw [hn, Retire_loop_succ, if_pos h]
  have ht : ((Retire_touch s).reorder_buffer.get ((Retire_touch s).rob_head : Int)
      rob_params.zero).ready = true := by
    have e : (Retire_touch s).reorder_buffer.get ((Retire_touch s).rob_head : Int)
        rob_params.zero = s.reorder_buffer.get (s.rob_head : Int) rob_params.zero :=
      UMap.get_touch _ _ _
    rw [e]
    exact h
  have hs1 := SInv_Retire_touch hs.1
  have hm1 := RMTInv_Retire_touch hs.2
  have h1 := work_Retire_body hs1 ht
  have h2 := work_Retire_loop ⟨SInv_Retire_body hs1 ht, RMTInv_Retire_body hs1 hm1 ht⟩ n
  have h3 := work_Retire_touch s
  omega

/-! ### A state in which no stage can act is drained -/

theorem OrdInv.IQ_lt_DI {s : State} (h : OrdInv s) {y x : Instruction} (hy : y ∈ s.IQ)
    (hx : x ∈ s.DI) : y.seq_no < x.seq_no := by
  unfold OrdInv waiting_seq at h
  rw [List.map_append, List.map_append, List.pairwise_append] at h
  have h2 := h.1
  rw [List.pairwise_append] at h2
  exact h2.2.2 _ (List.mem_map_of_mem _ hy) _ (List.mem_map_of_mem _ hx)

theorem OrdInv.DI_lt_RR {s : State} (h : OrdInv s) {y x : Instruction} (hy : y ∈ s.DI)
    (hx : x ∈ s.RR) : y.seq_no < x.seq_no := by
  unfold OrdInv waiting_seq at h
  rw [List.map_append, List.map_append, List.pairwise_append] at h
  refine h.2.2 _ ?_ _ (List.mem_map_of_mem _ hx)
  rw [List.mem_append]
  exact Or.inr (List.mem_map_of_mem _ hy)

theorem mem_live_seq_ge {p : proc_params} {tr : List Instruction} {s : State}
    (hs : SInv p tr s) {y : Instruction} (hy : y ∈ live s) :
    s.retired_instructions ≤ y.seq_no :=
  (hs.seq_window (mem_idents_of_mem_live hy)).1

theorem exec_duration_le {p : proc_params} {tr : List Instruction} {s : State} {k : Nat}
    (hs : SInv p tr s) (ht : TCore k s)
    (hop : ∀ r ∈ tr, r.op_type = 0 ∨ r.op_type = 1 ∨ r.op_type = 2) :
    ∀ x ∈ s.execute_list, x.execute_duration ≤ 4 := by
  intro x hx
  have hxl : x ∈ live s := by unfold live; simp [hx]
  obtain ⟨r, hr, _, hopx, _⟩ := hs.data_live _ (mem_idents_of_mem_live hxl)
  have hrm : r ∈ tr := List.getElem?_mem hr
  obtain ⟨_, _, _, h0, h1, h2⟩ := ht.ex x hx
  have hopx' : x.op_type = r.op_type := hopx
  rcases hop r hrm with g | g | g
  · have := h0 (hopx'.trans g)
    omega
  · have := h1 (hopx'.trans g)
    omega
  · have := h2 (hopx'.trans g)
    omega

theorem Stuck_drained {p : proc_params} {tr : List Instruction} {s : State} {k : Nat}
    (hs : SInv p tr s) (hz : Sizes p s) (hl : LInv k s) (ho : OrdInv s)
    (hW : 1 ≤ p.width) (hR : p.width ≤ p.rob_size) (hQ : p.width ≤ p.iq_size)
    (hR2 : p.rob_size < 2 ^ 64) (hQ2 : p.iq_size < 2 ^ 64)
    (d0 : ¬ (s.reorder_buffer.get (s.rob_head : Int) rob_params.zero).ready = true)
    (d1 : s.WB = []) (d2 : s.execute_list = [])
    (d3 : issue_selected p.width s.IQ = [])
    (d4 : s.DI = [] ∨ ¬ (to_size_t (p.iq_size : Int) + 2 ^ 64 - s.IQ.length % 2 ^ 64) % 2 ^ 64
      ≥ s.DI.length)
    (d5 : ¬ (s.DI = [] ∧ s.RR ≠ []))
    (d6 : ¬ ((s.RR.isEmpty ∧ to_size_t (free_entries p.rob_size s) ≥ s.RN.length)
      ∧ s.RN ≠ []))
    (d7 : ¬ (s.RN = [] ∧ s.DE ≠ []))
    (d8 : ¬ (s.DE = [] ∧ s.trace ≠ [])) : Drained s := by
  have hid : idents s = [] := by
    by_contra hne
    obtain ⟨c, hc, hseq, hdest⟩ := hs.oldest hne
    rcases idents_cases hc with g | g | g
    · rw [pendIds_mem] at g
      rcases g with g | g | g | g
      · obtain ⟨x, hx, hxc⟩ := List.mem_map.mp g
        apply d5
        refine ⟨?_, List.ne_nil_of_mem hx⟩
        by_contra hd
        obtain ⟨y, hy⟩ := List.exists_mem_of_ne_nil _ hd
        have h1 := ho.DI_lt_RR hy hx
        have h2 := mem_live_seq_ge hs (y := y) (by unfold live; simp [hy])
        have h3 : x.seq_no = c.seq_no := by rw [← hxc]; rfl
        omega
      · obtain ⟨x, hx, hxc⟩ := List.mem_map.mp g
        have hiq : s.IQ = [] := by
          by_contra hd
          obtain ⟨y, hy⟩ := List.exists_mem_of_ne_nil _ hd
          have h1 := ho.IQ_lt_DI hy hx
          have h2 := mem_live_seq_ge hs (y := y) (by unfold live; simp [hy])
          have h3 : x.seq_no = c.seq_no := by rw [← hxc]; rfl
          omega
        rcases d4 with h4 | h4
        · rw [h4] at hx
          exact absurd hx (List.not_mem_nil _)
        · apply h4
          rw [hiq, to_size_t_of_lt hQ2]
          have := hz.di
          simp only [List.length_nil]
          omega
      · obtain ⟨x, hx, hxc⟩ := List.mem_map.mp g
        have hxv : x.dview ∈ (s.DI ++ s.IQ).map Instruction.dview :=
          List.mem_map_of_mem _ (List.mem_append_right _ hx)
        have hready : ∀ b, x.dview.ready b = true := by
          intro b
          by_contra hb
          have hb2 : x.dview.ready b = false := by simpa using hb
          obtain ⟨q, hq, _, hlt⟩ := hl.iq x.dview hxv b hb2
          have h2 := (hs.seq_window (pendIds_subset_idents hq)).1
          have h3 : x.dview.id.seq_no = c.seq_no := by rw [← hxc]; rfl
          omega
        have hr : is_ready x = true := by
          rw [is_ready_iff]
          exact ⟨hready true, hready false⟩
        have hsel := issue_selected_eq p.width s.IQ
        rw [d3] at hsel
        have : x ∈ s.IQ.filter is_ready := List.mem_filter.mpr ⟨hx, hr⟩
        have h5 := List.take_eq_nil_iff.mp hsel.symm
        rcases h5 with h5 | h5
        · omega
        · rw [h5] at this
          exact absurd this (List.not_mem_nil _)
      · rw [d2] at g
        exact absurd g (List.not_mem_nil _)
    · rw [d1] at g
      exact absurd g (List.not_mem_nil _)
    · obtain ⟨e, he, hr⟩ := hs.rm_rob_ready g
      apply d0
      rw [hdest] at he
      rw [UMap.get_of_find _ he]
      exact hr
  have hlive : live s = [] := List.map_eq_nil_iff.mp hid
  unfold live at hlive
  simp only [List.append_eq_nil] at hlive
  obtain ⟨⟨⟨⟨⟨h1, h2⟩, h3⟩, h4⟩, h5⟩, h6⟩ := hlive
  have hRN : s.RN = [] := by
    by_contra hne
    apply d6
    refine ⟨⟨by simp [h1], ?_⟩, hne⟩
    rw [hs.free_entries_eq, hid]
    have := hz.rn
    unfold to_size_t
    simp only [List.length_nil]
    omega
  have hDE : s.DE = [] := by
    by_contra hne
    exact d7 ⟨hRN, hne⟩
  have htr : s.trace = [] := by
    by_contra hne
    exact d8 ⟨hDE, hne⟩
  exact ⟨htr, hDE, hRN, h1, h2, h3, h4, h5, h6⟩

end SimProc

namespace SimProc

/-! ### No stage adds work -/

theorem work_Execute_le {p : proc_params} {tr : List Instruction} {s : State} {k : Nat}
    (hs : SInv p tr s) (ht : TCore k s)
    (hop : ∀ r ∈ tr, r.op_type = 0 ∨ r.op_type = 1 ∨ r.op_type = 2) :
    work (Execute s) + s.execute_list.length ≤ work s :=
  work_Execute (exec_duration_le hs ht hop)

theorem work_Dispatch_le (Q : Nat) (s : State) : work (Dispatch Q s) ≤ work s := by
  by_cases h : (to_size_t (Q : Int) + 2 ^ 64 - s.IQ.length % 2 ^ 64) % 2 ^ 64 ≥ s.DI.length
  · have := work_Dispatch h
    omega
  · rw [Dispatch_idle (Or.inr h)]

theorem work_RegRead_le (s : State) : work (RegRead s) ≤ work s := by
  by_cases h : s.DI = []
  · have := work_RegRead h
    omega
  · rw [RegRead_idle (fun h' => h h'.1)]

theorem work_Rename_le (N : Nat) (s : State) : work (Rename N s) ≤ work s := by
  by_cases h : s.RR.isEmpty ∧ to_size_t (free_entries N s) ≥ s.RN.length
  · have := work_Rename h
    omega
  · rw [Rename_idle (fun h' => h h'.1)]

theorem work_Decode_le (s : State) : work (Decode s) ≤ work s := by
  by_cases h : s.RN = []
  · have := work_Decode h
    omega
  · rw [Decode_idle (fun h' => h h'.1)]

theorem work_Fetch_le (W : Nat) (s : State) : work (Fetch W s) ≤ work s := by
  unfold Fetch
  split_ifs
  · exact work_Fetch_loop W s
  · exact Nat.le_refl _

theorem work_stage_le {p : proc_params} {tr : List Instruction} {s : State}
    (hi : Inv p tr s) (hop : ∀ r ∈ tr, r.op_type = 0 ∨ r.op_type = 1 ∨ r.op_type = 2) :
    ∀ k, TInv k s → work (stage p k s) ≤ work s
  | 0, _ => work_Retire_loop ⟨hi.1, hi.2.1⟩ _
  | 1, _ => Nat.le_trans (Nat.le_add_right _ _) (work_Writeback s)
  | 2, ht => Nat.le_trans (Nat.le_add_right _ _) (work_Execute_le hi.1 ht.1 hop)
  | 3, _ => Nat.le_trans (Nat.le_add_right _ _) (Nat.le_of_eq (work_Issue p.width s))
  | 4, _ => work_Dispatch_le _ s
  | 5, _ => work_RegRead_le s
  | 6, _ => work_Rename_le _ s
  | 7, _ => work_Decode_le s
  | 8, _ => work_Fetch_le _ s
  | 9, _ => Nat.le_refl _
  | _ + 10, _ => Nat.le_refl _

theorem work_stages_le {p : proc_params} {tr : List Instruction} {s : State}
    (hi : Inv p tr s) (ht : TInv 0 s)
    (hop : ∀ r ∈ tr, r.op_type = 0 ∨ r.op_type = 1 ∨ r.op_type = 2) (j : Nat) :
    ∀ k, j ≤ k → k ≤ 10 → work (stages p k s) ≤ work (stages p j s) := by
  intro k
  induction k with
  | zero =>
    intro hj _
    have : j = 0 := by omega
    rw [this]
  | succ k ih =>
    intro hj hk
    by_cases hjk : j = k + 1
    · rw [hjk]
    · have h1 := ih (by omega) (by omega)
      rw [stages_succ]
      have h2 := work_stage_le (Inv_stages hi k) hop k (TInv_stages hi ht k (by omega))
      omega

/-! ### Every cycle makes progress -/

/-- A cycle either leaves the pipeline empty or reduces the work left. -/
theorem cycle_progress {p : proc_params} {tr : List Instruction} {s : State}
    (hi : Inv p tr s) (ht : TInv 0 s) (hl : LInv 0 s) (ho : OrdInv s)
    (hop : ∀ r ∈ tr, r.op_type = 0 ∨ r.op_type = 1 ∨ r.op_type = 2)
    (hW : 1 ≤ p.width) (hR : p.width ≤ p.rob_size) (hQ : p.width ≤ p.iq_size)
    (hR2 : p.rob_size < 2 ^ 64) (hQ2 : p.iq_size < 2 ^ 64) :
    Advance_Cycle (cycle p s) = false ∨ work (cycle p s) < work s := by
  have fin : ∀ k, k ≤ 9 → work (stages p (k + 1) s) < work s → work (cycle p s) < work s := by
    intro k hk h
    have := work_stages_le hi ht hop (k + 1) 10 (by omega) (Nat.le_refl _)
    rw [cycle_eq_stages]
    omega
  have hwt : work (Retire_touch s) = work s := rfl
  -- Retire
  by_cases d0 : (s.reorder_buffer.get (s.rob_head : Int) rob_params.zero).ready = true
  · exact Or.inr (fin 0 (by omega) (work_Retire ⟨hi.1, hi.2.1⟩ hW d0))
  have e1 : stages p 1 s = Retire_touch s := Retire_idle hW d0
  -- Writeback
  by_cases d1 : s.WB = []
  swap
  · right
    apply fin 1 (by omega)
    rw [stages_succ, e1]
    have := work_Writeback (Retire_touch s)
    have h2 : 0 < (Retire_touch s).WB.length := List.length_pos.mpr d1
    show work (Writeback (Retire_touch s)) < work s
    omega
  have e2 : stages p 2 s = Retire_touch s := by
    rw [stages_succ, e1]
    exact Writeback_idle d1
  -- Execute
  by_cases d2 : s.execute_list = []
  swap
  · right
    apply fin 2 (by omega)
    rw [stages_succ, e2]
    have hdur : ∀ x ∈ (Retire_touch s).execute_list, x.execute_duration ≤ 4 :=
      exec_duration_le (s := s) hi.1 ht.1 hop
    have := work_Execute hdur
    have h2 : 0 < (Retire_touch s).execute_list.length := List.length_pos.mpr d2
    show work (Execute (Retire_touch s)) < work s
    omega
  have e3 : stages p 3 s = Retire_touch s := by
    rw [stages_succ, e2]
    exact Execute_idle d2
  -- Issue
  by_cases d3 : issue_selected p.width s.IQ = []
  swap
  · right
    apply fin 3 (by omega)
    rw [stages_succ, e3]
    have := work_Issue p.width (Retire_touch s)
    have h2 : 0 < (issue_selected p.width (Retire_touch s).IQ).length := List.length_pos.mpr d3
    show work (Issue p.width (Retire_touch s)) < work s
    omega
  have e4 : stages p 4 s = Retire_touch s := by
    rw [stages_succ, e3]
    exact Issue_idle d3
  -- Dispatch
  by_cases d4 : s.DI = [] ∨
      ¬ (to_size_t (p.iq_size : Int) + 2 ^ 64 - s.IQ.length % 2 ^ 64) % 2 ^ 64 ≥ s.DI.length
  swap
  · right
    apply fin 4 (by omega)
    rw [stages_succ, e4]
    simp only [not_or, not_not] at d4
    have := work_Dispatch (Q := p.iq_size) (s := Retire_touch s) d4.2
    have h2 : 0 < (Retire_touch s).DI.length := List.length_pos.mpr d4.1
    show work (Dispatch p.iq_size (Retire_touch s)) < work s
    omega
  have e5 : stages p 5 s = Retire_touch s := by
    rw [stages_succ, e4]
    exact Dispatch_idle d4
  -- RegRead
  by_cases d5 : s.DI = [] ∧ s.RR ≠ []
  · right
    apply fin 5 (by omega)
    rw [stages_succ, e5]
    have := work_RegRead (s := Retire_touch s) d5.1
    have h2 : 0 < (Retire_touch s).RR.length := List.length_pos.mpr d5.2
    show work (RegRead (Retire_touch s)) < work s
    omega
  have e6 : stages p 6 s = Retire_touch s := by
    rw [stages_succ, e5]
    exact RegRead_idle d5
  -- Rename
  by_cases d6 : (s.RR.isEmpty ∧ to_size_t (free_entries p.rob_size s) ≥ s.RN.length)
      ∧ s.RN ≠ []
  · right
    apply fin 6 (by omega)
    rw [stages_succ, e6]
    have := work_Rename (N := p.rob_size) (s := Retire_touch s) d6.1
    have h2 : 0 < (Retire_touch s).RN.length := List.length_pos.mpr d6.2
    show work (Rename p.rob_size (Retire_touch s)) < work s
    omega
  have e7 : stages p 7 s = Retire_touch s := by
    rw [stages_succ, e6]
    exact Rename_idle d6
  -- Decode
  by_cases d7 : s.RN = [] ∧ s.DE ≠ []
  · right
    apply fin 7 (by omega)
    rw [stages_succ, e7]
    have := work_Decode (s := Retire_touch s) d7.1
    have h2 : 0 < (Retire_touch s).DE.length := List.length_pos.mpr d7.2
    show work (Decode (Retire_touch s)) < work s
    omega
  have e8 : stages p 8 s = Retire_touch s := by
    rw [stages_succ, e7]
    exact Decode_idle d7
  -- Fetch
  by_cases d8 : s.DE = [] ∧ s.trace ≠ []
  · right
    apply fin 8 (by omega)
    rw [stages_succ, e8]
    have := work_Fetch (s := Retire_touch s) hW d8.1 d8.2
    show work (Fetch p.width (Retire_touch s)) < work s
    omega
  have e9 : stages p 9 s = Retire_touch s := by
    rw [stages_succ, e8]
    exact Fetch_idle d8
  -- nothing can act: the pipeline is empty
  left
  obtain ⟨_, g1, g2, g3, g4, g5, g6, g7, g8⟩ :=
    Stuck_drained hi.1 hi.2.2 hl ho hW hR hQ hR2 hQ2 d0 d1 d2 d3 d4 d5 d6 d7 d8
  have ec : cycle p s = tick (Retire_touch s) := by
    rw [cycle_eq_stages, stages_succ, e9]
    rfl
  rw [ec]
  unfold Advance_Cycle
  show (!s.DE.isEmpty || !s.RN.isEmpty || !s.RR.isEmpty || !s.DI.isEmpty || !s.IQ.isEmpty
    || !s.retire_map.isEmpty || !s.execute_list.isEmpty || !s.WB.isEmpty) = false
  have g8' : s.retire_map.isEmpty = true := (UMap.isEmpty_iff _).mpr g8
  rw [g1, g2, g3, g4, g5, g6, g7, g8']
  rfl

/-- The loop of the driver exits once the fuel exceeds the work left. -/
theorem main_loop_terminates (p : proc_params) (tr : List Instruction)
    (hop : ∀ r ∈ tr, r.op_type = 0 ∨ r.op_type = 1 ∨ r.op_type = 2)
    (hW : 1 ≤ p.width) (hR : p.width ≤ p.rob_size) (hQ : p.width ≤ p.iq_size)
    (hR2 : p.rob_size < 2 ^ 64) (hQ2 : p.iq_size < 2 ^ 64) :
    ∀ fuel n, work (run p tr n) < fuel → ∃ s, main_loop p fuel (run p tr n) = some s := by
  intro fuel
  induction fuel with
  | zero => intro n h; omega
  | succ fuel ih =>
    intro n h
    unfold main_loop
    simp only
    by_cases ha : Advance_Cycle (cycle p (run p tr n)) = true
    · rw [if_pos ha]
      have hp := cycle_progress (Inv_run p tr n) (TInv_run p tr n) (LInv_run p tr n)
        (OrdInv_run p tr n) hop hW hR hQ hR2 hQ2
      rcases hp with hp | hp
      · rw [hp] at ha
        exact absurd ha (by simp)
      · exact ih (n + 1) (by
          show work (cycle p (run p tr n)) < fuel
          omega)
    · rw [if_neg ha]
      exact ⟨_, rfl⟩

end SimProc

namespace SimProc

/-! ## Claims on single stages: `Issue`, `Retire` and `RegRead`; halting -/

/-- C15 (`Issue` selects oldest-ready-first up to `WIDTH`).  For every state and
every `WIDTH`, `Issue` removes from `IQ` exactly the entries `issue_selected`, the
first `min(WIDTH, number of ready entries)` entries with both sources ready, in `IQ`
order, and appends them in that order to `execute_list` with
`execute_duration = 0`; the other entries (`issue_kept`) stay in `IQ` in their
original relative order and nothing else changes; an entry that is not ready is
never issued; a ready entry is issued past a not-ready entry in front of it.  In every
state of the driver `IQ` is strictly ascending in `seq_no`, so the order of `IQ` is
program order. -/
theorem C15_issue_oldest_ready_first :
    (∀ (W : Nat) (s : State),
      Issue W s = { s with
        IQ := issue_kept W s.IQ
        execute_list := s.execute_list ++
          (issue_selected W s.IQ).map (fun i => { i with execute_duration := 0 }) } ∧
      issue_selected W s.IQ = (s.IQ.filter is_ready).take W ∧
      (issue_selected W s.IQ).length = min W (s.IQ.filter is_ready).length ∧
      (issue_kept W s.IQ).Sublist s.IQ ∧
      (issue_kept W s.IQ).length + (issue_selected W s.IQ).length = s.IQ.length ∧
      (∀ x ∈ issue_selected W s.IQ, x.src1_ready = true ∧ x.src2_ready = true)) ∧
    (∀ (W : Nat) (x y : Instruction) (rest : List Instruction),
      1 ≤ W → is_ready x = false → is_ready y = true →
      issue_selected W (x :: y :: rest) = y :: issue_selected (W - 1) rest ∧
      issue_kept W (x :: y :: rest) = x :: issue_kept (W - 1) rest) ∧
    (∀ (p : proc_params) (tr : List Instruction) (n k : Nat),
      ((driver_state p tr n k).IQ.map (fun i => i.seq_no)).Pairwise (fun a b => a < b)) := by
  refine ⟨?_, ?_, ?_⟩
  · intro W s
    refine ⟨Issue_eq W s, issue_selected_eq W s.IQ, ?_, issue_kept_sublist W s.IQ,
      issue_lengths W s.IQ, ?_⟩
    · rw [issue_selected_eq, List.length_take]
    · intro x hx
      rw [issue_selected_eq] at hx
      have := (List.mem_filter.mp (List.mem_of_mem_take hx)).2
      exact (is_ready_iff x).mp this
  · intro W x y rest hW hx hy
    obtain ⟨n, rfl⟩ : ∃ n, W = n + 1 := ⟨W - 1, by omega⟩
    rw [issue_selected_cons_not_ready _ x _ hx, issue_selected_cons_ready n y rest hy,
      issue_kept_cons_not_ready _ x _ hx, issue_kept_cons_ready n y rest hy]
    exact ⟨rfl, rfl⟩
  · intro p tr n k
    have h := OrdInv_driver_state p tr n k
    unfold OrdInv waiting_seq at h
    rw [List.map_append, List.map_append, List.append_assoc] at h
    exact (List.pairwise_append.mp h).1

theorem ready_count_slot (rob : UMap rob_params) (N : Nat) :
    ∀ f slot j, slot < N → j < ready_count rob N f slot →
      ∃ e, rob.find (batch_tag N slot j) = some e ∧ e.ready = true := by
  intro f
  induction f with
  | zero =>
    intro slot j _ hj
    simp [ready_count] at hj
  | succ f ih =>
    intro slot j hs hj
    unfold ready_count at hj
    cases hf : rob.find (slot : Int) with
    | none =>
      rw [hf] at hj
      simp at hj
    | some e =>
      rw [hf] at hj
      by_cases hr : e.ready = true
      · simp only [hr, if_true] at hj
        cases j with
        | zero =>
          rw [batch_tag_zero hs]
          exact ⟨e, hf, hr⟩
        | succ j =>
          have hN : 0 < N := by omega
          have := ih ((slot + 1) % N) j (Nat.mod_lt _ hN) (by omega)
          rwa [batch_tag_succ] at this
      · simp [hr] at hj

theorem ready_run_zero {N : Nat} {s : State}
    (h : ∀ e, s.reorder_buffer.find (s.rob_head : Int) = some e → e.ready = false) :
    ready_run N s = 0 := by
  unfold ready_run
  cases N with
  | zero => rfl
  | succ N =>
    unfold ready_count
    cases hf : s.reorder_buffer.find (s.rob_head : Int) with
    | none => rfl
    | some e => simp [h e hf]

set_option maxRecDepth 100000 in
/-- C16 (`Retire` commits the maximal ready prefix, capped at `WIDTH`).  In every
state `s` of the driver, with `ROB_SIZE ≥ 1`, one call of `Retire(WIDTH, ROB_SIZE)`
retires exactly `k = min(WIDTH, ready_run)` instructions, where `ready_run` is the
number of consecutive occupied ROB slots starting at `rob_head` whose ready bit is
set; it is `0` when the ROB is empty or the head slot is not ready, so that no
instruction behind a not-ready head is retired.  Each of the first `k` slots holds in
`retire_map` the instruction with `seq_no = retired_instructions + j`; these
instructions are appended to `completed_intstructions` in head order with
`RT_cycle = total_cycles + 1`; their `retire_map` entries are erased and so are their
ROB entries (the only entry that such a slot can hold after the call is the
value-initialised, not-ready one that the loop test `reorder_buffer[rob_head]`
creates when the head has come back to the slot); `rob_head` advances by `k` modulo
`ROB_SIZE`, `retired_instructions` grows by `k`, and `rob_full` is cleared when
`k > 0`. -/
theorem C16_retire_ready_run (p : proc_params) (tr : List Instruction) (n k : Nat)
    (s : State) (hs : s = driver_state p tr n k) (hrob : 1 ≤ p.rob_size) :
    (Retire p.width p.rob_size s).completed_intstructions
      = s.completed_intstructions
        ++ retired_batch p.rob_size s (min p.width (ready_run p.rob_size s)) ∧
    (Retire p.width p.rob_size s).retired_instructions
      = s.retired_instructions + min p.width (ready_run p.rob_size s) ∧
    (Retire p.width p.rob_size s).rob_head
      = (s.rob_head + min p.width (ready_run p.rob_size s)) % p.rob_size ∧
    (Retire p.width p.rob_size s).rob_full
      = (if 0 < min p.width (ready_run p.rob_size s) then false else s.rob_full) ∧
    (∀ j < min p.width (ready_run p.rob_size s),
      (Retire p.width p.rob_size s).retire_map.find (head_slot p.rob_size s j) = none ∧
      (∀ e, (Retire p.width p.rob_size s).reorder_buffer.find (head_slot p.rob_size s j)
        = some e → e = rob_params.zero) ∧
      ∃ v e, s.retire_map.find (head_slot p.rob_size s j) = some v ∧
        v.seq_no = s.retired_instructions + j ∧
        s.reorder_buffer.find (head_slot p.rob_size s j) = some e ∧ e.ready = true) ∧
    (inflight s = 0 → ready_run p.rob_size s = 0) ∧
    ((∀ e, s.reorder_buffer.find (s.rob_head : Int) = some e → e.ready = false) →
      ready_run p.rob_size s = 0) := by
  have hinv : SInv p tr s := by
    rw [hs]
    exact (Inv_driver_state p tr n k).1
  have hh : s.rob_head < p.rob_size := by
    rw [hinv.head]
    exact Nat.mod_lt _ hrob
  have hR := Retire_spec p.width s hh
  refine ⟨hR.completed, hR.retired, hR.head, hR.full, ?_, ?_, ready_run_zero⟩
  · intro j hj
    refine ⟨hR.erased_rm j hj, hR.erased_rob j hj, ?_⟩
    have hj2 : j < ready_run p.rob_size s := by omega
    obtain ⟨e, he, hr⟩ := ready_count_slot s.reorder_buffer p.rob_size p.rob_size
      s.rob_head j hh hj2
    obtain ⟨v, hv⟩ := hinv.rob_ready _ e he hr
    refine ⟨v, e, hv, ?_, he, hr⟩
    have hvd := hinv.rm_dest _ v hv
    have hvl : v ∈ live s := by
      unfold live
      simp [UMap.mem_values_of_find hv]
    have hvi := mem_idents_of_mem_live hvl
    have htag : v.dest = ((v.seq_no % p.rob_size : Nat) : Int) := hinv.tag _ hvi
    have hw : s.retired_instructions ≤ v.seq_no ∧
        v.seq_no < s.retired_instructions + (idents s).length := hinv.seq_window hvi
    have hb := hinv.rob_bound
    have hle := ready_count_le s.reorder_buffer p.rob_size p.rob_size s.rob_head
    have e1 : v.seq_no % p.rob_size = (s.retired_instructions + j) % p.rob_size := by
      have : ((v.seq_no % p.rob_size : Nat) : Int)
          = (((s.rob_head + j) % p.rob_size : Nat) : Int) := htag.symm.trans hvd
      have h2 : v.seq_no % p.rob_size = (s.rob_head + j) % p.rob_size := by exact_mod_cast this
      rw [h2, hinv.head, Nat.mod_add_mod]
    unfold ready_run at hj2
    exact mod_window_inj e1 hw.1 (by omega) (Nat.le_add_right _ _) (by omega)
  · intro h0
    apply ready_run_zero
    intro e he
    by_contra hr
    have hr2 : e.ready = true := by simpa using hr
    obtain ⟨v, hv⟩ := hinv.rob_ready _ e he hr2
    have hvl : v ∈ live s := by
      unfold live
      simp [UMap.mem_values_of_find hv]
    have := List.length_pos_of_mem (mem_idents_of_mem_live hvl)
    rw [length_idents] at this
    omega

set_option maxRecDepth 100000 in
/-- The statement of C16 on a trace of two instructions with `ROB_SIZE = IQ_SIZE = 2`
and `WIDTH = 1`, at the start of the ninth cycle: the first instruction is ready at
the head, the second is not, and one instruction is retired. -/
theorem C16_retire_ready_run_witness :
    1 ≤ (⟨2, 2, 1⟩ : proc_params).rob_size ∧
    ready_run 2 (driver_state ⟨2, 2, 1⟩ [mk_instr 0 0 1 2 3, mk_instr 4 1 2 1 (-1)] 8 0) = 1 ∧
    (Retire 1 2 (driver_state ⟨2, 2, 1⟩ [mk_instr 0 0 1 2 3, mk_instr 4 1 2 1 (-1)] 8 0)
      ).retired_instructions
      = (driver_state ⟨2, 2, 1⟩ [mk_instr 0 0 1 2 3, mk_instr 4 1 2 1 (-1)] 8 0
          ).retired_instructions
        + min 1 (ready_run 2
            (driver_state ⟨2, 2, 1⟩ [mk_instr 0 0 1 2 3, mk_instr 4 1 2 1 (-1)] 8 0)) :=
  ⟨by decide, by decide,
   (C16_retire_ready_run ⟨2, 2, 1⟩ [mk_instr 0 0 1 2 3, mk_instr 4 1 2 1 (-1)] 8 0
      (driver_state ⟨2, 2, 1⟩ [mk_instr 0 0 1 2 3, mk_instr 4 1 2 1 (-1)] 8 0) rfl
      (by decide)).2.1⟩

set_option maxRecDepth 100000 in
/-- C17 (`RegRead` readiness with the latched flag).  For every state: if `DI` is not
empty `RegRead` changes nothing; if `DI` is empty it moves every instruction of `RR`
to `DI` in order (`regread_record`) with `dispatch_cycle = total_cycles + 1`, and for
each source independently (`regread_flag`): when its awaken flag is set the ready
flag is left as it is; when the flag is clear the source is ready if and only if its
renamed value is negative, or no ROB entry with that tag exists, or the ROB entry
with that tag is ready.  In every state of the driver a source of an instruction of
`RR` whose awaken flag is set has its ready flag set (by the wake-up of `Execute`).
In `latch_example` such a source is moved to `DI` ready while the ready bit of the
ROB entry of its producer is still false. -/
theorem C17_regread_readiness :
    (∀ s : State,
      (s.DI ≠ [] → RegRead s = s) ∧
      (s.DI = [] → RegRead s = { s with DI := s.RR.map (regread_record s), RR := [] })) ∧
    (∀ (p : proc_params) (tr : List Instruction) (n k : Nat),
      ∀ x ∈ (driver_state p tr n k).RR,
        (x.src1_awaken = true → x.src1_ready = true) ∧
        (x.src2_awaken = true → x.src2_ready = true)) ∧
    (latch_example.DI = [] ∧
      ∃ x ∈ latch_example.RR, x.src1_awaken = true ∧ x.src1_ready = true ∧
        (∃ e, latch_example.reorder_buffer.find x.src1 = some e ∧ e.ready = false) ∧
        ∀ y ∈ (RegRead latch_example).DI, y.src1_ready = true) := by
  refine ⟨?_, ?_, ?_⟩
  · intro s
    constructor
    · intro h
      rw [RegRead_eq, if_neg h]
    · intro h
      rw [RegRead_eq, if_pos h]
  · intro p tr n k x hx
    obtain ⟨n', k', hk', e⟩ := driver_state_normal p tr n k
    rw [e] at hx
    have h := LInv_driver_state p tr n' k' hk'
    have hxv : x.dview ∈ (driver_state p tr n' k').RR.map Instruction.dview :=
      List.mem_map_of_mem _ hx
    exact ⟨h.aw x.dview hxv true, h.aw x.dview hxv false⟩
  · refine ⟨by decide, latch_example.RR.getD 0 Instruction.zero, by decide, by decide,
      by decide, ⟨⟨0, 1, false⟩, by decide, rfl⟩, by decide⟩

theorem UMap.size_eq_zero_of_find {V : Type} (m : UMap V) (h : ∀ k, UMap.find m k = none) :
    m.size = 0 := by
  cases m with
  | nil => rfl
  | cons a m =>
    obtain ⟨k, v⟩ := a
    have := h k
    rw [UMap.find_cons, if_pos rfl] at this
    exact absurd this (by simp)

/-- C18 (the ROB and the RMT are drained at halt).  For every trace and every
configuration, when the loop of the driver exits, no renamed instruction is left:
`rob_head = rob_tail` and `rob_full = false`, so that
`free_entries(ROB_SIZE) = ROB_SIZE`, and `RMT` contains no mapping. -/
theorem C18_rob_rmt_drained (p : proc_params) (tr : List Instruction) (fuel : Nat)
    (s : State) (hexit : main_loop p fuel (State.init tr) = some s) :
    inflight s = 0 ∧ s.rob_head = s.rob_tail ∧ s.rob_full = false ∧
    free_entries p.rob_size s = (p.rob_size : Int) ∧
    (∀ r, s.RMT.find r = none) ∧ s.RMT.size = 0 := by
  obtain ⟨n, hs, hadv⟩ := main_loop_some hexit
  have hinv : SInv p tr s ∧ RMTInv s := by
    rw [hs]
    exact ⟨(Inv_run p tr (n + 1)).1, (Inv_run p tr (n + 1)).2.1⟩
  obtain ⟨e1, e2, e3, e4, e5, e6, e7, e8⟩ := Advance_Cycle_false hadv
  have hid : idents s = [] := by
    rw [idents_eq, e3, e4, e5, e6, e7, e8]
    rfl
  have hfind : ∀ r, s.RMT.find r = none := by
    intro r
    cases hf : s.RMT.find r with
    | none => rfl
    | some t =>
      obtain ⟨c, hc, _⟩ := hinv.2.points r t hf
      rw [hid] at hc
      exact absurd hc (List.not_mem_nil _)
  have hfull : s.rob_full = false := by
    cases hf : s.rob_full with
    | false => rfl
    | true =>
      have := (hinv.1.full.mp hf).1
      rw [hid] at this
      exact absurd this (by simp)
  refine ⟨?_, ?_, hfull, ?_, hfind, UMap.size_eq_zero_of_find _ hfind⟩
  · rw [← length_idents, hid]
    rfl
  · rw [hinv.1.head, hinv.1.tail, hid]
    rfl
  · rw [hinv.1.free_entries_eq, hid]
    simp

/-- The loop exits after nine cycles on a trace of one record, and C18 applies to it. -/
theorem C18_rob_rmt_drained_witness :
    main_loop ⟨8, 8, 1⟩ 20 (State.init [mk_instr 0 0 1 2 3])
      = some (run ⟨8, 8, 1⟩ [mk_instr 0 0 1 2 3] 9) ∧
    (run ⟨8, 8, 1⟩ [mk_instr 0 0 1 2 3] 9).rob_head
      = (run ⟨8, 8, 1⟩ [mk_instr 0 0 1 2 3] 9).rob_tail ∧
    (run ⟨8, 8, 1⟩ [mk_instr 0 0 1 2 3] 9).RMT.size = 0 :=
  ⟨rfl,
    (C18_rob_rmt_drained ⟨8, 8, 1⟩ [mk_instr 0 0 1 2 3] 20
      (run ⟨8, 8, 1⟩ [mk_instr 0 0 1 2 3] 9) rfl).2.1,
    (C18_rob_rmt_drained ⟨8, 8, 1⟩ [mk_instr 0 0 1 2 3] 20
      (run ⟨8, 8, 1⟩ [mk_instr 0 0 1 2 3] 9) rfl).2.2.2.2.2⟩

theorem work_init (tr : List Instruction) : work (State.init tr) = 14 * tr.length := by
  simp [work, State.init, UMap.empty, UMap.size]

/-- C19 (the driver terminates on sane configurations).  For every trace whose
`op_type` values are all in `{0, 1, 2}` and every configuration with `WIDTH ≥ 1`,
`ROB_SIZE ≥ WIDTH` and `IQ_SIZE ≥ WIDTH` (`ROB_SIZE` and `IQ_SIZE` are C++ `int`s,
so they are below `2^31`; the proof needs them below `2^64`), there is a cycle count
`n ≥ 1` after which `Advance_Cycle` returns false, and the `do … while` loop of the
driver exits with the state after these `n` cycles; it does so within
`14 · (length of the trace) + 1` executions of the loop body. -/
theorem C19_driver_terminates (p : proc_params) (tr : List Instruction)
    (hop : ∀ r ∈ tr, r.op_type = 0 ∨ r.op_type = 1 ∨ r.op_type = 2)
    (hW : 1 ≤ p.width) (hR : p.width ≤ p.rob_size) (hQ : p.width ≤ p.iq_size)
    (hR2 : p.rob_size < 2 ^ 64) (hQ2 : p.iq_size < 2 ^ 64) :
    ∃ n s, 1 ≤ n ∧ s = run p tr n ∧ Advance_Cycle s = false ∧
      main_loop p (14 * tr.length + 1) (State.init tr) = some s := by
  obtain ⟨s, hs⟩ := main_loop_terminates p tr hop hW hR hQ hR2 hQ2 (14 * tr.length + 1) 0
    (by
      show work (State.init tr) < _
      rw [work_init]
      omega)
  obtain ⟨m, hm, hadv⟩ := main_loop_some hs
  exact ⟨m + 1, s, by omega, hm, hadv, hs⟩

/-- The statement of C19 on a trace of two dependent instructions with
`ROB_SIZE = IQ_SIZE = 2` and `WIDTH = 1`. -/
theorem C19_driver_terminates_witness :
    ((∀ r ∈ [mk_instr 0 1 1 2 3, mk_instr 4 0 2 1 (-1)],
        r.op_type = 0 ∨ r.op_type = 1 ∨ r.op_type = 2) ∧
      1 ≤ (⟨2, 2, 1⟩ : proc_params).width ∧
      (⟨2, 2, 1⟩ : proc_params).width ≤ (⟨2, 2, 1⟩ : proc_params).rob_size ∧
      (⟨2, 2, 1⟩ : proc_params).width ≤ (⟨2, 2, 1⟩ : proc_params).iq_size) ∧
    ∃ n s, 1 ≤ n ∧ s = run ⟨2, 2, 1⟩ [mk_instr 0 1 1 2 3, mk_instr 4 0 2 1 (-1)] n ∧
      Advance_Cycle s = false ∧
      main_loop ⟨2, 2, 1⟩ (14 * [mk_instr 0 1 1 2 3, mk_instr 4 0 2 1 (-1)].length + 1)
        (State.init [mk_instr 0 1 1 2 3, mk_instr 4 0 2 1 (-1)]) = some s :=
  ⟨⟨by decide, by decide, by decide, by decide⟩,
   C19_driver_terminates ⟨2, 2, 1⟩ [mk_instr 0 1 1 2 3, mk_instr 4 0 2 1 (-1)]
     (by decide) (by decide) (by decide) (by decide) (by decide) (by decide)⟩

end SimProc

namespace SimProc

/-! ## What the front-end stages leave unchanged -/

theorem Fetch_fields (W : Nat) (s : State) :
    (Fetch W s).RN = s.RN ∧ (Fetch W s).RR = s.RR ∧ (Fetch W s).DI = s.DI ∧
    (Fetch W s).IQ = s.IQ ∧ (Fetch W s).execute_list = s.execute_list ∧
    (Fetch W s).WB = s.WB ∧ (Fetch W s).retire_map = s.retire_map ∧
    (Fetch W s).completed_intstructions = s.completed_intstructions ∧
    (Fetch W s).retired_instructions = s.retired_instructions ∧
    (Fetch W s).total_cycles = s.total_cycles ∧
    (Fetch W s).reorder_buffer = s.reorder_buffer ∧
    (Fetch W s).rob_head = s.rob_head ∧ (Fetch W s).rob_tail = s.rob_tail ∧
    (Fetch W s).rob_full = s.rob_full := by
  unfold Fetch
  split_ifs
  · exact Fetch_loop_induct
      (fun u => u.RN = s.RN ∧ u.RR = s.RR ∧ u.DI = s.DI ∧ u.IQ = s.IQ ∧
        u.execute_list = s.execute_list ∧ u.WB = s.WB ∧ u.retire_map = s.retire_map ∧
        u.completed_intstructions = s.completed_intstructions ∧
        u.retired_instructions = s.retired_instructions ∧ u.total_cycles = s.total_cycles ∧
        u.reorder_buffer = s.reorder_buffer ∧ u.rob_head = s.rob_head ∧
        u.rob_tail = s.rob_tail ∧ u.rob_full = s.rob_full)
      (fun _ _ _ _ h => h) W s ⟨rfl, rfl, rfl, rfl, rfl, rfl, rfl, rfl, rfl, rfl, rfl, rfl, rfl, rfl⟩
  · exact ⟨rfl, rfl, rfl, rfl, rfl, rfl, rfl, rfl, rfl, rfl, rfl, rfl, rfl, rfl⟩

theorem Fetch_loop_DE_length (n : Nat) (s : State) :
    (Fetch_loop n s).DE.length = s.DE.length + min n s.trace.length := by
  induction n generalizing s with
  | zero => simp [Fetch_loop]
  | succ n ih =>
    unfold Fetch_loop
    split
    · rename_i h
      simp [h]
    · rename_i instr rest h
      rw [ih, Fetch_step_DE, h]
      have e : (Fetch_step instr rest s).trace = rest := rfl
      rw [e]
      simp only [List.length_append, List.length_cons, List.length_nil]
      omega

theorem Decode_fields (s : State) :
    (Decode s).RR = s.RR ∧ (Decode s).DI = s.DI ∧
    (Decode s).IQ = s.IQ ∧ (Decode s).execute_list = s.execute_list ∧
    (Decode s).WB = s.WB ∧ (Decode s).retire_map = s.retire_map ∧
    (Decode s).completed_intstructions = s.completed_intstructions ∧
    (Decode s).retired_instructions = s.retired_instructions ∧
    (Decode s).total_cycles = s.total_cycles ∧
    (Decode s).reorder_buffer = s.reorder_buffer ∧
    (Decode s).rob_head = s.rob_head ∧ (Decode s).rob_tail = s.rob_tail ∧
    (Decode s).rob_full = s.rob_full ∧ (Decode s).trace = s.trace := by
  unfold Decode
  split_ifs <;> exact ⟨rfl, rfl, rfl, rfl, rfl, rfl, rfl, rfl, rfl, rfl, rfl, rfl, rfl, rfl⟩

theorem Rename_loop_fields (N : Nat) (rn : List Instruction) (s : State) :
    (Rename_loop N rn s).DI = s.DI ∧ (Rename_loop N rn s).IQ = s.IQ ∧
    (Rename_loop N rn s).execute_list = s.execute_list ∧ (Rename_loop N rn s).WB = s.WB ∧
    (Rename_loop N rn s).retire_map = s.retire_map ∧
    (Rename_loop N rn s).completed_intstructions = s.completed_intstructions ∧
    (Rename_loop N rn s).retired_instructions = s.retired_instructions ∧
    (Rename_loop N rn s).total_cycles = s.total_cycles ∧
    (Rename_loop N rn s).rob_head = s.rob_head ∧
    (Rename_loop N rn s).trace = s.trace ∧ (Rename_loop N rn s).DE = s.DE ∧
    (Rename_loop N rn s).RR.length = s.RR.length + rn.length := by
  induction rn generalizing s with
  | nil => exact ⟨rfl, rfl, rfl, rfl, rfl, rfl, rfl, rfl, rfl, rfl, rfl, rfl⟩
  | cons a rn ih =>
    unfold Rename_loop
    obtain ⟨h1, h2, h3, h4, h5, h6, h7, h8, h9, h10, h11, h12⟩ := ih (Rename_step N a rn s)
    refine ⟨h1, h2, h3, h4, h5, h6, h7, h8, h9, h10, h11, ?_⟩
    rw [h12]
    show (s.RR ++ [rename_instr s a]).length + rn.length = _
    simp only [List.length_append, List.length_cons, List.length_nil]
    omega

theorem Rename_fields (N : Nat) (s : State) :
    (Rename N s).DI = s.DI ∧ (Rename N s).IQ = s.IQ ∧
    (Rename N s).execute_list = s.execute_list ∧ (Rename N s).WB = s.WB ∧
    (Rename N s).retire_map = s.retire_map ∧
    (Rename N s).completed_intstructions = s.completed_intstructions ∧
    (Rename N s).retired_instructions = s.retired_instructions ∧
    (Rename N s).total_cycles = s.total_cycles ∧
    (Rename N s).rob_head = s.rob_head ∧
    (Rename N s).trace = s.trace ∧ (Rename N s).DE = s.DE := by
  unfold Rename
  split_ifs
  · obtain ⟨h1, h2, h3, h4, h5, h6, h7, h8, h9, h10, h11, _⟩ := Rename_loop_fields N s.RN s
    exact ⟨h1, h2, h3, h4, h5, h6, h7, h8, h9, h10, h11⟩
  · exact ⟨rfl, rfl, rfl, rfl, rfl, rfl, rfl, rfl, rfl, rfl, rfl⟩

/-! ## A pipeline whose back end is empty -/

theorem BackEmpty.transfer {s u : State} (h : BackEmpty s) (h1 : u.IQ = s.IQ)
    (h2 : u.execute_list = s.execute_list) (h3 : u.WB = s.WB)
    (h4 : u.retire_map = s.retire_map)
    (h5 : u.completed_intstructions = s.completed_intstructions)
    (h6 : u.retired_instructions = s.retired_instructions) : BackEmpty u := by
  unfold BackEmpty at *
  rw [h1, h2, h3, h4, h5, h6]
  exact h

theorem BackEmpty_Fetch {s : State} (h : BackEmpty s) (W : Nat) : BackEmpty (Fetch W s) := by
  obtain ⟨_, _, _, h1, h2, h3, h4, h5, h6, _⟩ := Fetch_fields W s
  exact h.transfer h1 h2 h3 h4 h5 h6

theorem BackEmpty_Decode {s : State} (h : BackEmpty s) : BackEmpty (Decode s) := by
  obtain ⟨_, _, h1, h2, h3, h4, h5, h6, _⟩ := Decode_fields s
  exact h.transfer h1 h2 h3 h4 h5 h6

theorem BackEmpty_Rename {s : State} (h : BackEmpty s) (N : Nat) : BackEmpty (Rename N s) := by
  obtain ⟨_, h1, h2, h3, h4, h5, h6, _⟩ := Rename_fields N s
  exact h.transfer h1 h2 h3 h4 h5 h6

theorem BackEmpty_RegRead {s : State} (h : BackEmpty s) : BackEmpty (RegRead s) := by
  obtain ⟨_, _, _, h5, h4, _, _, _, _, h6, _, _, _, h1, h2, h3⟩ := RegRead_frame s
  exact h.transfer h1 h2 h3 h4 h5 h6

theorem BackEmpty_tick {s : State} (h : BackEmpty s) : BackEmpty (tick s) :=
  h.transfer rfl rfl rfl rfl rfl rfl

/-- With an empty `retire_map` the head of the ROB is not ready. -/
theorem SInv.head_not_ready {p : proc_params} {tr : List Instruction} {s : State}
    (hs : SInv p tr s) (h : s.retire_map.values = []) :
    ¬ (s.reorder_buffer.get (s.rob_head : Int) rob_params.zero).ready = true := by
  intro hr
  obtain ⟨e, v, _, hv, _⟩ := hs.head_ready hr
  have := UMap.mem_values_of_find hv
  rw [h] at this
  exact absurd this (List.not_mem_nil _)

/-- A cycle of a pipeline whose back end is empty: only the front-end stages act. -/
theorem cycle_back {p : proc_params} {tr : List Instruction} {s : State}
    (hs : SInv p tr s) (h : BackEmpty s) (hW : 1 ≤ p.width) :
    cycle p s = tick (Fetch p.width (Decode (Rename p.rob_size (RegRead
      (Dispatch p.iq_size (Retire_touch s)))))) := by
  obtain ⟨h1, h2, h3, h4, _, _⟩ := h
  unfold cycle
  rw [Retire_idle hW (hs.head_not_ready h4)]
  have e1 : Writeback (Retire_touch s) = Retire_touch s := Writeback_idle h3
  have e2 : Execute (Retire_touch s) = Retire_touch s := Execute_idle h2
  have e3 : Issue p.width (Retire_touch s) = Retire_touch s := by
    apply Issue_idle
    show issue_selected p.width s.IQ = []
    rw [h1]
    rfl
  rw [e1, e2, e3]

theorem BackEmpty_cycle {p : proc_params} {tr : List Instruction} {s : State}
    (hs : SInv p tr s) (h : BackEmpty s) (hW : 1 ≤ p.width)
    (hd : (Dispatch p.iq_size (Retire_touch s)) = Retire_touch s) :
    BackEmpty (cycle p s) := by
  rw [cycle_back hs h hW, hd]
  have h0 : BackEmpty (Retire_touch s) := h.transfer rfl rfl rfl rfl rfl rfl
  exact BackEmpty_tick (BackEmpty_Fetch (BackEmpty_Decode (BackEmpty_Rename
    (BackEmpty_RegRead h0) _)) _)

end SimProc

namespace SimProc

/-! ## A batch larger than the issue queue -/

theorem idents_nil_of_back {s : State} (h : BackEmpty s) (h1 : s.DI = []) (h2 : s.RR = []) :
    idents s = [] := by
  obtain ⟨g1, g2, g3, g4, _, _⟩ := h
  rw [idents_eq, h1, h2, g1, g2, g3, g4]
  rfl

theorem Dispatch_stuck {Q : Nat} {s : State} (h : Q < s.DI.length) (hiq : s.IQ = []) :
    Dispatch Q s = s := by
  apply Dispatch_idle
  right
  rw [hiq]
  have := to_size_t_le Q
  have := to_size_t_lt (Q : Int)
  simp only [List.length_nil]
  omega

/-- The batch is in `DI`: it stays there. -/
theorem hang_DI {p : proc_params} {tr : List Instruction} {s : State}
    (hs : SInv p tr s) (h : BackEmpty s) (hW : 1 ≤ p.width)
    (hd : p.iq_size < s.DI.length) :
    BackEmpty (cycle p s) ∧ (cycle p s).DI = s.DI := by
  have e0 : Dispatch p.iq_size (Retire_touch s) = Retire_touch s :=
    Dispatch_stuck (s := Retire_touch s) hd h.1
  refine ⟨BackEmpty_cycle hs h hW e0, ?_⟩
  rw [cycle_back hs h hW, e0]
  have e1 : RegRead (Retire_touch s) = Retire_touch s := by
    apply RegRead_idle
    intro hc
    have : s.DI = [] := hc.1
    rw [this] at hd
    simp at hd
  rw [e1]
  show (Fetch p.width (Decode (Rename p.rob_size (Retire_touch s)))).DI = s.DI
  rw [(Fetch_fields _ _).2.2.1, (Decode_fields _).2.1, (Rename_fields _ _).1]
  rfl

/-- The batch is in `RR`: it moves to `DI`. -/
theorem hang_RR {p : proc_params} {tr : List Instruction} {s : State}
    (hs : SInv p tr s) (h : BackEmpty s) (hW : 1 ≤ p.width) (hd : s.DI = []) :
    BackEmpty (cycle p s) ∧ (cycle p s).DI.length = s.RR.length := by
  have e0 : Dispatch p.iq_size (Retire_touch s) = Retire_touch s :=
    Dispatch_idle (Or.inl hd)
  refine ⟨BackEmpty_cycle hs h hW e0, ?_⟩
  rw [cycle_back hs h hW, e0]
  show (Fetch p.width (Decode (Rename p.rob_size (RegRead (Retire_touch s))))).DI.length = _
  rw [(Fetch_fields _ _).2.2.1, (Decode_fields _).2.1, (Rename_fields _ _).1, RegRead_eq,
    if_pos (show (Retire_touch s).DI = [] from hd)]
  show (s.RR.map _).length = _
  rw [List.length_map]

/-- The guard of `Rename` when nothing has been renamed yet. -/
theorem Rename_guard_empty {p : proc_params} {tr : List Instruction} {s : State}
    (hs : SInv p tr s) (hid : idents s = []) (hrr : s.RR = []) :
    ((Retire_touch s).RR.isEmpty ∧
      to_size_t (free_entries p.rob_size (Retire_touch s)) ≥ (Retire_touch s).RN.length) ↔
      s.RN.length ≤ to_size_t (p.rob_size : Int) := by
  have e1 : free_entries p.rob_size (Retire_touch s) = free_entries p.rob_size s := rfl
  have e2 : (Retire_touch s).RR = s.RR := rfl
  have e3 : (Retire_touch s).RN = s.RN := rfl
  rw [e1, e2, e3, hs.free_entries_eq, hid, hrr]
  simp

/-- The batch is in `RN`: it moves to `RR` when the ROB has room for it, and stays
otherwise. -/
theorem hang_RN {p : proc_params} {tr : List Instruction} {s : State}
    (hs : SInv p tr s) (h : BackEmpty s) (hW : 1 ≤ p.width) (hd : s.DI = [])
    (hr : s.RR = []) (hn : s.RN ≠ []) :
    BackEmpty (cycle p s) ∧ (cycle p s).DI = [] ∧
    (s.RN.length ≤ to_size_t (p.rob_size : Int) → (cycle p s).RR.length = s.RN.length) ∧
    (¬ s.RN.length ≤ to_size_t (p.rob_size : Int) →
      (cycle p s).RR = [] ∧ (cycle p s).RN = s.RN) := by
  have e0 : Dispatch p.iq_size (Retire_touch s) = Retire_touch s :=
    Dispatch_idle (Or.inl hd)
  have e1 : RegRead (Retire_touch s) = Retire_touch s := by
    apply RegRead_idle
    intro hc
    exact hc.2 hr
  have hg := Rename_guard_empty hs (idents_nil_of_back h hd hr) hr
  refine ⟨BackEmpty_cycle hs h hW e0, ?_, ?_, ?_⟩
  · rw [cycle_back hs h hW, e0, e1]
    show (Fetch p.width (Decode (Rename p.rob_size (Retire_touch s)))).DI = []
    rw [(Fetch_fields _ _).2.2.1, (Decode_fields _).2.1, (Rename_fields _ _).1]
    exact hd
  · intro hroom
    rw [cycle_back hs h hW, e0, e1]
    show (Fetch p.width (Decode (Rename p.rob_size (Retire_touch s)))).RR.length = _
    rw [(Fetch_fields _ _).2.1, (Decode_fields _).1]
    unfold Rename
    rw [if_pos (hg.mpr hroom), (Rename_loop_fields _ _ _).2.2.2.2.2.2.2.2.2.2.2]
    show s.RR.length + s.RN.length = _
    rw [hr]
    simp
  · intro hroom
    rw [cycle_back hs h hW, e0, e1]
    have e2 : Rename p.rob_size (Retire_touch s) = Retire_touch s := by
      apply Rename_idle
      intro hc
      exact hroom (hg.mp hc.1)
    have e3 : Decode (Retire_touch s) = Retire_touch s := by
      apply Decode_idle
      intro hc
      exact hn hc.1
    rw [e2, e3]
    show (Fetch p.width (Retire_touch s)).RR = [] ∧ (Fetch p.width (Retire_touch s)).RN = s.RN
    rw [(Fetch_fields _ _).2.1, (Fetch_fields _ _).1]
    exact ⟨hr, rfl⟩

/-- The batch is in `DE`: it moves to `RN`. -/
theorem hang_DE {p : proc_params} {tr : List Instruction} {s : State}
    (hs : SInv p tr s) (h : BackEmpty s) (hW : 1 ≤ p.width) (hd : s.DI = [])
    (hr : s.RR = []) (hn : s.RN = []) :
    BackEmpty (cycle p s) ∧ (cycle p s).DI = [] ∧ (cycle p s).RR = [] ∧
    (cycle p s).RN.length = s.DE.length := by
  have e0 : Dispatch p.iq_size (Retire_touch s) = Retire_touch s :=
    Dispatch_idle (Or.inl hd)
  have e1 : RegRead (Retire_touch s) = Retire_touch s := by
    apply RegRead_idle
    intro hc
    exact hc.2 hr
  have e2 : Rename p.rob_size (Retire_touch s) = Retire_touch s := by
    apply Rename_idle
    intro hc
    exact hc.2 hn
  refine ⟨BackEmpty_cycle hs h hW e0, ?_, ?_, ?_⟩
  · rw [cycle_back hs h hW, e0, e1, e2]
    show (Fetch p.width (Decode (Retire_touch s))).DI = []
    rw [(Fetch_fields _ _).2.2.1, (Decode_fields _).2.1]
    exact hd
  · rw [cycle_back hs h hW, e0, e1, e2]
    show (Fetch p.width (Decode (Retire_touch s))).RR = []
    rw [(Fetch_fields _ _).2.1, (Decode_fields _).1]
    exact hr
  · rw [cycle_back hs h hW, e0, e1, e2]
    show (Fetch p.width (Decode (Retire_touch s))).RN.length = _
    rw [(Fetch_fields _ _).1]
    unfold Decode
    rw [if_pos (by show s.RN.isEmpty = true; rw [hn]; rfl), Decode_loop_eq]
    show (s.RN ++ s.DE.map _).length = _
    rw [hn]
    simp

/-- The first cycle fetches the first batch. -/
theorem hang_init (p : proc_params) (tr : List Instruction) (hW : 1 ≤ p.width) :
    BackEmpty (run p tr 1) ∧ (run p tr 1).DI = [] ∧ (run p tr 1).RR = [] ∧
    (run p tr 1).RN = [] ∧ (run p tr 1).DE.length = min p.width tr.length := by
  have hs : SInv p tr (State.init tr) := (Inv_run p tr 0).1
  have hb : BackEmpty (State.init tr) := ⟨rfl, rfl, rfl, rfl, rfl, rfl⟩
  have e0 : Dispatch p.iq_size (Retire_touch (State.init tr)) = Retire_touch (State.init tr) :=
    Dispatch_idle (Or.inl rfl)
  have e1 : RegRead (Retire_touch (State.init tr)) = Retire_touch (State.init tr) :=
    RegRead_idle (fun hc => hc.2 rfl)
  have e2 : Rename p.rob_size (Retire_touch (State.init tr)) = Retire_touch (State.init tr) :=
    Rename_idle (fun hc => hc.2 rfl)
  have e3 : Decode (Retire_touch (State.init tr)) = Retire_touch (State.init tr) :=
    Decode_idle (fun hc => hc.2 rfl)
  have ec : run p tr 1 = tick (Fetch p.width (Retire_touch (State.init tr))) := by
    show cycle p (State.init tr) = _
    rw [cycle_back hs hb hW, e0, e1, e2, e3]
  refine ⟨?_, ?_, ?_, ?_, ?_⟩
  · show BackEmpty (cycle p (State.init tr))
    exact BackEmpty_cycle hs hb hW e0
  · rw [ec]
    show (Fetch p.width (Retire_touch (State.init tr))).DI = []
    rw [(Fetch_fields _ _).2.2.1]
    rfl
  · rw [ec]
    show (Fetch p.width (Retire_touch (State.init tr))).RR = []
    rw [(Fetch_fields _ _).2.1]
    rfl
  · rw [ec]
    show (Fetch p.width (Retire_touch (State.init tr))).RN = []
    rw [(Fetch_fields _ _).1]
    rfl
  · rw [ec]
    show (Fetch p.width (Retire_touch (State.init tr))).DE.length = _
    unfold Fetch
    rw [if_pos (by rfl), Fetch_loop_DE_length]
    show 0 + min p.width tr.length = _
    omega

end SimProc

namespace SimProc

/-! ### Which instructions the stuck batch holds -/

theorem sorted_perm_range' {l : List Nat} {n : Nat} (h1 : l.Pairwise (fun a b => a < b))
    (h2 : l.Perm (List.range' 0 n)) : l = List.range' 0 n := by
  have s1 : List.Sorted LE.le l := h1.imp (fun h => Nat.le_of_lt h)
  have s2 : List.Sorted LE.le (List.range' 0 n) :=
    (List.pairwise_lt_range' 0 n).imp (fun h => Nat.le_of_lt h)
  exact List.eq_of_perm_of_sorted h2 s1 s2

theorem range'_split {l1 l2 : List Nat} {a b : Nat} (h : l1 ++ l2 = List.range' 0 (a + b))
    (ha : l1.length = a) : l1 = List.range a := by
  rw [Nat.add_comm, ← List.range'_append_1 0 a b] at h
  rw [List.range_eq_range']
  exact (List.append_inj h (by simp [ha])).1

/-- With an empty back end and nothing renamed, `RN` holds the oldest instructions. -/
theorem RN_seq_of_back {p : proc_params} {tr : List Instruction} {s : State}
    (hs : SInv p tr s) (h : BackEmpty s) (hd : s.DI = []) (hr : s.RR = []) :
    s.RN.map (fun i => i.seq_no) = List.range s.RN.length := by
  have hf := hs.front_seq
  rw [idents_nil_of_back h hd hr, h.2.2.2.2.2, List.map_append] at hf
  simp only [List.length_nil, Nat.add_zero] at hf
  exact range'_split hf (List.length_map _ _)

/-- With an empty back end, `DI` holds the oldest instructions. -/
theorem DI_seq_of_back {p : proc_params} {tr : List Instruction} {s : State}
    (hs : SInv p tr s) (ho : OrdInv s) (h : BackEmpty s) :
    s.DI.map (fun i => i.seq_no) = List.range s.DI.length := by
  obtain ⟨g1, g2, g3, g4, _, g6⟩ := h
  have hl := hs.live_seq
  rw [g6] at hl
  have hid : (idents s).map (fun c => c.seq_no)
      = s.RR.map (fun i => i.seq_no) ++ s.DI.map (fun i => i.seq_no) := by
    rw [idents_eq, g1, g2, g3, g4]
    simp only [List.map_nil, List.append_nil, List.map_append, List.map_map]
    rfl
  have hlen : (idents s).length = s.DI.length + s.RR.length := by
    have := congrArg List.length hid
    simp only [List.length_map, List.length_append] at this
    omega
  unfold OrdInv waiting_seq at ho
  rw [g1, List.nil_append, List.map_append] at ho
  have hperm : (s.DI.map (fun i => i.seq_no) ++ s.RR.map (fun i => i.seq_no)).Perm
      (List.range' 0 (s.DI.length + s.RR.length)) := by
    rw [← hlen]
    refine List.Perm.trans ?_ hl
    rw [hid]
    exact List.perm_append_comm
  have := sorted_perm_range' ho hperm
  exact range'_split this (List.length_map _ _)

/-- With an empty back end and an empty `DI`, `RR` holds the oldest instructions. -/
theorem RR_seq_of_back {p : proc_params} {tr : List Instruction} {s : State}
    (hs : SInv p tr s) (ho : OrdInv s) (h : BackEmpty s) (hd : s.DI = []) :
    s.RR.map (fun i => i.seq_no) = List.range s.RR.length := by
  obtain ⟨g1, g2, g3, g4, _, g6⟩ := h
  have hl := hs.live_seq
  rw [g6] at hl
  have hid : (idents s).map (fun c => c.seq_no) = s.RR.map (fun i => i.seq_no) := by
    rw [idents_eq, g1, g2, g3, g4, hd]
    simp only [List.map_nil, List.append_nil, List.map_map]
    rfl
  have hlen : (idents s).length = s.RR.length := by
    have := congrArg List.length hid
    simpa using this
  rw [hid, hlen] at hl
  unfold OrdInv waiting_seq at ho
  rw [g1, hd, List.nil_append, List.nil_append] at ho
  rw [sorted_perm_range' ho hl, List.range_eq_range']

/-- With an empty back end and nothing decoded, `DE` holds the oldest instructions. -/
theorem DE_seq_of_back {p : proc_params} {tr : List Instruction} {s : State}
    (hs : SInv p tr s) (h : BackEmpty s) (hd : s.DI = []) (hr : s.RR = [])
    (hn : s.RN = []) :
    s.DE.map (fun i => i.seq_no) = List.range s.DE.length := by
  have hf := hs.front_seq
  rw [idents_nil_of_back h hd hr, h.2.2.2.2.2, hn] at hf
  simp only [List.length_nil, Nat.add_zero, List.nil_append, Nat.zero_add] at hf
  rw [hf, List.range_eq_range']

/-! ### The stuck batch along the run -/

/-- The first three cycles: the batch is fetched, decoded and, when the ROB has room
for it, renamed. -/
theorem hang_early (p : proc_params) (tr : List Instruction)
    (h2 : p.iq_size < p.width) (h4 : p.width ≤ tr.length) :
    (BackEmpty (run p tr 1) ∧ (run p tr 1).DI = [] ∧ (run p tr 1).RR = [] ∧
      (run p tr 1).RN = [] ∧ (run p tr 1).DE.length = p.width) ∧
    (BackEmpty (run p tr 2) ∧ (run p tr 2).DI = [] ∧ (run p tr 2).RR = [] ∧
      (run p tr 2).RN.length = p.width) ∧
    (BackEmpty (run p tr 3) ∧ (run p tr 3).DI = [] ∧
      (p.width ≤ to_size_t (p.rob_size : Int) → (run p tr 3).RR.length = p.width) ∧
      (¬ p.width ≤ to_size_t (p.rob_size : Int) →
        (run p tr 3).RR = [] ∧ (run p tr 3).RN.length = p.width)) := by
  have hW : 1 ≤ p.width := by omega
  obtain ⟨a1, a2, a3, a4, a5⟩ := hang_init p tr hW
  have a5' : (run p tr 1).DE.length = p.width := by rw [a5]; omega
  obtain ⟨b1, b2, b3, b4⟩ := hang_DE (Inv_run p tr 1).1 a1 hW a2 a3 a4
  have b4' : (run p tr 2).RN.length = p.width := by
    show (cycle p (run p tr 1)).RN.length = _
    rw [b4, a5']
  have b1' : BackEmpty (run p tr 2) := b1
  have b2' : (run p tr 2).DI = [] := b2
  have b3' : (run p tr 2).RR = [] := b3
  have hne2 : (run p tr 2).RN ≠ [] := by
    intro hc
    rw [hc] at b4'
    simp at b4'
    omega
  obtain ⟨c1, c2, c3, c4⟩ := hang_RN (Inv_run p tr 2).1 b1' hW b2' b3' hne2
  rw [b4'] at c3 c4
  refine ⟨⟨a1, a2, a3, a4, a5'⟩, ⟨b1', b2', b3', b4'⟩, c1, c2, c3, ?_⟩
  intro hg
  obtain ⟨e1, e2⟩ := c4 hg
  refine ⟨e1, ?_⟩
  show (cycle p (run p tr 2)).RN.length = _
  rw [e2, b4']

/-- From the fifth cycle on the batch is in `DI` when the ROB had room for it, and in
`RN` otherwise. -/
theorem hang_late (p : proc_params) (tr : List Instruction)
    (h2 : p.iq_size < p.width) (h4 : p.width ≤ tr.length) :
    ∀ n, 4 ≤ n → BackEmpty (run p tr n) ∧
      ((p.width ≤ to_size_t (p.rob_size : Int) ∧ (run p tr n).DI.length = p.width) ∨
       (¬ p.width ≤ to_size_t (p.rob_size : Int) ∧ (run p tr n).DI = [] ∧
          (run p tr n).RR = [] ∧ (run p tr n).RN.length = p.width)) := by
  have hW : 1 ≤ p.width := by omega
  obtain ⟨_, _, c1, c2, c3, c4⟩ := hang_early p tr h2 h4
  have step : ∀ n, BackEmpty (run p tr n) → (run p tr n).DI = [] → (run p tr n).RR = [] →
      (run p tr n).RN.length = p.width → ¬ p.width ≤ to_size_t (p.rob_size : Int) →
      BackEmpty (run p tr (n + 1)) ∧ (run p tr (n + 1)).DI = [] ∧
        (run p tr (n + 1)).RR = [] ∧ (run p tr (n + 1)).RN.length = p.width := by
    intro n i1 i3 i4 i5 hg
    have hne : (run p tr n).RN ≠ [] := by
      intro hc
      rw [hc] at i5
      simp at i5
      omega
    obtain ⟨d1, d2, _, d4⟩ := hang_RN (Inv_run p tr n).1 i1 hW i3 i4 hne
    rw [i5] at d4
    obtain ⟨f1, f2⟩ := d4 hg
    refine ⟨d1, d2, f1, ?_⟩
    show (cycle p (run p tr n)).RN.length = _
    rw [f2, i5]
  intro n hn
  induction n with
  | zero => omega
  | succ n ih =>
    by_cases h3 : n = 3
    · subst h3
      by_cases hg : p.width ≤ to_size_t (p.rob_size : Int)
      · obtain ⟨d1, d2⟩ := hang_RR (Inv_run p tr 3).1 c1 hW c2
        refine ⟨d1, Or.inl ⟨hg, ?_⟩⟩
        show (cycle p (run p tr 3)).DI.length = _
        rw [d2]
        exact c3 hg
      · obtain ⟨e1, e2⟩ := c4 hg
        obtain ⟨d1, d2, d3, d4⟩ := step 3 c1 c2 e1 e2 hg
        exact ⟨d1, Or.inr ⟨hg, d2, d3, d4⟩⟩
    · obtain ⟨i1, i2⟩ := ih (by omega)
      rcases i2 with ⟨hg, i3⟩ | ⟨hg, i3, i4, i5⟩
      · obtain ⟨d1, d2⟩ := hang_DI (Inv_run p tr n).1 i1 hW (by rw [i3]; exact h2)
        refine ⟨d1, Or.inl ⟨hg, ?_⟩⟩
        show (cycle p (run p tr n)).DI.length = _
        rw [d2, i3]
      · obtain ⟨d1, d2, d3, d4⟩ := step n i1 i3 i4 i5 hg
        exact ⟨d1, Or.inr ⟨hg, d2, d3, d4⟩⟩

theorem Advance_of_front {s : State}
    (h : s.DE ≠ [] ∨ s.RN ≠ [] ∨ s.RR ≠ [] ∨ s.DI ≠ []) : Advance_Cycle s = true := by
  unfold Advance_Cycle
  rcases h with h | h | h | h
  · have : s.DE.isEmpty = false := by
      cases hd : s.DE with
      | nil => exact absurd hd h
      | cons a l => rfl
    simp [this]
  · have : s.RN.isEmpty = false := by
      cases hd : s.RN with
      | nil => exact absurd hd h
      | cons a l => rfl
    simp [this]
  · have : s.RR.isEmpty = false := by
      cases hd : s.RR with
      | nil => exact absurd hd h
      | cons a l => rfl
    simp [this]
  · have : s.DI.isEmpty = false := by
      cases hd : s.DI with
      | nil => exact absurd hd h
      | cons a l => rfl
    simp [this]

theorem ne_nil_of_length {l : List Instruction} {n : Nat} (h : l.length = n) (hn : 1 ≤ n) :
    l ≠ [] := by
  intro hc
  rw [hc] at h
  simp at h
  omega

/-- The loop of the driver does not exit when `Advance_Cycle` is true after every cycle. -/
theorem main_loop_none (p : proc_params) (tr : List Instruction)
    (h : ∀ n, 1 ≤ n → Advance_Cycle (run p tr n) = true) :
    ∀ fuel n, main_loop p fuel (run p tr n) = none := by
  intro fuel
  induction fuel with
  | zero => intro n; rfl
  | succ fuel ih =>
    intro n
    unfold main_loop
    simp only
    have := h (n + 1) (by omega)
    rw [if_pos (show Advance_Cycle (cycle p (run p tr n)) = true from this)]
    exact ih (n + 1)

end SimProc

namespace SimProc

/-! ## A dispatch batch larger than the issue queue -/

set_option maxRecDepth 100000 in
/-- C20 as claimed fails in the cycle in which the batch has been renamed: with
`ROB_SIZE = 2`, `IQ_SIZE = 1`, `WIDTH = 2` and a trace of two records, after the third
cycle the batch of two instructions is in `RR`, while `RN` and `DI` are empty. -/
theorem C20_counterexample :
    (1 ≤ (⟨2, 1, 2⟩ : proc_params).iq_size ∧
      (⟨2, 1, 2⟩ : proc_params).iq_size < (⟨2, 1, 2⟩ : proc_params).width ∧
      1 ≤ (⟨2, 1, 2⟩ : proc_params).rob_size ∧
      (⟨2, 1, 2⟩ : proc_params).width ≤ [mk_instr 0 0 1 2 3, mk_instr 4 0 2 1 (-1)].length) ∧
    (run ⟨2, 1, 2⟩ [mk_instr 0 0 1 2 3, mk_instr 4 0 2 1 (-1)] 3).RR.map (fun i => i.seq_no)
      = [0, 1] ∧
    (run ⟨2, 1, 2⟩ [mk_instr 0 0 1 2 3, mk_instr 4 0 2 1 (-1)] 3).RN = [] ∧
    (run ⟨2, 1, 2⟩ [mk_instr 0 0 1 2 3, mk_instr 4 0 2 1 (-1)] 3).DI = [] := by
  decide

/-- C20, amended (a dispatch batch larger than the issue queue hangs the simulator).
For every configuration with `WIDTH > IQ_SIZE` (and `ROB_SIZE` a C++ `int`, here
only `ROB_SIZE < 2^64` is used) and every trace with at least `WIDTH` records, the
first fetched batch of `WIDTH` instructions, those with `seq_no` `0 … WIDTH - 1`, is
never dispatched: after the first cycle it is in `DE`, after the second in `RN`;
if `ROB_SIZE ≥ WIDTH` it is in `RR` after the third cycle and in `DI` after every
later cycle; if `ROB_SIZE < WIDTH` it is in `RN` after every cycle from the second
on.  After every cycle `IQ`, `execute_list`, `WB`, `retire_map` and
`completed_intstructions` are empty, no instruction has been retired, and
`Advance_Cycle` returns true, so the loop of the driver never exits.  The bounds
`IQ_SIZE ≥ 1` and `ROB_SIZE ≥ 1` are not needed. -/
theorem C20_oversized_batch_hangs (p : proc_params) (tr : List Instruction)
    (h2 : p.iq_size < p.width) (hR2 : p.rob_size < 2 ^ 64) (h4 : p.width ≤ tr.length) :
    (∀ n, 1 ≤ n →
      (run p tr n).IQ = [] ∧ (run p tr n).execute_list = [] ∧ (run p tr n).WB = [] ∧
      (run p tr n).retire_map.values = [] ∧ (run p tr n).completed_intstructions = [] ∧
      (run p tr n).retired_instructions = 0 ∧ Advance_Cycle (run p tr n) = true) ∧
    (run p tr 1).DE.map (fun i => i.seq_no) = List.range p.width ∧
    (run p tr 2).RN.map (fun i => i.seq_no) = List.range p.width ∧
    (p.width ≤ p.rob_size →
      (run p tr 3).RR.map (fun i => i.seq_no) = List.range p.width ∧
      ∀ n, 4 ≤ n → (run p tr n).DI.map (fun i => i.seq_no) = List.range p.width) ∧
    (p.rob_size < p.width →
      ∀ n, 2 ≤ n → (run p tr n).RN.map (fun i => i.seq_no) = List.range p.width ∧
        (run p tr n).RR = [] ∧ (run p tr n).DI = []) ∧
    (∀ fuel, main_loop p fuel (State.init tr) = none) := by
  have hW : 1 ≤ p.width := by omega
  have hsz : to_size_t (p.rob_size : Int) = p.rob_size := to_size_t_of_lt hR2
  obtain ⟨⟨a1, a2, a3, a4, a5⟩, ⟨b1, b2, b3, b4⟩, c1, c2, c3, c4⟩ := hang_early p tr h2 h4
  rw [hsz] at c3 c4
  have hlate := hang_late p tr h2 h4
  have hadv : ∀ n, 1 ≤ n → BackEmpty (run p tr n) ∧ Advance_Cycle (run p tr n) = true := by
    intro n hn
    by_cases h1 : n = 1
    · subst h1
      exact ⟨a1, Advance_of_front (Or.inl (ne_nil_of_length a5 hW))⟩
    by_cases h2' : n = 2
    · subst h2'
      exact ⟨b1, Advance_of_front (Or.inr (Or.inl (ne_nil_of_length b4 hW)))⟩
    by_cases h3 : n = 3
    · subst h3
      refine ⟨c1, ?_⟩
      by_cases hg : p.width ≤ p.rob_size
      · exact Advance_of_front (Or.inr (Or.inr (Or.inl (ne_nil_of_length (c3 hg) hW))))
      · exact Advance_of_front (Or.inr (Or.inl (ne_nil_of_length (c4 hg).2 hW)))
    obtain ⟨d1, d2⟩ := hlate n (by omega)
    refine ⟨d1, ?_⟩
    rcases d2 with ⟨_, d3⟩ | ⟨_, _, _, d3⟩
    · exact Advance_of_front (Or.inr (Or.inr (Or.inr (ne_nil_of_length d3 hW))))
    · exact Advance_of_front (Or.inr (Or.inl (ne_nil_of_length d3 hW)))
  refine ⟨?_, ?_, ?_, ?_, ?_, ?_⟩
  · intro n hn
    obtain ⟨⟨g1, g2, g3, g4, g5, g6⟩, g7⟩ := hadv n hn
    exact ⟨g1, g2, g3, g4, g5, g6, g7⟩
  · rw [DE_seq_of_back (Inv_run p tr 1).1 a1 a2 a3 a4, a5]
  · rw [RN_seq_of_back (Inv_run p tr 2).1 b1 b2 b3, b4]
  · intro hg
    constructor
    · rw [RR_seq_of_back (Inv_run p tr 3).1 (OrdInv_run p tr 3) c1 c2, c3 hg]
    · intro n hn
      obtain ⟨d1, d2⟩ := hlate n hn
      rcases d2 with ⟨_, d3⟩ | ⟨d3, _⟩
      · rw [DI_seq_of_back (Inv_run p tr n).1 (OrdInv_run p tr n) d1, d3]
      · rw [hsz] at d3
        exact absurd hg d3
  · intro hg n hn
    have hg' : ¬ p.width ≤ p.rob_size := by omega
    by_cases h2' : n = 2
    · subst h2'
      exact ⟨by rw [RN_seq_of_back (Inv_run p tr 2).1 b1 b2 b3, b4], b3, b2⟩
    by_cases h3 : n = 3
    · subst h3
      obtain ⟨e1, e2⟩ := c4 hg'
      exact ⟨by rw [RN_seq_of_back (Inv_run p tr 3).1 c1 c2 e1, e2], e1, c2⟩
    obtain ⟨d1, d2⟩ := hlate n (by omega)
    rcases d2 with ⟨d3, _⟩ | ⟨_, d3, d4, d5⟩
    · rw [hsz] at d3
      exact absurd d3 hg'
    · exact ⟨by rw [RN_seq_of_back (Inv_run p tr n).1 d1 d3 d4, d5], d4, d3⟩
  · intro fuel
    exact main_loop_none p tr (fun n hn => (hadv n hn).2) fuel 0

/-- The statement of C20 with `ROB_SIZE = 2`, `IQ_SIZE = 1`, `WIDTH = 2` on a trace of
two records: the loop of the driver never exits. -/
theorem C20_oversized_batch_hangs_witness :
    ((⟨2, 1, 2⟩ : proc_params).iq_size < (⟨2, 1, 2⟩ : proc_params).width ∧
      (⟨2, 1, 2⟩ : proc_params).rob_size < 2 ^ 64 ∧
      (⟨2, 1, 2⟩ : proc_params).width ≤ [mk_instr 0 0 1 2 3, mk_instr 4 0 2 1 (-1)].length) ∧
    ∀ fuel, main_loop ⟨2, 1, 2⟩ fuel
      (State.init [mk_instr 0 0 1 2 3, mk_instr 4 0 2 1 (-1)]) = none :=
  ⟨⟨by decide, by decide, by decide⟩,
   (C20_oversized_batch_hangs ⟨2, 1, 2⟩ [mk_instr 0 0 1 2 3, mk_instr 4 0 2 1 (-1)]
      (by decide) (by decide) (by decide)).2.2.2.2.2⟩

end SimProc

namespace SimProc

/-! ## Where the renamed sources come from -/

/-- A step after which every renamed instruction in flight was in flight before, and
the history has lost nothing, preserves the invariant on the renamed sources. -/
theorem SrcInv.transport {s s' : State} (h : SrcInv s)
    (hid : ∀ c ∈ idents s', c ∈ idents s) (hH : ∀ q ∈ history s, q ∈ history s') :
    SrcInv s' := by
  refine ⟨fun c hc => h.keep c (hid c hc), ?_, ?_⟩
  · intro c hc h0
    obtain ⟨q, hq, h1, h2⟩ := h.writer1 c (hid c hc) h0
    exact ⟨q, hH q hq, h1, h2⟩
  · intro c hc h0
    obtain ⟨q, hq, h1, h2⟩ := h.writer2 c (hid c hc) h0
    exact ⟨q, hH q hq, h1, h2⟩

theorem SrcInv.transport_perm {s s' : State} (h : SrcInv s) (hid : (idents s').Perm (idents s))
    (hc : s'.completed_intstructions = s.completed_intstructions) : SrcInv s' :=
  h.transport (fun _ hc' => hid.mem_iff.mp hc')
    (fun q hq => (history_congr hid hc q).mpr hq)

theorem SrcInv_init (tr : List Instruction) : SrcInv (State.init tr) := by
  constructor
  · intro c hc
    exact absurd hc (List.not_mem_nil _)
  · intro c hc
    exact absurd hc (List.not_mem_nil _)
  · intro c hc
    exact absurd hc (List.not_mem_nil _)

theorem SrcInv_tick {s : State} (h : SrcInv s) : SrcInv (tick s) :=
  ⟨h.keep, h.writer1, h.writer2⟩

theorem SrcInv_Decode {s : State} (h : SrcInv s) : SrcInv (Decode s) := by
  unfold Decode
  split
  · exact ⟨h.keep, h.writer1, h.writer2⟩
  · exact h

theorem SrcInv_Fetch {s : State} (h : SrcInv s) (W : Nat) : SrcInv (Fetch W s) := by
  unfold Fetch
  split
  · exact Fetch_loop_induct SrcInv
      (fun _ _ _ _ hs => ⟨hs.keep, hs.writer1, hs.writer2⟩) W s h
  · exact h

theorem SrcInv_Retire_touch {s : State} (h : SrcInv s) : SrcInv (Retire_touch s) :=
  ⟨h.keep, h.writer1, h.writer2⟩

theorem SrcInv_Retire_body {p : proc_params} {tr : List Instruction} {s : State}
    (hs : SInv p tr s) (h : SrcInv s)
    (hr : (s.reorder_buffer.get (s.rob_head : Int) rob_params.zero).ready = true) :
    SrcInv (Retire_body p.rob_size s) := by
  obtain ⟨e, v, he, hv, _⟩ := hs.head_ready hr
  have hperm := idents_Retire_body hs (N := p.rob_size) hv
  exact h.transport (fun c hc => hperm.mem_iff.mpr (List.mem_cons_of_mem _ hc))
    (fun q hq => (history_Retire_body hs hv q).mpr hq)

theorem SrcInv_Retire {p : proc_params} {tr : List Instruction} {s : State}
    (hs : SInv p tr s) (h : SrcInv s) (W : Nat) : SrcInv (Retire W p.rob_size s) :=
  (Retire_loop_induct p.rob_size (fun s => SInv p tr s ∧ SrcInv s)
    (fun _ hs => ⟨SInv_Retire_touch hs.1, SrcInv_Retire_touch hs.2⟩)
    (fun _ hs hr => ⟨SInv_Retire_body hs.1 hr, SrcInv_Retire_body hs.1 hs.2 hr⟩)
    W s ⟨hs, h⟩).2

theorem SrcInv_Writeback {p : proc_params} {tr : List Instruction} {s : State}
    (hs : SInv p tr s) (h : SrcInv s) : SrcInv (Writeback s) :=
  (Writeback_loop_induct (fun s => SInv p tr s ∧ SrcInv s)
    (fun _ _ _ hwb hs => ⟨SInv_Writeback_step hs.1 hwb,
      hs.2.transport_perm (idents_Writeback_step hs.1 hwb) rfl⟩)
    s.WB s rfl ⟨hs, h⟩).2

theorem SrcInv_Execute {s : State} (h : SrcInv s) : SrcInv (Execute s) :=
  h.transport_perm (idents_Execute s) (Execute_frame s).2.2.2.1

theorem SrcInv_Issue {s : State} (h : SrcInv s) (W : Nat) : SrcInv (Issue W s) :=
  h.transport_perm (idents_Issue W s) rfl

theorem SrcInv_Dispatch {s : State} (h : SrcInv s) (Q : Nat) : SrcInv (Dispatch Q s) :=
  h.transport_perm (idents_Dispatch Q s) rfl

theorem SrcInv_RegRead {s : State} (h : SrcInv s) : SrcInv (RegRead s) :=
  h.transport_perm (idents_RegRead s) (RegRead_frame s).2.2.2.1

theorem rename_src_none (RMT : UMap Int) : rename_src RMT (-1) = -1 := by
  unfold rename_src
  rw [if_neg (by decide)]

theorem SrcInv_Rename_step {p : proc_params} {tr : List Instruction} {s : State}
    (hs : SInv p tr s) (hm : RMTInv s) (h : SrcInv s) {instr : Instruction}
    {rn : List Instruction} (hRN : s.RN = instr :: rn) :
    SrcInv (Rename_step p.rob_size instr rn s) := by
  obtain ⟨hseq, -⟩ := hs.front_RN hRN
  have hperm := idents_Rename_step p.rob_size instr rn s
  have hmemRN : instr ∈ s.RN ++ s.DE := by
    rw [hRN]
    exact List.mem_append_left _ (List.mem_cons_self _ _)
  obtain ⟨-, -, hu1, hu2⟩ := hs.data_front instr hmemRN
  have hHold : ∀ q, q ∈ history s → q ∈ history (Rename_step p.rob_size instr rn s) := by
    intro q hq
    unfold history at hq ⊢
    rcases List.mem_append.mp hq with h1 | h1
    · exact List.mem_append_left _ (hperm.mem_iff.mpr (List.mem_cons_of_mem _ h1))
    · exact List.mem_append_right _ h1
  have hnew : ∀ r, 0 ≤ rename_src s.RMT r →
      ∃ q ∈ history (Rename_step p.rob_size instr rn s),
        q.seq_no < instr.seq_no ∧ q.original_dest = r := by
    intro r h0
    rcases rename_src_cases s.RMT r with h1 | ⟨t, ht, _⟩
    · omega
    · obtain ⟨c, hc, hcd, _, _⟩ := hm.points r t ht
      refine ⟨c, hHold c ?_, ?_, hcd⟩
      · unfold history
        exact List.mem_append_left _ hc
      · rw [hseq]
        exact (hs.seq_window hc).2
  constructor
  · intro c hc
    rcases List.mem_cons.mp (hperm.mem_iff.mp hc) with h1 | h1
    · rw [h1]
      constructor
      · intro h0
        have e : instr.src1 = -1 := hu1.trans h0
        show rename_src s.RMT instr.src1 = -1
        rw [e, rename_src_none]
      · intro h0
        have e : instr.src2 = -1 := hu2.trans h0
        show rename_src s.RMT instr.src2 = -1
        rw [e, rename_src_none]
    · exact h.keep c h1
  · intro c hc h0
    rcases List.mem_cons.mp (hperm.mem_iff.mp hc) with h1 | h1
    · rw [h1] at h0 ⊢
      obtain ⟨q, hq, hlt, hd⟩ := hnew instr.src1 h0
      exact ⟨q, hq, hlt, hd.trans hu1⟩
    · obtain ⟨q, hq, h2, h3⟩ := h.writer1 c h1 h0
      exact ⟨q, hHold q hq, h2, h3⟩
  · intro c hc h0
    rcases List.mem_cons.mp (hperm.mem_iff.mp hc) with h1 | h1
    · rw [h1] at h0 ⊢
      obtain ⟨q, hq, hlt, hd⟩ := hnew instr.src2 h0
      exact ⟨q, hq, hlt, hd.trans hu2⟩
    · obtain ⟨q, hq, h2, h3⟩ := h.writer2 c h1 h0
      exact ⟨q, hHold q hq, h2, h3⟩

theorem SrcInv_Rename {p : proc_params} {tr : List Instruction} {s : State}
    (hs : SInv p tr s) (hm : RMTInv s) (h : SrcInv s) : SrcInv (Rename p.rob_size s) := by
  unfold Rename
  split
  · rename_i hg
    exact Rename_loop_inv ⟨hs, hm⟩ (hs.rename_room hg) SrcInv
      (fun _ _ _ hRN hs' hm' _ hq => SrcInv_Rename_step hs' hm' hq hRN) h
  · exact h

theorem SrcInv_stage {p : proc_params} {tr : List Instruction} {s : State}
    (hi : Inv p tr s) : ∀ k, SrcInv s → SrcInv (stage p k s)
  | 0, h => SrcInv_Retire hi.1 h _
  | 1, h => SrcInv_Writeback hi.1 h
  | 2, h => SrcInv_Execute h
  | 3, h => SrcInv_Issue h _
  | 4, h => SrcInv_Dispatch h _
  | 5, h => SrcInv_RegRead h
  | 6, h => SrcInv_Rename hi.1 hi.2.1 h
  | 7, h => SrcInv_Decode h
  | 8, h => SrcInv_Fetch h _
  | 9, h => SrcInv_tick h
  | _ + 10, h => h

theorem SrcInv_stages {p : proc_params} {tr : List Instruction} {s : State}
    (hi : Inv p tr s) (h : SrcInv s) : ∀ k, SrcInv (stages p k s) := by
  intro k
  induction k with
  | zero => exact h
  | succ k ih =>
    rw [stages_succ]
    exact SrcInv_stage (Inv_stages hi k) k ih

theorem SrcInv_run (p : proc_params) (tr : List Instruction) (n : Nat) :
    SrcInv (run p tr n) := by
  induction n with
  | zero => exact SrcInv_init tr
  | succ n ih =>
    show SrcInv (cycle p (run p tr n))
    rw [cycle_eq_stages]
    exact SrcInv_stages (Inv_run p tr n) ih 10

end SimProc

namespace SimProc

/-! ## Stepping through a cycle -/

/-- Every record of the trace is retired, in flight, in the front end, or unread. -/
theorem SInv.count {p : proc_params} {tr : List Instruction} {s : State} (h : SInv p tr s) :
    s.retired_instructions + (idents s).length + s.RN.length + s.DE.length + s.trace.length
      = tr.length := by
  have h1 := h.total
  have h2 := h.total_le
  rw [h.trace_rest, List.length_drop]
  omega

theorem Retire_fields (W N : Nat) (s : State) :
    (Retire W N s).trace = s.trace ∧ (Retire W N s).DE = s.DE ∧ (Retire W N s).RN = s.RN ∧
    (Retire W N s).RR = s.RR ∧ (Retire W N s).DI = s.DI ∧ (Retire W N s).IQ = s.IQ ∧
    (Retire W N s).execute_list = s.execute_list ∧ (Retire W N s).WB = s.WB ∧
    (Retire W N s).total_cycles = s.total_cycles :=
  Retire_loop_induct N
    (fun u => u.trace = s.trace ∧ u.DE = s.DE ∧ u.RN = s.RN ∧ u.RR = s.RR ∧ u.DI = s.DI ∧
      u.IQ = s.IQ ∧ u.execute_list = s.execute_list ∧ u.WB = s.WB ∧
      u.total_cycles = s.total_cycles)
    (fun _ h => h) (fun _ h _ => h) W s ⟨rfl, rfl, rfl, rfl, rfl, rfl, rfl, rfl, rfl⟩

theorem Writeback_fields (s : State) :
    (Writeback s).trace = s.trace ∧ (Writeback s).DE = s.DE ∧ (Writeback s).RN = s.RN ∧
    (Writeback s).RR = s.RR ∧ (Writeback s).DI = s.DI ∧ (Writeback s).IQ = s.IQ ∧
    (Writeback s).execute_list = s.execute_list ∧
    (Writeback s).completed_intstructions = s.completed_intstructions ∧
    (Writeback s).retired_instructions = s.retired_instructions ∧
    (Writeback s).total_cycles = s.total_cycles ∧ (Writeback s).rob_head = s.rob_head :=
  Writeback_loop_induct
    (fun u => u.trace = s.trace ∧ u.DE = s.DE ∧ u.RN = s.RN ∧ u.RR = s.RR ∧ u.DI = s.DI ∧
      u.IQ = s.IQ ∧ u.execute_list = s.execute_list ∧
      u.completed_intstructions = s.completed_intstructions ∧
      u.retired_instructions = s.retired_instructions ∧
      u.total_cycles = s.total_cycles ∧ u.rob_head = s.rob_head)
    (fun _ _ _ _ h => h) s.WB s rfl ⟨rfl, rfl, rfl, rfl, rfl, rfl, rfl, rfl, rfl, rfl, rfl⟩

theorem Writeback_WB (s : State) : (Writeback s).WB = [] := by
  unfold Writeback
  generalize s.WB = wb
  induction wb generalizing s with
  | nil => rfl
  | cons a wb ih =>
    unfold Writeback_loop
    exact ih _

theorem total_cycles_cycle (p : proc_params) (s : State) :
    (cycle p s).total_cycles = s.total_cycles + 1 := by
  unfold cycle
  show (Fetch p.width _).total_cycles + 1 = _
  rw [(Fetch_fields _ _).2.2.2.2.2.2.2.2.2.1, (Decode_fields _).2.2.2.2.2.2.2.2.1,
    (Rename_fields _ _).2.2.2.2.2.2.2.1, (RegRead_frame _).2.2.2.2.2.2.2.2.1]
  show (Execute _).total_cycles + 1 = _
  rw [(Execute_frame _).2.2.2.2.2.2.2.2.1, (Writeback_fields _).2.2.2.2.2.2.2.2.2.1,
    (Retire_fields _ _ _).2.2.2.2.2.2.2.2]

theorem total_cycles_run (p : proc_params) (tr : List Instruction) (n : Nat) :
    (run p tr n).total_cycles = n := by
  induction n with
  | zero => rfl
  | succ n ih =>
    show (cycle p (run p tr n)).total_cycles = n + 1
    rw [total_cycles_cycle, ih]

/-- The loop of the driver exits with the state after the first cycle at whose end
`Advance_Cycle` is false. -/
theorem main_loop_exact (p : proc_params) (tr : List Instruction) (N : Nat)
    (hadv : ∀ m, 1 ≤ m → m < N → Advance_Cycle (run p tr m) = true)
    (hstop : Advance_Cycle (run p tr N) = false) :
    ∀ d k, k + d + 1 = N → ∀ fuel, d + 1 ≤ fuel →
      main_loop p fuel (run p tr k) = some (run p tr N) := by
  intro d
  induction d with
  | zero =>
    intro k hk fuel hf
    obtain ⟨f, rfl⟩ : ∃ f, fuel = f + 1 := ⟨fuel - 1, by omega⟩
    unfold main_loop
    simp only
    have e : cycle p (run p tr k) = run p tr N := by
      rw [← hk]
      rfl
    rw [e, hstop]
    rfl
  | succ d ih =>
    intro k hk fuel hf
    obtain ⟨f, rfl⟩ : ∃ f, fuel = f + 1 := ⟨fuel - 1, by omega⟩
    unfold main_loop
    simp only
    have e : cycle p (run p tr k) = run p tr (k + 1) := rfl
    rw [e, hadv (k + 1) (by omega) (by omega)]
    exact ih (k + 1) (by omega) f (by omega)

/-! ### The front end without stalls -/

/-- With room in the issue queue and in the ROB for the whole trace, the five front-end
stages each move their whole input: `DI` enters `IQ`, `RR` enters `DI`, `RN` enters
`RR`, `DE` enters `RN` and up to `WIDTH` records are fetched. -/
theorem front_shift {p : proc_params} {tr : List Instruction} {u : State}
    (hs : SInv p tr u) (hQ : tr.length ≤ p.iq_size) (hQ2 : p.iq_size < 2 ^ 64)
    (hR : tr.length ≤ p.rob_size) (hR2 : p.rob_size < 2 ^ 64) :
    (Fetch p.width (Decode (Rename p.rob_size (RegRead (Dispatch p.iq_size u))))).IQ
      = u.IQ ++ u.DI.map (fun i => { i with issue_cycle := u.total_cycles + 1 }) ∧
    (Fetch p.width (Decode (Rename p.rob_size (RegRead (Dispatch p.iq_size u))))).DI
      = u.RR.map (regread_record u) ∧
    (Fetch p.width (Decode (Rename p.rob_size (RegRead (Dispatch p.iq_size u))))).RR.length
      = u.RN.length ∧
    (Fetch p.width (Decode (Rename p.rob_size (RegRead (Dispatch p.iq_size u))))).RN.length
      = u.DE.length ∧
    (Fetch p.width (Decode (Rename p.rob_size (RegRead (Dispatch p.iq_size u))))).DE.length
      = min p.width u.trace.length ∧
    (Fetch p.width (Decode (Rename p.rob_size (RegRead (Dispatch p.iq_size u))))).execute_list
      = u.execute_list ∧
    (Fetch p.width (Decode (Rename p.rob_size (RegRead (Dispatch p.iq_size u))))).WB
      = u.WB ∧
    (Fetch p.width (Decode (Rename p.rob_size (RegRead (Dispatch p.iq_size u))))).retire_map
      = u.retire_map ∧
    (Fetch p.width (Decode (Rename p.rob_size (RegRead
      (Dispatch p.iq_size u))))).completed_intstructions = u.completed_intstructions ∧
    (Fetch p.width (Decode (Rename p.rob_size (RegRead
      (Dispatch p.iq_size u))))).retired_instructions = u.retired_instructions ∧
    (Fetch p.width (Decode (Rename p.rob_size (RegRead
      (Dispatch p.iq_size u))))).total_cycles = u.total_cycles := by
  have hcount := hs.count
  have hlen := length_idents u
  unfold inflight at hlen
  -- Dispatch
  have hd : Dispatch_loop p.iq_size u.total_cycles u.DI u.IQ
      = ([], u.IQ ++ u.DI.map (fun i => { i with issue_cycle := u.total_cycles + 1 })) := by
    rw [Dispatch_loop_eq, if_pos]
    right
    rw [to_size_t_of_lt hQ2]
    omega
  have d1 : (Dispatch p.iq_size u).DI = [] := by
    show (Dispatch_loop p.iq_size u.total_cycles u.DI u.IQ).1 = []
    rw [hd]
  have d2 : (Dispatch p.iq_size u).IQ
      = u.IQ ++ u.DI.map (fun i => { i with issue_cycle := u.total_cycles + 1 }) := by
    show (Dispatch_loop p.iq_size u.total_cycles u.DI u.IQ).2 = _
    rw [hd]
  have hs1 : SInv p tr (Dispatch p.iq_size u) := SInv_Dispatch hs _
  -- RegRead
  have r0 := RegRead_eq (Dispatch p.iq_size u)
  rw [if_pos d1] at r0
  have r1 : (RegRead (Dispatch p.iq_size u)).DI = u.RR.map (regread_record u) := by
    rw [r0]
    rfl
  have r2 : (RegRead (Dispatch p.iq_size u)).RR = [] := by
    rw [r0]
  obtain ⟨f1, f2, f3, f4, f5, _, _, _, f9, f10, _, _, _, f14, f15, f16⟩ :=
    RegRead_frame (Dispatch p.iq_size u)
  have hs2 : SInv p tr (RegRead (Dispatch p.iq_size u)) := SInv_RegRead hs1
  -- Rename
  have hcount2 := hs2.count
  have hg : (RegRead (Dispatch p.iq_size u)).RR.isEmpty ∧
      to_size_t (free_entries p.rob_size (RegRead (Dispatch p.iq_size u)))
        ≥ (RegRead (Dispatch p.iq_size u)).RN.length := by
    refine ⟨by rw [r2]; rfl, ?_⟩
    rw [hs2.free_entries_eq]
    unfold to_size_t
    omega
  have n0 : Rename p.rob_size (RegRead (Dispatch p.iq_size u))
      = Rename_loop p.rob_size (RegRead (Dispatch p.iq_size u)).RN
          (RegRead (Dispatch p.iq_size u)) := by
    unfold Rename
    rw [if_pos hg]
  obtain ⟨g1, g2, g3, g4, g5, g6, g7, g8, _, g10, g11, g12⟩ :=
    Rename_loop_fields p.rob_size (RegRead (Dispatch p.iq_size u)).RN
      (RegRead (Dispatch p.iq_size u))
  have n1 := Rename_loop_RN p.rob_size (RegRead (Dispatch p.iq_size u)).RN
    (RegRead (Dispatch p.iq_size u))
  rw [← n0] at g1 g2 g3 g4 g5 g6 g7 g8 g10 g11 g12 n1
  rw [r2, f3] at g12
  -- Decode
  have c0 : Decode (Rename p.rob_size (RegRead (Dispatch p.iq_size u)))
      = { Rename p.rob_size (RegRead (Dispatch p.iq_size u)) with
          RN := Decode_loop (Rename p.rob_size (RegRead (Dispatch p.iq_size u))).total_cycles
            (Rename p.rob_size (RegRead (Dispatch p.iq_size u))).DE
            (Rename p.rob_size (RegRead (Dispatch p.iq_size u))).RN
          DE := [] } := by
    unfold Decode
    rw [if_pos (by rw [n1]; rfl)]
  have c1 : (Decode (Rename p.rob_size (RegRead (Dispatch p.iq_size u)))).RN.length
      = u.DE.length := by
    rw [c0]
    show (Decode_loop _ _ _).length = _
    rw [Decode_loop_eq, n1, g11, f2, List.nil_append, List.length_map]
    rfl
  have c2 : (Decode (Rename p.rob_size (RegRead (Dispatch p.iq_size u)))).DE = [] := by
    rw [c0]
  obtain ⟨k1, k2, k3, k4, k5, k6, k7, k8, k9, _, _, _, _, k14⟩ :=
    Decode_fields (Rename p.rob_size (RegRead (Dispatch p.iq_size u)))
  -- Fetch
  obtain ⟨e1, e2, e3, e4, e5, e6, e7, e8, e9, e10, _⟩ :=
    Fetch_fields p.width (Decode (Rename p.rob_size (RegRead (Dispatch p.iq_size u))))
  have t1 : (Fetch p.width (Decode (Rename p.rob_size (RegRead
      (Dispatch p.iq_size u))))).DE.length = min p.width u.trace.length := by
    unfold Fetch
    rw [if_pos (by rw [c2]; rfl), Fetch_loop_DE_length, c2, k14, g10, f1]
    show 0 + min p.width u.trace.length = _
    omega
  refine ⟨?_, ?_, ?_, ?_, t1, ?_, ?_, ?_, ?_, ?_, ?_⟩
  · rw [e4, k3, g2, f14, d2]
  · rw [e3, k2, g1, r1]
  · rw [e2, k1, g12]
    exact Nat.zero_add _
  · rw [e1, c1]
  · rw [e5, k4, g3, f15]
    rfl
  · rw [e6, k5, g4, f16]
    rfl
  · rw [e7, k6, g5, f5]
    rfl
  · rw [e8, k7, g6, f4]
    rfl
  · rw [e9, k8, g7, f10]
    rfl
  · rw [e10, k9, g8, f9]
    rfl

end SimProc

namespace SimProc

/-! ### Cycles in which part of the pipeline is empty -/

/-- With nothing waiting for retirement, written back or executing, the first three
stages only create the ROB entry of the loop test of `Retire`. -/
theorem rear_idle {p : proc_params} {tr : List Instruction} {s : State}
    (hs : SInv p tr s) (hW : 1 ≤ p.width) (h1 : s.retire_map.values = []) (h2 : s.WB = [])
    (h3 : s.execute_list = []) :
    Execute (Writeback (Retire p.width p.rob_size s)) = Retire_touch s := by
  rw [Retire_idle hW (hs.head_not_ready h1)]
  have e1 : Writeback (Retire_touch s) = Retire_touch s := Writeback_idle h2
  have e2 : Execute (Retire_touch s) = Retire_touch s := Execute_idle h3
  rw [e1, e2]

/-- A cycle that starts with nothing executing, written back or waiting for
retirement, with room in the issue queue and the ROB for the whole trace: `Issue`
selects, and every front-end stage moves its whole input. -/
theorem cycle_mid {p : proc_params} {tr : List Instruction} {s : State}
    (hs : SInv p tr s) (hW : 1 ≤ p.width)
    (hQ : tr.length ≤ p.iq_size) (hQ2 : p.iq_size < 2 ^ 64)
    (hR : tr.length ≤ p.rob_size) (hR2 : p.rob_size < 2 ^ 64)
    (h1 : s.retire_map.values = []) (h2 : s.WB = []) (h3 : s.execute_list = []) :
    (cycle p s).IQ = issue_kept p.width s.IQ
      ++ s.DI.map (fun i => { i with issue_cycle := s.total_cycles + 1 }) ∧
    (cycle p s).DI = s.RR.map (regread_record (Retire_touch s)) ∧
    (cycle p s).RR.length = s.RN.length ∧
    (cycle p s).RN.length = s.DE.length ∧
    (cycle p s).DE.length = min p.width s.trace.length ∧
    (cycle p s).execute_list
      = (issue_selected p.width s.IQ).map (fun i => { i with execute_duration := 0 }) ∧
    (cycle p s).WB = [] ∧
    (cycle p s).retire_map = s.retire_map ∧
    (cycle p s).completed_intstructions = s.completed_intstructions ∧
    (cycle p s).retired_instructions = s.retired_instructions := by
  have hu : SInv p tr (Issue p.width (Retire_touch s)) :=
    SInv_Issue (SInv_Retire_touch hs) _
  obtain ⟨a1, a2, a3, a4, a5, a6, a7, a8, a9, a10, _⟩ := front_shift hu hQ hQ2 hR hR2
  have e : cycle p s = tick (Fetch p.width (Decode (Rename p.rob_size (RegRead
      (Dispatch p.iq_size (Issue p.width (Retire_touch s))))))) := by
    unfold cycle
    rw [rear_idle hs hW h1 h2 h3]
  have i1 : (Issue p.width (Retire_touch s)).IQ = issue_kept p.width s.IQ := by
    rewrite [Issue_eq]
    rfl
  have i2 : (Issue p.width (Retire_touch s)).execute_list
      = (issue_selected p.width s.IQ).map (fun i => { i with execute_duration := 0 }) := by
    rw [Issue_eq]
    show s.execute_list ++ _ = _
    rewrite [h3]
    rfl
  rw [e]
  refine ⟨?_, a2, a3, a4, a5, ?_, ?_, a8, a9, a10⟩
  · refine a1.trans ?_
    rewrite [i1]
    rfl
  · exact a6.trans i2
  · exact a7.trans h2

theorem FrontEmpty_rear {s : State} (W N : Nat) (h : FrontEmpty s) :
    FrontEmpty (Issue W (Execute (Writeback (Retire W N s)))) := by
  obtain ⟨h1, h2, h3, h4, h5⟩ := h
  obtain ⟨r1, r2, r3, r4, r5, _⟩ := Retire_fields W N s
  obtain ⟨w1, w2, w3, w4, w5, _⟩ := Writeback_fields (Retire W N s)
  obtain ⟨x1, x2, x3, _⟩ := Execute_frame (Writeback (Retire W N s))
  obtain ⟨_, _, _, y4, y5⟩ := Execute_lists (Writeback (Retire W N s))
  refine ⟨?_, ?_, ?_, ?_, ?_⟩
  · show (Execute _).DI = []
    rewrite [y4, w5, r5, h1]
    rfl
  · show (Execute _).RR = []
    rewrite [y5, w4, r4, h2]
    rfl
  · show (Execute _).RN = []
    rw [x3, w3, r3, h3]
  · show (Execute _).DE = []
    rw [x2, w2, r2, h4]
  · show (Execute _).trace = []
    rw [x1, w1, r1, h5]

/-- A cycle that starts with the front end empty and the trace exhausted: only the
back-end stages act. -/
theorem cycle_rear (p : proc_params) {s : State} (h : FrontEmpty s) :
    cycle p s = tick (Issue p.width (Execute (Writeback (Retire p.width p.rob_size s)))) := by
  obtain ⟨h1, h2, h3, h4, h5⟩ := FrontEmpty_rear p.width p.rob_size h
  unfold cycle
  rw [Dispatch_idle (Or.inl h1), RegRead_idle (fun c => c.2 h2),
    Rename_idle (fun c => c.2 h3), Decode_idle (fun c => c.2 h4),
    Fetch_idle (fun c => c.2 h5)]

theorem FrontEmpty_cycle (p : proc_params) {s : State} (h : FrontEmpty s) :
    FrontEmpty (cycle p s) := by
  rw [cycle_rear p h]
  exact FrontEmpty_rear p.width p.rob_size h

/-- A cycle that starts with the front end and the issue queue empty: only `Retire`,
`Writeback` and `Execute` act. -/
theorem cycle_late (p : proc_params) {s : State} (h : FrontEmpty s) (hiq : s.IQ = []) :
    cycle p s = tick (Execute (Writeback (Retire p.width p.rob_size s))) := by
  rw [cycle_rear p h]
  have e : (Execute (Writeback (Retire p.width p.rob_size s))).IQ = [] := by
    rewrite [(Execute_lists _).2.2.1, (Writeback_fields _).2.2.2.2.2.1,
      (Retire_fields _ _ _).2.2.2.2.2.1, hiq]
    rfl
  have e2 : Issue p.width (Execute (Writeback (Retire p.width p.rob_size s)))
      = Execute (Writeback (Retire p.width p.rob_size s)) := by
    apply Issue_idle
    rewrite [e]
    rfl
  rw [e2]

/-! ### What `Writeback` and `Retire` do to the records -/

/-- Every entry of `retire_map` after `Writeback` was there before or is an entry of
`WB` with the two stamps of `Writeback`. -/
theorem Writeback_values (s : State) :
    ∀ v ∈ (Writeback s).retire_map.values, v ∈ s.retire_map.values ∨
      ∃ x ∈ s.WB, v = { x with writeback_cycle := s.total_cycles,
                               retire_cycle := s.total_cycles + 1 } := by
  have := Writeback_loop_induct
    (fun u => u.total_cycles = s.total_cycles ∧ (∀ x ∈ u.WB, x ∈ s.WB) ∧
      ∀ v ∈ u.retire_map.values, v ∈ s.retire_map.values ∨
        ∃ x ∈ s.WB, v = { x with writeback_cycle := s.total_cycles,
                                 retire_cycle := s.total_cycles + 1 })
    (fun u instr wb hwb hu => by
      obtain ⟨hT, hW, hV⟩ := hu
      refine ⟨hT, ?_, ?_⟩
      · intro x hx
        apply hW
        rw [hwb]
        exact List.mem_cons_of_mem _ hx
      · intro v hv
        rw [Writeback_step_retire_map] at hv
        rcases UMap.mem_values_insert hv with h1 | h1
        · right
          refine ⟨instr, hW instr (by rw [hwb]; exact List.mem_cons_self _ _), ?_⟩
          rw [h1, hT]
        · exact hV v h1)
    s.WB s rfl ⟨rfl, fun _ hx => hx, fun _ hv => Or.inl hv⟩
  exact this.2.2

/-- Every entry of `retire_map` after `Retire` was there before, and every record of
`completed_intstructions` was there before or is an entry of `retire_map` with the
stamp of `Retire`. -/
theorem Retire_values {p : proc_params} {tr : List Instruction} {s : State}
    (hs : SInv p tr s) (W : Nat) :
    (∀ v ∈ (Retire W p.rob_size s).retire_map.values, v ∈ s.retire_map.values) ∧
    ∀ x ∈ (Retire W p.rob_size s).completed_intstructions,
      x ∈ s.completed_intstructions ∨
      ∃ v ∈ s.retire_map.values, x = { v with RT_cycle := s.total_cycles + 1 } := by
  have := Retire_loop_induct p.rob_size
    (fun u => SInv p tr u ∧ u.total_cycles = s.total_cycles ∧
      (∀ v ∈ u.retire_map.values, v ∈ s.retire_map.values) ∧
      ∀ x ∈ u.completed_intstructions, x ∈ s.completed_intstructions ∨
        ∃ v ∈ s.retire_map.values, x = { v with RT_cycle := s.total_cycles + 1 })
    (fun u hu => ⟨SInv_Retire_touch hu.1, hu.2.1, hu.2.2.1, hu.2.2.2⟩)
    (fun u hu hr => by
      obtain ⟨hS, hT, hV, hC⟩ := hu
      obtain ⟨e, v, _, hv, _⟩ := hS.head_ready hr
      refine ⟨SInv_Retire_body hS hr, hT, ?_, ?_⟩
      · intro v' hv'
        rw [Retire_body_retire_map hv] at hv'
        exact hV v' (UMap.mem_values_erase hv')
      · intro x hx
        rw [Retire_body_completed hv] at hx
        rcases List.mem_append.mp hx with h1 | h1
        · exact hC x h1
        · right
          refine ⟨v, hV v (UMap.mem_values_of_find hv), ?_⟩
          rw [List.mem_singleton.mp h1, hT])
    W s ⟨hs, rfl, fun _ hv => hv, fun _ hx => Or.inl hx⟩
  exact ⟨this.2.2.1, this.2.2.2⟩

/-! ### Retiring a ROB whose instructions have all been written back -/

theorem ready_count_ge (rob : UMap rob_params) (N : Nat) :
    ∀ f slot m, m ≤ f → slot < N →
      (∀ j < m, ∃ e, rob.find (batch_tag N slot j) = some e ∧ e.ready = true) →
      m ≤ ready_count rob N f slot := by
  intro f
  induction f with
  | zero =>
    intro slot m hm _ _
    omega
  | succ f ih =>
    intro slot m hm hs h
    cases m with
    | zero => omega
    | succ m =>
      obtain ⟨e, he, hr⟩ := h 0 (by omega)
      rw [batch_tag_zero hs] at he
      have hN : 0 < N := by omega
      have h2 := ih ((slot + 1) % N) m (by omega) (Nat.mod_lt _ hN) (fun j hj => by
        rw [batch_tag_succ]
        exact h (j + 1) (by omega))
      unfold ready_count
      rw [he]
      simp only [hr, if_true]
      omega

/-- When every renamed instruction in flight has been written back, the run of ready
slots at the head of the ROB covers all of them. -/
theorem SInv.ready_run_ge {p : proc_params} {tr : List Instruction} {s : State}
    (hs : SInv p tr s)
    (hrm : ∀ c ∈ idents s, ∃ v ∈ s.retire_map.values, v.ident = c) :
    (idents s).length ≤ ready_run p.rob_size s := by
  rcases Nat.eq_zero_or_pos (idents s).length with h0 | h0
  · omega
  have hb := hs.rob_bound
  have hN : 0 < p.rob_size := by omega
  have hh : s.rob_head < p.rob_size := by
    rw [hs.head]
    exact Nat.mod_lt _ hN
  unfold ready_run
  apply ready_count_ge _ _ _ _ _ hb hh
  intro j hj
  have hmem : s.retired_instructions + j ∈ (idents s).map (fun c => c.seq_no) := by
    rw [hs.live_seq.mem_iff, List.mem_range'_1]
    omega
  obtain ⟨c, hc, hcs⟩ := List.mem_map.mp hmem
  obtain ⟨v, hv, hvc⟩ := hrm c hc
  obtain ⟨k, hk⟩ := UMap.find_of_mem_values hs.rm_keys hv
  obtain ⟨e, he, hr⟩ := hs.rm_ready k v hk
  have hd := hs.rm_dest k v hk
  have ht := hs.tag c hc
  refine ⟨e, ?_, hr⟩
  have hkey : batch_tag p.rob_size s.rob_head j = k := by
    rw [← hd]
    have e1 : v.dest = c.dest := by
      rw [← hvc]
      rfl
    rw [e1, ht, hcs]
    unfold batch_tag
    rw [hs.head, Nat.mod_add_mod]
  rw [hkey]
  exact he

/-! ### The loop test of the driver -/

theorem Advance_Cycle_true {s : State}
    (h : s.DE ≠ [] ∨ s.RN ≠ [] ∨ s.RR ≠ [] ∨ s.DI ≠ [] ∨ s.IQ ≠ [] ∨
      s.retire_map.values ≠ [] ∨ s.execute_list ≠ [] ∨ s.WB ≠ []) :
    Advance_Cycle s = true := by
  by_contra hc
  have hf : Advance_Cycle s = false := by simpa using hc
  obtain ⟨g1, g2, g3, g4, g5, g6, g7, g8⟩ := Advance_Cycle_false hf
  tauto

theorem Advance_Cycle_nil {s : State}
    (h1 : s.DE = []) (h2 : s.RN = []) (h3 : s.RR = []) (h4 : s.DI = []) (h5 : s.IQ = [])
    (h6 : s.retire_map.values = []) (h7 : s.execute_list = []) (h8 : s.WB = []) :
    Advance_Cycle s = false := by
  unfold Advance_Cycle
  rw [h1, h2, h3, h4, h5, h7, h8, (UMap.isEmpty_iff _).mpr h6]
  rfl

end SimProc

namespace SimProc

/-! ## Instructions without producers -/

/-- Every record of the trace is retired, in one of the buffers, or unread. -/
theorem SInv.census {p : proc_params} {tr : List Instruction} {s : State} (h : SInv p tr s) :
    s.retired_instructions + s.RR.length + s.DI.length + s.IQ.length
      + s.execute_list.length + s.WB.length + s.retire_map.values.length
      + s.RN.length + s.DE.length + s.trace.length = tr.length := by
  have h1 := h.count
  have h2 := length_idents s
  unfold inflight at h2
  rw [UMap.length_values]
  omega

theorem history_from_trace {p : proc_params} {tr : List Instruction} {s : State}
    (hs : SInv p tr s) {q : Ident} (hq : q ∈ history s) : FromTrace tr q := by
  unfold history at hq
  rcases List.mem_append.mp hq with h1 | h1
  · exact hs.data_live q h1
  · obtain ⟨i, hi, rfl⟩ := List.mem_map.mp h1
    exact hs.data_completed i hi

theorem getD_of_getElem? {tr : List Instruction} {i : Nat} {r : Instruction}
    (h : tr[i]? = some r) : tr.getD i Instruction.zero = r ∧ i < tr.length := by
  obtain ⟨hi, he⟩ := List.getElem?_eq_some.mp h
  refine ⟨?_, hi⟩
  rw [List.getD_eq_getElem?_getD, h]
  rfl

/-- When no source register of a record is the destination of an earlier record, no
source is renamed to a tag. -/
theorem SrcInv.negative {p : proc_params} {tr : List Instruction} {s : State}
    (hs : SInv p tr s) (hsrc : SrcInv s)
    (hind : ∀ i < tr.length, ∀ j < i,
      ((tr.getD i Instruction.zero).src1 = -1 ∨
        (tr.getD i Instruction.zero).src1 ≠ (tr.getD j Instruction.zero).dest) ∧
      ((tr.getD i Instruction.zero).src2 = -1 ∨
        (tr.getD i Instruction.zero).src2 ≠ (tr.getD j Instruction.zero).dest))
    {c : Ident} (hc : c ∈ idents s) : c.src1 < 0 ∧ c.src2 < 0 := by
  obtain ⟨r, hr, _, _, _, g4, g5⟩ := hs.data_live c hc
  obtain ⟨er, hi⟩ := getD_of_getElem? hr
  obtain ⟨k1, k2⟩ := hsrc.keep c hc
  constructor
  · by_contra hneg
    obtain ⟨q, hq, hlt, hd⟩ := hsrc.writer1 c hc (by omega)
    obtain ⟨r', hr', _, _, g3, _, _⟩ := history_from_trace hs hq
    obtain ⟨er', _⟩ := getD_of_getElem? hr'
    have := (hind c.seq_no hi q.seq_no hlt).1
    rw [er, er'] at this
    rcases this with h1 | h1
    · have := k1 (g4.trans h1)
      omega
    · exact h1 ((g4.symm.trans hd.symm).trans g3)
  · by_contra hneg
    obtain ⟨q, hq, hlt, hd⟩ := hsrc.writer2 c hc (by omega)
    obtain ⟨r', hr', _, _, g3, _, _⟩ := history_from_trace hs hq
    obtain ⟨er', _⟩ := getD_of_getElem? hr'
    have := (hind c.seq_no hi q.seq_no hlt).2
    rw [er, er'] at this
    rcases this with h1 | h1
    · have := k2 (g5.trans h1)
      omega
    · exact h1 ((g5.symm.trans hd.symm).trans g3)

/-- An instruction of `DI` or `IQ` neither of whose sources is a tag is ready. -/
theorem LInv.ready_of_negative {p : proc_params} {tr : List Instruction} {s : State}
    {k : Nat} (hs : SInv p tr s) (hl : LInv k s) {x : Instruction}
    (hx : x ∈ s.DI ++ s.IQ) (h1 : x.src1 < 0) (h2 : x.src2 < 0) : is_ready x = true := by
  rw [is_ready_iff]
  constructor
  · by_contra hr
    have hf : x.dview.ready true = false := (Bool.not_eq_true _).mp hr
    obtain ⟨q, hq, hqd, _⟩ := hl.iq x.dview (List.mem_map_of_mem _ hx) true hf
    have h0 := hs.tag_nonneg (pendIds_subset_idents hq)
    have e : x.dview.rsrc true = x.src1 := rfl
    rw [hqd, e] at h0
    omega
  · by_contra hr
    have hf : x.dview.ready false = false := (Bool.not_eq_true _).mp hr
    obtain ⟨q, hq, hqd, _⟩ := hl.iq x.dview (List.mem_map_of_mem _ hx) false hf
    have h0 := hs.tag_nonneg (pendIds_subset_idents hq)
    have e : x.dview.rsrc false = x.src2 := rfl
    rw [hqd, e] at h0
    omega

/-! ## The width test, cycle by cycle -/

theorem width_DE {p : proc_params} {tr : List Instruction} (h : WidthTest p tr) :
    (run p tr 1).DE.length = tr.length := by
  have hs : SInv p tr (run p tr 0) := (Inv_run p tr 0).1
  have hW : 1 ≤ p.width := by
    rw [h.width]
    exact h.nonempty
  obtain ⟨_, _, _, _, a5, _⟩ := cycle_mid hs hW h.iq h.iq_int h.rob h.rob_int rfl rfl rfl
  refine a5.trans ?_
  show min p.width tr.length = tr.length
  rw [h.width]
  exact Nat.min_self _

theorem width_RN {p : proc_params} {tr : List Instruction} (h : WidthTest p tr) :
    (run p tr 2).RN.length = tr.length := by
  have h1 := width_DE h
  have hs : SInv p tr (run p tr 1) := (Inv_run p tr 1).1
  have hW : 1 ≤ p.width := by
    rw [h.width]
    exact h.nonempty
  have hc := hs.census
  obtain ⟨_, _, _, a4, _⟩ := cycle_mid hs hW h.iq h.iq_int h.rob h.rob_int
    (List.eq_nil_of_length_eq_zero (by omega)) (List.eq_nil_of_length_eq_zero (by omega))
    (List.eq_nil_of_length_eq_zero (by omega))
  exact a4.trans h1

theorem width_RR {p : proc_params} {tr : List Instruction} (h : WidthTest p tr) :
    (run p tr 3).RR.length = tr.length := by
  have h1 := width_RN h
  have hs : SInv p tr (run p tr 2) := (Inv_run p tr 2).1
  have hW : 1 ≤ p.width := by
    rw [h.width]
    exact h.nonempty
  have hc := hs.census
  obtain ⟨_, _, a3, _⟩ := cycle_mid hs hW h.iq h.iq_int h.rob h.rob_int
    (List.eq_nil_of_length_eq_zero (by omega)) (List.eq_nil_of_length_eq_zero (by omega))
    (List.eq_nil_of_length_eq_zero (by omega))
  exact a3.trans h1

theorem width_DI {p : proc_params} {tr : List Instruction} (h : WidthTest p tr) :
    (run p tr 4).DI.length = tr.length := by
  have h1 := width_RR h
  have hs : SInv p tr (run p tr 3) := (Inv_run p tr 3).1
  have hW : 1 ≤ p.width := by
    rw [h.width]
    exact h.nonempty
  have hc := hs.census
  obtain ⟨_, a2, _⟩ := cycle_mid hs hW h.iq h.iq_int h.rob h.rob_int
    (List.eq_nil_of_length_eq_zero (by omega)) (List.eq_nil_of_length_eq_zero (by omega))
    (List.eq_nil_of_length_eq_zero (by omega))
  have e : (run p tr 4).DI = (run p tr 3).RR.map (regread_record (Retire_touch (run p tr 3))) :=
    a2
  rw [e, List.length_map, h1]

/-- After the fifth cycle the whole trace is in the issue queue, stamped with the
issue cycle `5`. -/
theorem width_IQ {p : proc_params} {tr : List Instruction} (h : WidthTest p tr) :
    (run p tr 5).IQ.length = tr.length ∧ ∀ x ∈ (run p tr 5).IQ, x.issue_cycle = 5 := by
  have h1 := width_DI h
  have hs : SInv p tr (run p tr 4) := (Inv_run p tr 4).1
  have hW : 1 ≤ p.width := by
    rw [h.width]
    exact h.nonempty
  have hc := hs.census
  have hiq : (run p tr 4).IQ = [] := List.eq_nil_of_length_eq_zero (by omega)
  obtain ⟨a1, _⟩ := cycle_mid hs hW h.iq h.iq_int h.rob h.rob_int
    (List.eq_nil_of_length_eq_zero (by omega)) (List.eq_nil_of_length_eq_zero (by omega))
    (List.eq_nil_of_length_eq_zero (by omega))
  have e : (run p tr 5).IQ
      = (run p tr 4).DI.map (fun i => { i with issue_cycle := 4 + 1 }) := by
    refine a1.trans ?_
    rewrite [hiq, total_cycles_run]
    rfl
  constructor
  · rw [e, List.length_map, h1]
  · intro x hx
    rw [e] at hx
    obtain ⟨y, _, rfl⟩ := List.mem_map.mp hx
    rfl

/-- After the sixth cycle the whole trace is in `execute_list`: every instruction was
issued in that cycle. -/
theorem width_EX {p : proc_params} {tr : List Instruction} (h : WidthTest p tr) :
    (run p tr 6).execute_list.length = tr.length ∧
    ∀ x ∈ (run p tr 6).execute_list, x.issue_cycle = 5 ∧ x.execute_duration = 0 := by
  obtain ⟨h1, h2⟩ := width_IQ h
  have hs : SInv p tr (run p tr 5) := (Inv_run p tr 5).1
  have hW : 1 ≤ p.width := by
    rw [h.width]
    exact h.nonempty
  have hc := hs.census
  have hready : ∀ x ∈ (run p tr 5).IQ, is_ready x = true := by
    intro x hx
    have hmem : x.ident ∈ idents (run p tr 5) := by
      apply mem_idents_of_mem_live
      unfold live
      simp only [List.mem_append]
      exact Or.inl (Or.inl (Or.inl (Or.inr hx)))
    obtain ⟨g1, g2⟩ := SrcInv.negative hs (SrcInv_run p tr 5) h.independent hmem
    exact LInv.ready_of_negative hs (LInv_run p tr 5) (List.mem_append_right _ hx) g1 g2
  have hsel : issue_selected p.width (run p tr 5).IQ = (run p tr 5).IQ := by
    rw [issue_selected_eq, List.filter_eq_self.mpr hready, List.take_of_length_le]
    rw [h1, h.width]
  obtain ⟨_, _, _, _, _, a6, _⟩ := cycle_mid hs hW h.iq h.iq_int h.rob h.rob_int
    (List.eq_nil_of_length_eq_zero (by omega)) (List.eq_nil_of_length_eq_zero (by omega))
    (List.eq_nil_of_length_eq_zero (by omega))
  have e : (run p tr 6).execute_list
      = (run p tr 5).IQ.map (fun i => { i with execute_duration := 0 }) := by
    refine a6.trans ?_
    rw [hsel]
  constructor
  · rw [e, List.length_map, h1]
  · intro x hx
    rw [e] at hx
    obtain ⟨y, hy, rfl⟩ := List.mem_map.mp hx
    exact ⟨h2 y hy, rfl⟩

/-- After the seventh cycle the whole trace is in `WB`: every instruction executed in
that cycle. -/
theorem width_WB {p : proc_params} {tr : List Instruction} (h : WidthTest p tr) :
    (run p tr 7).WB.length = tr.length ∧
    ∀ x ∈ (run p tr 7).WB, x.issue_cycle = 5 ∧ x.execute_cycle = 6 := by
  obtain ⟨h1, h2⟩ := width_EX h
  have hs : SInv p tr (run p tr 6) := (Inv_run p tr 6).1
  have hW : 1 ≤ p.width := by
    rw [h.width]
    exact h.nonempty
  have hc := hs.census
  have hF : FrontEmpty (run p tr 6) :=
    ⟨List.eq_nil_of_length_eq_zero (by omega), List.eq_nil_of_length_eq_zero (by omega),
     List.eq_nil_of_length_eq_zero (by omega), List.eq_nil_of_length_eq_zero (by omega),
     List.eq_nil_of_length_eq_zero (by omega)⟩
  have hiq : (run p tr 6).IQ = [] := List.eq_nil_of_length_eq_zero (by omega)
  have hrm : (run p tr 6).retire_map.values = [] := List.eq_nil_of_length_eq_zero (by omega)
  have hwb : (run p tr 6).WB = [] := List.eq_nil_of_length_eq_zero (by omega)
  have e : run p tr 7 = tick (Execute (Writeback (Retire p.width p.rob_size (run p tr 6)))) :=
    cycle_late p hF hiq
  have e1 : Writeback (Retire_touch (run p tr 6)) = Retire_touch (run p tr 6) :=
    Writeback_idle hwb
  have hop : ∀ x ∈ (run p tr 6).execute_list, x.op_type = 0 := by
    intro x hx
    have hmem : x.ident ∈ idents (run p tr 6) := by
      apply mem_idents_of_mem_live
      unfold live
      simp only [List.mem_append]
      exact Or.inl (Or.inl (Or.inr hx))
    obtain ⟨r, hr, _, g2, _⟩ := hs.data_live _ hmem
    have : x.op_type = r.op_type := g2
    rw [this]
    exact h.op r (List.getElem?_mem hr)
  have e2 : (run p tr 7).WB = (run p tr 6).execute_list.map (execute_tick 6) := by
    rw [e]
    show (Execute (Writeback (Retire p.width p.rob_size (run p tr 6)))).WB = _
    rw [Retire_idle hW (hs.head_not_ready hrm), e1, (Execute_lists _).2.1]
    show (run p tr 6).WB ++ _ = _
    rewrite [hwb, List.nil_append]
    show List.filter execute_completed
      ((run p tr 6).execute_list.map (execute_tick (run p tr 6).total_cycles)) = _
    rw [total_cycles_run, List.filter_eq_self]
    intro y hy
    obtain ⟨x, hx, rfl⟩ := List.mem_map.mp hy
    rw [execute_completed_iff]
    left
    exact hop x hx
  constructor
  · rw [e2, List.length_map, h1]
  · intro y hy
    rw [e2] at hy
    obtain ⟨x, hx, rfl⟩ := List.mem_map.mp hy
    obtain ⟨g1, g2⟩ := h2 x hx
    refine ⟨g1, ?_⟩
    show (if x.execute_duration = 0 then 6 else x.execute_cycle) = 6
    rw [if_pos g2]

/-- After the eighth cycle the whole trace is in `retire_map`. -/
theorem width_RM {p : proc_params} {tr : List Instruction} (h : WidthTest p tr) :
    (run p tr 8).retire_map.values.length = tr.length ∧
    ∀ x ∈ (run p tr 8).retire_map.values, x.issue_cycle = 5 ∧ x.execute_cycle = 6 := by
  obtain ⟨h1, h2⟩ := width_WB h
  have hs : SInv p tr (run p tr 7) := (Inv_run p tr 7).1
  have hW : 1 ≤ p.width := by
    rw [h.width]
    exact h.nonempty
  have hc := hs.census
  have hF : FrontEmpty (run p tr 7) :=
    ⟨List.eq_nil_of_length_eq_zero (by omega), List.eq_nil_of_length_eq_zero (by omega),
     List.eq_nil_of_length_eq_zero (by omega), List.eq_nil_of_length_eq_zero (by omega),
     List.eq_nil_of_length_eq_zero (by omega)⟩
  have hiq : (run p tr 7).IQ = [] := List.eq_nil_of_length_eq_zero (by omega)
  have hrm : (run p tr 7).retire_map.values = [] := List.eq_nil_of_length_eq_zero (by omega)
  have hex : (run p tr 7).execute_list = [] := List.eq_nil_of_length_eq_zero (by omega)
  have hret : (run p tr 7).retired_instructions = 0 := by omega
  obtain ⟨_, _, _, _, _, w6, w7, _, w9, _⟩ := Writeback_fields (Retire_touch (run p tr 7))
  have e0 : Execute (Writeback (Retire_touch (run p tr 7)))
      = Writeback (Retire_touch (run p tr 7)) := Execute_idle (w7.trans hex)
  have e : run p tr 8 = tick (Writeback (Retire_touch (run p tr 7))) := by
    have := cycle_late p hF hiq
    rw [Retire_idle hW (hs.head_not_ready hrm), e0] at this
    exact this
  have hval : ∀ x ∈ (run p tr 8).retire_map.values,
      x.issue_cycle = 5 ∧ x.execute_cycle = 6 := by
    intro v hv
    rw [e] at hv
    rcases Writeback_values (Retire_touch (run p tr 7)) v hv with g | ⟨x, hx, rfl⟩
    · have g' : v ∈ (run p tr 7).retire_map.values := g
      rw [hrm] at g'
      exact absurd g' (List.not_mem_nil _)
    · exact h2 x hx
  refine ⟨?_, hval⟩
  have hs8 : SInv p tr (run p tr 8) := (Inv_run p tr 8).1
  have hc8 := hs8.census
  obtain ⟨f1, f2, f3, f4, f5⟩ := FrontEmpty_cycle p hF
  have k1 : (run p tr 8).IQ = [] := by
    rw [e]
    exact w6.trans hiq
  have k2 : (run p tr 8).execute_list = [] := by
    rw [e]
    exact w7.trans hex
  have k3 : (run p tr 8).WB = [] := by
    rw [e]
    exact Writeback_WB _
  have k4 : (run p tr 8).retired_instructions = 0 := by
    rw [e]
    exact w9.trans hret
  have f1' : (run p tr 8).DI = [] := f1
  have f2' : (run p tr 8).RR = [] := f2
  have f3' : (run p tr 8).RN = [] := f3
  have f4' : (run p tr 8).DE = [] := f4
  have f5' : (run p tr 8).trace = [] := f5
  rw [k1, k2, k3, k4, f1', f2', f3', f4', f5'] at hc8
  simpa using hc8

/-- After the ninth cycle the whole trace is retired: every instruction was retired in
that cycle. -/
theorem width_RT {p : proc_params} {tr : List Instruction} (h : WidthTest p tr) :
    (run p tr 9).retired_instructions = tr.length ∧
    ∀ x ∈ (run p tr 9).completed_intstructions,
      x.issue_cycle = 5 ∧ x.execute_cycle = 6 ∧ x.RT_cycle = 9 := by
  obtain ⟨h1, h2⟩ := width_RM h
  have hs : SInv p tr (run p tr 8) := (Inv_run p tr 8).1
  have hc := hs.census
  have hF : FrontEmpty (run p tr 8) :=
    ⟨List.eq_nil_of_length_eq_zero (by omega), List.eq_nil_of_length_eq_zero (by omega),
     List.eq_nil_of_length_eq_zero (by omega), List.eq_nil_of_length_eq_zero (by omega),
     List.eq_nil_of_length_eq_zero (by omega)⟩
  have hiq : (run p tr 8).IQ = [] := List.eq_nil_of_length_eq_zero (by omega)
  have hwb : (run p tr 8).WB = [] := List.eq_nil_of_length_eq_zero (by omega)
  have hex : (run p tr 8).execute_list = [] := List.eq_nil_of_length_eq_zero (by omega)
  have hret : (run p tr 8).retired_instructions = 0 := by omega
  have hcomp : (run p tr 8).completed_intstructions = [] := by
    have := hs.completed_seq
    rw [hret] at this
    exact List.map_eq_nil_iff.mp this
  obtain ⟨_, _, _, _, _, _, r7, r8, _⟩ := Retire_fields p.width p.rob_size (run p tr 8)
  have e1 : Writeback (Retire p.width p.rob_size (run p tr 8))
      = Retire p.width p.rob_size (run p tr 8) := Writeback_idle (r8.trans hwb)
  have e2 : Execute (Retire p.width p.rob_size (run p tr 8))
      = Retire p.width p.rob_size (run p tr 8) := Execute_idle (r7.trans hex)
  have e : run p tr 9 = tick (Retire p.width p.rob_size (run p tr 8)) := by
    have := cycle_late p hF hiq
    rw [e1, e2] at this
    exact this
  -- every instruction in flight is in `retire_map`
  have hid : idents (run p tr 8)
      = (run p tr 8).retire_map.values.map Instruction.ident := by
    rw [idents_eq, hF.1, hF.2.1, hiq, hex, hwb]
    rfl
  have hlen : (idents (run p tr 8)).length = tr.length := by
    rw [hid, List.length_map, h1]
  have hrun := hs.ready_run_ge (fun c hc' => by
    rw [hid] at hc'
    exact List.mem_map.mp hc')
  have hN : 0 < p.rob_size := by
    have := h.nonempty
    have := h.rob
    omega
  have hh : (run p tr 8).rob_head < p.rob_size := by
    rw [hs.head]
    exact Nat.mod_lt _ hN
  have hspec := Retire_spec p.width (run p tr 8) hh
  constructor
  · rw [e]
    show (Retire p.width p.rob_size (run p tr 8)).retired_instructions = _
    rw [hspec.retired, hret, h.width]
    have : min tr.length (ready_run p.rob_size (run p tr 8)) = tr.length :=
      Nat.min_eq_left (by omega)
    omega
  · intro x hx
    rw [e] at hx
    rcases (Retire_values hs p.width).2 x hx with g | ⟨v, hv, rfl⟩
    · rw [hcomp] at g
      exact absurd g (List.not_mem_nil _)
    · obtain ⟨g1, g2⟩ := h2 v hv
      refine ⟨g1, g2, ?_⟩
      show (run p tr 8).total_cycles + 1 = 9
      rw [total_cycles_run]

end SimProc

namespace SimProc

/-! ## The width test -/

/-- C11 (width test).  For every `n ≥ 1`, with `WIDTH = n`, `ROB_SIZE ≥ n`,
`IQ_SIZE ≥ n` (`ROB_SIZE` and `IQ_SIZE` are C++ `int`s, so they are below `2^31`; the
proof needs them below `2^64`) and a trace of exactly `n` records, all of `op_type` 0,
in which no source register (a source other than `-1`) equals the destination of an
earlier record: the driver loop exits after exactly nine cycles with all `n`
instructions retired; all of them are issued by the call of `Issue` of the sixth
cycle (`execute_list` is empty before it and holds all `n` after it) and retired by
the call of `Retire` of the ninth cycle (no instruction is retired before it); and
every record of `completed_intstructions` has `issue_cycle = 5`, `execute_cycle = 6`
and `RT_cycle = 9`, so that any two of them have equal `issue_cycle`, equal
`execute_cycle` and equal `RT_cycle`. -/
theorem C11_width_test (p : proc_params) (tr : List Instruction)
    (hn : 1 ≤ tr.length) (hW : p.width = tr.length)
    (hR : tr.length ≤ p.rob_size) (hQ : tr.length ≤ p.iq_size)
    (hR2 : p.rob_size < 2 ^ 64) (hQ2 : p.iq_size < 2 ^ 64)
    (hop : ∀ r ∈ tr, r.op_type = 0)
    (hind : ∀ i < tr.length, ∀ j < i,
      ((tr.getD i Instruction.zero).src1 = -1 ∨
        (tr.getD i Instruction.zero).src1 ≠ (tr.getD j Instruction.zero).dest) ∧
      ((tr.getD i Instruction.zero).src2 = -1 ∨
        (tr.getD i Instruction.zero).src2 ≠ (tr.getD j Instruction.zero).dest)) :
    (∀ fuel, 9 ≤ fuel → main_loop p fuel (State.init tr) = some (run p tr 9)) ∧
    (run p tr 9).completed_intstructions.length = tr.length ∧
    ((run p tr 5).execute_list = [] ∧ (run p tr 6).execute_list.length = tr.length) ∧
    ((run p tr 8).retired_instructions = 0 ∧
      (run p tr 9).retired_instructions = tr.length) ∧
    (∀ x ∈ (run p tr 9).completed_intstructions,
      x.issue_cycle = 5 ∧ x.execute_cycle = 6 ∧ x.RT_cycle = 9) ∧
    (∀ x ∈ (run p tr 9).completed_intstructions,
      ∀ y ∈ (run p tr 9).completed_intstructions,
        x.issue_cycle = y.issue_cycle ∧ x.execute_cycle = y.execute_cycle ∧
        x.RT_cycle = y.RT_cycle) := by
  have h : WidthTest p tr := ⟨hn, hW, hR, hQ, hR2, hQ2, hop, hind⟩
  have h1 := width_DE h
  have h2 := width_RN h
  have h3 := width_RR h
  have h4 := width_DI h
  obtain ⟨h5, _⟩ := width_IQ h
  obtain ⟨h6, _⟩ := width_EX h
  obtain ⟨h7, _⟩ := width_WB h
  obtain ⟨h8, _⟩ := width_RM h
  obtain ⟨h9, hstamps⟩ := width_RT h
  have hs9 : SInv p tr (run p tr 9) := (Inv_run p tr 9).1
  have hc9 := hs9.census
  have hc8 := (Inv_run p tr 8).1.census
  have hc5 := (Inv_run p tr 5).1.census
  have hstop : Advance_Cycle (run p tr 9) = false :=
    Advance_Cycle_nil (List.eq_nil_of_length_eq_zero (by omega))
      (List.eq_nil_of_length_eq_zero (by omega)) (List.eq_nil_of_length_eq_zero (by omega))
      (List.eq_nil_of_length_eq_zero (by omega)) (List.eq_nil_of_length_eq_zero (by omega))
      (List.eq_nil_of_length_eq_zero (by omega)) (List.eq_nil_of_length_eq_zero (by omega))
      (List.eq_nil_of_length_eq_zero (by omega))
  have hadv : ∀ m, 1 ≤ m → m < 9 → Advance_Cycle (run p tr m) = true := by
    intro m hm1 hm2
    apply Advance_Cycle_true
    interval_cases m
    · exact Or.inl (ne_nil_of_length h1 hn)
    · exact Or.inr (Or.inl (ne_nil_of_length h2 hn))
    · exact Or.inr (Or.inr (Or.inl (ne_nil_of_length h3 hn)))
    · exact Or.inr (Or.inr (Or.inr (Or.inl (ne_nil_of_length h4 hn))))
    · exact Or.inr (Or.inr (Or.inr (Or.inr (Or.inl (ne_nil_of_length h5 hn)))))
    · exact Or.inr (Or.inr (Or.inr (Or.inr (Or.inr (Or.inr
        (Or.inl (ne_nil_of_length h6 hn)))))))
    · exact Or.inr (Or.inr (Or.inr (Or.inr (Or.inr (Or.inr
        (Or.inr (ne_nil_of_length h7 hn)))))))
    · exact Or.inr (Or.inr (Or.inr (Or.inr (Or.inr (Or.inl (ne_nil_of_length h8 hn))))))
  refine ⟨?_, ?_, ⟨List.eq_nil_of_length_eq_zero (by omega), h6⟩, ⟨by omega, h9⟩, hstamps, ?_⟩
  · intro fuel hf
    exact main_loop_exact p tr 9 hadv hstop 8 0 rfl fuel hf
  · have := congrArg List.length hs9.completed_seq
    rw [List.length_map, List.length_range] at this
    rw [this, h9]
  · intro x hx y hy
    obtain ⟨a1, a2, a3⟩ := hstamps x hx
    obtain ⟨b1, b2, b3⟩ := hstamps y hy
    exact ⟨a1.trans b1.symm, a2.trans b2.symm, a3.trans b3.symm⟩

set_option maxRecDepth 100000 in
/-- The statement of C11 on the trace of the specification: three records of `op_type`
0 with distinct destinations and no sources, with `WIDTH = IQ_SIZE = ROB_SIZE = 3`. -/
theorem C11_width_test_witness :
    (1 ≤ [mk_instr 0 0 1 (-1) (-1), mk_instr 4 0 2 (-1) (-1),
        mk_instr 8 0 3 (-1) (-1)].length ∧
      (⟨3, 3, 3⟩ : proc_params).width
        = [mk_instr 0 0 1 (-1) (-1), mk_instr 4 0 2 (-1) (-1),
            mk_instr 8 0 3 (-1) (-1)].length ∧
      (∀ r ∈ [mk_instr 0 0 1 (-1) (-1), mk_instr 4 0 2 (-1) (-1),
        mk_instr 8 0 3 (-1) (-1)], r.op_type = 0)) ∧
    ∀ x ∈ (run ⟨3, 3, 3⟩ [mk_instr 0 0 1 (-1) (-1), mk_instr 4 0 2 (-1) (-1),
        mk_instr 8 0 3 (-1) (-1)] 9).completed_intstructions,
      x.issue_cycle = 5 ∧ x.execute_cycle = 6 ∧ x.RT_cycle = 9 :=
  ⟨⟨by decide, by decide, by decide⟩,
   (C11_width_test ⟨3, 3, 3⟩ [mk_instr 0 0 1 (-1) (-1), mk_instr 4 0 2 (-1) (-1),
      mk_instr 8 0 3 (-1) (-1)] (by decide) (by decide) (by decide) (by decide)
      (by decide) (by decide) (by decide) (by decide)).2.2.2.2.1⟩

end SimProc

namespace SimProc

/-! ## A producer and its consumer -/

/-- An instruction of `DI` or `IQ` that is older than every instruction that has not
completed execution is ready. -/
theorem LInv.ready_of_oldest {s : State} {k : Nat} (hl : LInv k s) {x : Instruction}
    (hx : x ∈ s.DI ++ s.IQ) (hold : ∀ q ∈ pendIds s, x.seq_no ≤ q.seq_no) :
    is_ready x = true := by
  rw [is_ready_iff]
  constructor
  · by_contra hr
    have hf : x.dview.ready true = false := (Bool.not_eq_true _).mp hr
    obtain ⟨q, hq, _, hlt⟩ := hl.iq x.dview (List.mem_map_of_mem _ hx) true hf
    have := hold q hq
    have e : x.dview.id.seq_no = x.seq_no := rfl
    omega
  · by_contra hr
    have hf : x.dview.ready false = false := (Bool.not_eq_true _).mp hr
    obtain ⟨q, hq, _, hlt⟩ := hl.iq x.dview (List.mem_map_of_mem _ hx) false hf
    have := hold q hq
    have e : x.dview.id.seq_no = x.seq_no := rfl
    omega

theorem mem_idents_of_waiting {s : State} {x : Instruction} (hx : x ∈ s.DI ++ s.IQ) :
    x.ident ∈ idents s := by
  apply mem_idents_of_mem_live
  unfold live
  simp only [List.mem_append] at hx ⊢
  tauto

/-- The records of a trace of two behind the sequence numbers `0` and `1`. -/
theorem pair_from_trace {p : proc_params} {P C : Instruction} {s : State}
    (hs : SInv p [P, C] s) {q : Ident} (hq : q ∈ history s) :
    (q.seq_no = 0 → q.op_type = P.op_type ∧ q.original_dest = P.dest) ∧
    (q.seq_no = 1 → q.original_src1 = C.src1 ∧ q.original_src2 = C.src2) ∧
    q.seq_no < 2 := by
  obtain ⟨r, hr, _, g2, g3, g4, g5⟩ := history_from_trace hs hq
  refine ⟨?_, ?_, ?_⟩
  · intro h0
    rw [h0] at hr
    have e : r = P := by
      have : ([P, C] : List Instruction)[0]? = some P := rfl
      rw [this] at hr
      exact (Option.some.inj hr).symm
    rw [g2, g3, e]
    exact ⟨rfl, rfl⟩
  · intro h1
    rw [h1] at hr
    have e : r = C := by
      have : ([P, C] : List Instruction)[1]? = some C := rfl
      rw [this] at hr
      exact (Option.some.inj hr).symm
    rw [g4, g5, e]
    exact ⟨rfl, rfl⟩
  · exact (List.getElem?_eq_some.mp hr).1

/-- While the first instruction has not completed execution, the second one, in `DI`
or `IQ`, is not ready. -/
theorem pair_waits {p : proc_params} {P C : Instruction} {s : State}
    (h : DependentPair p P C) (hs : SInv p [P, C] s) (hd : DInv s)
    {c : Instruction} (hc : c ∈ s.DI ++ s.IQ) (hc1 : c.seq_no = 1)
    {q : Ident} (hq : q ∈ pendIds s) (hq0 : q.seq_no = 0) : is_ready c = false := by
  have hcH : c.ident ∈ history s := by
    unfold history
    exact List.mem_append_left _ (mem_idents_of_waiting hc)
  have hqH : q ∈ history s := by
    unfold history
    exact List.mem_append_left _ (pendIds_subset_idents hq)
  obtain ⟨_, gc, _⟩ := pair_from_trace hs hcH
  obtain ⟨gq, _, _⟩ := pair_from_trace hs hqH
  obtain ⟨c1, c2⟩ := gc hc1
  obtain ⟨_, q2⟩ := gq hq0
  have hprod : IsProducer s 1 P.dest q := by
    refine ⟨hqH, by omega, q2, ?_⟩
    intro q' _ hlt _
    omega
  have hP := h.dest
  have hmem : c.dview ∈ (s.DI ++ s.IQ).map Instruction.dview := List.mem_map_of_mem _ hc
  rcases h.src with ⟨e1, _⟩ | ⟨_, e2⟩
  · have hos : c.dview.osrc true = P.dest := c1.trans e1
    have hne : c.dview.osrc true ≠ -1 := by
      rw [hos]
      omega
    have hp : IsProducer s c.dview.id.seq_no (c.dview.osrc true) q := by
      rw [hos]
      have e : c.dview.id.seq_no = 1 := hc1
      rw [e]
      exact hprod
    have hr : c.src1_ready = false := (hd.di c.dview hmem q hq true hne hp).2
    unfold is_ready
    rw [hr]
    rfl
  · have hos : c.dview.osrc false = P.dest := c2.trans e2
    have hne : c.dview.osrc false ≠ -1 := by
      rw [hos]
      omega
    have hp : IsProducer s c.dview.id.seq_no (c.dview.osrc false) q := by
      rw [hos]
      have e : c.dview.id.seq_no = 1 := hc1
      rw [e]
      exact hprod
    have hr : c.src2_ready = false := (hd.di c.dview hmem q hq false hne hp).2
    unfold is_ready
    rw [hr]
    exact Bool.and_false _

/-! ## The dependent pair, through the front end -/

theorem pair_DE {p : proc_params} {P C : Instruction} (h : DependentPair p P C) :
    (run p [P, C] 1).DE.length = min p.width 2 ∧
    (run p [P, C] 1).trace.length = 2 - min p.width 2 := by
  have hs : SInv p [P, C] (run p [P, C] 0) := (Inv_run p [P, C] 0).1
  obtain ⟨a1, a2, a3, a4, a5, a6, a7, a8, a9, a10⟩ :=
    cycle_mid hs h.width h.iq h.iq_int h.rob h.rob_int rfl rfl rfl
  have b1 : (run p [P, C] 1).IQ = [] := a1.trans rfl
  have b2 : (run p [P, C] 1).DI = [] := a2
  have b3 : (run p [P, C] 1).RR.length = 0 := a3
  have b4 : (run p [P, C] 1).RN.length = 0 := a4
  have b5 : (run p [P, C] 1).DE.length = min p.width 2 := a5
  have b6 : (run p [P, C] 1).execute_list = [] := a6.trans rfl
  have b7 : (run p [P, C] 1).WB = [] := a7
  have b8 : (run p [P, C] 1).retire_map.values = [] := by
    have : (run p [P, C] 1).retire_map = (run p [P, C] 0).retire_map := a8
    rw [this]
    rfl
  have b10 : (run p [P, C] 1).retired_instructions = 0 := a10
  have hc := (Inv_run p [P, C] 1).1.census
  rw [b1, b2, b3, b4, b6, b7, b8, b10] at hc
  simp only [List.length_nil, List.length_cons] at hc
  refine ⟨b5, ?_⟩
  omega

theorem pair_RN {p : proc_params} {P C : Instruction} (h : DependentPair p P C) :
    (run p [P, C] 2).RN.length = min p.width 2 ∧
    (run p [P, C] 2).DE.length = 2 - min p.width 2 := by
  obtain ⟨h1, h2⟩ := pair_DE h
  have hs : SInv p [P, C] (run p [P, C] 1) := (Inv_run p [P, C] 1).1
  have hc := hs.census
  simp only [List.length_cons, List.length_nil] at hc
  have hW := h.width
  obtain ⟨_, _, _, a4, a5, _⟩ := cycle_mid hs h.width h.iq h.iq_int h.rob h.rob_int
    (List.eq_nil_of_length_eq_zero (by omega)) (List.eq_nil_of_length_eq_zero (by omega))
    (List.eq_nil_of_length_eq_zero (by omega))
  have b4 : (run p [P, C] 2).RN.length = (run p [P, C] 1).DE.length := a4
  have b5 : (run p [P, C] 2).DE.length = min p.width (run p [P, C] 1).trace.length := a5
  rw [b4, b5, h1, h2]
  omega

theorem pair_RR {p : proc_params} {P C : Instruction} (h : DependentPair p P C) :
    (run p [P, C] 3).RR.length = min p.width 2 ∧
    (run p [P, C] 3).RN.length = 2 - min p.width 2 := by
  obtain ⟨h1, h2⟩ := pair_RN h
  have hs : SInv p [P, C] (run p [P, C] 2) := (Inv_run p [P, C] 2).1
  have hc := hs.census
  simp only [List.length_cons, List.length_nil] at hc
  have hW := h.width
  obtain ⟨_, _, a3, a4, _⟩ := cycle_mid hs h.width h.iq h.iq_int h.rob h.rob_int
    (List.eq_nil_of_length_eq_zero (by omega)) (List.eq_nil_of_length_eq_zero (by omega))
    (List.eq_nil_of_length_eq_zero (by omega))
  have b3 : (run p [P, C] 3).RR.length = (run p [P, C] 2).RN.length := a3
  have b4 : (run p [P, C] 3).RN.length = (run p [P, C] 2).DE.length := a4
  rw [b3, b4, h1, h2]
  exact ⟨rfl, rfl⟩

theorem pair_DI {p : proc_params} {P C : Instruction} (h : DependentPair p P C) :
    (run p [P, C] 4).DI.length = min p.width 2 ∧
    (run p [P, C] 4).RR.length = 2 - min p.width 2 := by
  obtain ⟨h1, h2⟩ := pair_RR h
  have hs : SInv p [P, C] (run p [P, C] 3) := (Inv_run p [P, C] 3).1
  have hc := hs.census
  simp only [List.length_cons, List.length_nil] at hc
  have hW := h.width
  obtain ⟨_, a2, a3, _⟩ := cycle_mid hs h.width h.iq h.iq_int h.rob h.rob_int
    (List.eq_nil_of_length_eq_zero (by omega)) (List.eq_nil_of_length_eq_zero (by omega))
    (List.eq_nil_of_length_eq_zero (by omega))
  have b2 : (run p [P, C] 4).DI
      = (run p [P, C] 3).RR.map (regread_record (Retire_touch (run p [P, C] 3))) := a2
  have b3 : (run p [P, C] 4).RR.length = (run p [P, C] 3).RN.length := a3
  rw [b2, b3, List.length_map, h1, h2]
  exact ⟨rfl, rfl⟩

theorem pair_IQ {p : proc_params} {P C : Instruction} (h : DependentPair p P C) :
    (run p [P, C] 5).IQ.length = min p.width 2 ∧
    (run p [P, C] 5).DI.length = 2 - min p.width 2 := by
  obtain ⟨h1, h2⟩ := pair_DI h
  have hs : SInv p [P, C] (run p [P, C] 4) := (Inv_run p [P, C] 4).1
  have hc := hs.census
  simp only [List.length_cons, List.length_nil] at hc
  have hW := h.width
  have hiq : (run p [P, C] 4).IQ = [] := List.eq_nil_of_length_eq_zero (by omega)
  obtain ⟨a1, a2, _⟩ := cycle_mid hs h.width h.iq h.iq_int h.rob h.rob_int
    (List.eq_nil_of_length_eq_zero (by omega)) (List.eq_nil_of_length_eq_zero (by omega))
    (List.eq_nil_of_length_eq_zero (by omega))
  have b1 : (run p [P, C] 5).IQ = (run p [P, C] 4).DI.map
      (fun i => { i with issue_cycle := (run p [P, C] 4).total_cycles + 1 }) := by
    refine a1.trans ?_
    rewrite [hiq]
    rfl
  have b2 : (run p [P, C] 5).DI
      = (run p [P, C] 4).RR.map (regread_record (Retire_touch (run p [P, C] 4))) := a2
  rw [b1, b2, List.length_map, List.length_map, h1, h2]
  exact ⟨rfl, rfl⟩

/-- Nothing executes and nothing has completed execution in the first five cycles. -/
theorem pair_quiet {p : proc_params} {P C : Instruction} (h : DependentPair p P C)
    (n : Nat) (hn : n ≤ 5) :
    (run p [P, C] n).execute_list = [] ∧ finished (run p [P, C] n) = [] := by
  have hs : SInv p [P, C] (run p [P, C] n) := (Inv_run p [P, C] n).1
  have hc := hs.census
  simp only [List.length_cons, List.length_nil] at hc
  have hW := h.width
  have key : (run p [P, C] n).execute_list.length = 0 ∧ (run p [P, C] n).WB.length = 0 ∧
      (run p [P, C] n).retire_map.values.length = 0 ∧
      (run p [P, C] n).retired_instructions = 0 := by
    interval_cases n
    · exact ⟨rfl, rfl, rfl, rfl⟩
    · obtain ⟨h1, h2⟩ := pair_DE h
      omega
    · obtain ⟨h1, h2⟩ := pair_RN h
      omega
    · obtain ⟨h1, h2⟩ := pair_RR h
      omega
    · obtain ⟨h1, h2⟩ := pair_DI h
      omega
    · obtain ⟨h1, h2⟩ := pair_IQ h
      omega
  obtain ⟨k1, k2, k3, k4⟩ := key
  have hcomp : (run p [P, C] n).completed_intstructions = [] := by
    have := hs.completed_seq
    rw [k4] at this
    exact List.map_eq_nil_iff.mp this
  refine ⟨List.eq_nil_of_length_eq_zero k1, ?_⟩
  unfold finished
  rw [List.eq_nil_of_length_eq_zero k2, List.eq_nil_of_length_eq_zero k3, hcomp]
  rfl

end SimProc

namespace SimProc

/-! ### One executing instruction -/

theorem tick_incomplete {x : Instruction} (T : Nat)
    (hop : x.op_type = 0 ∨ x.op_type = 1 ∨ x.op_type = 2)
    (h : x.execute_duration + 1 < latency x.op_type) :
    execute_completed (execute_tick T x) = false := by
  have e1 : (execute_tick T x).op_type = x.op_type := rfl
  have e2 : (execute_tick T x).execute_duration = x.execute_duration + 1 := rfl
  apply (Bool.not_eq_true _).mp
  rw [execute_completed_iff, e1, e2]
  unfold latency at h
  rcases hop with h0 | h0 | h0
  · rw [h0] at h
    simp at h
  · rw [h0] at h ⊢
    simp at h ⊢
    omega
  · rw [h0] at h ⊢
    simp at h ⊢
    omega

theorem tick_complete {x : Instruction} (T : Nat)
    (hop : x.op_type = 0 ∨ x.op_type = 1 ∨ x.op_type = 2)
    (h : x.execute_duration + 1 = latency x.op_type) :
    execute_completed (execute_tick T x) = true := by
  have e1 : (execute_tick T x).op_type = x.op_type := rfl
  have e2 : (execute_tick T x).execute_duration = x.execute_duration + 1 := rfl
  rw [execute_completed_iff, e1, e2]
  unfold latency at h
  rcases hop with h0 | h0 | h0
  · exact Or.inl h0
  · rw [h0] at h
    simp at h
    exact Or.inr (Or.inl ⟨h0, by omega⟩)
  · rw [h0] at h
    simp at h
    exact Or.inr (Or.inr ⟨h0, by omega⟩)

/-- `Execute` on a single instruction that does not complete. -/
theorem Execute_single_keep {s : State} {e : Instruction} (h : s.execute_list = [e])
    (hc : execute_completed (execute_tick s.total_cycles e) = false) :
    Execute s = { s with execute_list := [execute_tick s.total_cycles e] } := by
  unfold Execute
  rw [h]
  unfold Execute_loop
  simp only [hc]
  rfl

/-- `Execute` on a single instruction that completes. -/
theorem Execute_single_done {s : State} {e : Instruction} (h : s.execute_list = [e])
    (hc : execute_completed (execute_tick s.total_cycles e) = true) :
    Execute s = { s with
      execute_list := []
      WB := s.WB ++ [execute_tick s.total_cycles e]
      IQ := s.IQ.map (wake (execute_tick s.total_cycles e).dest)
      DI := s.DI.map (wake (execute_tick s.total_cycles e).dest)
      RR := s.RR.map (wake_RR (execute_tick s.total_cycles e).dest) } := by
  unfold Execute
  rw [h]
  unfold Execute_loop
  simp only [hc]
  rfl

theorem issue_selected_nil (W : Nat) : issue_selected W [] = [] := rfl

theorem issue_kept_nil (W : Nat) : issue_kept W [] = [] := rfl

theorem issue_selected_single {W : Nat} (hW : 1 ≤ W) {x : Instruction}
    (hx : is_ready x = true) : issue_selected W [x] = [x] := by
  obtain ⟨n, rfl⟩ : ∃ n, W = n + 1 := ⟨W - 1, by omega⟩
  rw [issue_selected_cons_ready n x [] hx, issue_selected_nil]

theorem issue_kept_single {W : Nat} (hW : 1 ≤ W) {x : Instruction}
    (hx : is_ready x = true) : issue_kept W [x] = [] := by
  obtain ⟨n, rfl⟩ : ∃ n, W = n + 1 := ⟨W - 1, by omega⟩
  rw [issue_kept_cons_ready n x [] hx, issue_kept_nil]

theorem issue_selected_waiting (W : Nat) {x : Instruction} (hx : is_ready x = false) :
    issue_selected W [x] = [] := by
  rw [issue_selected_cons_not_ready W x [] hx, issue_selected_nil]

/-! ### The dependent pair, from the issue queue on -/

/-- After the sixth cycle the first instruction is in `execute_list`, issued in that
cycle, and the second one waits in `IQ`. -/
theorem pair_issue {p : proc_params} {P C : Instruction} (h : DependentPair p P C) :
    ∃ e c, (run p [P, C] 6).execute_list = [e] ∧ (run p [P, C] 6).IQ = [c] ∧
      e.seq_no = 0 ∧ c.seq_no = 1 ∧ e.execute_duration = 0 := by
  obtain ⟨h1, h2⟩ := pair_IQ h
  have hs : SInv p [P, C] (run p [P, C] 5) := (Inv_run p [P, C] 5).1
  have hc := hs.census
  simp only [List.length_cons, List.length_nil] at hc
  have hW := h.width
  have hRR : (run p [P, C] 5).RR = [] := List.eq_nil_of_length_eq_zero (by omega)
  have hEX : (run p [P, C] 5).execute_list = [] := List.eq_nil_of_length_eq_zero (by omega)
  have hWB : (run p [P, C] 5).WB = [] := List.eq_nil_of_length_eq_zero (by omega)
  have hRM : (run p [P, C] 5).retire_map.values = [] :=
    List.eq_nil_of_length_eq_zero (by omega)
  have hret : (run p [P, C] 5).retired_instructions = 0 := by omega
  -- the sequence numbers of `IQ` and `DI`
  have hseq : ((run p [P, C] 5).IQ ++ (run p [P, C] 5).DI).map (fun i => i.seq_no)
      = [0, 1] := by
    have ho := OrdInv_run p [P, C] 5
    unfold OrdInv waiting_seq at ho
    rw [hRR, List.append_nil] at ho
    have hl := hs.live_seq
    have hid : (idents (run p [P, C] 5)).map (fun c => c.seq_no)
        = (run p [P, C] 5).DI.map (fun i => i.seq_no)
          ++ (run p [P, C] 5).IQ.map (fun i => i.seq_no) := by
      rw [idents_eq, hRR, hEX, hWB, hRM]
      simp only [List.map_nil, List.append_nil, List.nil_append, List.map_append,
        List.map_map]
      rfl
    have hlen : (idents (run p [P, C] 5)).length = 2 := by
      have := congrArg List.length hid
      simp only [List.length_map, List.length_append] at this
      omega
    rw [hid, hlen, hret] at hl
    have hperm : (((run p [P, C] 5).IQ ++ (run p [P, C] 5).DI).map
        (fun i => i.seq_no)).Perm (List.range' 0 2) := by
      rw [List.map_append]
      exact List.perm_append_comm.trans hl
    exact (sorted_perm_range' ho hperm).trans rfl
  obtain ⟨a1, _, _, _, _, a6, _⟩ := cycle_mid hs h.width h.iq h.iq_int h.rob h.rob_int
    hRM hWB hEX
  have b1 : (run p [P, C] 6).IQ = issue_kept p.width (run p [P, C] 5).IQ
      ++ (run p [P, C] 5).DI.map
        (fun i => { i with issue_cycle := (run p [P, C] 5).total_cycles + 1 }) := a1
  have b6 : (run p [P, C] 6).execute_list = (issue_selected p.width (run p [P, C] 5).IQ).map
      (fun i => { i with execute_duration := 0 }) := a6
  have hl5 := LInv_run p [P, C] 5
  have hd5 := DInv_run p [P, C] 5
  cases hIQ : (run p [P, C] 5).IQ with
  | nil =>
    rw [hIQ] at h1
    simp only [List.length_nil] at h1
    omega
  | cons x0 rest =>
    have hx0mem : x0 ∈ (run p [P, C] 5).DI ++ (run p [P, C] 5).IQ := by
      rw [hIQ]
      exact List.mem_append_right _ (List.mem_cons_self _ _)
    cases rest with
    | nil =>
      rw [hIQ] at h1 hseq b1 b6
      simp only [List.length_cons, List.length_nil] at h1
      obtain ⟨x1, hDI⟩ : ∃ x1, (run p [P, C] 5).DI = [x1] :=
        List.length_eq_one.mp (by omega)
      rw [hDI] at hseq b1
      simp only [List.singleton_append, List.map_cons, List.map_nil, List.cons.injEq,
        and_true] at hseq
      obtain ⟨s0, s1⟩ := hseq
      have hr0 : is_ready x0 = true :=
        hl5.ready_of_oldest hx0mem (fun q _ => by rw [s0]; exact Nat.zero_le _)
      rw [issue_selected_single hW hr0] at b6
      rw [issue_kept_single hW hr0] at b1
      exact ⟨_, _, b6, b1, s0, s1, rfl⟩
    | cons x1 rest2 =>
      rw [hIQ] at h1 hseq b1 b6
      simp only [List.length_cons] at h1
      have hrest2 : rest2 = [] := List.eq_nil_of_length_eq_zero (by omega)
      have hDI : (run p [P, C] 5).DI = [] := List.eq_nil_of_length_eq_zero (by omega)
      rw [hrest2] at hseq b1 b6 hIQ
      rw [hDI] at hseq b1
      simp only [List.append_nil, List.map_cons, List.map_nil, List.cons.injEq,
        and_true] at hseq
      obtain ⟨s0, s1⟩ := hseq
      have hr0 : is_ready x0 = true :=
        hl5.ready_of_oldest hx0mem (fun q _ => by rw [s0]; exact Nat.zero_le _)
      have hx1mem : x1 ∈ (run p [P, C] 5).DI ++ (run p [P, C] 5).IQ := by
        rw [hIQ]
        exact List.mem_append_right _ (List.mem_cons_of_mem _ (List.mem_cons_self _ _))
      have hq : x0.ident ∈ pendIds (run p [P, C] 5) := by
        rw [pendIds_mem, hIQ]
        exact Or.inr (Or.inr (Or.inl (List.mem_map_of_mem _ (List.mem_cons_self _ _))))
      have hr1 : is_ready x1 = false := pair_waits h hs hd5 hx1mem s1 hq s0
      obtain ⟨n, hn⟩ : ∃ n, p.width = n + 1 := ⟨p.width - 1, by omega⟩
      rw [hn, issue_selected_cons_ready n x0 [x1] hr0, issue_selected_waiting n hr1] at b6
      rw [hn, issue_kept_cons_ready n x0 [x1] hr0,
        issue_kept_cons_not_ready n x1 [] hr1, issue_kept_nil] at b1
      exact ⟨_, _, b6, b1, s0, s1, rfl⟩

end SimProc

namespace SimProc

/-! ### The first instruction executes while the second one waits -/

/-- The operation of the instruction with sequence number `0`, wherever it is
among the renamed instructions in flight. -/
theorem pair_first_op {p : proc_params} {P C : Instruction} {s : State}
    (hs : SInv p [P, C] s) {x : Instruction} (hx : x.ident ∈ idents s)
    (h0 : x.seq_no = 0) : x.op_type = P.op_type := by
  have hH : x.ident ∈ history s := by
    unfold history
    exact List.mem_append_left _ hx
  exact ((pair_from_trace hs hH).1 h0).1

/-- While the first instruction executes, after `6 + d` cycles with `d` less than its
latency, it has executed for `d` cycles, from cycle `6` on, and the second
instruction waits in `IQ`. -/
theorem pair_exec {p : proc_params} {P C : Instruction} (h : DependentPair p P C) :
    ∀ d, d < latency P.op_type →
      ∃ e c, (run p [P, C] (6 + d)).execute_list = [e] ∧ (run p [P, C] (6 + d)).IQ = [c] ∧
        e.seq_no = 0 ∧ c.seq_no = 1 ∧ e.execute_duration = d ∧
        (0 < d → e.execute_cycle = 6) := by
  intro d
  induction d with
  | zero =>
    intro _
    obtain ⟨e, c, g1, g2, g3, g4, g5⟩ := pair_issue h
    exact ⟨e, c, g1, g2, g3, g4, g5, fun hd => absurd hd (by omega)⟩
  | succ d ih =>
    intro hd
    obtain ⟨e, c, g1, g2, g3, g4, g5, g6⟩ := ih (by omega)
    have hs : SInv p [P, C] (run p [P, C] (6 + d)) := (Inv_run p [P, C] (6 + d)).1
    have hc := hs.census
    rw [g1, g2] at hc
    simp only [List.length_cons, List.length_nil] at hc
    have hF : FrontEmpty (run p [P, C] (6 + d)) :=
      ⟨List.eq_nil_of_length_eq_zero (by omega), List.eq_nil_of_length_eq_zero (by omega),
       List.eq_nil_of_length_eq_zero (by omega), List.eq_nil_of_length_eq_zero (by omega),
       List.eq_nil_of_length_eq_zero (by omega)⟩
    have hWB : (run p [P, C] (6 + d)).WB = [] := List.eq_nil_of_length_eq_zero (by omega)
    have hRM : (run p [P, C] (6 + d)).retire_map.values = [] :=
      List.eq_nil_of_length_eq_zero (by omega)
    have hT : (run p [P, C] (6 + d)).total_cycles = 6 + d := total_cycles_run _ _ _
    have hemem : e.ident ∈ idents (run p [P, C] (6 + d)) := by
      apply mem_idents_of_mem_live
      unfold live
      rw [g1]
      simp
    have hop : e.op_type = P.op_type := pair_first_op hs hemem g3
    have hope : e.op_type = 0 ∨ e.op_type = 1 ∨ e.op_type = 2 := by
      rw [hop]
      exact h.op
    -- the cycle
    have e0 := cycle_rear p hF
    rw [Retire_idle h.width (hs.head_not_ready hRM)] at e0
    have e1 : Writeback (Retire_touch (run p [P, C] (6 + d)))
        = Retire_touch (run p [P, C] (6 + d)) := Writeback_idle hWB
    have hnc : execute_completed
        (execute_tick (Retire_touch (run p [P, C] (6 + d))).total_cycles e) = false := by
      apply tick_incomplete _ hope
      rw [hop, g5]
      exact hd
    have e2 := Execute_single_keep (s := Retire_touch (run p [P, C] (6 + d))) g1 hnc
    rw [e1, e2] at e0
    -- the second instruction is not ready
    have hq : e.ident ∈ pendIds (run p [P, C] (6 + d)) := by
      rw [pendIds_mem, g1]
      exact Or.inr (Or.inr (Or.inr (List.mem_map_of_mem _ (List.mem_cons_self _ _))))
    have hcmem : c ∈ (run p [P, C] (6 + d)).DI ++ (run p [P, C] (6 + d)).IQ := by
      rw [g2]
      exact List.mem_append_right _ (List.mem_cons_self _ _)
    have hr : is_ready c = false :=
      pair_waits h hs (DInv_run p [P, C] (6 + d)) hcmem g4 hq g3
    have e3 : Issue p.width
        { Retire_touch (run p [P, C] (6 + d)) with
          execute_list :=
            [execute_tick (Retire_touch (run p [P, C] (6 + d))).total_cycles e] }
        = { Retire_touch (run p [P, C] (6 + d)) with
            execute_list :=
              [execute_tick (Retire_touch (run p [P, C] (6 + d))).total_cycles e] } := by
      apply Issue_idle
      show issue_selected p.width (run p [P, C] (6 + d)).IQ = []
      rw [g2]
      exact issue_selected_waiting _ hr
    rw [e3] at e0
    have e4 : run p [P, C] (6 + (d + 1))
        = tick { Retire_touch (run p [P, C] (6 + d)) with
            execute_list :=
              [execute_tick (Retire_touch (run p [P, C] (6 + d))).total_cycles e] } := e0
    refine ⟨execute_tick (run p [P, C] (6 + d)).total_cycles e, c, ?_, ?_, g3, g4, ?_, ?_⟩
    · rw [e4]
      rfl
    · rw [e4]
      exact g2
    · show e.execute_duration + 1 = d + 1
      rw [g5]
    · intro _
      show (if e.execute_duration = 0 then (run p [P, C] (6 + d)).total_cycles
        else e.execute_cycle) = 6
      rw [hT]
      rcases Nat.eq_zero_or_pos d with hd0 | hd0
      · rw [if_pos (g5.trans hd0), hd0]
      · rw [if_neg (by omega)]
        exact g6 hd0

/-- In the cycle in which the first instruction completes, the second one is woken and
issued: after `6 + latency` cycles the first is in `WB`, having started to execute in
cycle `6`, and the second is in `execute_list`, not yet executed. -/
theorem pair_done {p : proc_params} {P C : Instruction} (h : DependentPair p P C) :
    ∃ w g, (run p [P, C] (6 + latency P.op_type)).WB = [w] ∧
      (run p [P, C] (6 + latency P.op_type)).execute_list = [g] ∧
      w.seq_no = 0 ∧ w.execute_cycle = 6 ∧ w.execute_duration = latency P.op_type ∧
      g.seq_no = 1 ∧ g.execute_duration = 0 := by
  have hL : 1 ≤ latency P.op_type := by
    unfold latency
    rcases h.op with h0 | h0 | h0 <;> rw [h0] <;> simp
  obtain ⟨d, hd⟩ : ∃ d, latency P.op_type = d + 1 := ⟨latency P.op_type - 1, by omega⟩
  obtain ⟨e, c, g1, g2, g3, g4, g5, g6⟩ := pair_exec h d (by omega)
  have hs : SInv p [P, C] (run p [P, C] (6 + d)) := (Inv_run p [P, C] (6 + d)).1
  have hc := hs.census
  rw [g1, g2] at hc
  simp only [List.length_cons, List.length_nil] at hc
  have hF : FrontEmpty (run p [P, C] (6 + d)) :=
    ⟨List.eq_nil_of_length_eq_zero (by omega), List.eq_nil_of_length_eq_zero (by omega),
     List.eq_nil_of_length_eq_zero (by omega), List.eq_nil_of_length_eq_zero (by omega),
     List.eq_nil_of_length_eq_zero (by omega)⟩
  have hWB : (run p [P, C] (6 + d)).WB = [] := List.eq_nil_of_length_eq_zero (by omega)
  have hRM : (run p [P, C] (6 + d)).retire_map.values = [] :=
    List.eq_nil_of_length_eq_zero (by omega)
  have hT : (run p [P, C] (6 + d)).total_cycles = 6 + d := total_cycles_run _ _ _
  have hemem : e.ident ∈ idents (run p [P, C] (6 + d)) := by
    apply mem_idents_of_mem_live
    unfold live
    rw [g1]
    simp
  have hop : e.op_type = P.op_type := pair_first_op hs hemem g3
  have hope : e.op_type = 0 ∨ e.op_type = 1 ∨ e.op_type = 2 := by
    rw [hop]
    exact h.op
  -- the state before `Issue`
  have hL3 : LInv 3 (Execute (Writeback (Retire p.width p.rob_size (run p [P, C] (6 + d))))) :=
    LInv_driver_state p [P, C] (6 + d) 3 (by omega)
  have e0 := cycle_rear p hF
  rw [Retire_idle h.width (hs.head_not_ready hRM)] at e0 hL3
  have e1 : Writeback (Retire_touch (run p [P, C] (6 + d)))
      = Retire_touch (run p [P, C] (6 + d)) := Writeback_idle hWB
  have hcomp : execute_completed
      (execute_tick (Retire_touch (run p [P, C] (6 + d))).total_cycles e) = true := by
    apply tick_complete _ hope
    rw [hop, g5, hd]
  have e2 := Execute_single_done (s := Retire_touch (run p [P, C] (6 + d))) g1 hcomp
  rw [e1, e2] at e0 hL3
  -- the second instruction is ready
  have hr : is_ready (wake (execute_tick (run p [P, C] (6 + d)).total_cycles e).dest c)
      = true := by
    apply hL3.ready_of_oldest
    · show _ ∈ (run p [P, C] (6 + d)).DI.map _ ++ (run p [P, C] (6 + d)).IQ.map _
      rw [g2]
      exact List.mem_append_right _ (List.mem_cons_self _ _)
    · intro q hq
      rw [pendIds_mem] at hq
      have k1 : ∀ f : Instruction → Instruction,
          ((run p [P, C] (6 + d)).RR.map f).map Instruction.ident = [] := by
        intro f
        rw [hF.2.1]
        rfl
      have k2 : ∀ f : Instruction → Instruction,
          ((run p [P, C] (6 + d)).DI.map f).map Instruction.ident = [] := by
        intro f
        rw [hF.1]
        rfl
      rcases hq with hq | hq | hq | hq
      · have hq' : q ∈ ((run p [P, C] (6 + d)).RR.map _).map Instruction.ident := hq
        rw [k1] at hq'
        exact absurd hq' (List.not_mem_nil _)
      · have hq' : q ∈ ((run p [P, C] (6 + d)).DI.map _).map Instruction.ident := hq
        rw [k2] at hq'
        exact absurd hq' (List.not_mem_nil _)
      · have hq' : q ∈ ((run p [P, C] (6 + d)).IQ.map
            (wake (execute_tick (run p [P, C] (6 + d)).total_cycles e).dest)).map
              Instruction.ident := hq
        rw [g2] at hq'
        simp only [List.map_cons, List.map_nil, List.mem_singleton] at hq'
        rw [hq']
        exact Nat.le_refl _
      · exact absurd hq (List.not_mem_nil _)
  have e3 := Issue_eq p.width
    { Retire_touch (run p [P, C] (6 + d)) with
      execute_list := []
      WB := (Retire_touch (run p [P, C] (6 + d))).WB
        ++ [execute_tick (Retire_touch (run p [P, C] (6 + d))).total_cycles e]
      IQ := (Retire_touch (run p [P, C] (6 + d))).IQ.map
        (wake (execute_tick (Retire_touch (run p [P, C] (6 + d))).total_cycles e).dest)
      DI := (Retire_touch (run p [P, C] (6 + d))).DI.map
        (wake (execute_tick (Retire_touch (run p [P, C] (6 + d))).total_cycles e).dest)
      RR := (Retire_touch (run p [P, C] (6 + d))).RR.map
        (wake_RR (execute_tick (Retire_touch (run p [P, C] (6 + d))).total_cycles e).dest) }
  rw [e3] at e0
  have e4 : run p [P, C] (6 + (d + 1)) = _ := e0
  rw [hd]
  refine ⟨execute_tick (run p [P, C] (6 + d)).total_cycles e,
    { wake (execute_tick (run p [P, C] (6 + d)).total_cycles e).dest c with
      execute_duration := 0 }, ?_, ?_, g3, ?_, ?_, g4, rfl⟩
  · rw [e4]
    show (run p [P, C] (6 + d)).WB ++ _ = _
    rw [hWB]
    rfl
  · rw [e4]
    show [] ++ (issue_selected p.width ((run p [P, C] (6 + d)).IQ.map _)).map _ = _
    rw [g2]
    show (issue_selected p.width
      [wake (execute_tick (run p [P, C] (6 + d)).total_cycles e).dest c]).map _ = _
    rw [issue_selected_single h.width hr]
    rfl
  · show (if e.execute_duration = 0 then (run p [P, C] (6 + d)).total_cycles
      else e.execute_cycle) = 6
    rw [hT]
    rcases Nat.eq_zero_or_pos d with hd0 | hd0
    · rw [if_pos (g5.trans hd0), hd0]
    · rw [if_neg (by omega)]
      exact g6 hd0
  · show e.execute_duration + 1 = d + 1
    rw [g5]

end SimProc

namespace SimProc

/-! ### The execute stamps once nothing is left to issue -/

theorem mem_finished {s : State} {x : Instruction} :
    x ∈ finished s ↔
      x ∈ s.WB ∨ x ∈ s.retire_map.values ∨ x ∈ s.completed_intstructions := by
  unfold finished
  simp only [List.mem_append, or_assoc]

/-- A cycle that starts with the front end and the issue queue empty.  A property of
the sequence number and the `execute_cycle` stamp that holds for every instruction
that has started to execute, and that holds with the current cycle as the stamp for
every instruction of `execute_list` that has not, holds after the cycle for every
instruction that has started to execute; and every instruction of `execute_list`
has then started to execute. -/
theorem late_cycle {p : proc_params} {tr : List Instruction} {s : State}
    (hs : SInv p tr s) (hF : FrontEmpty s) (hiq : s.IQ = []) (Φ : Nat → Nat → Prop)
    (hG : ∀ x ∈ s.execute_list ++ finished s, 0 < x.execute_duration →
      Φ x.seq_no x.execute_cycle)
    (hG0 : ∀ x ∈ s.execute_list, x.execute_duration = 0 → Φ x.seq_no s.total_cycles) :
    FrontEmpty (cycle p s) ∧ (cycle p s).IQ = [] ∧
    (∀ x ∈ (cycle p s).execute_list, 0 < x.execute_duration) ∧
    (∀ x ∈ (cycle p s).execute_list ++ finished (cycle p s), 0 < x.execute_duration →
      Φ x.seq_no x.execute_cycle) := by
  have e := cycle_late p hF hiq
  obtain ⟨_, _, _, _, _, r6, r7, r8, r9⟩ := Retire_fields p.width p.rob_size s
  obtain ⟨rv, rc⟩ := Retire_values hs p.width
  obtain ⟨_, _, _, _, _, w6, w7, w8, _, w10, _⟩ :=
    Writeback_fields (Retire p.width p.rob_size s)
  have wv := Writeback_values (Retire p.width p.rob_size s)
  have wW := Writeback_WB (Retire p.width p.rob_size s)
  obtain ⟨x1, x2, x3, _, _⟩ := Execute_lists (Writeback (Retire p.width p.rob_size s))
  obtain ⟨_, _, _, f4, f5, _⟩ := Execute_frame (Writeback (Retire p.width p.rob_size s))
  have key : ∀ y ∈ (Writeback (Retire p.width p.rob_size s)).execute_list.map
      (execute_tick (Writeback (Retire p.width p.rob_size s)).total_cycles),
      0 < y.execute_duration ∧ Φ y.seq_no y.execute_cycle := by
    intro y hy
    obtain ⟨x, hx, rfl⟩ := List.mem_map.mp hy
    rw [w7, r7] at hx
    refine ⟨Nat.succ_pos _, ?_⟩
    show Φ x.seq_no (if x.execute_duration = 0 then
      (Writeback (Retire p.width p.rob_size s)).total_cycles else x.execute_cycle)
    by_cases h0 : x.execute_duration = 0
    · rw [if_pos h0, w10, r9]
      exact hG0 x hx h0
    · rw [if_neg h0]
      exact hG x (List.mem_append_left _ hx) (by omega)
  have hex : ∀ x ∈ (cycle p s).execute_list,
      0 < x.execute_duration ∧ Φ x.seq_no x.execute_cycle := by
    intro x hx
    rw [e] at hx
    have hx' : x ∈ (Execute (Writeback (Retire p.width p.rob_size s))).execute_list := hx
    rw [x1] at hx'
    exact key x (List.mem_of_mem_filter hx')
  refine ⟨FrontEmpty_cycle p hF, ?_, fun x hx => (hex x hx).1, ?_⟩
  · rw [e]
    show (Execute (Writeback (Retire p.width p.rob_size s))).IQ = []
    rewrite [x3, w6, r6, hiq]
    rfl
  · intro x hx hpos
    rcases List.mem_append.mp hx with h1 | h1
    · exact (hex x h1).2
    · rw [e, mem_finished] at h1
      rcases h1 with h2 | h2 | h2
      · have h2' : x ∈ (Execute (Writeback (Retire p.width p.rob_size s))).WB := h2
        rw [x2, wW, List.nil_append] at h2'
        exact (key x (List.mem_of_mem_filter h2')).2
      · have h2' : x ∈
            (Execute (Writeback (Retire p.width p.rob_size s))).retire_map.values := h2
        rw [f5] at h2'
        rcases wv x h2' with h3 | ⟨w, hw, rfl⟩
        · exact hG x (List.mem_append_right _
            (mem_finished.mpr (Or.inr (Or.inl (rv x h3))))) hpos
        · rw [r8] at hw
          exact hG w (List.mem_append_right _ (mem_finished.mpr (Or.inl hw))) hpos
      · have h2' : x ∈
            (Execute (Writeback (Retire p.width p.rob_size s))).completed_intstructions := h2
        rw [f4, w8] at h2'
        rcases rc x h2' with h3 | ⟨v, hv, rfl⟩
        · exact hG x (List.mem_append_right _ (mem_finished.mpr (Or.inr (Or.inr h3)))) hpos
        · exact hG v (List.mem_append_right _
            (mem_finished.mpr (Or.inr (Or.inl hv)))) hpos

/-- From the cycle after the one in which the second instruction is issued, nothing
is left to issue, and the instruction with sequence number `0` that has started to
execute carries the execute cycle `6`, the one with sequence number `1` the execute
cycle `6 + latency`. -/
theorem pair_late {p : proc_params} {P C : Instruction} (h : DependentPair p P C) :
    ∀ m, FrontEmpty (run p [P, C] (6 + latency P.op_type + 1 + m)) ∧
      (run p [P, C] (6 + latency P.op_type + 1 + m)).IQ = [] ∧
      (∀ x ∈ (run p [P, C] (6 + latency P.op_type + 1 + m)).execute_list,
        0 < x.execute_duration) ∧
      (∀ x ∈ (run p [P, C] (6 + latency P.op_type + 1 + m)).execute_list
          ++ finished (run p [P, C] (6 + latency P.op_type + 1 + m)),
        0 < x.execute_duration →
        (x.seq_no = 0 → x.execute_cycle = 6) ∧
        (x.seq_no = 1 → x.execute_cycle = 6 + latency P.op_type)) := by
  intro m
  induction m with
  | zero =>
    obtain ⟨w, g, g1, g2, g3, g4, g5, g6, g7⟩ := pair_done h
    have hs : SInv p [P, C] (run p [P, C] (6 + latency P.op_type)) :=
      (Inv_run p [P, C] (6 + latency P.op_type)).1
    have hc := hs.census
    rw [g1, g2] at hc
    simp only [List.length_cons, List.length_nil] at hc
    have hF : FrontEmpty (run p [P, C] (6 + latency P.op_type)) :=
      ⟨List.eq_nil_of_length_eq_zero (by omega), List.eq_nil_of_length_eq_zero (by omega),
       List.eq_nil_of_length_eq_zero (by omega), List.eq_nil_of_length_eq_zero (by omega),
       List.eq_nil_of_length_eq_zero (by omega)⟩
    have hiq : (run p [P, C] (6 + latency P.op_type)).IQ = [] :=
      List.eq_nil_of_length_eq_zero (by omega)
    have hRM : (run p [P, C] (6 + latency P.op_type)).retire_map.values = [] :=
      List.eq_nil_of_length_eq_zero (by omega)
    have hret : (run p [P, C] (6 + latency P.op_type)).retired_instructions = 0 := by omega
    have hcomp : (run p [P, C] (6 + latency P.op_type)).completed_intstructions = [] := by
      have := hs.completed_seq
      rw [hret] at this
      exact List.map_eq_nil_iff.mp this
    have hT : (run p [P, C] (6 + latency P.op_type)).total_cycles = 6 + latency P.op_type :=
      total_cycles_run _ _ _
    refine late_cycle hs hF hiq
      (fun sq ec => (sq = 0 → ec = 6) ∧ (sq = 1 → ec = 6 + latency P.op_type)) ?_ ?_
    · intro x hx hpos
      rcases List.mem_append.mp hx with h1 | h1
      · rw [g2, List.mem_singleton] at h1
        rw [h1, g7] at hpos
        omega
      · rw [mem_finished, g1, hRM, hcomp, List.mem_singleton] at h1
        rcases h1 with h2 | h2 | h2
        · rw [h2]
          exact ⟨fun _ => g4, fun h1 => by omega⟩
        · exact absurd h2 (List.not_mem_nil _)
        · exact absurd h2 (List.not_mem_nil _)
    · intro x hx _
      rw [g2, List.mem_singleton] at hx
      rw [hx, hT]
      exact ⟨fun h0 => by omega, fun _ => rfl⟩
  | succ m ih =>
    obtain ⟨i1, i2, i3, i4⟩ := ih
    exact late_cycle (Inv_run p [P, C] _).1 i1 i2
      (fun sq ec => (sq = 0 → ec = 6) ∧ (sq = 1 → ec = 6 + latency P.op_type)) i4
      (fun x hx h0 => by
        have := i3 x hx
        omega)

/-- The execute stamps of the dependent pair after any number of cycles. -/
theorem pair_stamps {p : proc_params} {P C : Instruction} (h : DependentPair p P C)
    (n : Nat) :
    ∀ x ∈ (run p [P, C] n).execute_list ++ finished (run p [P, C] n),
      0 < x.execute_duration →
      (x.seq_no = 0 → x.execute_cycle = 6) ∧
      (x.seq_no = 1 → x.execute_cycle = 6 + latency P.op_type) := by
  intro x hx hpos
  by_cases h5 : n ≤ 5
  · obtain ⟨q1, q2⟩ := pair_quiet h n h5
    rw [q1, q2] at hx
    exact absurd hx (List.not_mem_nil _)
  obtain ⟨d, rfl⟩ : ∃ d, n = 6 + d := ⟨n - 6, by omega⟩
  rcases Nat.lt_trichotomy d (latency P.op_type) with hd | hd | hd
  · obtain ⟨e, c, g1, g2, g3, g4, g5, g6⟩ := pair_exec h d hd
    have hs : SInv p [P, C] (run p [P, C] (6 + d)) := (Inv_run p [P, C] (6 + d)).1
    have hc := hs.census
    rw [g1, g2] at hc
    simp only [List.length_cons, List.length_nil] at hc
    have hcomp : (run p [P, C] (6 + d)).completed_intstructions = [] := by
      have := hs.completed_seq
      rw [show (run p [P, C] (6 + d)).retired_instructions = 0 by omega] at this
      exact List.map_eq_nil_iff.mp this
    rw [g1, List.mem_append, mem_finished, hcomp,
      List.eq_nil_of_length_eq_zero (show (run p [P, C] (6 + d)).WB.length = 0 by omega),
      List.eq_nil_of_length_eq_zero
        (show (run p [P, C] (6 + d)).retire_map.values.length = 0 by omega),
      List.mem_singleton] at hx
    rcases hx with h1 | h1 | h1 | h1
    · rw [h1] at hpos ⊢
      exact ⟨fun _ => g6 (by omega), fun h1' => by omega⟩
    · exact absurd h1 (List.not_mem_nil _)
    · exact absurd h1 (List.not_mem_nil _)
    · exact absurd h1 (List.not_mem_nil _)
  · subst hd
    obtain ⟨w, g, g1, g2, g3, g4, g5, g6, g7⟩ := pair_done h
    have hs : SInv p [P, C] (run p [P, C] (6 + latency P.op_type)) :=
      (Inv_run p [P, C] (6 + latency P.op_type)).1
    have hc := hs.census
    rw [g1, g2] at hc
    simp only [List.length_cons, List.length_nil] at hc
    have hcomp : (run p [P, C] (6 + latency P.op_type)).completed_intstructions = [] := by
      have := hs.completed_seq
      rw [show (run p [P, C] (6 + latency P.op_type)).retired_instructions = 0 by omega]
        at this
      exact List.map_eq_nil_iff.mp this
    rw [g2, List.mem_append, mem_finished, hcomp, g1,
      List.eq_nil_of_length_eq_zero
        (show (run p [P, C] (6 + latency P.op_type)).retire_map.values.length = 0 by omega),
      List.mem_singleton, List.mem_singleton] at hx
    rcases hx with h1 | h1 | h1 | h1
    · rw [h1, g7] at hpos
      omega
    · rw [h1]
      exact ⟨fun _ => g4, fun h1' => by omega⟩
    · exact absurd h1 (List.not_mem_nil _)
    · exact absurd h1 (List.not_mem_nil _)
  · obtain ⟨m, rfl⟩ : ∃ m, d = latency P.op_type + 1 + m :=
      ⟨d - latency P.op_type - 1, by omega⟩
    have e : 6 + (latency P.op_type + 1 + m) = 6 + latency P.op_type + 1 + m := by omega
    rw [e] at hx
    exact (pair_late h m).2.2.2 x hx hpos

/-! ### Both instructions have started to execute after `7 + latency` cycles -/

theorem Writeback_single {s : State} {w : Instruction} (h : s.WB = [w]) :
    (Writeback s).retire_map = s.retire_map.insert w.dest
      { w with writeback_cycle := s.total_cycles, retire_cycle := s.total_cycles + 1 } := by
  unfold Writeback
  rw [h]
  rfl

theorem pair_started {p : proc_params} {P C : Instruction} (h : DependentPair p P C) :
    (∃ y ∈ (run p [P, C] (7 + latency P.op_type)).retire_map.values,
      y.seq_no = 0 ∧ y.execute_cycle = 6 ∧ y.execute_duration = latency P.op_type) ∧
    (∃ x ∈ (run p [P, C] (7 + latency P.op_type)).execute_list
        ++ (run p [P, C] (7 + latency P.op_type)).WB,
      x.seq_no = 1 ∧ x.execute_cycle = 6 + latency P.op_type ∧ x.execute_duration = 1) := by
  obtain ⟨w, g, g1, g2, g3, g4, g5, g6, g7⟩ := pair_done h
  have hs : SInv p [P, C] (run p [P, C] (6 + latency P.op_type)) :=
    (Inv_run p [P, C] (6 + latency P.op_type)).1
  have hc := hs.census
  rw [g1, g2] at hc
  simp only [List.length_cons, List.length_nil] at hc
  have hF : FrontEmpty (run p [P, C] (6 + latency P.op_type)) :=
    ⟨List.eq_nil_of_length_eq_zero (by omega), List.eq_nil_of_length_eq_zero (by omega),
     List.eq_nil_of_length_eq_zero (by omega), List.eq_nil_of_length_eq_zero (by omega),
     List.eq_nil_of_length_eq_zero (by omega)⟩
  have hiq : (run p [P, C] (6 + latency P.op_type)).IQ = [] :=
    List.eq_nil_of_length_eq_zero (by omega)
  have hRM : (run p [P, C] (6 + latency P.op_type)).retire_map.values = [] :=
    List.eq_nil_of_length_eq_zero (by omega)
  have hT : (run p [P, C] (6 + latency P.op_type)).total_cycles = 6 + latency P.op_type :=
    total_cycles_run _ _ _
  have e0 := cycle_late p hF hiq
  rw [Retire_idle h.width (hs.head_not_ready hRM)] at e0
  have e : run p [P, C] (7 + latency P.op_type)
      = tick (Execute (Writeback (Retire_touch (run p [P, C] (6 + latency P.op_type))))) := by
    rw [← e0, show 7 + latency P.op_type = 6 + latency P.op_type + 1 by omega]
    rfl
  obtain ⟨_, _, _, _, _, _, w7, _, _, w10, _⟩ :=
    Writeback_fields (Retire_touch (run p [P, C] (6 + latency P.op_type)))
  have hrm := Writeback_single (s := Retire_touch (run p [P, C] (6 + latency P.op_type))) g1
  have hWB := Writeback_WB (Retire_touch (run p [P, C] (6 + latency P.op_type)))
  obtain ⟨_, _, _, _, f5, _⟩ :=
    Execute_frame (Writeback (Retire_touch (run p [P, C] (6 + latency P.op_type))))
  have w7' : (Writeback (Retire_touch (run p [P, C] (6 + latency P.op_type)))).execute_list
      = [g] := w7.trans g2
  have w10' : (Writeback (Retire_touch (run p [P, C] (6 + latency P.op_type)))).total_cycles
      = 6 + latency P.op_type := w10.trans hT
  constructor
  · refine ⟨{ w with
        writeback_cycle := (run p [P, C] (6 + latency P.op_type)).total_cycles
        retire_cycle := (run p [P, C] (6 + latency P.op_type)).total_cycles + 1 },
      ?_, g3, g4, g5⟩
    rw [e]
    show _ ∈ (Execute _).retire_map.values
    rw [f5, hrm, UMap.values_insert]
    exact List.mem_cons_self _ _
  · refine ⟨execute_tick (6 + latency P.op_type) g, ?_, g6, ?_, ?_⟩
    · rw [e]
      show _ ∈ (Execute _).execute_list ++ (Execute _).WB
      by_cases hcm : execute_completed (execute_tick
          (Writeback (Retire_touch (run p [P, C] (6 + latency P.op_type)))).total_cycles g)
            = true
      · rw [Execute_single_done w7' hcm]
        apply List.mem_append_right
        show _ ∈ (Writeback _).WB ++ [_]
        rw [hWB, w10']
        exact List.mem_cons_self _ _
      · rw [Execute_single_keep w7' ((Bool.not_eq_true _).mp hcm)]
        apply List.mem_append_left
        show _ ∈ [_]
        rw [w10']
        exact List.mem_cons_self _ _
    · show (if g.execute_duration = 0 then 6 + latency P.op_type else g.execute_cycle) = _
      rw [if_pos g7]
    · show g.execute_duration + 1 = 1
      rw [g7]

end SimProc

namespace SimProc

/-! ## The dependent pair -/

theorem latency_pos {op : Int} (h : op = 0 ∨ op = 1 ∨ op = 2) : 0 < latency op := by
  unfold latency
  rcases h with h0 | h0 | h0 <;> rw [h0] <;> simp

/-- C12 (a dependent pair waits exactly the producer's latency).  For every trace of
two records `P`, `C` in which `P` has `op_type` 0, 1 or 2 and a destination register
`r ≥ 0`, and `C` has `r` as one source and `-1` as the other, and for every
configuration with `ROB_SIZE ≥ 2`, `IQ_SIZE ≥ 2` and `WIDTH ≥ 1` (`ROB_SIZE` and
`IQ_SIZE` are C++ `int`s, so they are below `2^31`; the proof needs them below
`2^64`): after any number of cycles, whenever the records of both instructions carry
an `execute_cycle` stamp (they are in `execute_list`, `WB`, `retire_map` or
`completed_intstructions` and have executed for at least one cycle), the first has
`execute_cycle = 6` and the second has `execute_cycle` equal to the first's plus the
latency of the first's `op_type` (1, 2 or 5).  Both stamps exist after `7 + latency`
cycles: the first instruction is then in `retire_map`, having executed for `latency`
cycles, and the second one is in `execute_list` or `WB`, having executed for one cycle
from cycle `6 + latency` on.  In particular the equation holds for the two records of
`completed_intstructions` with which the driver loop exits. -/
theorem C12_dependent_pair (p : proc_params) (P C : Instruction)
    (hop : P.op_type = 0 ∨ P.op_type = 1 ∨ P.op_type = 2) (hdest : 0 ≤ P.dest)
    (hsrc : (C.src1 = P.dest ∧ C.src2 = -1) ∨ (C.src1 = -1 ∧ C.src2 = P.dest))
    (hW : 1 ≤ p.width) (hR : 2 ≤ p.rob_size) (hQ : 2 ≤ p.iq_size)
    (hR2 : p.rob_size < 2 ^ 64) (hQ2 : p.iq_size < 2 ^ 64) :
    (∀ n, ∀ y ∈ (run p [P, C] n).execute_list ++ finished (run p [P, C] n),
      ∀ x ∈ (run p [P, C] n).execute_list ++ finished (run p [P, C] n),
      y.seq_no = 0 → x.seq_no = 1 → 0 < y.execute_duration → 0 < x.execute_duration →
      y.execute_cycle = 6 ∧ x.execute_cycle = y.execute_cycle + latency P.op_type) ∧
    (∃ y ∈ (run p [P, C] (7 + latency P.op_type)).retire_map.values,
      y.seq_no = 0 ∧ y.execute_cycle = 6 ∧ y.execute_duration = latency P.op_type) ∧
    (∃ x ∈ (run p [P, C] (7 + latency P.op_type)).execute_list
        ++ (run p [P, C] (7 + latency P.op_type)).WB,
      x.seq_no = 1 ∧ x.execute_cycle = 6 + latency P.op_type ∧ x.execute_duration = 1) ∧
    (∀ fuel s, main_loop p fuel (State.init [P, C]) = some s →
      ∀ y ∈ s.completed_intstructions, ∀ x ∈ s.completed_intstructions,
      y.seq_no = 0 → x.seq_no = 1 →
      x.execute_cycle = y.execute_cycle + latency y.op_type) := by
  have h : DependentPair p P C := ⟨hop, hdest, hsrc, hW, hR, hQ, hR2, hQ2⟩
  have part1 : ∀ n, ∀ y ∈ (run p [P, C] n).execute_list ++ finished (run p [P, C] n),
      ∀ x ∈ (run p [P, C] n).execute_list ++ finished (run p [P, C] n),
      y.seq_no = 0 → x.seq_no = 1 → 0 < y.execute_duration → 0 < x.execute_duration →
      y.execute_cycle = 6 ∧ x.execute_cycle = y.execute_cycle + latency P.op_type := by
    intro n y hy x hx hy0 hx1 hyd hxd
    have ey := ((pair_stamps h n) y hy hyd).1 hy0
    have ex := ((pair_stamps h n) x hx hxd).2 hx1
    exact ⟨ey, by rw [ex, ey]⟩
  obtain ⟨part2, part3⟩ := pair_started h
  refine ⟨part1, part2, part3, ?_⟩
  intro fuel s hs y hy x hx hy0 hx1
  obtain ⟨n, hn, _⟩ := main_loop_some hs
  have hrun : s = run p [P, C] (n + 1) := hn
  rw [hrun] at hy hx
  have hcy : chain_RT y := chain_RT_completed p [P, C] (n + 1) 0 y hy
  have hcx : chain_RT x := chain_RT_completed p [P, C] (n + 1) 0 x hx
  have hyd : 0 < y.execute_duration := by
    rw [hcy.1.1.2.2.2]
    exact latency_pos hcy.1.1.2.2.1
  have hxd : 0 < x.execute_duration := by
    rw [hcx.1.1.2.2.2]
    exact latency_pos hcx.1.1.2.2.1
  have hyop : y.op_type = P.op_type := by
    have hH : y.ident ∈ history (run p [P, C] (n + 1)) := by
      unfold history
      exact List.mem_append_right _ (List.mem_map_of_mem _ hy)
    exact ((pair_from_trace (Inv_run p [P, C] (n + 1)).1 hH).1 hy0).1
  rw [hyop]
  exact (part1 (n + 1) y
    (List.mem_append_right _ (mem_finished.mpr (Or.inr (Or.inr hy)))) x
    (List.mem_append_right _ (mem_finished.mpr (Or.inr (Or.inr hx)))) hy0 hx1 hyd hxd).2

set_option maxRecDepth 100000 in
/-- The statement of C12 on the trace S2 of the specification (`op_type` 1 writing
register 1, then `op_type` 0 reading register 1), with `ROB_SIZE = IQ_SIZE = 8` and
`WIDTH = 1`, after 13 cycles, when both instructions are retired: the first record has
`execute_cycle = 6` and the second one `execute_cycle = 6 + 2`. -/
theorem C12_dependent_pair_witness :
    ((run ⟨8, 8, 1⟩ [mk_instr 0 1 1 (-1) (-1), mk_instr 4 0 2 1 (-1)]
      13).completed_intstructions.getD 0 Instruction.zero).execute_cycle = 6 ∧
    ((run ⟨8, 8, 1⟩ [mk_instr 0 1 1 (-1) (-1), mk_instr 4 0 2 1 (-1)]
      13).completed_intstructions.getD 1 Instruction.zero).execute_cycle
      = ((run ⟨8, 8, 1⟩ [mk_instr 0 1 1 (-1) (-1), mk_instr 4 0 2 1 (-1)]
          13).completed_intstructions.getD 0 Instruction.zero).execute_cycle
        + latency (mk_instr 0 1 1 (-1) (-1)).op_type :=
  (C12_dependent_pair ⟨8, 8, 1⟩ (mk_instr 0 1 1 (-1) (-1)) (mk_instr 4 0 2 1 (-1))
    (by decide) (by decide) (by decide) (by decide) (by decide) (by decide)
    (by decide) (by decide)).1 13 _ (by decide) _ (by decide) (by decide) (by decide)
    (by decide) (by decide)

end SimProc
